import Mathlib

/-!
rest2res: verification of the endpoint refresh and diff engine

Shallow embedding of `service/endpoint.go`, `service/service.go` and
`service/path.go`.  Go strings are modelled as lists of characters (one
character per byte), Go `int` values that can become negative are `Int`,
loop counters that are guarded by `> 0` before every decrement are `Nat`.
`reflect.DeepEqual` on cached values is decidable equality on the element
type.
-/

set_option linter.unusedSectionVars false
set_option linter.unnecessarySeqFocus false
set_option linter.unusedVariables false

namespace Rest2Res

/-! ## Collection diff (`updateCollection`, endpoint.go) -/

/-- Events that `updateCollection` sends to the bus resource:
`r.RemoveEvent(idx)` and `r.AddEvent(v, idx)`. -/
inductive Event (α : Type) where
  | remove (idx : Int)
  | add (v : α) (idx : Int)
  deriving DecidableEq, Repr

section Collection

variable {α : Type} [DecidableEq α]

/-- The guard `reflect.DeepEqual(a[i], b[j])`; both indexes are in range at
every use in the source. -/
def deepEqualAt (a : List α) (i : Nat) (b : List α) (j : Nat) : Bool :=
  match a[i]?, b[j]? with
  | some x, some y => decide (x = y)
  | _, _ => false

/-- Loop `for s < m && s < n && reflect.DeepEqual(a[s], b[s]) { s++ }`.
The first argument bounds the number of iterations. -/
def trimStart (a b : List α) (m n : Nat) : Nat → Nat → Nat
  | 0, s => s
  | fuel + 1, s =>
    if s < m ∧ s < n ∧ deepEqualAt a s b s = true then trimStart a b m n fuel (s + 1) else s

/-- Loop `for s < m && s < n && reflect.DeepEqual(a[m-1], b[n-1]) { m--; n-- }`,
returning the final `(m, n)`. -/
def trimEnd (a b : List α) (s : Nat) : Nat → Nat → Nat → Nat × Nat
  | 0, m, n => (m, n)
  | fuel + 1, m, n =>
    if s < m ∧ s < n ∧ deepEqualAt a (m - 1) b (n - 1) = true then trimEnd a b s fuel (m - 1) (n - 1)
    else (m, n)

/-- Slice expression `a[s:m]`. -/
def slice (a : List α) (s m : Nat) : List α := (a.take m).drop s

/-- Body of the inner matrix loop for fixed `i`, `j`; the matrix is the flat
slice `c` with row width `w`. -/
def lcsCell (aa bb : List α) (w i j : Nat) (c : List Nat) : List Nat :=
  if deepEqualAt aa i bb j = true then
    c.set ((i + 1) + w * (j + 1)) (c.getD (i + w * j) 0 + 1)
  else
    let v1 := c.getD ((i + 1) + w * j) 0
    let v2 := c.getD (i + w * (j + 1)) 0
    if v2 > v1 then c.set ((i + 1) + w * (j + 1)) v2
    else c.set ((i + 1) + w * (j + 1)) v1

/-- Matrix creation `c := make([]int, w*(n+1))` followed by the two nested
`for` loops over `i < m` and `j < n`. -/
def lcsTable (aa bb : List α) (m n : Nat) : List Nat :=
  (List.range m).foldl
    (fun c i => (List.range n).foldl (fun c j => lcsCell aa bb (m + 1) i j c) c)
    (List.replicate ((m + 1) * (n + 1)) 0)

/-- State left by the backtrack loop: the final `rm`, the recorded `adds`
(each `[3]int{n, idx, rm}`) and the remove events sent so far. -/
structure BackState (α : Type) where
  rm : Int
  adds : List (Nat × Int × Int)
  events : List (Event α)

/-- The labelled `Loop:` of `updateCollection`.  Every iteration lowers
`i + j`; the first argument bounds the number of iterations and `none` means
the bound was reached before the `default` case. -/
def backtrack (aa bb : List α) (c : List Nat) (w : Nat) :
    Nat → Int → Nat → Nat → Int → List (Nat × Int × Int) → List (Event α) → Option (BackState α)
  | 0, _, _, _, _, _, _ => none
  | fuel + 1, idx, i, j, rm, adds, evs =>
    let m := i - 1
    let n := j - 1
    if i > 0 ∧ j > 0 ∧ deepEqualAt aa m bb n = true then
      backtrack aa bb c w fuel (idx - 1) (i - 1) (j - 1) rm adds evs
    else if j > 0 ∧ (i = 0 ∨ c.getD (i + w * n) 0 ≥ c.getD (m + w * j) 0) then
      backtrack aa bb c w fuel idx i (j - 1) rm (adds ++ [(n, idx, rm)]) evs
    else if i > 0 ∧ (j = 0 ∨ c.getD (i + w * n) 0 < c.getD (m + w * j) 0) then
      backtrack aa bb c w fuel (idx - 1) (i - 1) j (rm + 1) adds (evs ++ [Event.remove (idx - 1)])
    else
      some ⟨rm, adds, evs⟩

/-- The final loop `for i := l; i >= 0; i-- { add := adds[i]; r.AddEvent(...) }`
where the last argument is `i + 1`.  `none` stands for an index out of range. -/
def emitAdds (bb : List α) (adds : List (Nat × Int × Int)) (rm l : Int) : Nat → Option (List (Event α))
  | 0 => some []
  | i + 1 =>
    match adds[i]? with
    | none => none
    | some add =>
      match bb[add.1]? with
      | none => none
      | some v =>
        match emitAdds bb adds rm l i with
        | none => none
        | some rest => some (Event.add v (add.2.1 - rm + add.2.2 + l - (i : Int)) :: rest)

/-- Function `updateCollection(a, b, r)`: the list of events sent to `r`, in
the order they are sent. -/
def updateCollection (a b : List α) : Option (List (Event α)) :=
  let s := trimStart a b a.length b.length a.length 0
  if s = a.length ∧ s = b.length then some []
  else
    let mn := trimEnd a b s a.length a.length b.length
    let m := mn.1
    let n := mn.2
    let aa := if s > 0 ∨ m < a.length then slice a s m else a
    let m := if s > 0 ∨ m < a.length then m - s else m
    let bb := if s > 0 ∨ n < b.length then slice b s n else b
    let n := if s > 0 ∨ n < b.length then n - s else n
    let w := m + 1
    let c := lcsTable aa bb m n
    match backtrack aa bb c w (m + n + 1) ((m : Int) + s) m n 0 [] [] with
    | none => none
    | some st =>
      match emitAdds bb st.adds st.rm ((st.adds.length : Int) - 1) st.adds.length with
      | none => none
      | some addEvents => some (st.events ++ addEvents)

/-- A subscriber applying one event to its copy of the collection: `remove`
deletes the element at the index, `add` inserts the value at the index.
`none` when the index is out of range. -/
def applyEvent (l : List α) : Event α → Option (List α)
  | Event.remove idx =>
    if 0 ≤ idx ∧ idx < l.length then some (l.take idx.toNat ++ l.drop (idx.toNat + 1)) else none
  | Event.add v idx =>
    if 0 ≤ idx ∧ idx ≤ l.length then some (l.take idx.toNat ++ v :: l.drop idx.toNat) else none

/-- Applying a sequence of events in order. -/
def replay : List (Event α) → List α → Option (List α)
  | [], l => some l
  | e :: es, l =>
    match applyEvent l e with
    | none => none
    | some l2 => replay es l2

/-- Add events produced for a list of recorded adds, the last recorded one
first; `off` is the number of adds recorded after the list. -/
def addsEvents (bb : List α) (rm : Int) (off : Int) : List (Nat × Int × Int) → Option (List (Event α))
  | [] => some []
  | x :: rest =>
    match addsEvents bb rm off rest, bb[x.1]? with
    | some es, some v => some (es ++ [Event.add v (x.2.1 - rm + x.2.2 + off + (rest.length : Int))])
    | _, _ => none

/-- `k` is the length of a longest common subsequence of `a` and `b`. -/
def IsLCSLen (a b : List α) (k : Nat) : Prop :=
  (∃ l : List α, l.Sublist a ∧ l.Sublist b ∧ l.length = k) ∧
    ∀ l : List α, l.Sublist a → l.Sublist b → l.length ≤ k

/-- Cells of the matrix that hold their final value once the outer loop has
finished rows below `I` and the inner loop has finished columns below `J` of
row `I`. -/
def TableInv (aa bb : List α) (c : List Nat) (I J : Nat) : Prop :=
  c.length = (aa.length + 1) * (bb.length + 1) ∧
  ∀ i j : Nat, i ≤ aa.length → j ≤ bb.length → (i ≤ I ∨ j = 0 ∨ (i = I + 1 ∧ j ≤ J)) →
    IsLCSLen (aa.take i) (bb.take j) (c.getD (i + (aa.length + 1) * j) 0)

end Collection

/-! ## Model diff (`updateModel`, endpoint.go)

A Go map is an association list read by first match (`mapGet`); `range` over
a map visits every key once (`mapKeys`), in the order of the list, which is
arbitrary. -/

section Model

variable {κ V : Type} [DecidableEq κ] [DecidableEq V]

/-- Map read `v, ok := m[k]`. -/
def mapGet : List (κ × V) → κ → Option V
  | [], _ => none
  | (k2, v) :: rest, k => if k2 = k then some v else mapGet rest k

/-- Map write `m[k] = v`. -/
def mapSet (m : List (κ × V)) (k : κ) (v : V) : List (κ × V) := (k, v) :: m

/-- Map removal `delete(m, k)`. -/
def mapDelete (m : List (κ × V)) (k : κ) : List (κ × V) := m.filter (fun kv => kv.1 ≠ k)

/-- The keys visited by `for k := range m`. -/
def mapKeys (m : List (κ × V)) : List κ := (m.map Prod.fst).dedup

/-- A value stored in the change map: `res.DeleteAction` or a new value. -/
inductive Change (V : Type) where
  | delete
  | set (v : V)
  deriving DecidableEq, Repr

/-- Function `updateModel(a, b, r)`: the map `ch` passed to `r.ChangeEvent`. -/
def updateModel (a b : List (κ × V)) : List (κ × Change V) :=
  let ch : List (κ × Change V) :=
    (mapKeys a).foldl
      (fun ch k => if (mapGet b k).isNone then mapSet ch k Change.delete else ch) []
  (mapKeys b).foldl
    (fun ch k =>
      match mapGet b k with
      | none => ch
      | some v => if mapGet a k = some v then ch else mapSet ch k (Change.set v))
    ch

/-- A subscriber applying a change map to its copy of the model: keys mapped
to the delete action are removed, every other key is set to its value. -/
def applyChange (m : List (κ × V)) (ch : List (κ × Change V)) : List (κ × V) :=
  (mapKeys ch).foldl
    (fun m k =>
      match mapGet ch k with
      | none => m
      | some Change.delete => mapDelete m k
      | some (Change.set v) => mapSet m k v)
    m

end Model

/-! ## URL templates (`urlParams`, service.go; expansion in `getResource`, endpoint.go)

A Go string is a `List Char`, one character per byte.  The scanner position
`i` of `urlParams` is the unread suffix `u[i:]` together with the number `i`
(needed for the error messages), and `u[tagStart:i]` is the tag read so far. -/

/-- Go string. -/
abbrev GoString := List Char

/-- Errors returned by `urlParams`, with the position they report. -/
inductive UrlError where
  | expectedBrace (pos : Nat)
  | emptyTag (pos : Nat)
  | nonAlphaNumeric (pos : Nat)
  | unexpectedEnd
  deriving DecidableEq, Repr

/-- The test `(c < 'A' || c > 'Z') && (c < 'a' || c > 'z') && (c < '0' || c > '9')`. -/
def notAlphaNumeric (c : Char) : Bool :=
  (decide (c < 'A') || decide (c > 'Z')) && (decide (c < 'a') || decide (c > 'z')) &&
    (decide (c < '0') || decide (c > '9'))

mutual
/-- Label `StateDefault` of `urlParams`. -/
def scanDefault : GoString → Nat → List GoString → Except UrlError (List GoString)
  | [], _, params => Except.ok params
  | c :: rest, i, params =>
    if c = '$' then
      match rest with
      | [] => Except.error UrlError.unexpectedEnd
      | c2 :: rest2 =>
        if c2 ≠ '{' then Except.error (UrlError.expectedBrace (i + 1))
        else scanTag rest2 (i + 2) [] params
    else scanDefault rest (i + 1) params
/-- Label `StateTag` of `urlParams`; `tag` is `u[tagStart:i]`. -/
def scanTag : GoString → Nat → GoString → List GoString → Except UrlError (List GoString)
  | [], _, _, _ => Except.error UrlError.unexpectedEnd
  | c :: rest, i, tag, params =>
    if c = '}' then
      if tag = [] then Except.error (UrlError.emptyTag i)
      else scanDefault rest (i + 1) (params ++ [tag])
    else if notAlphaNumeric c = true then Except.error (UrlError.nonAlphaNumeric i)
    else scanTag rest (i + 1) (tag ++ [c]) params
end

/-- Function `urlParams(u)`. -/
def urlParams (u : GoString) : Except UrlError (List GoString) := scanDefault u 0 []

/-- `strings.HasPrefix(s, p)`. -/
def hasPrefixStr (s p : GoString) : Bool := p.isPrefixOf s

/-- `strings.Replace(s, old, new, 1)` for a non-empty `old`: the leftmost
occurrence of `old` is replaced. -/
def replaceFirstAux (old new : GoString) : GoString → GoString
  | [] => []
  | c :: rest =>
    if hasPrefixStr (c :: rest) old then new ++ (c :: rest).drop old.length
    else c :: replaceFirstAux old new rest

/-- `strings.Replace(s, old, new, 1)`; an empty `old` matches at the start. -/
def replaceFirst (s old new : GoString) : GoString :=
  if old = [] then new ++ s else replaceFirstAux old new s

/-- The placeholder `"${"+param+"}"`. -/
def placeholder (param : GoString) : GoString := ['$', '{'] ++ param ++ ['}']

/-- The URL expansion loop at the start of `getResource`:
`for _, param := range ep.urlParams { url = strings.Replace(url, "${"+param+"}", r.PathParam(param), 1) }`. -/
def expandURL (url : GoString) (urlParams : List GoString) (pathParam : GoString → GoString) :
    GoString :=
  urlParams.foldl (fun url param => replaceFirst url (placeholder param) (pathParam param)) url

/-- A URL template seen as text pieces and `${name}` tokens. -/
inductive Piece where
  | lit (s : GoString)
  | tok (name : GoString)
  deriving DecidableEq, Repr

/-- A character of `[A-Za-z0-9]`. -/
def IsAlnum (c : Char) : Prop :=
  ('A' ≤ c ∧ c ≤ 'Z') ∨ ('a' ≤ c ∧ c ≤ 'z') ∨ ('0' ≤ c ∧ c ≤ '9')

/-- A text piece holds no `$`; a token has a non-empty name over `[A-Za-z0-9]`. -/
def Piece.WellFormed : Piece → Prop
  | Piece.lit s => '$' ∉ s
  | Piece.tok name => name ≠ [] ∧ ∀ c ∈ name, IsAlnum c

/-- The text of a template. -/
def renderTemplate : List Piece → GoString
  | [] => []
  | Piece.lit s :: ps => s ++ renderTemplate ps
  | Piece.tok name :: ps => placeholder name ++ renderTemplate ps

/-- The token names of a template, in order of occurrence. -/
def tokenNames : List Piece → List GoString
  | [] => []
  | Piece.lit _ :: ps => tokenNames ps
  | Piece.tok name :: ps => name :: tokenNames ps

/-- The template with every token replaced by its binding. -/
def substTemplate (bind : GoString → GoString) : List Piece → GoString
  | [] => []
  | Piece.lit s :: ps => s ++ substTemplate bind ps
  | Piece.tok name :: ps => bind name ++ substTemplate bind ps

/-- The ways a template can be rejected: after a well-formed beginning `ps`
comes a `$` not followed by `{`, a tag that is never closed, an empty tag, or a
tag with a character outside `[A-Za-z0-9]`. -/
def Malformed (u : GoString) : Prop :=
  ∃ ps : List Piece, (∀ p ∈ ps, p.WellFormed) ∧
    ((∃ rest, u = renderTemplate ps ++ '$' :: rest ∧ (rest = [] ∨ ∃ c r, rest = c :: r ∧ c ≠ '{')) ∨
     (∃ name, u = renderTemplate ps ++ '$' :: '{' :: name ∧ ∀ c ∈ name, IsAlnum c) ∨
     (∃ rest, u = renderTemplate ps ++ '$' :: '{' :: '}' :: rest) ∨
     (∃ name c rest, u = renderTemplate ps ++ '$' :: '{' :: (name ++ c :: rest) ∧
        (∀ x ∈ name, IsAlnum x) ∧ ¬ IsAlnum c ∧ c ≠ '}'))

/-! ## Pattern and path compiler (`addPath`, `parsePattern`, path.go) -/

/-- `strings.Split(s, ".")`. -/
def splitDot : GoString → List GoString
  | [] => [[]]
  | c :: rest =>
    if c = '.' then [] :: splitDot rest
    else
      match splitDot rest with
      | [] => [[c]]
      | t :: ts => (c :: t) :: ts

/-- `strings.Join(tokens, ".")`. -/
def joinDot : List GoString → GoString
  | [] => []
  | [t] => t
  | t :: t2 :: ts => t ++ '.' :: joinDot (t2 :: ts)

/-- The statement `if s != "" { tokens = strings.Split(s, btsep) }` on a nil `tokens`. -/
def tokensOf (s : GoString) : List GoString := if s ≠ [] then splitDot s else []

/-- Type `resourceType`. -/
inductive ResourceType where
  | unset
  | model
  | collection
  deriving DecidableEq, Repr

/-- Type `paramType`. -/
inductive ParamType where
  | unset
  | url
  | path
  deriving DecidableEq, Repr

/-- Type `pathType`. -/
inductive PathType where
  | root
  | default
  | property
  deriving DecidableEq, Repr

/-- Type `patternParam`. -/
structure PatternParam where
  typ : ParamType
  name : GoString
  idx : Nat
  deriving DecidableEq, Repr

/-- Type `node`; `nodes` is the map of literal children and `param` the
wildcard child. -/
inductive Node where
  | mk (typ : ResourceType) (nodes : List (GoString × Node)) (param : Option Node)
      (pattern : GoString) (params : List PatternParam) (ptyp : PathType) (idProp : GoString)

/-- Field `typ`. -/
def Node.typ : Node → ResourceType
  | Node.mk typ _ _ _ _ _ _ => typ

/-- Field `nodes`. -/
def Node.nodes : Node → List (GoString × Node)
  | Node.mk _ nodes _ _ _ _ _ => nodes

/-- Field `param`. -/
def Node.param : Node → Option Node
  | Node.mk _ _ param _ _ _ _ => param

/-- Field `pattern`. -/
def Node.pattern : Node → GoString
  | Node.mk _ _ _ pattern _ _ _ => pattern

/-- Field `params`. -/
def Node.params : Node → List PatternParam
  | Node.mk _ _ _ _ params _ _ => params

/-- Field `ptyp`. -/
def Node.ptyp : Node → PathType
  | Node.mk _ _ _ _ _ ptyp _ => ptyp

/-- Field `idProp`. -/
def Node.idProp : Node → GoString
  | Node.mk _ _ _ _ _ _ idProp => idProp

/-- The zero value `node{}`. -/
def Node.empty : Node := Node.mk ResourceType.unset [] none [] [] PathType.root []

/-- Assignment `l.param = n`. -/
def Node.setParam : Node → Node → Node
  | Node.mk typ nodes _ pattern params ptyp idProp, n =>
    Node.mk typ nodes (some n) pattern params ptyp idProp

/-- Assignment `l.nodes[t] = n`. -/
def Node.setChild : Node → GoString → Node → Node
  | Node.mk typ nodes param pattern params ptyp idProp, t, n =>
    Node.mk typ (mapSet nodes t n) param pattern params ptyp idProp

/-- The five assignments `l.typ = typ; l.pattern = parsedPattern; l.params = params;
l.ptyp = ptyp; l.idProp = idProp` that end `addPath`. -/
def Node.register : Node → ResourceType → GoString → List PatternParam → PathType → GoString → Node
  | Node.mk _ nodes param _ _ _ _, typ, pattern, params, ptyp, idProp =>
    Node.mk typ nodes param pattern params ptyp idProp

/-- Errors returned by `addPath` and `parsePattern`. -/
inductive AddPathError where
  | invalidResourceType
  | invalidPattern
  | invalidPath
  | urlParamNotInPattern (name : GoString)
  | pathParamNotInPattern (name : GoString)
  | coveredMoreThanOnce (name : GoString)
  | idPropOnlyOnModel
  | noParentResource
  | alreadyRegistered
  | missingPatternParameter (name : GoString)
  deriving DecidableEq, Repr

/-- The loop of `parsePattern`: the rewritten tokens and the collected params. -/
def parsePatternLoop : List GoString → Except AddPathError (List GoString × List PatternParam)
  | [] => Except.ok ([], [])
  | t :: ts =>
    match t with
    | [] => Except.error AddPathError.invalidPattern
    | c :: name =>
      if c = '$' then
        if name = [] then Except.error AddPathError.invalidPattern
        else
          match parsePatternLoop ts with
          | Except.error e => Except.error e
          | Except.ok (toks, params) =>
            Except.ok (['%', 's'] :: toks, ⟨ParamType.unset, name, 0⟩ :: params)
      else
        match parsePatternLoop ts with
        | Except.error e => Except.error e
        | Except.ok (toks, params) => Except.ok (t :: toks, params)

/-- Function `parsePattern(pattern)`. -/
def parsePattern (pattern : GoString) : Except AddPathError (GoString × List PatternParam) :=
  match parsePatternLoop (tokensOf pattern) with
  | Except.error e => Except.error e
  | Except.ok (toks, params) => Except.ok (joinDot toks, params)

/-- Function `containsString(a, s)`. -/
def containsString (a : List GoString) (s : GoString) : Bool :=
  match a with
  | [] => false
  | w :: rest => if w = s then true else containsString rest s

/-- Function `patternParamsContain(pps, name)`; `none` stands for `-1`. -/
def patternParamsContain : List PatternParam → GoString → Option Nat
  | [], _ => none
  | pp :: rest, name =>
    if pp.name = name then some 0
    else
      match patternParamsContain rest name with
      | none => none
      | some j => some (j + 1)

/-- Assignment `params[j].typ = typ`. -/
def setParamTyp (params : List PatternParam) (j : Nat) (typ : ParamType) : List PatternParam :=
  params.modify (fun p => { p with typ := typ }) j

/-- Assignments `params[j].typ = paramTypePath; params[j].idx = i`. -/
def setParamPath (params : List PatternParam) (j i : Nat) : List PatternParam :=
  params.modify (fun p => { p with typ := ParamType.path, idx := i }) j

/-- The loop of `addPath` that marks the URL parameters. -/
def markURLParams (params : List PatternParam) :
    List GoString → Except AddPathError (List PatternParam)
  | [] => Except.ok params
  | urlParam :: rest =>
    match patternParamsContain params urlParam with
    | none => Except.error (AddPathError.urlParamNotInPattern urlParam)
    | some j => markURLParams (setParamTyp params j ParamType.url) rest

/-- The loop `for _, p := range params` that ends `addPath`: the first
parameter that is still unset. -/
def firstUnset : List PatternParam → Option GoString
  | [] => none
  | p :: rest => if p.typ = ParamType.unset then some p.name else firstUnset rest

/-- The `switch l.typ` for the last token of a path when it is a wildcard:
the new `ptyp`, or an error. -/
def lastWildcard (parent typ : ResourceType) (idProp : GoString) (ptyp : PathType) :
    Except AddPathError PathType :=
  match parent with
  | ResourceType.model => Except.ok ptyp
  | ResourceType.collection =>
    if idProp ≠ [] then
      if typ ≠ ResourceType.model then Except.error AddPathError.idPropOnlyOnModel
      else Except.ok PathType.property
    else Except.ok ptyp
  | ResourceType.unset => Except.error AddPathError.noParentResource

/-- The token loop of `addPath` followed by the final checks and assignments.
`l` is the node reached so far, `i` the index of the next token, `last` is
`len(tokens)-1`; the result is `l` with the walked branch updated. -/
def addPathLoop (typ : ResourceType) (parsedPattern idProp : GoString) (last : Int) :
    List GoString → Nat → Node → List PatternParam → PathType → Except AddPathError Node
  | [], _, l, params, ptyp =>
    if l.typ ≠ ResourceType.unset then Except.error AddPathError.alreadyRegistered
    else
      match firstUnset params with
      | some name => Except.error (AddPathError.missingPatternParameter name)
      | none => Except.ok (l.register typ parsedPattern params ptyp idProp)
  | t :: ts, i, l, params, _ =>
    match t with
    | [] => Except.error AddPathError.invalidPath
    | c :: name =>
      if c = '$' then
        if name = [] then Except.error AddPathError.invalidPath
        else
          match patternParamsContain params name with
          | none => Except.error (AddPathError.pathParamNotInPattern name)
          | some j =>
            if (params.map PatternParam.typ).getD j ParamType.unset ≠ ParamType.unset then
              Except.error (AddPathError.coveredMoreThanOnce name)
            else
              match (if (i : Int) = last then lastWildcard l.typ typ idProp PathType.default
                     else Except.ok PathType.default) with
              | Except.error e => Except.error e
              | Except.ok ptyp =>
                match addPathLoop typ parsedPattern idProp last ts (i + 1)
                    (l.param.getD Node.empty) (setParamPath params j i) ptyp with
                | Except.error e => Except.error e
                | Except.ok n => Except.ok (l.setParam n)
      else
        match addPathLoop typ parsedPattern idProp last ts (i + 1)
            ((mapGet l.nodes t).getD Node.empty) params PathType.default with
        | Except.error e => Except.error e
        | Except.ok n => Except.ok (l.setChild t n)

/-- The `switch typStr` of `addPath`. -/
def parseResourceType (typStr : GoString) : Option ResourceType :=
  if typStr = "model".toList then some ResourceType.model
  else if typStr = "collection".toList then some ResourceType.collection
  else none

/-- Method `(rn *node).addPath(path, pattern, urlParams, typStr, idProp)`: the
updated trie, or the error.  The trie left behind by a failed call is not
modelled (the service does not start). -/
def addPath (rn : Node) (path pattern : GoString) (urlParams : List GoString)
    (typStr idProp : GoString) : Except AddPathError Node :=
  match parseResourceType typStr with
  | none => Except.error AddPathError.invalidResourceType
  | some typ =>
    match parsePattern pattern with
    | Except.error e => Except.error e
    | Except.ok (parsedPattern, params) =>
      match markURLParams params urlParams with
      | Except.error e => Except.error e
      | Except.ok params =>
        addPathLoop typ parsedPattern idProp (((tokensOf path).length : Int) - 1)
          (tokensOf path) 0 rn params PathType.root

/-- The node reached from `n` along path tokens: a token starting with `$`
follows the wildcard child, any other token the literal child. -/
def nodeAt : Node → List GoString → Option Node
  | n, [] => some n
  | n, t :: ts =>
    match t with
    | '$' :: _ =>
      match n.param with
      | none => none
      | some c => nodeAt c ts
    | _ =>
      match mapGet n.nodes t with
      | none => none
      | some c => nodeAt c ts

/-- Number of occurrences of the verb `%s` in a string. -/
def countVerb : GoString → Nat
  | [] => 0
  | c :: rest => (if c = '%' ∧ rest.head? = some 's' then 1 else 0) + countVerb rest

/-- The parameter names of a dot-separated pattern or path: the tokens that
start with `$`, without the `$`. -/
def wildcardNames : List GoString → List GoString
  | [] => []
  | t :: ts =>
    match t with
    | '$' :: name => name :: wildcardNames ts
    | _ => wildcardNames ts

/-- Tokens accepted by the compiler: not empty and not the lone `$`. -/
def WellFormedTokens (toks : List GoString) : Prop :=
  ∀ t ∈ toks, t ≠ [] ∧ t ≠ ['$']

/-- Every pattern parameter is covered exactly once, by a URL parameter or by
a wildcard token of the path. -/
def Covered (patternToks pathToks : List GoString) (urlParams : List GoString) : Prop :=
  (wildcardNames patternToks).Nodup ∧ (wildcardNames pathToks).Nodup ∧
  (∀ u ∈ urlParams, u ∈ wildcardNames patternToks) ∧
  (∀ w ∈ wildcardNames pathToks, w ∈ wildcardNames patternToks ∧ w ∉ urlParams) ∧
  (∀ n ∈ wildcardNames patternToks, n ∈ urlParams ∨ n ∈ wildcardNames pathToks)

/-- The last token of a path is a wildcard. -/
def lastIsWildcard (toks : List GoString) : Bool :=
  match toks.getLast? with
  | some ('$' :: _) => true
  | _ => false

/-- The node of a successful registration, `node{}` otherwise. -/
def okNode (r : Except AddPathError Node) : Node :=
  match r with
  | Except.ok n => n
  | Except.error _ => Node.empty

/-- The `urlParams` of `TestAddPath` (path_test.go). -/
def testURLParams : List GoString := ["version".toList, "stationId".toList]

/-- The first `addPath` call of `TestAddPath`. -/
def testTrie1 : Except AddPathError Node :=
  addPath Node.empty [] "$version.stations.$stationId".toList testURLParams "model".toList []

/-- The second `addPath` call of `TestAddPath`. -/
def testTrie2 : Except AddPathError Node :=
  addPath (okNode testTrie1) "station".toList
    "$version.stations.$stationId.station".toList testURLParams "model".toList []

/-- The third `addPath` call of `TestAddPath`. -/
def testTrie3 : Except AddPathError Node :=
  addPath (okNode testTrie2) "station.transfers".toList
    "$version.stations.$stationId.station.transfers".toList testURLParams "model".toList []

/-- The fourth `addPath` call of `TestAddPath`. -/
def testTrie4 : Except AddPathError Node :=
  addPath (okNode testTrie3) "station.transfers.transfer".toList
    "$version.stations.$stationId.station.transfers.transfer".toList testURLParams
    "collection".toList []

/-- The fifth `addPath` call of `TestAddPath`. -/
def testTrie5 : Except AddPathError Node :=
  addPath (okNode testTrie4) "station.transfers.transfer.$transferId".toList
    "$version.stations.$stationId.station.transfers.transfer.$transferId".toList testURLParams
    "model".toList "id".toList

/-! ## Decomposer (`traverse`, endpoint.go), registration (`addResource`,
`resetPattern`, service.go) and the reset list of `handleRefresh` -/

/-- Type `value` (value.go): strings and numbers keep their raw JSON text,
objects hold the entries of their map in iteration order. -/
inductive Value where
  | str (raw : GoString)
  | num (raw : GoString)
  | obj (fields : List (GoString × Value))
  | arr (elems : List Value)
  | vtrue
  | vfalse
  | vnull

/-- An `interface{}` stored in a cached model or collection: a primitive
value, a `res.Ref`, or `nil`. -/
inductive Entry where
  | value (v : Value)
  | ref (rid : GoString)
  | null

/-- Type `cachedResource`. -/
inductive CachedResource where
  | model (m : List (GoString × Entry))
  | collection (c : List Entry)

/-- Errors of the decomposer; `indexOutOfRange` is the run-time panic of
`path[pp.idx]`. -/
inductive TraverseError where
  | expectedModel
  | expectedCollection
  | missingIdProp
  | invalidIdString
  | invalidIdValue
  | unexpectedPrimitive
  | notObjectOrArray
  | indexOutOfRange
  deriving DecidableEq, Repr

/-- The functions of the Go standard library that the decomposer calls:
`unmarshal` is `json.Unmarshal` of a JSON string into a Go string (`none`
when it returns an error), and `sprintfOther` is the string that
`fmt.Sprintf` returns for the calls that `sprintfPlain` does not cover (such
as `svc.%!s(MISSING)` for a verb without operand). Every statement holds for
every such pair of functions. -/
structure GoLib where
  unmarshal : GoString → Option GoString
  sprintfOther : GoString → List (Option GoString) → GoString

/-- `fmt.Sprintf(format, p...)` for formats whose only verbs are `%s` with one
string operand each: the format with every verb replaced by its operand;
`none` for every other call (another verb, a missing, extra or nil operand). -/
def sprintfPlain : GoString → List (Option GoString) → Option GoString
  | [], [] => some []
  | [], _ :: _ => none
  | c :: rest, args =>
    if c = '%' then
      match rest, args with
      | 's' :: rest2, some a :: args2 =>
        match sprintfPlain rest2 args2 with
        | none => none
        | some out => some (a ++ out)
      | _, _ => none
    else
      match sprintfPlain rest args with
      | none => none
      | some out => some (c :: out)

/-- `fmt.Sprintf(format, p...)`: it returns a string for every format and
every list of operands. -/
def sprintf (lib : GoLib) (format : GoString) (args : List (Option GoString)) : GoString :=
  match sprintfPlain format args with
  | some out => out
  | none => lib.sprintfOther format args

/-- A library for the examples: a JSON string decodes to its own text, and
a call of `fmt.Sprintf` outside `sprintfPlain` returns the format. -/
def plainLib : GoLib := ⟨some, fun format _ => format⟩

/-- The loop that fills `p` before `fmt.Sprintf(n.pattern, p...)`; `none` is
the panic of `path[pp.idx]` out of range. -/
def ridArgs (reqParams : GoString → GoString) (path : List GoString) :
    List PatternParam → Option (List (Option GoString))
  | [] => some []
  | pp :: rest =>
    match pp.typ with
    | ParamType.url =>
      match ridArgs reqParams path rest with
      | none => none
      | some args => some (some (reqParams pp.name) :: args)
    | ParamType.path =>
      match path[pp.idx]? with
      | none => none
      | some s =>
        match ridArgs reqParams path rest with
        | none => none
        | some args => some (some s :: args)
    | ParamType.unset =>
      match ridArgs reqParams path rest with
      | none => none
      | some args => some (none :: args)

/-- The block `// Create rid` of `traverseModel` and `traverseCollection`. -/
def createRid (lib : GoLib) (reqParams : GoString → GoString) (path : List GoString)
    (n : Node) : Except TraverseError GoString :=
  match ridArgs reqParams path n.params with
  | none => Except.error TraverseError.indexOutOfRange
  | some args => Except.ok (sprintf lib n.pattern args)

/-- One decimal digit. -/
def digitChar (d : Nat) : Char := Char.ofNat (48 + d % 10)

/-- The decimal digits of `n`, most significant first, in front of `acc`. -/
def itoaLoop : Nat → Nat → GoString → GoString
  | 0, _, acc => acc
  | fuel + 1, n, acc =>
    if n < 10 then digitChar n :: acc else itoaLoop fuel (n / 10) (digitChar n :: acc)

/-- `strconv.Itoa(j)` for an index `j ≥ 0`. -/
def itoa (j : Nat) : GoString := itoaLoop (j + 1) j []

/-- The `switch n.ptyp` of `traverseModel` that appends the path part;
`lib.unmarshal` is `json.Unmarshal` of a JSON string into a Go string. -/
def modelPath (lib : GoLib) (fields : List (GoString × Value))
    (path : List GoString) (n : Node) (pathPart : GoString) :
    Except TraverseError (List GoString) :=
  match n.ptyp with
  | PathType.root => Except.ok path
  | PathType.default => Except.ok (path ++ [pathPart])
  | PathType.property =>
    match mapGet fields n.idProp with
    | none => Except.error TraverseError.missingIdProp
    | some (Value.str raw) =>
      match lib.unmarshal raw with
      | none => Except.error TraverseError.invalidIdString
      | some idstr => Except.ok (path ++ [idstr])
    | some (Value.num raw) => Except.ok (path ++ [raw])
    | some _ => Except.error TraverseError.invalidIdValue

/-- The lookup `next := n.nodes[k]; if next == nil { next = n.param }`. -/
def nextNode (n : Node) (k : GoString) : Option Node :=
  match mapGet n.nodes k with
  | some next => some next
  | none => n.param

/-- The cached-resource map `crs`. -/
abbrev Crs := List (GoString × CachedResource)

mutual
/-- Function `traverseModel`: the map `crs` after the call, and the returned
reference or error. -/
def traverseModel (lib : GoLib) (reqParams : GoString → GoString) :
    Value → Crs → List GoString → Node → GoString → Crs × Except TraverseError GoString
  | v, crs, path, n, pathPart =>
    if n.typ ≠ ResourceType.model then (crs, Except.error TraverseError.expectedModel)
    else
      match v with
      | Value.obj fields =>
        match modelPath lib fields path n pathPart with
        | Except.error e => (crs, Except.error e)
        | Except.ok path2 =>
          match traverseFields lib reqParams fields crs path2 n [] with
          | (crs2, Except.error e) => (crs2, Except.error e)
          | (crs2, Except.ok model) =>
            match createRid lib reqParams path2 n with
            | Except.error e => (crs2, Except.error e)
            | Except.ok rid => (mapSet crs2 rid (CachedResource.model model), Except.ok rid)
      | _ =>
        match modelPath lib [] path n pathPart with
        | Except.error e => (crs, Except.error e)
        | Except.ok path2 =>
          match createRid lib reqParams path2 n with
          | Except.error e => (crs, Except.error e)
          | Except.ok rid => (mapSet crs rid (CachedResource.model []), Except.ok rid)
/-- Function `traverseCollection`. -/
def traverseCollection (lib : GoLib) (reqParams : GoString → GoString) :
    Value → Crs → List GoString → Node → GoString → Crs × Except TraverseError GoString
  | v, crs, path, n, pathPart =>
    if n.typ ≠ ResourceType.collection then (crs, Except.error TraverseError.expectedCollection)
    else
      match v with
      | Value.arr elems =>
        match traverseElems lib reqParams elems crs
            (if n.ptyp ≠ PathType.root then path ++ [pathPart] else path) n 0 with
        | (crs2, Except.error e) => (crs2, Except.error e)
        | (crs2, Except.ok collection) =>
          match createRid lib reqParams
              (if n.ptyp ≠ PathType.root then path ++ [pathPart] else path) n with
          | Except.error e => (crs2, Except.error e)
          | Except.ok rid =>
            (mapSet crs2 rid (CachedResource.collection collection), Except.ok rid)
      | _ =>
        match createRid lib reqParams
            (if n.ptyp ≠ PathType.root then path ++ [pathPart] else path) n with
        | Except.error e => (crs, Except.error e)
        | Except.ok rid => (mapSet crs rid (CachedResource.collection []), Except.ok rid)
/-- The loop `for k, kv := range v.obj` of `traverseModel`; `model` is the map
built so far. -/
def traverseFields (lib : GoLib) (reqParams : GoString → GoString) :
    List (GoString × Value) → Crs → List GoString → Node → List (GoString × Entry) →
      Crs × Except TraverseError (List (GoString × Entry))
  | [], crs, _, _, model => (crs, Except.ok model)
  | (k, kv) :: rest, crs, path, n, model =>
    match kv with
    | Value.obj fs =>
      match nextNode n k with
      | none => traverseFields lib reqParams rest crs path n model
      | some next =>
        match traverseModel lib reqParams (Value.obj fs) crs path next k with
        | (crs2, Except.error e) => (crs2, Except.error e)
        | (crs2, Except.ok ref) =>
          traverseFields lib reqParams rest crs2 path n (mapSet model k (Entry.ref ref))
    | Value.arr es =>
      match nextNode n k with
      | none => traverseFields lib reqParams rest crs path n model
      | some next =>
        match traverseCollection lib reqParams (Value.arr es) crs path next k with
        | (crs2, Except.error e) => (crs2, Except.error e)
        | (crs2, Except.ok ref) =>
          traverseFields lib reqParams rest crs2 path n (mapSet model k (Entry.ref ref))
    | prim =>
      match nextNode n k with
      | some _ => (crs, Except.error TraverseError.unexpectedPrimitive)
      | none =>
        traverseFields lib reqParams rest crs path n (mapSet model k (Entry.value prim))
/-- The loop `for j, kv := range v.arr` of `traverseCollection`; the result
lists `collection[j], collection[j+1], ...`. -/
def traverseElems (lib : GoLib) (reqParams : GoString → GoString) :
    List Value → Crs → List GoString → Node → Nat → Crs × Except TraverseError (List Entry)
  | [], crs, _, _, _ => (crs, Except.ok [])
  | kv :: rest, crs, path, n, j =>
    match kv with
    | Value.obj fs =>
      match n.param with
      | none =>
        match traverseElems lib reqParams rest crs path n (j + 1) with
        | (crs2, Except.error e) => (crs2, Except.error e)
        | (crs2, Except.ok tail) => (crs2, Except.ok (Entry.null :: tail))
      | some next =>
        match traverseModel lib reqParams (Value.obj fs) crs path next (itoa j) with
        | (crs2, Except.error e) => (crs2, Except.error e)
        | (crs2, Except.ok ref) =>
          match traverseElems lib reqParams rest crs2 path n (j + 1) with
          | (crs3, Except.error e) => (crs3, Except.error e)
          | (crs3, Except.ok tail) => (crs3, Except.ok (Entry.ref ref :: tail))
    | Value.arr es =>
      match n.param with
      | none =>
        match traverseElems lib reqParams rest crs path n (j + 1) with
        | (crs2, Except.error e) => (crs2, Except.error e)
        | (crs2, Except.ok tail) => (crs2, Except.ok (Entry.null :: tail))
      | some next =>
        match traverseCollection lib reqParams (Value.arr es) crs path next (itoa j) with
        | (crs2, Except.error e) => (crs2, Except.error e)
        | (crs2, Except.ok ref) =>
          match traverseElems lib reqParams rest crs2 path n (j + 1) with
          | (crs3, Except.error e) => (crs3, Except.error e)
          | (crs3, Except.ok tail) => (crs3, Except.ok (Entry.ref ref :: tail))
    | prim =>
      match n.param with
      | some _ => (crs, Except.error TraverseError.unexpectedPrimitive)
      | none =>
        match traverseElems lib reqParams rest crs path n (j + 1) with
        | (crs2, Except.error e) => (crs2, Except.error e)
        | (crs2, Except.ok tail) => (crs2, Except.ok (Entry.value prim :: tail))
end

/-- Method `(ep *endpoint).traverse` on a fresh map `crs` with a nil path. -/
def traverse (lib : GoLib) (reqParams : GoString → GoString)
    (root : Node) (v : Value) : Crs × Except TraverseError Unit :=
  match v with
  | Value.obj fields =>
    match traverseModel lib reqParams (Value.obj fields) [] [] root [] with
    | (crs, Except.error e) => (crs, Except.error e)
    | (crs, Except.ok _) => (crs, Except.ok ())
  | Value.arr elems =>
    match traverseCollection lib reqParams (Value.arr elems) [] [] root [] with
    | (crs, Except.error e) => (crs, Except.error e)
    | (crs, Except.ok _) => (crs, Except.ok ())
  | _ => ([], Except.error TraverseError.notObjectOrArray)

/-- Function `resetPattern(pattern, urlParams)`. -/
def resetPattern (pattern : GoString) (urlParams : List GoString) : GoString :=
  joinDot ((tokensOf pattern).map (fun t =>
    match t with
    | c :: tt =>
      if c = '$' then (if containsString urlParams tt then placeholder tt else ['*']) else t
    | [] => t))

/-- Type `ResourceCfg` (config.go). -/
inductive ResourceCfg where
  | mk (typ pattern path idProp : GoString) (resources : List ResourceCfg)

/-- The fields of the endpoint that registration changes: the schema trie
`ep.node` and `ep.resetPatterns`. -/
structure EndpointState where
  node : Node
  resetPatterns : List GoString

mutual
/-- Method `(s *Service).addResource(ep, r, pattern, path)`.  The call
`s.res.AddHandler(pattern, ep.handler())` that follows the append to
`ep.resetPatterns` belongs to the res library and changes neither `ep.node`
nor `ep.resetPatterns`; it is left out.  It panics when the pattern has a
handler already, and then the service does not start: the states given here
are those of the runs in which it returns. -/
def addResource (serviceName : GoString) (urlParams : List GoString) :
    ResourceCfg → GoString → GoString → EndpointState → Except AddPathError EndpointState
  | ResourceCfg.mk typ rPattern rPath idProp resources, pattern, path, ep =>
    let pattern :=
      if rPattern ≠ [] then rPattern
      else if rPath ≠ [] then pattern ++ ['.'] ++ rPath else pattern
    let path :=
      if rPath ≠ [] then (if path = [] then rPath else ['.'] ++ rPath) else path
    let rid := if pattern ≠ [] then serviceName ++ ['.'] ++ pattern else serviceName
    match addPath ep.node path rid urlParams typ idProp with
    | Except.error e => Except.error e
    | Except.ok node =>
      addResources serviceName urlParams resources pattern path
        ⟨node, ep.resetPatterns ++ [resetPattern rid urlParams]⟩
/-- The loop `for _, nr := range r.Resources` of `addResource`. -/
def addResources (serviceName : GoString) (urlParams : List GoString) :
    List ResourceCfg → GoString → GoString → EndpointState → Except AddPathError EndpointState
  | [], _, _, ep => Except.ok ep
  | nr :: rest, pattern, path, ep =>
    match addResource serviceName urlParams nr pattern path ep with
    | Except.error e => Except.error e
    | Except.ok ep2 => addResources serviceName urlParams rest pattern path ep2
end

/-- A reset resource matches a resource id when both have the same number of
dot-separated tokens and every token of the reset resource is `*` or equals
the token of the id. -/
def Matches (resetResource rid : GoString) : Prop :=
  List.Forall₂ (fun p t => p = ['*'] ∨ p = t) (splitDot resetResource) (splitDot rid)

/-! ## Auxiliary notions for the reset-pattern containment -/

/-- A segment of a reset resource against a segment of an id: equal text, or
`*` against a text without `.`. -/
def SegMatch (p t : GoString) : Prop := p = t ∨ (p = ['*'] ∧ '.' ∉ t)

/-- The tokens of a compiled pattern: every `$name` token becomes `%s`. -/
def compileTokens : List GoString → List GoString
  | [] => []
  | t :: ts =>
    match t with
    | [] => t :: compileTokens ts
    | c :: _ => if c = '$' then ['%', 's'] :: compileTokens ts else t :: compileTokens ts

/-- The tokens of a resource id: every `$name` token of the pattern takes the
next operand. -/
def fillTokens : List GoString → List GoString → List GoString
  | [], _ => []
  | t :: ts, args =>
    match t with
    | [] => t :: fillTokens ts args
    | c :: _ =>
      if c = '$' then
        match args with
        | [] => t :: fillTokens ts []
        | a :: rest => a :: fillTokens ts rest
      else t :: fillTokens ts args

/-- The piece that `resetPattern` writes for a token. -/
def resetPiece (urlParams : List GoString) (t : GoString) : Piece :=
  match t with
  | [] => Piece.lit t
  | c :: tt =>
    if c = '$' then (if containsString urlParams tt then Piece.tok tt else Piece.lit ['*'])
    else Piece.lit t

/-- The text of a piece. -/
def pieceText : Piece → GoString
  | Piece.lit s => s
  | Piece.tok name => placeholder name

/-- Replacing the first token `${u}` of a list of pieces by the text `v`. -/
def replaceTok (u v : GoString) : List Piece → List Piece
  | [] => []
  | Piece.lit s :: ps => Piece.lit s :: replaceTok u v ps
  | Piece.tok m :: ps => if m = u then Piece.lit v :: ps else Piece.tok m :: replaceTok u v ps

/-- Replacing every token whose name is in `us` by its binding. -/
def bindPiece (us : List GoString) (bind : GoString → GoString) : Piece → Piece
  | Piece.lit s => Piece.lit s
  | Piece.tok m => if m ∈ us then Piece.lit (bind m) else Piece.tok m

/-- The names of the tokens of a list of pieces. -/
def tokNames : List Piece → List GoString
  | [] => []
  | Piece.lit _ :: ps => tokNames ps
  | Piece.tok m :: ps => m :: tokNames ps

/-- State of the parameter list while `addPath` marks it, for the URL
parameters `ups` of which `done` have been marked: URL-typed entries carry
URL parameter names, path-typed entries do not, every marked URL parameter
has its first entry URL-typed, and every marked entry is the first one with
its name. -/
def MarkInv (ups done : List GoString) (params : List PatternParam) : Prop :=
  (∀ (j : Nat) (p : PatternParam), params[j]? = some p → p.typ = ParamType.url → p.name ∈ ups) ∧
  (∀ (j : Nat) (p : PatternParam), params[j]? = some p → p.typ = ParamType.path →
    p.name ∉ ups) ∧
  (∀ u ∈ done, ∃ j p, patternParamsContain params u = some j ∧ params[j]? = some p ∧
    p.typ = ParamType.url) ∧
  (∀ (j : Nat) (p : PatternParam), params[j]? = some p → p.typ ≠ ParamType.unset →
    patternParamsContain params p.name = some j)

/-- What a successful `addPath(path, rid, urlParams, ...)` leaves on the node
it registers. -/
def RegisteredFor (ups : List GoString) (rid : GoString) (n : Node) : Prop :=
  WellFormedTokens (tokensOf rid) ∧
  n.pattern = joinDot (compileTokens (tokensOf rid)) ∧
  n.params.map PatternParam.name = wildcardNames (tokensOf rid) ∧
  (wildcardNames (tokensOf rid)).Nodup ∧
  ∀ p ∈ n.params, (p.typ = ParamType.url ∧ p.name ∈ ups) ∨
    (p.typ = ParamType.path ∧ p.name ∉ ups)

/-- Node `x` is `l` or lies below `l` in the trie. -/
inductive Desc : Node → Node → Prop where
  | self (l : Node) : Desc l l
  | param (l c x : Node) : l.param = some c → Desc c x → Desc l x
  | child (l c x : Node) (k : GoString) : mapGet l.nodes k = some c → Desc c x → Desc l x

/-- Every registered node of the trie was registered for a resource id whose
reset pattern is in the reset list. -/
def RegInv (ups : List GoString) (st : EndpointState) : Prop :=
  ∀ n, Desc st.node n → n.typ ≠ ResourceType.unset →
    ∃ rid, RegisteredFor ups rid n ∧ resetPattern rid ups ∈ st.resetPatterns

/-- The keys of the cached-resource map. -/
def crsKeys (crs : Crs) : List GoString := crs.map Prod.fst

/-- What follows the first token in `strings.Join(tokens, ".")`. -/
def dotTail (xs : List GoString) : GoString :=
  match xs with
  | [] => []
  | _ :: _ => '.' :: joinDot xs

/-- A list of pieces on which the placeholder of a URL parameter can only
start at a token: text pieces hold no `$`, token names hold neither `$` nor `}`. -/
def GoodPieces (ps : List Piece) : Prop :=
  ∀ p ∈ ps, match p with
    | Piece.lit s => '$' ∉ s
    | Piece.tok m => '$' ∉ m ∧ '}' ∉ m

/-- An id made by `createRid` on a registered node of the trie, from a path
whose parts hold no `.`. -/
def InsertedId (lib : GoLib) (root : Node) (reqParams : GoString → GoString) (k : GoString) :
    Prop :=
  ∃ (n : Node) (path : List GoString), Desc root n ∧ n.typ ≠ ResourceType.unset ∧
    (∀ s ∈ path, '.' ∉ s) ∧ createRid lib reqParams path n = Except.ok k

/-- Every key of `crs2` is a key of `crs` or an inserted id. -/
def KeysFrom (lib : GoLib) (root : Node) (reqParams : GoString → GoString) (crs crs2 : Crs) :
    Prop :=
  ∀ k ∈ crsKeys crs2, k ∈ crsKeys crs ∨ InsertedId lib root reqParams k

/-! ## Example endpoints for the reset-pattern containment -/

/-- A root model `item.$id` with a model below it for every key. -/
def itemCfg : ResourceCfg :=
  ResourceCfg.mk "model".toList "item.$id".toList [] []
    [ResourceCfg.mk "model".toList [] "$key".toList [] []]

/-- The endpoint state after registering `itemCfg` for the service `svc` with
the URL parameter `id`. -/
def itemState : EndpointState :=
  match addResource "svc".toList ["id".toList] itemCfg [] [] ⟨Node.empty, []⟩ with
  | Except.ok st => st
  | Except.error _ => ⟨Node.empty, []⟩

/-- A root model `root` with a model below it for every key. -/
def rootCfg : ResourceCfg :=
  ResourceCfg.mk "model".toList "root".toList [] []
    [ResourceCfg.mk "model".toList [] "$key".toList [] []]

/-- The endpoint state after registering `rootCfg` for the service `svc`
without URL parameters. -/
def rootState : EndpointState :=
  match addResource "svc".toList [] rootCfg [] [] ⟨Node.empty, []⟩ with
  | Except.ok st => st
  | Except.error _ => ⟨Node.empty, []⟩

/-! ## Registration (`addResource`, service.go): composed paths and reset tokens -/

/-- The statement `if r.Path != "" { if path == "" { path = r.Path } else { path = "." + r.Path } }`
of `addResource`: the path handed to `addPath` for a resource with path segment
`rPath` under a parent whose composed path is `path`. -/
def childPath (path rPath : GoString) : GoString :=
  if rPath ≠ [] then (if path = [] then rPath else ['.'] ++ rPath) else path

/-- The composed pattern of `addResource`. -/
def childPattern (pattern rPattern rPath : GoString) : GoString :=
  if rPattern ≠ [] then rPattern
  else if rPath ≠ [] then pattern ++ ['.'] ++ rPath else pattern

/-- The resource id `rid` of `addResource`. -/
def childRid (serviceName pattern : GoString) : GoString :=
  if pattern ≠ [] then serviceName ++ ['.'] ++ pattern else serviceName

/-- The path that the specification of registration asks for: the segment
appended to the parent path after a `.`. -/
def specChildPath (path rPath : GoString) : GoString :=
  if rPath ≠ [] then (if path = [] then rPath else path ++ ['.'] ++ rPath) else path

/-- A resource tree nested three levels deep: the root model `stations`, the
model `station` below it and the collection `transfers` below that. -/
def stationsCfg : ResourceCfg :=
  ResourceCfg.mk "model".toList "stations".toList [] []
    [ResourceCfg.mk "model".toList [] "station".toList []
      [ResourceCfg.mk "collection".toList [] "transfers".toList [] []]]

/-- The first two levels of `stationsCfg`. -/
def stationCfg : ResourceCfg :=
  ResourceCfg.mk "model".toList "stations".toList [] []
    [ResourceCfg.mk "model".toList [] "station".toList [] []]

/-- The token that the description of reset patterns gives for a token of a
resource id pattern: `$name` becomes the placeholder of `name` when `name` is a
URL parameter and `*` otherwise, any other token is kept. -/
def resetToken (urlParams : List GoString) (t : GoString) : GoString :=
  match t with
  | '$' :: name => if name ∈ urlParams then ['$', '{'] ++ name ++ ['}'] else ['*']
  | _ => t

/-- State of the parameter list while `addPath` walks the path, for the tokens
`pre` consumed so far: every path-typed entry carries the index of the token
`$name` it was bound at, every wildcard consumed is bound, and no wildcard
name was consumed twice. -/
def PathInv (pre : List GoString) (params : List PatternParam) : Prop :=
  (∀ (j : Nat) (p : PatternParam), params[j]? = some p → p.typ = ParamType.path →
    pre[p.idx]? = some ('$' :: p.name)) ∧
  (∀ w ∈ wildcardNames pre, ∃ p ∈ params, p.name = w ∧ p.typ = ParamType.path) ∧
  (wildcardNames pre).Nodup

/-! ## Notions for the statements about the decomposer -/

/-- The value is an object or an array (`valueTypeObject`, `valueTypeArray`);
every other value is primitive. -/
def Value.isComposite : Value → Bool
  | Value.obj _ => true
  | Value.arr _ => true
  | _ => false

/-- What the property loop of `traverseModel` does to the entry of key `k` in
the model it builds, for the property `(k, kv)`: without a schema node a
composite value leaves the entry as it was and a primitive value is stored;
with a schema node the entry is the reference returned by the recursive
traversal of `kv`. -/
def FieldStored (lib : GoLib) (reqParams : GoString → GoString)
    (path : List GoString) (n : Node) (k : GoString) (kv : Value)
    (before after : Option Entry) : Prop :=
  match nextNode n k with
  | none => if kv.isComposite = true then after = before else after = some (Entry.value kv)
  | some next =>
    ∃ (crsIn crsOut : Crs) (r : GoString),
      ((∃ fs, kv = Value.obj fs ∧
          traverseModel lib reqParams kv crsIn path next k = (crsOut, Except.ok r)) ∨
        (∃ es, kv = Value.arr es ∧
          traverseCollection lib reqParams kv crsIn path next k = (crsOut, Except.ok r))) ∧
      after = some (Entry.ref r)

/-- A trie with the root model `svc.m` and the model `svc.m.sub` at the path `sub`. -/
def subTrie : Node :=
  okNode (addPath (okNode (addPath Node.empty [] "svc.m".toList [] "model".toList []))
    "sub".toList "svc.m.sub".toList [] "model".toList [])

/-- An object with a primitive property, an object property that has a schema
node in `subTrie`, and an array property that has none. -/
def subFields : List (GoString × Value) :=
  [("a".toList, Value.num "1".toList), ("sub".toList, Value.obj []),
    ("x".toList, Value.arr [])]

/-- The node with its map of literal children replaced. -/
def Node.withNodes : Node → List (GoString × Node) → Node
  | Node.mk typ _ param pattern params ptyp idProp, nodes =>
    Node.mk typ nodes param pattern params ptyp idProp

/-- What the element loop of `traverseCollection` stores at the index `idx`
of the collection for the element `kv`: without a wildcard child `n.param`,
`nil` for a composite value and the value itself for a primitive one; with
it, the reference returned by the recursive traversal of `kv`. -/
def ElemStored (lib : GoLib) (reqParams : GoString → GoString)
    (path : List GoString) (n : Node) (idx : Nat) (kv : Value) (entry : Entry) : Prop :=
  match n.param with
  | none => if kv.isComposite = true then entry = Entry.null else entry = Entry.value kv
  | some next =>
    ∃ (crsIn crsOut : Crs) (r : GoString),
      ((∃ fs, kv = Value.obj fs ∧
          traverseModel lib reqParams kv crsIn path next (itoa idx) =
            (crsOut, Except.ok r)) ∨
        (∃ es, kv = Value.arr es ∧
          traverseCollection lib reqParams kv crsIn path next (itoa idx) =
            (crsOut, Except.ok r))) ∧
      entry = Entry.ref r

/-- A trie with the root collection `svc.list` and the model `svc.list.first`
registered at the literal path `0`. -/
def listTrie : Node :=
  okNode (addPath (okNode (addPath Node.empty [] "svc.list".toList [] "collection".toList []))
    "0".toList "svc.list.first".toList [] "model".toList [])

/-- The node registered at the path `0` of `listTrie`. -/
def firstNode : Node :=
  Node.mk ResourceType.model [] none "svc.list.first".toList [] PathType.default []

/-! ## Property-id decomposition: a collection with a wildcard model child -/

/-- The model that the property loop of `traverseModel` builds at a node
without children: every primitive property is stored, every object or array
is dropped. -/
def leafModel : List (GoString × Value) → List (GoString × Entry) → List (GoString × Entry)
  | [], model => model
  | (k, kv) :: rest, model =>
    if kv.isComposite = true then leafModel rest model
    else leafModel rest (mapSet model k (Entry.value kv))

/-- The path part that an object contributes through its property `p`: the
decoded string, or the raw text of the number; `none` when `p` is missing or
has another type. -/
def elemIdValue (lib : GoLib) (p : GoString)
    (fields : List (GoString × Value)) : Option GoString :=
  match mapGet fields p with
  | some (Value.str raw) => lib.unmarshal raw
  | some (Value.num raw) => some raw
  | _ => none

/-- A collection node whose wildcard child is a model that takes its path part
from the property `p`. -/
def PropertySchema (n child : Node) (p : GoString) : Prop :=
  n.typ = ResourceType.collection ∧ n.param = some child ∧
  child.typ = ResourceType.model ∧ child.ptyp = PathType.property ∧ child.idProp = p

/-- The element is an object whose property `p` gives the path part `s`, and
`rid` is the id made from the pattern of `child` for the path of the
collection followed by `s`. -/
def ElemRid (lib : GoLib) (reqParams : GoString → GoString) (cpath : List GoString)
    (child : Node) (p : GoString) (e : Value) (rid : GoString) : Prop :=
  ∃ fields s, e = Value.obj fields ∧ elemIdValue lib p fields = some s ∧
    createRid lib reqParams (cpath ++ [s]) child = Except.ok rid

/-- The element is an object whose property `p` gives the path part `s`, and
the property loop of `traverseModel` over the element, at `child` and below
the path of the collection followed by `s`, ends without error and returns the
model `m`. -/
def ElemModel (lib : GoLib) (reqParams : GoString → GoString) (cpath : List GoString)
    (child : Node) (p : GoString) (e : Value) (m : List (GoString × Entry)) : Prop :=
  ∃ fields s, e = Value.obj fields ∧ elemIdValue lib p fields = some s ∧
    (traverseFields lib reqParams fields [] (cpath ++ [s]) child []).2 = Except.ok m

/-- The entries of the cached-resource map that hold the models of the
elements, the one of the last element first. -/
def elemEntries (rids : List GoString) (models : List (List (GoString × Entry))) : Crs :=
  ((rids.zip models).map (fun x => (x.1, CachedResource.model x.2))).reverse

/-- The cached resources inserted for the elements of the array, in the order
of insertion (the last one first). -/
def propertyCrs : List Value → List GoString → Crs → Crs
  | Value.obj fields :: es, rid :: rids, crs =>
    propertyCrs es rids (mapSet crs rid (CachedResource.model (leafModel fields [])))
  | _, _, crs => crs

/-- A JSON string literal without escape sequences: the text between quotes. -/
def quoted (s : GoString) : GoString := Char.ofNat 34 :: s ++ [Char.ofNat 34]

/-- The decoding `json.Unmarshal(raw, &idstr)` for string literals without
escape sequences. -/
def unquote (raw : GoString) : Option GoString :=
  match raw with
  | c :: rest =>
    if c = Char.ofNat 34 ∧ rest.getLast? = some (Char.ofNat 34) then some rest.dropLast
    else none
  | [] => none

/-- A library for the examples: JSON strings are decoded by `unquote`, and a
call of `fmt.Sprintf` outside `sprintfPlain` returns the format. -/
def unquoteLib : GoLib := ⟨unquote, fun format _ => format⟩

/-- The schema of the property-id scenario: the root collection `svc.items`
and below it the wildcard model `svc.items.$id` with `idProp = id`. -/
def propTrie : Node :=
  okNode (addPath (okNode (addPath Node.empty [] "svc.items".toList [] "collection".toList []))
    "$id".toList "svc.items.$id".toList [] "model".toList "id".toList)

/-- The wildcard child of `propTrie`. -/
def propChild : Node :=
  Node.mk ResourceType.model [] none "svc.items.%s".toList
    [⟨ParamType.path, "id".toList, 0⟩] PathType.property "id".toList

/-- The response of the property-id scenario: two objects with the ids `a`
and `b`. -/
def propElems : List Value :=
  [Value.obj [("id".toList, Value.str (quoted "a".toList)), ("v".toList, Value.num "1".toList)],
   Value.obj [("id".toList, Value.str (quoted "b".toList)), ("v".toList, Value.num "2".toList)]]

/-- The schema `propTrie` with the model `svc.items.$id.sub` below the wildcard
model. -/
def propSubTrie : Node :=
  okNode (addPath propTrie "$id.sub".toList "svc.items.$id.sub".toList [] "model".toList [])

/-- The wildcard child of `propSubTrie`. -/
def propSubChild : Node :=
  Node.mk ResourceType.model
    [("sub".toList, Node.mk ResourceType.model [] none "svc.items.%s.sub".toList
      [⟨ParamType.path, "id".toList, 0⟩] PathType.default [])]
    none "svc.items.%s".toList [⟨ParamType.path, "id".toList, 0⟩] PathType.property "id".toList

/-- A response for `propSubTrie`: the first object has an object at `sub`. -/
def propSubElems : List Value :=
  [Value.obj [("id".toList, Value.str (quoted "a".toList)),
      ("sub".toList, Value.obj [("x".toList, Value.num "1".toList)])],
   Value.obj [("id".toList, Value.str (quoted "b".toList)), ("v".toList, Value.num "2".toList)]]

/-- A response for `propSubTrie`: one object with the id `a` and a number at
`sub`. -/
def propBadElems : List Value :=
  [Value.obj [("id".toList, Value.str (quoted "a".toList)), ("sub".toList, Value.num "5".toList)]]

/-! ## The trie after any `addPath` call, and the depth of registered nodes -/

/-- The token loop of `addPath` with the final checks and assignments, as
`addPathLoop`, returning the trie as the call leaves it also when it returns
an error: the nodes created on the way (`l.param = &node{}`,
`l.nodes[t] = n`) stay in the trie. -/
def addPathLoopTrie (typ : ResourceType) (parsedPattern idProp : GoString) (last : Int) :
    List GoString → Nat → Node → List PatternParam → PathType → Node × Option AddPathError
  | [], _, l, params, ptyp =>
    if l.typ ≠ ResourceType.unset then (l, some AddPathError.alreadyRegistered)
    else
      match firstUnset params with
      | some name => (l, some (AddPathError.missingPatternParameter name))
      | none => (l.register typ parsedPattern params ptyp idProp, none)
  | t :: ts, i, l, params, _ =>
    match t with
    | [] => (l, some AddPathError.invalidPath)
    | c :: name =>
      if c = '$' then
        if name = [] then (l, some AddPathError.invalidPath)
        else
          match patternParamsContain params name with
          | none => (l, some (AddPathError.pathParamNotInPattern name))
          | some j =>
            if (params.map PatternParam.typ).getD j ParamType.unset ≠ ParamType.unset then
              (l, some (AddPathError.coveredMoreThanOnce name))
            else
              match (if (i : Int) = last then lastWildcard l.typ typ idProp PathType.default
                     else Except.ok PathType.default) with
              | Except.error e => (l, some e)
              | Except.ok ptyp =>
                (l.setParam (addPathLoopTrie typ parsedPattern idProp last ts (i + 1)
                    (l.param.getD Node.empty) (setParamPath params j i) ptyp).1,
                  (addPathLoopTrie typ parsedPattern idProp last ts (i + 1)
                    (l.param.getD Node.empty) (setParamPath params j i) ptyp).2)
      else
        (l.setChild t (addPathLoopTrie typ parsedPattern idProp last ts (i + 1)
            ((mapGet l.nodes t).getD Node.empty) params PathType.default).1,
          (addPathLoopTrie typ parsedPattern idProp last ts (i + 1)
            ((mapGet l.nodes t).getD Node.empty) params PathType.default).2)

/-- Method `addPath` with the trie it leaves: the receiver after the call, and
the error if the call returned one. -/
def addPathTrie (rn : Node) (path pattern : GoString) (urlParams : List GoString)
    (typStr idProp : GoString) : Node × Option AddPathError :=
  match parseResourceType typStr with
  | none => (rn, some AddPathError.invalidResourceType)
  | some typ =>
    match parsePattern pattern with
    | Except.error e => (rn, some e)
    | Except.ok (parsedPattern, params) =>
      match markURLParams params urlParams with
      | Except.error e => (rn, some e)
      | Except.ok params =>
        addPathLoopTrie typ parsedPattern idProp (((tokensOf path).length : Int) - 1)
          (tokensOf path) 0 rn params PathType.root

/-- A trie built from the empty node by a sequence of `addPath` calls, each of
which may have succeeded or failed. -/
inductive Built : Node → Prop where
  | empty : Built Node.empty
  | step (rn : Node) (path pattern : GoString) (urlParams : List GoString)
      (typStr idProp : GoString) :
      Built rn → Built (addPathTrie rn path pattern urlParams typStr idProp).1

/-- Depth invariant of the trie below a node at depth `d`: a registered node
has every path-sourced parameter index below its depth and, below the root, a
`ptyp` other than root; and the children satisfy the same one level down. -/
inductive DepthOK : Nat → Node → Prop where
  | mk (d : Nat) (n : Node) :
      (n.typ ≠ ResourceType.unset →
        (∀ p ∈ n.params, p.typ = ParamType.path → p.idx < d) ∧
        (d ≠ 0 → n.ptyp ≠ PathType.root)) →
      (∀ c, n.param = some c → DepthOK (d + 1) c) →
      (∀ k c, mapGet n.nodes k = some c → DepthOK (d + 1) c) →
      DepthOK d n

/-- The result of a traversal step is not the run-time panic of an index out
of range. -/
def NoPanic {α : Type} (r : Crs × Except TraverseError α) : Prop :=
  r.2 ≠ Except.error TraverseError.indexOutOfRange

/-- The trie left by a failing call (the path `a.$x` has no registered parent
for its final wildcard) followed by the two registrations of the property-id
scenario. -/
def builtTrie : Node :=
  (addPathTrie
    (addPathTrie
      (addPathTrie Node.empty "a.$x".toList "svc.a.$x".toList [] "model".toList []).1
      [] "svc.items".toList [] "collection".toList []).1
    "$id".toList "svc.items.$id".toList [] "model".toList "id".toList).1

/-! ## Endpoint cache and refresher (`handleRefresh`, `getURL`, endpoint.go) -/


mutual
/-- Equality of two values is decidable (the comparison of `reflect.DeepEqual`). -/
def Value.decEq : (a b : Value) → Decidable (a = b)
  | Value.str a, b =>
    match b with
    | Value.str b =>
      if h : a = b then isTrue (by rw [h]) else isFalse (fun hc => h (by cases hc; rfl))
    | Value.num _ | Value.obj _ | Value.arr _ | Value.vtrue | Value.vfalse | Value.vnull =>
      isFalse (fun hc => by cases hc)
  | Value.num a, b =>
    match b with
    | Value.num b =>
      if h : a = b then isTrue (by rw [h]) else isFalse (fun hc => h (by cases hc; rfl))
    | Value.str _ | Value.obj _ | Value.arr _ | Value.vtrue | Value.vfalse | Value.vnull =>
      isFalse (fun hc => by cases hc)
  | Value.obj f, b =>
    match b with
    | Value.obj g =>
      match Value.decEqFields f g with
      | isTrue h => isTrue (by rw [h])
      | isFalse h => isFalse (fun hc => h (by cases hc; rfl))
    | Value.str _ | Value.num _ | Value.arr _ | Value.vtrue | Value.vfalse | Value.vnull =>
      isFalse (fun hc => by cases hc)
  | Value.arr x, b =>
    match b with
    | Value.arr y =>
      match Value.decEqList x y with
      | isTrue h => isTrue (by rw [h])
      | isFalse h => isFalse (fun hc => h (by cases hc; rfl))
    | Value.str _ | Value.num _ | Value.obj _ | Value.vtrue | Value.vfalse | Value.vnull =>
      isFalse (fun hc => by cases hc)
  | Value.vtrue, b =>
    match b with
    | Value.vtrue => isTrue rfl
    | Value.str _ | Value.num _ | Value.obj _ | Value.arr _ | Value.vfalse | Value.vnull =>
      isFalse (fun hc => by cases hc)
  | Value.vfalse, b =>
    match b with
    | Value.vfalse => isTrue rfl
    | Value.str _ | Value.num _ | Value.obj _ | Value.arr _ | Value.vtrue | Value.vnull =>
      isFalse (fun hc => by cases hc)
  | Value.vnull, b =>
    match b with
    | Value.vnull => isTrue rfl
    | Value.str _ | Value.num _ | Value.obj _ | Value.arr _ | Value.vtrue | Value.vfalse =>
      isFalse (fun hc => by cases hc)
/-- Equality of the entries of two objects is decidable. -/
def Value.decEqFields : (f g : List (GoString × Value)) → Decidable (f = g)
  | [], g =>
    match g with
    | [] => isTrue rfl
    | _ :: _ => isFalse (fun hc => by cases hc)
  | (k, v) :: r, g =>
    match g with
    | [] => isFalse (fun hc => by cases hc)
    | (k2, v2) :: r2 =>
      if hk : k = k2 then
        match Value.decEq v v2 with
        | isTrue hv =>
          match Value.decEqFields r r2 with
          | isTrue hr => isTrue (by rw [hk, hv, hr])
          | isFalse hr => isFalse (fun hc => hr (by cases hc; rfl))
        | isFalse hv => isFalse (fun hc => hv (by cases hc; rfl))
      else isFalse (fun hc => hk (by cases hc; rfl))
/-- Equality of the elements of two arrays is decidable. -/
def Value.decEqList : (x y : List Value) → Decidable (x = y)
  | [], y =>
    match y with
    | [] => isTrue rfl
    | _ :: _ => isFalse (fun hc => by cases hc)
  | v :: r, y =>
    match y with
    | [] => isFalse (fun hc => by cases hc)
    | v2 :: r2 =>
      match Value.decEq v v2 with
      | isTrue hv =>
        match Value.decEqList r r2 with
        | isTrue hr => isTrue (by rw [hv, hr])
        | isFalse hr => isFalse (fun hc => hr (by cases hc; rfl))
      | isFalse hv => isFalse (fun hc => hv (by cases hc; rfl))
end

instance : DecidableEq Value := Value.decEq

deriving instance DecidableEq for Entry
deriving instance DecidableEq for CachedResource



/-- The errors `*res.Error` that `getURL` stores: `res.ErrNotFound` and the
internal errors. -/
inductive ResError where
  | notFound
  | internal
  deriving DecidableEq, Repr

/-- Type `cachedResponse`. The map `reqParams` is read as a function: a
missing key gives the empty string. -/
structure CachedResponse where
  reloads : Int
  reqParams : GoString → GoString
  crs : Crs
  rerr : Option ResError

/-- What the HTTP request and the JSON decoding of `getURL` give: an error
(transport error, status 404, another non-2xx status, unreadable or invalid
body), or the decoded value. -/
inductive FetchResult where
  | failed (err : ResError)
  | body (v : Value)

/-- The fields of type `endpoint` that the refresher reads or writes. -/
structure Endpoint where
  urlParams : List GoString
  refreshCount : Int
  cachedURLs : List (GoString × CachedResponse)
  resetPatterns : List GoString
  node : Node

/-- The increment `x++` of a Go `int` on a 64-bit platform: the sum wraps
around at `2^63`. -/
def wrapInt (x : Int) : Int := (x + 2 ^ 63) % 2 ^ 64 - 2 ^ 63

/-- Method `(ep *endpoint).getURL(url, reqParams)` for the outcome `resp` of
its HTTP request. -/
def getURL (lib : GoLib) (ep : Endpoint)
    (reqParams : GoString → GoString) (resp : FetchResult) : CachedResponse :=
  match resp with
  | FetchResult.failed err => ⟨0, reqParams, [], some err⟩
  | FetchResult.body v =>
    match traverse lib reqParams ep.node v with
    | (_, Except.error _) => ⟨0, reqParams, [], some ResError.internal⟩
    | (crs, Except.ok _) => ⟨0, reqParams, crs, none⟩

/-- An event sent to the bus resource of an id: `r.ChangeEvent(ch)`,
`r.RemoveEvent(idx)` or `r.AddEvent(v, idx)`. -/
inductive BusEvent where
  | change (rid : GoString) (ch : List (GoString × Change Entry))
  | remove (rid : GoString) (idx : Int)
  | add (rid : GoString) (v : Entry) (idx : Int)

/-- Field `model` of a cached resource (`nil` for a collection). -/
def CachedResource.modelField : CachedResource → List (GoString × Entry)
  | CachedResource.model m => m
  | CachedResource.collection _ => []

/-- Field `collection` of a cached resource (`nil` for a model). -/
def CachedResource.collectionField : CachedResource → List Entry
  | CachedResource.model _ => []
  | CachedResource.collection c => c

/-- Function `updateResource(v, nv, r)`: the events sent to the resource `rid`. -/
def updateResource (rid : GoString) (v nv : CachedResource) : List BusEvent :=
  match v with
  | CachedResource.model a => [BusEvent.change rid (updateModel a nv.modelField)]
  | CachedResource.collection a =>
    ((updateCollection a nv.collectionField).getD []).map (fun ev =>
      match ev with
      | Event.remove idx => BusEvent.remove rid idx
      | Event.add v idx => BusEvent.add rid v idx)

/-- The endpoint with the map `cachedURLs` replaced. -/
def Endpoint.setCache (ep : Endpoint) (c : List (GoString × CachedResponse)) : Endpoint :=
  ⟨ep.urlParams, ep.refreshCount, c, ep.resetPatterns, ep.node⟩

/-- What a call of `handleRefresh` leaves: the endpoint, the argument of
`ep.s.res.Reset` if it was called, whether the deferred `ep.tq.Add(i)` ran,
and the events sent to the bus resources. -/
structure RefreshResult where
  ep : Endpoint
  reset : Option (List GoString)
  rearmed : Bool
  events : List BusEvent

/-- Method `(ep *endpoint).handleRefresh(url)` for the outcome `resp` that the
HTTP request of this cycle has if it is made. The lookup `ep.s.res.Resource(rid)`
is taken to succeed. -/
def handleRefresh (lib : GoLib) (ep : Endpoint) (url : GoString)
    (resp : FetchResult) : RefreshResult :=
  match mapGet ep.cachedURLs url with
  | none => ⟨ep, none, false, []⟩
  | some cresp =>
    if cresp.rerr ≠ none ∨ wrapInt (cresp.reloads + 1) > ep.refreshCount then
      ⟨ep.setCache (mapDelete ep.cachedURLs url),
        some (ep.resetPatterns.map (fun rp => expandURL rp ep.urlParams cresp.reqParams)),
        false, []⟩
    else
      if (getURL lib ep cresp.reqParams resp).rerr ≠ none then
        ⟨ep.setCache (mapSet ep.cachedURLs url
            ⟨wrapInt (cresp.reloads + 1), cresp.reqParams, cresp.crs, cresp.rerr⟩),
          none, true, []⟩
      else
        ⟨ep.setCache (mapSet ep.cachedURLs url
            ⟨wrapInt (cresp.reloads + 1), cresp.reqParams,
              (getURL lib ep cresp.reqParams resp).crs, cresp.rerr⟩),
          none, true,
          (mapKeys (getURL lib ep cresp.reqParams resp).crs).flatMap (fun rid =>
            match mapGet cresp.crs rid,
                mapGet (getURL lib ep cresp.reqParams resp).crs rid with
            | some v, some nv => updateResource rid v nv
            | _, _ => [])⟩

/-- The endpoint after the refresh cycles of `url` whose HTTP requests have the
outcomes `resps`, in this order. -/
def refreshCycles (lib : GoLib) (url : GoString) :
    Endpoint → List FetchResult → Endpoint
  | ep, [] => ep
  | ep, resp :: rest => refreshCycles lib url (handleRefresh lib ep url resp).ep rest

/-- An endpoint with the refresh count `n`, one reset pattern and one cached
URL whose entry was just created without error. -/
def freshEndpoint (n : Int) : Endpoint :=
  ⟨["id".toList], n, [("http://x/7".toList, ⟨0, fun _ => "7".toList, [], none⟩)],
    ["svc.item.${id}".toList], Node.empty⟩

/-! ## Collection diff with bounds checks

A second embedding of `updateCollection` (endpoint.go) in which every index
expression and every slice expression carries the check that the Go run time
makes; a failed check ends the run with `Fault.indexOutOfRange`. Loops take an
iteration bound and end with `Fault.outOfFuel` when it is reached. The counters
`s`, `m`, `n`, `i`, `j` are only lowered under a guard that makes them positive
and are natural numbers; the values `m = i - 1` and `n = j - 1` of the backtrack
loop are integers. As in the first embedding the arithmetic on indexes is exact:
every index is below the number `(m + 1) * (n + 1)` of cells of the matrix. -/

/-- Ways in which a run of the checked embedding ends without a result. -/
inductive Fault where
  | indexOutOfRange
  | outOfFuel
  deriving DecidableEq, Repr

section CollectionChecked

variable {α : Type} [DecidableEq α]

/-- Index expression `l[k]`: a run-time panic unless `0 <= k < len(l)`. -/
def indexAt {β : Type} (l : List β) (k : Int) : Except Fault β :=
  if 0 ≤ k then
    match l[k.toNat]? with
    | some x => Except.ok x
    | none => Except.error Fault.indexOutOfRange
  else Except.error Fault.indexOutOfRange

/-- Assignment `l[k] = v`: a run-time panic unless `0 <= k < len(l)`. -/
def assignAt {β : Type} (l : List β) (k : Int) (v : β) : Except Fault (List β) :=
  if 0 ≤ k ∧ k < (l.length : Int) then Except.ok (l.set k.toNat v)
  else Except.error Fault.indexOutOfRange

/-- Slice expression `a[s:m]`: a run-time panic unless `0 <= s <= m <= cap(a)`;
the capacity is taken to be the length, the least it can be. -/
def sliceChecked (a : List α) (s m : Int) : Except Fault (List α) :=
  if 0 ≤ s ∧ s ≤ m ∧ m ≤ (a.length : Int) then Except.ok (slice a s.toNat m.toNat)
  else Except.error Fault.indexOutOfRange

/-- Call `reflect.DeepEqual(a[i], b[j])` with both index expressions checked. -/
def deepEqualChecked (a : List α) (i : Int) (b : List α) (j : Int) : Except Fault Bool :=
  match indexAt a i with
  | Except.error e => Except.error e
  | Except.ok x =>
    match indexAt b j with
    | Except.error e => Except.error e
    | Except.ok y => Except.ok (decide (x = y))

/-- Loop `for s < m && s < n && reflect.DeepEqual(a[s], b[s]) { s++ }`; the
elements are only read when `s < m && s < n`. -/
def trimStartChecked (a b : List α) (m n : Nat) : Nat → Nat → Except Fault Nat
  | 0, _ => Except.error Fault.outOfFuel
  | fuel + 1, s =>
    if s < m ∧ s < n then
      match deepEqualChecked a (s : Int) b (s : Int) with
      | Except.error e => Except.error e
      | Except.ok true => trimStartChecked a b m n fuel (s + 1)
      | Except.ok false => Except.ok s
    else Except.ok s

/-- Loop `for s < m && s < n && reflect.DeepEqual(a[m-1], b[n-1]) { m--; n-- }`. -/
def trimEndChecked (a b : List α) (s : Nat) : Nat → Nat → Nat → Except Fault (Nat × Nat)
  | 0, _, _ => Except.error Fault.outOfFuel
  | fuel + 1, m, n =>
    if s < m ∧ s < n then
      match deepEqualChecked a ((m : Int) - 1) b ((n : Int) - 1) with
      | Except.error e => Except.error e
      | Except.ok true => trimEndChecked a b s fuel (m - 1) (n - 1)
      | Except.ok false => Except.ok (m, n)
    else Except.ok (m, n)

/-- Body of the inner matrix loop with every read and write of `aa`, `bb` and
`c` checked. -/
def lcsCellChecked (aa bb : List α) (w i j : Nat) (c : List Nat) : Except Fault (List Nat) :=
  match deepEqualChecked aa (i : Int) bb (j : Int) with
  | Except.error e => Except.error e
  | Except.ok true =>
    match indexAt c ((i : Int) + (w : Int) * (j : Int)) with
    | Except.error e => Except.error e
    | Except.ok v => assignAt c (((i : Int) + 1) + (w : Int) * ((j : Int) + 1)) (v + 1)
  | Except.ok false =>
    match indexAt c (((i : Int) + 1) + (w : Int) * (j : Int)) with
    | Except.error e => Except.error e
    | Except.ok v1 =>
      match indexAt c ((i : Int) + (w : Int) * ((j : Int) + 1)) with
      | Except.error e => Except.error e
      | Except.ok v2 =>
        if v2 > v1 then assignAt c (((i : Int) + 1) + (w : Int) * ((j : Int) + 1)) v2
        else assignAt c (((i : Int) + 1) + (w : Int) * ((j : Int) + 1)) v1

/-- A `for` loop over the elements of `l` whose body may fail. -/
def forEachChecked {σ β : Type} (f : σ → β → Except Fault σ) : List β → σ → Except Fault σ
  | [], st => Except.ok st
  | x :: rest, st =>
    match f st x with
    | Except.error e => Except.error e
    | Except.ok st2 => forEachChecked f rest st2

/-- Matrix creation `c := make([]int, w*(n+1))` and the two nested `for` loops
over `i < m` and `j < n`. -/
def lcsTableChecked (aa bb : List α) (m n : Nat) : Except Fault (List Nat) :=
  forEachChecked
    (fun c i => forEachChecked (fun c j => lcsCellChecked aa bb (m + 1) i j c) (List.range n) c)
    (List.range m) (List.replicate ((m + 1) * (n + 1)) 0)

/-- State of the checked backtrack loop; a recorded add is `[3]int{n, idx, rm}`. -/
structure BackStateChecked (α : Type) where
  rm : Int
  adds : List (Int × Int × Int)
  events : List (Event α)

/-- Guard `i > 0 && j > 0 && reflect.DeepEqual(aa[m], bb[n])`: the elements are
read only when `i > 0 && j > 0`. -/
def guardMatch (aa bb : List α) (i j : Nat) : Except Fault Bool :=
  if i > 0 ∧ j > 0 then deepEqualChecked aa ((i : Int) - 1) bb ((j : Int) - 1)
  else Except.ok false

/-- Guard `j > 0 && (i == 0 || c[i+w*n] >= c[m+w*j])`: the matrix is read only
when `j > 0` and `i != 0`. -/
def guardAdd (c : List Nat) (w i j : Nat) : Except Fault Bool :=
  if j > 0 then
    if i = 0 then Except.ok true
    else
      match indexAt c ((i : Int) + (w : Int) * ((j : Int) - 1)) with
      | Except.error e => Except.error e
      | Except.ok x =>
        match indexAt c (((i : Int) - 1) + (w : Int) * (j : Int)) with
        | Except.error e => Except.error e
        | Except.ok y => Except.ok (decide (x ≥ y))
  else Except.ok false

/-- Guard `i > 0 && (j == 0 || c[i+w*n] < c[m+w*j])`: the matrix is read only
when `i > 0` and `j != 0`. -/
def guardRemove (c : List Nat) (w i j : Nat) : Except Fault Bool :=
  if i > 0 then
    if j = 0 then Except.ok true
    else
      match indexAt c ((i : Int) + (w : Int) * ((j : Int) - 1)) with
      | Except.error e => Except.error e
      | Except.ok x =>
        match indexAt c (((i : Int) - 1) + (w : Int) * (j : Int)) with
        | Except.error e => Except.error e
        | Except.ok y => Except.ok (decide (x < y))
  else Except.ok false

/-- The labelled `Loop:` with its `switch`: the cases are tried in order and a
guard is evaluated only when the ones before it are false. -/
def backtrackChecked (aa bb : List α) (c : List Nat) (w : Nat) :
    Nat → Int → Nat → Nat → Int → List (Int × Int × Int) → List (Event α) →
      Except Fault (BackStateChecked α)
  | 0, _, _, _, _, _, _ => Except.error Fault.outOfFuel
  | fuel + 1, idx, i, j, rm, adds, evs =>
    match guardMatch aa bb i j with
    | Except.error e => Except.error e
    | Except.ok true => backtrackChecked aa bb c w fuel (idx - 1) (i - 1) (j - 1) rm adds evs
    | Except.ok false =>
      match guardAdd c w i j with
      | Except.error e => Except.error e
      | Except.ok true =>
        backtrackChecked aa bb c w fuel idx i (j - 1) rm (adds ++ [((j : Int) - 1, idx, rm)]) evs
      | Except.ok false =>
        match guardRemove c w i j with
        | Except.error e => Except.error e
        | Except.ok true =>
          backtrackChecked aa bb c w fuel (idx - 1) (i - 1) j (rm + 1) adds
            (evs ++ [Event.remove (idx - 1)])
        | Except.ok false => Except.ok ⟨rm, adds, evs⟩

/-- The final loop `for i := l; i >= 0; i-- { add := adds[i]; r.AddEvent(bb[add[0]], ...) }`
where the last argument is `i + 1`; `adds[i]` and `bb[add[0]]` are checked. -/
def emitAddsChecked (bb : List α) (adds : List (Int × Int × Int)) (rm l : Int) :
    Nat → Except Fault (List (Event α))
  | 0 => Except.ok []
  | i + 1 =>
    match indexAt adds (i : Int) with
    | Except.error e => Except.error e
    | Except.ok add =>
      match indexAt bb add.1 with
      | Except.error e => Except.error e
      | Except.ok v =>
        match emitAddsChecked bb adds rm l i with
        | Except.error e => Except.error e
        | Except.ok rest => Except.ok (Event.add v (add.2.1 - rm + add.2.2 + l - (i : Int)) :: rest)

/-- Function `updateCollection(a, b, r)` with every index and slice expression
checked, including the read `c[w*(n+1)-1]` for `addCount`. -/
def updateCollectionChecked (a b : List α) : Except Fault (List (Event α)) :=
  match trimStartChecked a b a.length b.length (a.length + 1) 0 with
  | Except.error e => Except.error e
  | Except.ok s =>
    if s = a.length ∧ s = b.length then Except.ok []
    else
      match trimEndChecked a b s (a.length + 1) a.length b.length with
      | Except.error e => Except.error e
      | Except.ok (m0, n0) =>
        match (if s > 0 ∨ m0 < a.length then sliceChecked a (s : Int) (m0 : Int) else Except.ok a),
            (if s > 0 ∨ n0 < b.length then sliceChecked b (s : Int) (n0 : Int) else Except.ok b) with
        | Except.error e, _ => Except.error e
        | Except.ok _, Except.error e => Except.error e
        | Except.ok aa, Except.ok bb =>
          let m := if s > 0 ∨ m0 < a.length then m0 - s else m0
          let n := if s > 0 ∨ n0 < b.length then n0 - s else n0
          let w := m + 1
          match lcsTableChecked aa bb m n with
          | Except.error e => Except.error e
          | Except.ok c =>
            match indexAt c ((w : Int) * ((n : Int) + 1) - 1) with
            | Except.error e => Except.error e
            | Except.ok _ =>
              match backtrackChecked aa bb c w (m + n + 1) ((m : Int) + (s : Int)) m n 0 [] [] with
              | Except.error e => Except.error e
              | Except.ok st =>
                match emitAddsChecked bb st.adds st.rm ((st.adds.length : Int) - 1)
                    st.adds.length with
                | Except.error e => Except.error e
                | Except.ok addEvents => Except.ok (st.events ++ addEvents)

end CollectionChecked

/-! ## Nodes of the trie by position, and the registration they carry -/

/-- The node reached from `n` along a list of steps: the step `none` follows
the wildcard child `n.param`, the step `some t` the literal child
`n.nodes[t]`. Every node of the trie is reached by exactly one list. -/
def descend : Node → List (Option GoString) → Option Node
  | n, [] => some n
  | n, none :: rest =>
    match n.param with
    | none => none
    | some c => descend c rest
  | n, some t :: rest =>
    match mapGet n.nodes t with
    | none => none
    | some c => descend c rest

/-- The step that `addPath` takes for a path token: the wildcard child for a
token that starts with `$`, else the literal child of this name. -/
def stepOf (t : GoString) : Option GoString :=
  match t with
  | '$' :: _ => none
  | _ => some t

/-- The node `m` carries the same registration as `n`: the five fields that
the last assignments of `addPath` write are equal. -/
def SameRegistration (n m : Node) : Prop :=
  m.typ = n.typ ∧ m.pattern = n.pattern ∧ m.params = n.params ∧ m.ptyp = n.ptyp ∧
    m.idProp = n.idProp

/-- The errors of the checks that `addPath` makes before the check
`l.typ != resourceTypeUnset`: the `switch typStr`, `parsePattern`, the loop
over `urlParams`, and the loop over the path tokens. -/
def AddPathError.beforeRegistered : AddPathError → Bool
  | AddPathError.invalidResourceType => true
  | AddPathError.invalidPattern => true
  | AddPathError.invalidPath => true
  | AddPathError.urlParamNotInPattern _ => true
  | AddPathError.pathParamNotInPattern _ => true
  | AddPathError.coveredMoreThanOnce _ => true
  | AddPathError.idPropOnlyOnModel => true
  | AddPathError.noParentResource => true
  | AddPathError.alreadyRegistered => false
  | AddPathError.missingPatternParameter _ => false

/-- A trie whose root is registered as the collection `svc.items` and has the
registered wildcard child `svc.items.$id`. -/
def itemsTrie : Node :=
  Node.mk ResourceType.collection []
    (some (Node.mk ResourceType.model [] none "svc.items.%s".toList
      [⟨ParamType.path, "id".toList, 0⟩] PathType.default []))
    "svc.items".toList [] PathType.root []

/-! ## Duplicate ids in the property-id scenario -/

/-- A response with two objects that have the same id `a`. -/
def dupElems : List Value :=
  [Value.obj [("id".toList, Value.str (quoted "a".toList)), ("v".toList, Value.num "1".toList)],
   Value.obj [("id".toList, Value.str (quoted "a".toList)), ("v".toList, Value.num "2".toList)]]

/-- A response with three objects that have the same id `a`. -/
def tripleElems : List Value :=
  [Value.obj [("id".toList, Value.str (quoted "a".toList)), ("v".toList, Value.num "1".toList)],
   Value.obj [("id".toList, Value.str (quoted "a".toList)), ("v".toList, Value.num "2".toList)],
   Value.obj [("id".toList, Value.str (quoted "a".toList)), ("v".toList, Value.num "3".toList)]]

/-- The collection node `station.transfers.transfer` of the schema of
`TestAddPath`. -/
def transferList : Node :=
  (nodeAt (okNode testTrie5) (tokensOf "station.transfers.transfer".toList)).getD Node.empty

/-- The wildcard child of `transferList`: the model registered with
`idProp = id`. -/
def transferChild : Node := transferList.param.getD Node.empty

/-- A binding of the URL parameters of `TestAddPath`. -/
def testBinding : GoString → GoString := fun name =>
  if name = "version".toList then "v1".toList else "s7".toList

/-- The id of the collection of transfers under `testBinding`. -/
def transferListRid : GoString := "v1.stations.s7.station.transfers.transfer".toList

/-- The id of the transfer `a` under `testBinding`. -/
def transferRid : GoString := "v1.stations.s7.station.transfers.transfer.a".toList

/-- A response for the schema of `TestAddPath`: two transfers with the id `a`. -/
def transferValue : Value :=
  Value.obj [("station".toList, Value.obj [("transfers".toList,
    Value.obj [("transfer".toList, Value.arr dupElems)])])]

/-- A response for `propSubTrie`: two objects with the id `b.sub`, and after
them an object with the id `b` and an object at `sub`. -/
def shadowElems : List Value :=
  [Value.obj [("id".toList, Value.str (quoted "b.sub".toList)),
      ("v".toList, Value.num "1".toList)],
   Value.obj [("id".toList, Value.str (quoted "b.sub".toList)),
      ("v".toList, Value.num "2".toList)],
   Value.obj [("id".toList, Value.str (quoted "b".toList)),
      ("sub".toList, Value.obj [("x".toList, Value.num "3".toList)])]]

/-- The schema of a root collection `svc.items` whose wildcard model takes the
explicit pattern `svc.$id`, with `idProp = id`. -/
def flatTrie : Node :=
  okNode (addPath (okNode (addPath Node.empty [] "svc.items".toList [] "collection".toList []))
    "$id".toList "svc.$id".toList [] "model".toList "id".toList)

/-- The wildcard child of `flatTrie`. -/
def flatChild : Node :=
  Node.mk ResourceType.model [] none "svc.%s".toList
    [⟨ParamType.path, "id".toList, 0⟩] PathType.property "id".toList

/-- A response with two objects that have the same id `items`. -/
def flatElems : List Value :=
  [Value.obj [("id".toList, Value.str (quoted "items".toList)),
      ("v".toList, Value.num "1".toList)],
   Value.obj [("id".toList, Value.str (quoted "items".toList)),
      ("v".toList, Value.num "2".toList)]]

/-! ## The path parts that the decomposer takes from a response -/

/-- The node `next` appends the path part that it is given for the value `x`:
`traverseModel` does when `next.ptyp` is default, `traverseCollection` unless
it is root, each after the check of `next.typ`. -/
def appendsPathPart (next : Node) (x : Value) : Bool :=
  match x with
  | Value.obj _ => decide (next.typ = ResourceType.model ∧ next.ptyp = PathType.default)
  | Value.arr _ => decide (next.typ = ResourceType.collection ∧ next.ptyp ≠ PathType.root)
  | _ => false

/-- No path part that the decomposition of a value at a node takes from the
value holds a `.`: the id-property value (decoded string, or number text) of
an object decomposed at a property-id model, and the key of a property that is
decomposed at a child node which appends it; and the same below, for the
properties of a model and the elements of a collection that have a schema
node. Keys and values that the decomposer does not put into a path are not
restricted. -/
inductive PathPartsSafe (lib : GoLib) : Node → Value → Prop where
  | obj (n : Node) (fields : List (GoString × Value)) :
      (n.typ = ResourceType.model → n.ptyp = PathType.property →
        ∀ raw s, mapGet fields n.idProp = some (Value.str raw) → lib.unmarshal raw = some s →
          '.' ∉ s) →
      (n.typ = ResourceType.model → n.ptyp = PathType.property →
        ∀ raw, mapGet fields n.idProp = some (Value.num raw) → '.' ∉ raw) →
      (n.typ = ResourceType.model → ∀ k x next, (k, x) ∈ fields → nextNode n k = some next →
        appendsPathPart next x = true → '.' ∉ k) →
      (n.typ = ResourceType.model → ∀ k x next, (k, x) ∈ fields → nextNode n k = some next →
        PathPartsSafe lib next x) →
      PathPartsSafe lib n (Value.obj fields)
  | arr (n : Node) (elems : List Value) :
      (n.typ = ResourceType.collection → ∀ x next, x ∈ elems → n.param = some next →
        PathPartsSafe lib next x) →
      PathPartsSafe lib n (Value.arr elems)
  | prim (n : Node) (v : Value) : v.isComposite = false → PathPartsSafe lib n v

/-! ## Theorems: collection diff -/

section CollectionTheorems

variable {α : Type} [DecidableEq α]

theorem deepEqualAt_iff (a : List α) (i : Nat) (b : List α) (j : Nat) :
    deepEqualAt a i b j = true ↔ ∃ x, a[i]? = some x ∧ b[j]? = some x := by
  unfold deepEqualAt
  cases ha : a[i]? <;> cases hb : b[j]? <;> simp [eq_comm]
  
theorem take_succ_of_getElem? {l : List α} {i : Nat} {x : α} (h : l[i]? = some x) :
    l.take (i + 1) = l.take i ++ [x] := by
  rw [List.take_succ, h]; rfl

theorem lt_length_of_getElem? {l : List α} {i : Nat} {x : α} (h : l[i]? = some x) :
    i < l.length := by
  by_contra hc
  rw [List.getElem?_eq_none (by omega)] at h
  cases h

theorem drop_of_getElem? {l : List α} {i : Nat} {x : α} (h : l[i]? = some x) :
    l.drop i = x :: l.drop (i + 1) := by
  have hi : i < l.length := lt_length_of_getElem? h
  rw [List.getElem?_eq_getElem hi] at h
  cases h
  exact List.drop_eq_getElem_cons hi

theorem trimStart_spec (a b : List α) (m n : Nat) :
    ∀ (fuel s : Nat), s ≤ m → s ≤ n → a.take s = b.take s →
      s ≤ trimStart a b m n fuel s ∧ trimStart a b m n fuel s ≤ m ∧ trimStart a b m n fuel s ≤ n ∧
      a.take (trimStart a b m n fuel s) = b.take (trimStart a b m n fuel s) := by
  intro fuel
  induction fuel with
  | zero => intro s h1 h2 h3; simp [trimStart, h1, h2, h3]
  | succ k ih =>
    intro s h1 h2 h3
    unfold trimStart
    split
    · rename_i hc
      obtain ⟨c1, c2, c3⟩ := hc
      obtain ⟨x, hx, hy⟩ := (deepEqualAt_iff a s b s).1 c3
      have := ih (s + 1) (by omega) (by omega)
        (by rw [take_succ_of_getElem? hx, take_succ_of_getElem? hy, h3])
      exact ⟨by omega, this.2.1, this.2.2.1, this.2.2.2⟩
    · exact ⟨le_refl _, h1, h2, h3⟩

theorem trimEnd_spec (a b : List α) (s : Nat) :
    ∀ (fuel m n : Nat), s ≤ m → s ≤ n → m ≤ a.length → n ≤ b.length → a.drop m = b.drop n →
      s ≤ (trimEnd a b s fuel m n).1 ∧ s ≤ (trimEnd a b s fuel m n).2 ∧
      (trimEnd a b s fuel m n).1 ≤ a.length ∧ (trimEnd a b s fuel m n).2 ≤ b.length ∧
      a.drop (trimEnd a b s fuel m n).1 = b.drop (trimEnd a b s fuel m n).2 := by
  intro fuel
  induction fuel with
  | zero => intro m n h1 h2 h3 h4 h5; simp [trimEnd, h1, h2, h3, h4, h5]
  | succ k ih =>
    intro m n h1 h2 h3 h4 h5
    unfold trimEnd
    split
    · rename_i hc
      obtain ⟨c1, c2, c3⟩ := hc
      obtain ⟨x, hx, hy⟩ := (deepEqualAt_iff a (m - 1) b (n - 1)).1 c3
      apply ih (m - 1) (n - 1) (by omega) (by omega) (by omega) (by omega)
      rw [drop_of_getElem? hx, drop_of_getElem? hy]
      have e1 : m - 1 + 1 = m := by omega
      have e2 : n - 1 + 1 = n := by omega
      rw [e1, e2, h5]
    · exact ⟨h1, h2, h3, h4, h5⟩

theorem replay_append (e1 e2 : List (Event α)) (l : List α) :
    replay (e1 ++ e2) l = (replay e1 l).bind (replay e2) := by
  induction e1 generalizing l with
  | nil => simp [replay]
  | cons e es ih =>
    simp only [List.cons_append, replay]
    cases applyEvent l e with
    | none => simp
    | some l2 => simp [ih]

theorem addsEvents_snoc (bb : List α) (rm : Int) (ys : List (Nat × Int × Int)) (y : Nat × Int × Int) :
    ∀ off : Int, addsEvents bb rm off (ys ++ [y]) =
      match bb[y.1]?, addsEvents bb rm (off + 1) ys with
      | some v, some es => some (Event.add v (y.2.1 - rm + y.2.2 + off) :: es)
      | _, _ => none := by
  induction ys with
  | nil => 
    intro off
    simp only [List.nil_append, addsEvents]
    cases bb[y.1]? <;> simp
  | cons x xs ih =>
    intro off
    simp only [List.cons_append, addsEvents, List.append_eq]
    rw [ih]
    cases h1 : bb[y.1]? <;> cases h2 : addsEvents bb rm (off + 1) xs <;> cases h3 : bb[x.1]? <;>
      simp <;> omega

theorem emitAdds_eq (bb : List α) (adds : List (Nat × Int × Int)) (rm l : Int) :
    ∀ k : Nat, k ≤ adds.length →
      emitAdds bb adds rm l k = addsEvents bb rm (l + 1 - (k : Int)) (adds.take k) := by
  intro k
  induction k with
  | zero => intro _; simp [emitAdds, addsEvents]
  | succ k ih =>
    intro hk
    have hlt : k < adds.length := by omega
    obtain ⟨y, hget⟩ : ∃ y, adds[k]? = some y := ⟨adds[k], List.getElem?_eq_getElem hlt⟩
    rw [take_succ_of_getElem? hget, addsEvents_snoc]
    unfold emitAdds
    rw [hget, ih (by omega)]
    have e : l + 1 - ((k + 1 : Nat) : Int) + 1 = l + 1 - (k : Int) := by push_cast; omega
    rw [e]
    cases h1 : bb[y.1]? with
    | none => simp [h1]
    | some v =>
      cases h2 : addsEvents bb rm (l + 1 - (k : Int)) (List.take k adds) with
      | none => simp [h1]
      | some es =>
        simp only [h1, Option.some.injEq, List.cons.injEq, and_true, Event.add.injEq, true_and]
        push_cast
        omega

theorem applyEvent_remove_mid (P X : List α) (x : α) (idx : Int) (h : idx = (P.length : Int)) :
    applyEvent (P ++ x :: X) (Event.remove idx) = some (P ++ X) := by
  subst h
  simp only [applyEvent, Int.toNat_ofNat]
  rw [if_pos (by simp)]
  simp

theorem applyEvent_add_mid (P X : List α) (v : α) (idx : Int) (h : idx = (P.length : Int)) :
    applyEvent (P ++ X) (Event.add v idx) = some (P ++ v :: X) := by
  subst h
  simp only [applyEvent, Int.toNat_ofNat]
  rw [if_pos (by simp)]
  simp

theorem backtrack_spec (aa bb : List α) (c : List Nat) (w : Nat) :
    ∀ (fuel : Nat) (idx : Int) (i j : Nat) (rm : Int) (adds : List (Nat × Int × Int))
      (evs : List (Event α)), i + j < fuel → i ≤ aa.length → j ≤ bb.length →
      ∃ (rm2 : Int) (adds2 : List (Nat × Int × Int)) (evs2 es : List (Event α)),
        backtrack aa bb c w fuel idx i j rm adds evs = some ⟨rm2, adds ++ adds2, evs ++ evs2⟩ ∧
        addsEvents bb rm2 0 adds2 = some es ∧
        rm2 = rm + (evs2.length : Int) ∧
        (adds2.length : Int) - (evs2.length : Int) = (j : Int) - (i : Int) ∧
        ∀ (P X : List α), idx = (P.length : Int) + (i : Int) →
          replay (evs2 ++ es) (P ++ aa.take i ++ X) = some (P ++ bb.take j ++ X) := by
  intro fuel
  induction fuel with
  | zero => intro idx i j rm adds evs h; omega
  | succ k ih =>
    intro idx i j rm adds evs hf hi hj
    unfold backtrack
    simp only []
    split
    · -- matching elements
      rename_i hc
      obtain ⟨c1, c2, c3⟩ := hc
      obtain ⟨x, hx, hy⟩ := (deepEqualAt_iff aa (i - 1) bb (j - 1)).1 c3
      obtain ⟨rm2, adds2, evs2, es, h1, h2, h3, h4, h5⟩ :=
        ih (idx - 1) (i - 1) (j - 1) rm adds evs (by omega) (by omega) (by omega)
      refine ⟨rm2, adds2, evs2, es, h1, h2, h3, by omega, ?_⟩
      intro P X hidx
      have e1 : i - 1 + 1 = i := by omega
      have e2 : j - 1 + 1 = j := by omega
      have t1 := take_succ_of_getElem? hx
      have t2 := take_succ_of_getElem? hy
      rw [e1] at t1
      rw [e2] at t2
      have := h5 P (x :: X) (by omega)
      rw [t1, t2]
      simpa using this
    · split
      · -- add
        rename_i hc1 hc
        obtain ⟨c1, c2⟩ := hc
        obtain ⟨rm2, adds2, evs2, es, h1, h2, h3, h4, h5⟩ :=
          ih idx i (j - 1) rm (adds ++ [(j - 1, idx, rm)]) evs (by omega) (by omega) (by omega)
        have hjlt : j - 1 < bb.length := by omega
        obtain ⟨v, hget⟩ : ∃ v, bb[j - 1]? = some v := ⟨bb[j - 1], List.getElem?_eq_getElem hjlt⟩
        refine ⟨rm2, (j - 1, idx, rm) :: adds2, evs2,
          es ++ [Event.add v (idx - rm2 + rm + 0 + (adds2.length : Int))], ?_, ?_, h3, ?_, ?_⟩
        · rw [h1]; simp
        · simp only [addsEvents, h2, hget]
        · simp only [List.length_cons]; push_cast; omega
        · intro P X hidx
          have e2 : j - 1 + 1 = j := by omega
          have t2 := take_succ_of_getElem? hget
          rw [e2] at t2
          rw [← List.append_assoc, replay_append, h5 P X hidx]
          simp only [Option.some_bind, replay]
          rw [applyEvent_add_mid (P ++ List.take (j - 1) bb) X v _ (by simp; omega)]
          simp [t2]
      · split
        · -- remove
          rename_i hc1 hc2 hc
          obtain ⟨c1, c2⟩ := hc
          obtain ⟨rm2, adds2, evs2, es, h1, h2, h3, h4, h5⟩ :=
            ih (idx - 1) (i - 1) j (rm + 1) adds (evs ++ [Event.remove (idx - 1)])
              (by omega) (by omega) (by omega)
          have hilt : i - 1 < aa.length := by omega
          obtain ⟨x, hget⟩ : ∃ x, aa[i - 1]? = some x := ⟨aa[i - 1], List.getElem?_eq_getElem hilt⟩
          refine ⟨rm2, adds2, Event.remove (idx - 1) :: evs2, es, ?_, h2, ?_, ?_, ?_⟩
          · rw [h1]; simp
          · simp only [List.length_cons]; push_cast; omega
          · simp only [List.length_cons]; push_cast; omega
          · intro P X hidx
            have e1 : i - 1 + 1 = i := by omega
            have t1 := take_succ_of_getElem? hget
            rw [e1] at t1
            simp only [List.cons_append, replay]
            have e3 : P ++ List.take i aa ++ X = (P ++ List.take (i - 1) aa) ++ x :: X := by
              rw [t1]; simp
            rw [e3, applyEvent_remove_mid (P ++ List.take (i - 1) aa) X x _ (by simp; omega)]
            exact h5 P X (by omega)
        · -- stop
          rename_i hc1 hc2 hc3
          have hi0 : i = 0 := by
            by_contra h
            apply hc3
            refine ⟨by omega, ?_⟩
            by_contra h2
            push_neg at h2
            apply hc2
            exact ⟨by omega, Or.inr (by omega)⟩
          have hj0 : j = 0 := by
            by_contra h
            apply hc2
            exact ⟨by omega, Or.inl hi0⟩
          subst hi0 hj0
          refine ⟨rm, [], [], [], by simp, by simp [addsEvents], by simp, by simp, ?_⟩
          intro P X _
          simp [replay]

theorem backtrack_core (aa bb P S : List α) (c : List Nat) (w : Nat) :
    ∃ (st : BackState α) (es : List (Event α)),
      backtrack aa bb c w (aa.length + bb.length + 1) ((aa.length : Int) + (P.length : Int))
        aa.length bb.length 0 [] [] = some st ∧
      emitAdds bb st.adds st.rm ((st.adds.length : Int) - 1) st.adds.length = some es ∧
      replay (st.events ++ es) (P ++ aa ++ S) = some (P ++ bb ++ S) := by
  obtain ⟨rm2, adds2, evs2, es, h1, h2, _, _, h5⟩ :=
    backtrack_spec aa bb c w (aa.length + bb.length + 1) ((aa.length : Int) + (P.length : Int))
      aa.length bb.length 0 [] [] (by omega) (le_refl _) (le_refl _)
  refine ⟨_, es, h1, ?_, ?_⟩
  · simp only [List.nil_append]
    rw [emitAdds_eq _ _ _ _ _ (le_refl _)]
    simp only [List.take_length]
    have e : (adds2.length : Int) - 1 + 1 - (adds2.length : Int) = 0 := by omega
    rw [e, h2]
  · have := h5 P S (by omega)
    simpa using this

theorem slice_window (a : List α) (s m : Nat) (hs : s ≤ m) (hm : m ≤ a.length) :
    a = a.take s ++ slice a s m ++ a.drop m ∧ (slice a s m).length = m - s := by
  constructor
  · unfold slice
    conv_lhs => rw [← List.take_append_drop m a]
    congr 1
    conv_lhs => rw [← List.take_append_drop s (a.take m)]
    rw [List.take_take, min_eq_left hs]
  · unfold slice
    simp
    omega

theorem updateCollection_window (a b : List α) :
    (a = b ∧ updateCollection a b = some []) ∨
    ∃ (P S aa bb : List α), a = P ++ aa ++ S ∧ b = P ++ bb ++ S ∧
      updateCollection a b =
        match backtrack aa bb (lcsTable aa bb aa.length bb.length) (aa.length + 1)
            (aa.length + bb.length + 1) ((aa.length : Int) + (P.length : Int))
            aa.length bb.length 0 [] [] with
        | none => none
        | some st =>
          match emitAdds bb st.adds st.rm ((st.adds.length : Int) - 1) st.adds.length with
          | none => none
          | some addEvents => some (st.events ++ addEvents) := by
  obtain ⟨_, h2, h3, h4⟩ := trimStart_spec a b a.length b.length a.length 0
    (Nat.zero_le _) (Nat.zero_le _) (by simp)
  generalize hs : trimStart a b a.length b.length a.length 0 = s at h2 h3 h4
  by_cases hc : s = a.length ∧ s = b.length
  · left
    constructor
    · have := h4
      rw [hc.1] at this
      nth_rewrite 2 [← hc.1] at this
      rw [hc.2] at this
      simpa using this
    · unfold updateCollection
      simp only [hs]
      rw [if_pos hc]
  · right
    obtain ⟨g1, g2, g3, g4, g5⟩ := trimEnd_spec a b s a.length a.length b.length h2 h3
      (le_refl _) (le_refl _) (by simp)
    generalize hmn : trimEnd a b s a.length a.length b.length = mn at g1 g2 g3 g4 g5
    obtain ⟨w1, l1⟩ := slice_window a s mn.1 g1 g3
    obtain ⟨w2, l2⟩ := slice_window b s mn.2 g2 g4
    have eaa : (if s > 0 ∨ mn.1 < a.length then slice a s mn.1 else a) = slice a s mn.1 := by
      split
      · rfl
      · rename_i h
        push_neg at h
        have e1 : s = 0 := by omega
        have e2 : mn.1 = a.length := by omega
        rw [e1, e2]
        simp [slice]
    have ebb : (if s > 0 ∨ mn.2 < b.length then slice b s mn.2 else b) = slice b s mn.2 := by
      split
      · rfl
      · rename_i h
        push_neg at h
        have e1 : s = 0 := by omega
        have e2 : mn.2 = b.length := by omega
        rw [e1, e2]
        simp [slice]
    have em : (if s > 0 ∨ mn.1 < a.length then mn.1 - s else mn.1) = (slice a s mn.1).length := by
      rw [l1]; split <;> omega
    have en : (if s > 0 ∨ mn.2 < b.length then mn.2 - s else mn.2) = (slice b s mn.2).length := by
      rw [l2]; split <;> omega
    refine ⟨a.take s, a.drop mn.1, slice a s mn.1, slice b s mn.2, w1, ?_, ?_⟩
    · rw [h4, g5]; exact w2
    · unfold updateCollection
      simp only [hs, hmn]
      rw [if_neg hc, eaa, ebb, em, en]
      have e : (((slice a s mn.1).length : Nat) : Int) + ((s : Nat) : Int)
          = ((slice a s mn.1).length : Int) + ((List.take s a).length : Int) := by
        simp; omega
      rw [e]

/-- C1: `updateCollection a b` returns, and replaying the events it sends, in the order they
are sent, against `a` succeeds (every index is in range when its event is applied) and
yields exactly `b`. -/
theorem updateCollection_roundtrip (a b : List α) :
    ∃ evs, updateCollection a b = some evs ∧ replay evs a = some b := by
  rcases updateCollection_window a b with ⟨hab, h⟩ | ⟨P, S, aa, bb, ha, hb, h⟩
  · exact ⟨[], h, by rw [hab]; rfl⟩
  · obtain ⟨st, es, h1, h2, h3⟩ :=
      backtrack_core aa bb P S (lcsTable aa bb aa.length bb.length) (aa.length + 1)
    refine ⟨st.events ++ es, ?_, ?_⟩
    · rw [h, h1]; simp only []; rw [h2]
    · rw [ha, hb]; exact h3

theorem IsLCSLen.unique {a b : List α} {k1 k2 : Nat} (h1 : IsLCSLen a b k1) (h2 : IsLCSLen a b k2) :
    k1 = k2 := by
  obtain ⟨⟨l1, a1, b1, e1⟩, u1⟩ := h1
  obtain ⟨⟨l2, a2, b2, e2⟩, u2⟩ := h2
  have := u1 l2 a2 b2
  have := u2 l1 a1 b1
  omega

theorem isLCSLen_nil_left (b : List α) : IsLCSLen [] b 0 := by
  refine ⟨⟨[], List.Sublist.refl _, List.nil_sublist _, rfl⟩, ?_⟩
  intro l hl _
  rw [List.sublist_nil.1 hl]; simp

theorem isLCSLen_nil_right (a : List α) : IsLCSLen a [] 0 := by
  refine ⟨⟨[], List.nil_sublist _, List.Sublist.refl _, rfl⟩, ?_⟩
  intro l _ hl
  rw [List.sublist_nil.1 hl]; simp

theorem isLCSLen_reverse {a b : List α} {k : Nat} (h : IsLCSLen a b k) :
    IsLCSLen a.reverse b.reverse k := by
  obtain ⟨⟨l, ha, hb, e⟩, u⟩ := h
  refine ⟨⟨l.reverse, List.reverse_sublist.2 ha, List.reverse_sublist.2 hb, by simpa using e⟩, ?_⟩
  intro l2 h1 h2
  have := u l2.reverse (by simpa using List.reverse_sublist.2 h1) (by simpa using List.reverse_sublist.2 h2)
  simpa using this

theorem isLCSLen_cons_cons {a b : List α} {k : Nat} (x : α) (h : IsLCSLen a b k) :
    IsLCSLen (x :: a) (x :: b) (k + 1) := by
  obtain ⟨⟨l, ha, hb, e⟩, u⟩ := h
  refine ⟨⟨x :: l, ha.cons₂ x, hb.cons₂ x, by simp [e]⟩, ?_⟩
  intro l2 h1 h2
  cases l2 with
  | nil => simp
  | cons y ys =>
    have t1 : ys.Sublist a := by
      cases h1 with
      | cons _ h => exact (List.sublist_cons_self y ys).trans h
      | cons₂ _ h => exact h
    have t2 : ys.Sublist b := by
      cases h2 with
      | cons _ h => exact (List.sublist_cons_self y ys).trans h
      | cons₂ _ h => exact h
    have := u ys t1 t2
    simp; omega

theorem isLCSLen_cons_ne {a b : List α} {k1 k2 : Nat} {x y : α} (hxy : x ≠ y)
    (h1 : IsLCSLen (x :: a) b k1) (h2 : IsLCSLen a (y :: b) k2) :
    IsLCSLen (x :: a) (y :: b) (max k1 k2) := by
  obtain ⟨⟨l1, a1, b1, e1⟩, u1⟩ := h1
  obtain ⟨⟨l2, a2, b2, e2⟩, u2⟩ := h2
  constructor
  · rcases le_total k1 k2 with hle | hle
    · exact ⟨l2, a2.cons x, b2, by rw [e2, max_eq_right hle]⟩
    · exact ⟨l1, a1, b1.cons y, by rw [e1, max_eq_left hle]⟩
  · intro l ha hb
    cases ha with
    | cons _ h =>
      have := u2 l h hb
      exact le_trans this (le_max_right _ _)
    | cons₂ _ h =>
      rename_i l3
      cases hb with
      | cons _ h3 =>
        have := u1 (x :: l3) (h.cons₂ x) h3
        exact le_trans this (le_max_left _ _)
      | cons₂ _ h3 => exact absurd rfl hxy

theorem isLCSLen_snoc_snoc {a b : List α} {k : Nat} (x : α) (h : IsLCSLen a b k) :
    IsLCSLen (a ++ [x]) (b ++ [x]) (k + 1) := by
  have := isLCSLen_reverse (isLCSLen_cons_cons x (isLCSLen_reverse h))
  simpa using this

theorem isLCSLen_snoc_ne {a b : List α} {k1 k2 : Nat} {x y : α} (hxy : x ≠ y)
    (h1 : IsLCSLen (a ++ [x]) b k1) (h2 : IsLCSLen a (b ++ [y]) k2) :
    IsLCSLen (a ++ [x]) (b ++ [y]) (max k1 k2) := by
  have r1 := isLCSLen_reverse h1
  have r2 := isLCSLen_reverse h2
  simp only [List.reverse_append, List.reverse_cons, List.reverse_nil, List.nil_append,
    List.singleton_append] at r1 r2
  have := isLCSLen_reverse (isLCSLen_cons_ne hxy r1 r2)
  simpa using this

theorem isLCSLen_window (P S : List α) {aa bb : List α} {k : Nat} (h : IsLCSLen aa bb k) :
    IsLCSLen (P ++ aa ++ S) (P ++ bb ++ S) (P.length + k + S.length) := by
  have hS : ∀ S : List α, ∀ aa bb : List α, ∀ k, IsLCSLen aa bb k →
      IsLCSLen (aa ++ S) (bb ++ S) (k + S.length) := by
    intro S
    induction S with
    | nil => intro aa bb k h; simpa using h
    | cons x xs ih =>
      intro aa bb k h
      have := ih (aa ++ [x]) (bb ++ [x]) (k + 1) (isLCSLen_snoc_snoc x h)
      simp only [List.append_assoc, List.singleton_append, List.length_cons] at this ⊢
      have e : k + (xs.length + 1) = k + 1 + xs.length := by omega
      rw [e]; exact this
  have hP : ∀ P : List α, ∀ aa bb : List α, ∀ k, IsLCSLen aa bb k →
      IsLCSLen (P ++ aa) (P ++ bb) (P.length + k) := by
    intro P
    induction P with
    | nil => intro aa bb k h; simpa using h
    | cons x xs ih =>
      intro aa bb k h
      have := isLCSLen_cons_cons x (ih aa bb k h)
      simp only [List.cons_append, List.length_cons]
      have e : xs.length + 1 + k = xs.length + k + 1 := by omega
      rw [e]; exact this
  exact hS S _ _ _ (hP P _ _ _ h)

theorem flat_index_inj {w i j i2 j2 : Nat} (hi : i < w) (hi2 : i2 < w)
    (h : i + w * j = i2 + w * j2) : i = i2 ∧ j = j2 := by
  have h1 : (i + w * j) % w = i := by
    rw [Nat.add_mul_mod_self_left]; exact Nat.mod_eq_of_lt hi
  have h2 : (i2 + w * j2) % w = i2 := by
    rw [Nat.add_mul_mod_self_left]; exact Nat.mod_eq_of_lt hi2
  have e : i = i2 := by rw [← h1, ← h2, h]
  subst e
  refine ⟨rfl, ?_⟩
  have : w * j = w * j2 := by omega
  exact Nat.eq_of_mul_eq_mul_left (by omega) this

theorem flat_index_lt {w n i j : Nat} (hi : i < w) (hj : j ≤ n) : i + w * j < w * (n + 1) := by
  have := Nat.mul_le_mul_left w hj
  rw [Nat.mul_succ]
  omega

theorem getD_set_flat (c : List Nat) (k k2 v : Nat) (hk : k < c.length) :
    (c.set k v).getD k2 0 = if k2 = k then v else c.getD k2 0 := by
  simp only [List.getD_eq_getElem?_getD, List.getElem?_set]
  by_cases h : k = k2
  · subst h; simp [hk]
  · have h2 : ¬ k2 = k := fun e => h e.symm
    simp [h, h2]

theorem lcsCell_length (aa bb : List α) (w i j : Nat) (c : List Nat) :
    (lcsCell aa bb w i j c).length = c.length := by
  unfold lcsCell
  split
  · simp
  · simp only []; split <;> simp

theorem lcsCell_getD (aa bb : List α) (w i j : Nat) (c : List Nat) (k : Nat)
    (hk : (i + 1) + w * (j + 1) < c.length) :
    (lcsCell aa bb w i j c).getD k 0 =
      if k = (i + 1) + w * (j + 1) then
        (if deepEqualAt aa i bb j = true then c.getD (i + w * j) 0 + 1
         else max (c.getD ((i + 1) + w * j) 0) (c.getD (i + w * (j + 1)) 0))
      else c.getD k 0 := by
  unfold lcsCell
  split
  · rw [getD_set_flat _ _ _ _ hk]
  · simp only []
    split
    · rename_i h
      rw [getD_set_flat _ _ _ _ hk, max_eq_right (le_of_lt h)]
    · rename_i h
      rw [getD_set_flat _ _ _ _ hk, max_eq_left (by omega)]

theorem tableInv_step (aa bb : List α) (c : List Nat) (I J : Nat) (hI : I < aa.length)
    (hJ : J < bb.length) (h : TableInv aa bb c I J) :
    TableInv aa bb (lcsCell aa bb (aa.length + 1) I J c) I (J + 1) := by
  obtain ⟨hlen, hc⟩ := h
  have hk : (I + 1) + (aa.length + 1) * (J + 1) < c.length := by
    rw [hlen]
    have := @flat_index_lt (aa.length + 1) bb.length (I + 1) (J + 1) (by omega) (by omega)
    rw [Nat.mul_comm] at this
    rw [Nat.mul_comm]
    exact this
  refine ⟨by rw [lcsCell_length, hlen], ?_⟩
  intro i j hi hj hfill
  rw [lcsCell_getD _ _ _ _ _ _ _ hk]
  split
  · rename_i heq
    obtain ⟨e1, e2⟩ := flat_index_inj (by omega) (by omega) heq
    subst e1 e2
    obtain ⟨x, hx⟩ : ∃ x, aa[I]? = some x := ⟨aa[I], List.getElem?_eq_getElem hI⟩
    obtain ⟨y, hy⟩ : ∃ y, bb[J]? = some y := ⟨bb[J], List.getElem?_eq_getElem hJ⟩
    rw [take_succ_of_getElem? hx, take_succ_of_getElem? hy]
    split
    · rename_i hd
      obtain ⟨z, hz1, hz2⟩ := (deepEqualAt_iff aa I bb J).1 hd
      rw [hx] at hz1
      rw [hy] at hz2
      cases hz1
      cases hz2
      exact isLCSLen_snoc_snoc x (hc I J (by omega) (by omega) (Or.inl (le_refl _)))
    · rename_i hd
      have hxy : x ≠ y := by
        intro e
        apply hd
        exact (deepEqualAt_iff aa I bb J).2 ⟨x, hx, by rw [hy, e]⟩
      have h1 := hc (I + 1) J (by omega) (by omega) (Or.inr (Or.inr ⟨rfl, le_refl _⟩))
      have h2 := hc I (J + 1) (by omega) (by omega) (Or.inl (le_refl _))
      rw [take_succ_of_getElem? hx] at h1
      rw [take_succ_of_getElem? hy] at h2
      exact isLCSLen_snoc_ne hxy h1 h2
  · rename_i hne
    apply hc i j hi hj
    rcases hfill with h1 | h1 | ⟨h1, h2⟩
    · exact Or.inl h1
    · exact Or.inr (Or.inl h1)
    · refine Or.inr (Or.inr ⟨h1, ?_⟩)
      by_contra hcon
      have : j = J + 1 := by omega
      subst this
      subst h1
      exact hne rfl

theorem tableInv_row (aa bb : List α) (I : Nat) (hI : I < aa.length) :
    ∀ (J : Nat) (c : List Nat), J ≤ bb.length → TableInv aa bb c I 0 →
      TableInv aa bb
        ((List.range J).foldl (fun c j => lcsCell aa bb (aa.length + 1) I j c) c) I J := by
  intro J
  induction J with
  | zero => intro c _ h; simpa using h
  | succ J ih =>
    intro c hJ h
    rw [List.range_succ, List.foldl_append]
    simp only [List.foldl_cons, List.foldl_nil]
    exact tableInv_step aa bb _ I J hI (by omega) (ih c (by omega) h)

theorem tableInv_rows (aa bb : List α) :
    ∀ (I : Nat), I ≤ aa.length →
      TableInv aa bb
        ((List.range I).foldl
          (fun c i => (List.range bb.length).foldl
            (fun c j => lcsCell aa bb (aa.length + 1) i j c) c)
          (List.replicate ((aa.length + 1) * (bb.length + 1)) 0)) I 0 := by
  intro I
  induction I with
  | zero =>
    intro _
    refine ⟨by simp, ?_⟩
    intro i j hi hj hfill
    have hz : (List.replicate ((aa.length + 1) * (bb.length + 1)) 0).getD
        (i + (aa.length + 1) * j) 0 = 0 := by
      simp only [List.getD_eq_getElem?_getD, List.getElem?_replicate]
      split <;> rfl
    simp only [List.range_zero, List.foldl_nil]
    rw [hz]
    rcases hfill with h1 | h1 | ⟨h1, h2⟩
    · have : i = 0 := by omega
      subst this
      exact isLCSLen_nil_left _
    · subst h1
      exact isLCSLen_nil_right _
    · have : j = 0 := by omega
      subst this
      exact isLCSLen_nil_right _
  | succ I ih =>
    intro hI
    rw [List.range_succ, List.foldl_append]
    simp only [List.foldl_cons, List.foldl_nil]
    have h := tableInv_row aa bb I (by omega) bb.length _ (le_refl _) (ih (by omega))
    refine ⟨h.1, ?_⟩
    intro i j hi hj hfill
    apply h.2 i j hi hj
    rcases hfill with h1 | h1 | ⟨h1, h2⟩
    · by_cases hle : i ≤ I
      · exact Or.inl hle
      · exact Or.inr (Or.inr ⟨by omega, hj⟩)
    · exact Or.inr (Or.inl h1)
    · have : j = 0 := by omega
      exact Or.inr (Or.inl this)

theorem lcsTable_correct (aa bb : List α) (i j : Nat) (hi : i ≤ aa.length) (hj : j ≤ bb.length) :
    IsLCSLen (aa.take i) (bb.take j)
      ((lcsTable aa bb aa.length bb.length).getD (i + (aa.length + 1) * j) 0) :=
  (tableInv_rows aa bb aa.length (le_refl _)).2 i j hi hj (Or.inl hi)

theorem emitAdds_length (bb : List α) (adds : List (Nat × Int × Int)) (rm l : Int) :
    ∀ (k : Nat) (es : List (Event α)), emitAdds bb adds rm l k = some es → es.length = k := by
  intro k
  induction k with
  | zero => intro es h; simp [emitAdds] at h; subst h; rfl
  | succ k ih =>
    intro es h
    unfold emitAdds at h
    split at h
    · cases h
    · split at h
      · cases h
      · split at h
        · cases h
        · rename_i rest hrest
          cases h
          simp [ih rest hrest]

theorem backtrack_count (aa bb : List α) (c : List Nat)
    (hc : ∀ i j : Nat, i ≤ aa.length → j ≤ bb.length →
      IsLCSLen (aa.take i) (bb.take j) (c.getD (i + (aa.length + 1) * j) 0)) :
    ∀ (fuel : Nat) (idx : Int) (i j : Nat) (rm : Int) (adds : List (Nat × Int × Int))
      (evs : List (Event α)) (st : BackState α) (k : Nat), i ≤ aa.length → j ≤ bb.length →
      backtrack aa bb c (aa.length + 1) fuel idx i j rm adds evs = some st →
      IsLCSLen (aa.take i) (bb.take j) k →
      st.adds.length + st.events.length + 2 * k = adds.length + evs.length + i + j := by
  intro fuel
  induction fuel with
  | zero => intro idx i j rm adds evs st k _ _ h; simp [backtrack] at h
  | succ f ih =>
    intro idx i j rm adds evs st k hi hj h hk
    unfold backtrack at h
    simp only [] at h
    split at h
    · rename_i hcond
      obtain ⟨c1, c2, c3⟩ := hcond
      obtain ⟨x, hx, hy⟩ := (deepEqualAt_iff aa (i - 1) bb (j - 1)).1 c3
      have e1 : i - 1 + 1 = i := by omega
      have e2 : j - 1 + 1 = j := by omega
      have t1 := take_succ_of_getElem? hx
      have t2 := take_succ_of_getElem? hy
      rw [e1] at t1
      rw [e2] at t2
      have h0 := hc (i - 1) (j - 1) (by omega) (by omega)
      have h1 := isLCSLen_snoc_snoc x h0
      rw [← t1, ← t2] at h1
      have := IsLCSLen.unique hk h1
      have := ih _ _ _ _ _ _ _ _ (by omega) (by omega) h h0
      omega
    · rename_i hn1
      split at h
      · rename_i hcond
        obtain ⟨c1, c2⟩ := hcond
        have h0 := hc i (j - 1) hi (by omega)
        have hkk : k = c.getD (i + (aa.length + 1) * (j - 1)) 0 := by
          rcases Nat.eq_zero_or_pos i with hi0 | hipos
          · subst hi0
            have a1 := IsLCSLen.unique hk (isLCSLen_nil_left _)
            have a2 := IsLCSLen.unique h0 (isLCSLen_nil_left _)
            omega
          · have c2b : c.getD (i + (aa.length + 1) * (j - 1)) 0 ≥ c.getD (i - 1 + (aa.length + 1) * j) 0 := by
              rcases c2 with c2 | c2
              · omega
              · exact c2
            obtain ⟨x, hx⟩ : ∃ x, aa[i - 1]? = some x :=
              ⟨aa[i - 1], List.getElem?_eq_getElem (by omega)⟩
            obtain ⟨y, hy⟩ : ∃ y, bb[j - 1]? = some y :=
              ⟨bb[j - 1], List.getElem?_eq_getElem (by omega)⟩
            have hxy : x ≠ y := by
              intro e
              apply hn1
              exact ⟨hipos, c1, (deepEqualAt_iff aa (i - 1) bb (j - 1)).2 ⟨x, hx, by rw [hy, e]⟩⟩
            have e1 : i - 1 + 1 = i := by omega
            have e2 : j - 1 + 1 = j := by omega
            have t1 := take_succ_of_getElem? hx
            have t2 := take_succ_of_getElem? hy
            rw [e1] at t1
            rw [e2] at t2
            have g1 := hc i (j - 1) hi (by omega)
            have g2 := hc (i - 1) j (by omega) hj
            rw [t1] at g1
            rw [t2] at g2
            have g3 := isLCSLen_snoc_ne hxy g1 g2
            rw [← t1, ← t2] at g3
            have := IsLCSLen.unique hk g3
            rw [this]
            exact max_eq_left c2b
        have := ih _ _ _ _ _ _ _ _ hi (by omega) h h0
        simp only [List.length_append, List.length_singleton] at this
        omega
      · rename_i hn2
        split at h
        · rename_i hcond
          obtain ⟨c1, c2⟩ := hcond
          have h0 := hc (i - 1) j (by omega) hj
          have hkk : k = c.getD (i - 1 + (aa.length + 1) * j) 0 := by
            rcases Nat.eq_zero_or_pos j with hj0 | hjpos
            · subst hj0
              have a1 := IsLCSLen.unique hk (isLCSLen_nil_right _)
              have a2 := IsLCSLen.unique h0 (isLCSLen_nil_right _)
              omega
            · have c2b : c.getD (i + (aa.length + 1) * (j - 1)) 0 < c.getD (i - 1 + (aa.length + 1) * j) 0 := by
                rcases c2 with c2 | c2
                · omega
                · exact c2
              obtain ⟨x, hx⟩ : ∃ x, aa[i - 1]? = some x :=
                ⟨aa[i - 1], List.getElem?_eq_getElem (by omega)⟩
              obtain ⟨y, hy⟩ : ∃ y, bb[j - 1]? = some y :=
                ⟨bb[j - 1], List.getElem?_eq_getElem (by omega)⟩
              have hxy : x ≠ y := by
                intro e
                apply hn1
                exact ⟨c1, hjpos, (deepEqualAt_iff aa (i - 1) bb (j - 1)).2 ⟨x, hx, by rw [hy, e]⟩⟩
              have e1 : i - 1 + 1 = i := by omega
              have e2 : j - 1 + 1 = j := by omega
              have t1 := take_succ_of_getElem? hx
              have t2 := take_succ_of_getElem? hy
              rw [e1] at t1
              rw [e2] at t2
              have g1 := hc i (j - 1) hi (by omega)
              have g2 := hc (i - 1) j (by omega) hj
              rw [t1] at g1
              rw [t2] at g2
              have g3 := isLCSLen_snoc_ne hxy g1 g2
              rw [← t1, ← t2] at g3
              have := IsLCSLen.unique hk g3
              rw [this]
              exact max_eq_right (le_of_lt c2b)
          have := ih _ _ _ _ _ _ _ _ (by omega) hj h h0
          simp only [List.length_append, List.length_singleton] at this
          omega
        · rename_i hn3
          have hi0 : i = 0 := by
            by_contra hh
            apply hn3
            refine ⟨by omega, ?_⟩
            by_contra h2
            push_neg at h2
            apply hn2
            exact ⟨by omega, Or.inr (by omega)⟩
          have hj0 : j = 0 := by
            by_contra hh
            apply hn2
            exact ⟨by omega, Or.inl hi0⟩
          subst hi0 hj0
          cases h
          have := IsLCSLen.unique hk (isLCSLen_nil_left _)
          simp
          omega

/-- C3: the number of events sent by `updateCollection a b` plus twice the length of a
longest common subsequence `l` of `a` and `b` equals `len(a) + len(b)`. -/
theorem updateCollection_event_count (a b : List α) :
    ∃ (evs : List (Event α)) (l : List α), updateCollection a b = some evs ∧
      l.Sublist a ∧ l.Sublist b ∧ (∀ l2 : List α, l2.Sublist a → l2.Sublist b → l2.length ≤ l.length) ∧
      evs.length + 2 * l.length = a.length + b.length := by
  rcases updateCollection_window a b with ⟨hab, h⟩ | ⟨P, S, aa, bb, ha, hb, h⟩
  · subst hab
    exact ⟨[], a, h, List.Sublist.refl _, List.Sublist.refl _, fun l2 h2 _ => h2.length_le,
      by simp; omega⟩
  · obtain ⟨st, es, h1, h2, _⟩ :=
      backtrack_core aa bb P S (lcsTable aa bb aa.length bb.length) (aa.length + 1)
    have hcount := backtrack_count aa bb _ (lcsTable_correct aa bb) _ _ _ _ _ _ _ st _
      (le_refl _) (le_refl _) h1 (lcsTable_correct aa bb aa.length bb.length (le_refl _) (le_refl _))
    have hes := emitAdds_length _ _ _ _ _ _ h2
    have hw := isLCSLen_window P S
      (lcsTable_correct aa bb aa.length bb.length (le_refl _) (le_refl _))
    rw [List.take_length, List.take_length, ← ha, ← hb] at hw
    obtain ⟨⟨l, la, lb, le⟩, lu⟩ := hw
    refine ⟨st.events ++ es, l, ?_, la, lb, ?_, ?_⟩
    · rw [h, h1]; simp only []; rw [h2]
    · intro l2 h3 h4; rw [le]; exact lu l2 h3 h4
    · rw [le, ha, hb]
      simp only [List.length_append, List.length_nil] at hcount ⊢
      omega

end CollectionTheorems

/-! ## Theorems: model diff -/

section ModelTheorems

variable {κ V W : Type} [DecidableEq κ] [DecidableEq V]

theorem mapGet_mapSet (m : List (κ × V)) (k k2 : κ) (v : V) :
    mapGet (mapSet m k v) k2 = if k = k2 then some v else mapGet m k2 := by
  simp [mapSet, mapGet]

theorem mapGet_mapDelete (m : List (κ × V)) (k k2 : κ) :
    mapGet (mapDelete m k) k2 = if k = k2 then none else mapGet m k2 := by
  induction m with
  | nil => simp [mapDelete, mapGet]
  | cons kv rest ih =>
    obtain ⟨k3, v⟩ := kv
    unfold mapDelete at ih ⊢
    by_cases h : k3 = k
    · subst h
      simp only [List.filter_cons, ne_eq, not_true_eq_false, decide_False, Bool.false_eq_true,
        if_false, mapGet]
      rw [ih]
      by_cases h2 : k3 = k2 <;> simp [h2]
    · simp only [List.filter_cons, ne_eq, h, not_false_eq_true, decide_True, if_true, mapGet]
      rw [ih]
      by_cases h2 : k3 = k2
      · subst h2
        have : ¬ k = k3 := fun e => h e.symm
        simp [this]
      · simp [h2]

theorem mem_mapKeys (m : List (κ × V)) (k : κ) : k ∈ mapKeys m ↔ mapGet m k ≠ none := by
  unfold mapKeys
  rw [List.mem_dedup]
  induction m with
  | nil => simp [mapGet]
  | cons kv rest ih =>
    obtain ⟨k3, v⟩ := kv
    simp only [List.map_cons, List.mem_cons, mapGet]
    by_cases h : k3 = k
    · subst h; simp
    · have : ¬ k = k3 := fun e => h e.symm
      simp [h, this, ih]

theorem mapKeys_nodup (m : List (κ × V)) : (mapKeys m).Nodup := List.nodup_dedup _

/-- A loop over distinct keys whose body changes only the entry of the
visited key. -/
theorem foldl_keys_get {M : Type} (get : M → κ → Option W) (step : M → κ → M)
    (F : κ → Option W → Option W)
    (hstep : ∀ m k k2, get (step m k) k2 = if k = k2 then F k (get m k) else get m k2) :
    ∀ (ks : List κ) (m : M) (k2 : κ), ks.Nodup →
      get (ks.foldl step m) k2 = if k2 ∈ ks then F k2 (get m k2) else get m k2 := by
  intro ks
  induction ks with
  | nil => intro m k2 _; simp
  | cons k rest ih =>
    intro m k2 hnd
    rw [List.nodup_cons] at hnd
    simp only [List.foldl_cons]
    rw [ih (step m k) k2 hnd.2, hstep]
    by_cases h : k = k2
    · subst h
      simp [hnd.1]
    · have : ¬ k2 = k := fun e => h e.symm
      simp [h, this]

/-- The entry of key `k` in the change map built by `updateModel`. -/
theorem updateModel_get (a b : List (κ × V)) (k : κ) :
    mapGet (updateModel a b) k =
      match mapGet b k with
      | none => if mapGet a k = none then none else some Change.delete
      | some v => if mapGet a k = some v then none else some (Change.set v) := by
  have h1 : ∀ (m : List (κ × Change V)) (k1 k2 : κ),
      mapGet ((fun ch k => if (mapGet b k).isNone then mapSet ch k Change.delete else ch) m k1) k2 =
        if k1 = k2 then
          (fun k (old : Option (Change V)) =>
            if (mapGet b k).isNone then some Change.delete else old) k1 (mapGet m k1)
        else mapGet m k2 := by
    intro m k1 k2
    by_cases hb : (mapGet b k1).isNone
    · simp only [hb, if_true, mapGet_mapSet]
    · simp only [hb, Bool.false_eq_true, if_false]
      by_cases h : k1 = k2
      · subst h; simp
      · simp [h]
  have h2 : ∀ (m : List (κ × Change V)) (k1 k2 : κ),
      mapGet ((fun ch k =>
        match mapGet b k with
        | none => ch
        | some v => if mapGet a k = some v then ch else mapSet ch k (Change.set v)) m k1) k2 =
        if k1 = k2 then
          (fun k (old : Option (Change V)) =>
            match mapGet b k with
            | none => old
            | some v => if mapGet a k = some v then old else some (Change.set v)) k1 (mapGet m k1)
        else mapGet m k2 := by
    intro m k1 k2
    cases hb : mapGet b k1 with
    | none =>
      simp only [hb]
      by_cases h : k1 = k2
      · subst h; simp
      · simp [h]
    | some v =>
      simp only [hb]
      by_cases ha : mapGet a k1 = some v
      · simp only [ha, if_true]
        by_cases h : k1 = k2
        · subst h; simp
        · simp [h]
      · simp only [ha, if_false, mapGet_mapSet]
  have e2 := foldl_keys_get mapGet
    (fun (ch : List (κ × Change V)) k =>
        match mapGet b k with
        | none => ch
        | some v => if mapGet a k = some v then ch else mapSet ch k (Change.set v))
    (fun k (old : Option (Change V)) =>
            match mapGet b k with
            | none => old
            | some v => if mapGet a k = some v then old else some (Change.set v))
    h2 (mapKeys b)
    ((mapKeys a).foldl
      (fun ch k => if (mapGet b k).isNone then mapSet ch k Change.delete else ch) [])
    k (mapKeys_nodup b)
  have e1 := foldl_keys_get mapGet
    (fun (ch : List (κ × Change V)) k =>
      if (mapGet b k).isNone then mapSet ch k Change.delete else ch)
    (fun k (old : Option (Change V)) =>
      if (mapGet b k).isNone then some Change.delete else old)
    h1 (mapKeys a) [] k (mapKeys_nodup a)
  rw [show mapGet (updateModel a b) k = _ from e2, e1]
  simp only [mem_mapKeys, mapGet]
  cases hb : mapGet b k with
  | none =>
    cases ha : mapGet a k <;> simp
  | some v =>
    cases ha : mapGet a k <;> simp

theorem applyChange_get (m : List (κ × V)) (ch : List (κ × Change V)) (k : κ) :
    mapGet (applyChange m ch) k =
      match mapGet ch k with
      | none => mapGet m k
      | some Change.delete => none
      | some (Change.set v) => some v := by
  have h1 : ∀ (m : List (κ × V)) (k1 k2 : κ),
      mapGet ((fun m k =>
        match mapGet ch k with
        | none => m
        | some Change.delete => mapDelete m k
        | some (Change.set v) => mapSet m k v) m k1) k2 =
        if k1 = k2 then
          (fun k (old : Option V) =>
            match mapGet ch k with
            | none => old
            | some Change.delete => none
            | some (Change.set v) => some v) k1 (mapGet m k1)
        else mapGet m k2 := by
    intro m k1 k2
    cases hc : mapGet ch k1 with
    | none =>
      simp only [hc]
      by_cases h : k1 = k2
      · subst h; simp
      · simp [h]
    | some c =>
      cases c with
      | delete => simp only [hc, mapGet_mapDelete]
      | set v => simp only [hc, mapGet_mapSet]
  have e1 := foldl_keys_get mapGet
    (fun (m : List (κ × V)) k =>
        match mapGet ch k with
        | none => m
        | some Change.delete => mapDelete m k
        | some (Change.set v) => mapSet m k v)
    (fun k (old : Option V) =>
            match mapGet ch k with
            | none => old
            | some Change.delete => none
            | some (Change.set v) => some v)
    h1 (mapKeys ch) m k (mapKeys_nodup ch)
  rw [show mapGet (applyChange m ch) k = _ from e1]
  simp only [mem_mapKeys]
  cases hc : mapGet ch k with
  | none => simp
  | some c => cases c <;> simp

/-- C2: applying the change map that `updateModel a b` passes to `ChangeEvent` to the old
model `a` (delete-action keys removed, every other key set) gives a map that agrees with the
new model `b` on every key. -/
theorem updateModel_roundtrip (a b : List (κ × V)) (k : κ) :
    mapGet (applyChange a (updateModel a b)) k = mapGet b k := by
  rw [applyChange_get, updateModel_get]
  cases hb : mapGet b k with
  | none =>
    cases ha : mapGet a k <;> simp
  | some v =>
    by_cases ha : mapGet a k = some v
    · simp [ha]
    · simp [ha]


theorem eq_nil_of_mapGet_none (m : List (κ × W)) (h : ∀ k, mapGet m k = none) : m = [] := by
  cases m with
  | nil => rfl
  | cons kv rest =>
    have := h kv.1
    simp [mapGet] at this

end ModelTheorems

/-- C4: the change map built by `updateModel` maps `k` to the delete action exactly
when `k` is in the old model and not in the new one, to a value `v` exactly when the new model
maps `k` to `v` and the old model does not, and has no entry for `k` exactly when both models
agree on `k`; diffing a model against itself gives the empty change map; and old
`{a:1,b:2,c:3}`, new `{a:1,b:9,d:4}` give `{b:9, c:delete, d:4}`. -/
theorem updateModel_change_map :
    (∀ (κ V : Type) [DecidableEq κ] [DecidableEq V] (a b : List (κ × V)) (k : κ),
      (mapGet (updateModel a b) k = some Change.delete ↔ mapGet a k ≠ none ∧ mapGet b k = none) ∧
      (∀ v : V, mapGet (updateModel a b) k = some (Change.set v) ↔
        mapGet b k = some v ∧ mapGet a k ≠ some v) ∧
      (mapGet (updateModel a b) k = none ↔ mapGet a k = mapGet b k) ∧
      updateModel a a = []) ∧
    (∀ k : String,
      mapGet (updateModel [("a", 1), ("b", 2), ("c", 3)] [("a", 1), ("b", 9), ("d", 4)]) k =
        mapGet [("b", Change.set 9), ("c", Change.delete), ("d", Change.set 4)] k) := by
  constructor
  · intro κ V _ _ a b k
    refine ⟨?_, ?_, ?_, ?_⟩
    · rw [updateModel_get]
      cases hb : mapGet b k with
      | none => cases ha : mapGet a k <;> simp
      | some v => by_cases ha : mapGet a k = some v <;> simp [ha]
    · intro v
      rw [updateModel_get]
      cases hb : mapGet b k with
      | none => cases ha : mapGet a k <;> simp
      | some v2 =>
        by_cases ha : mapGet a k = some v2
        · simp only [ha, if_true, Option.some.injEq]
          constructor
          · intro h; cases h
          · rintro ⟨h1, h2⟩; exact absurd (by rw [h1]) h2
        · simp only [ha, if_false, Option.some.injEq, Change.set.injEq]
          constructor
          · intro h; subst h; exact ⟨rfl, ha⟩
          · rintro ⟨h1, _⟩; exact h1
    · rw [updateModel_get]
      cases hb : mapGet b k with
      | none => cases ha : mapGet a k <;> simp
      | some v => by_cases ha : mapGet a k = some v <;> simp [ha]
    · apply eq_nil_of_mapGet_none
      intro k2
      rw [updateModel_get]
      cases ha : mapGet a k2 <;> simp
  · intro k
    have e : updateModel [("a", 1), ("b", 2), ("c", 3)] [("a", 1), ("b", 9), ("d", 4)]
      = [("d", Change.set 4), ("b", Change.set 9), ("c", Change.delete)] := by decide
    rw [e]
    simp only [mapGet]
    by_cases h1 : "d" = k
    · subst h1; decide
    · by_cases h2 : "b" = k
      · subst h2; decide
      · by_cases h3 : "c" = k
        · subst h3; decide
        · simp [h1, h2, h3]

/-! ## Theorems: URL templates -/

theorem notAlphaNumeric_iff (c : Char) : notAlphaNumeric c = true ↔ ¬ IsAlnum c := by
  unfold notAlphaNumeric IsAlnum
  simp only [Bool.and_eq_true, Bool.or_eq_true, decide_eq_true_eq, gt_iff_lt]
  constructor
  · rintro ⟨⟨h1, h2⟩, h3⟩ h
    rcases h with ⟨a, b⟩ | ⟨a, b⟩ | ⟨a, b⟩
    · rcases h1 with h | h
      · exact absurd a (not_le.2 h)
      · exact absurd b (not_le.2 h)
    · rcases h2 with h | h
      · exact absurd a (not_le.2 h)
      · exact absurd b (not_le.2 h)
    · rcases h3 with h | h
      · exact absurd a (not_le.2 h)
      · exact absurd b (not_le.2 h)
  · intro h
    push_neg at h
    obtain ⟨h1, h2, h3⟩ := h
    refine ⟨⟨?_, ?_⟩, ?_⟩
    · by_cases a : 'A' ≤ c
      · exact Or.inr (h1 a)
      · exact Or.inl (not_le.1 a)
    · by_cases a : 'a' ≤ c
      · exact Or.inr (h2 a)
      · exact Or.inl (not_le.1 a)
    · by_cases a : '0' ≤ c
      · exact Or.inr (h3 a)
      · exact Or.inl (not_le.1 a)

theorem isAlnum_ne_close {c : Char} (h : IsAlnum c) : c ≠ '}' := by
  intro e
  subst e
  revert h
  unfold IsAlnum
  decide

theorem isAlnum_ne_dollar {c : Char} (h : IsAlnum c) : c ≠ '$' := by
  intro e
  subst e
  revert h
  unfold IsAlnum
  decide

theorem scanDefault_cons_ne (c : Char) (cs : GoString) (i : Nat) (params : List GoString)
    (hc : c ≠ '$') : scanDefault (c :: cs) i params = scanDefault cs (i + 1) params := by
  cases cs with
  | nil => rw [scanDefault.eq_2, if_neg hc]
  | cons c2 r => rw [scanDefault.eq_3, if_neg hc]

theorem scanDefault_dollar_nil (i : Nat) (params : List GoString) :
    scanDefault ['$'] i params = Except.error UrlError.unexpectedEnd := by
  rw [scanDefault.eq_2, if_pos rfl]

theorem scanDefault_dollar_cons (c2 : Char) (r : GoString) (i : Nat) (params : List GoString) :
    scanDefault ('$' :: c2 :: r) i params =
      if c2 ≠ '{' then Except.error (UrlError.expectedBrace (i + 1))
      else scanTag r (i + 2) [] params := by
  rw [scanDefault.eq_3, if_pos rfl]

theorem scanDefault_lit (s : GoString) (hs : '$' ∉ s) (rest : GoString) :
    ∀ (i : Nat) (params : List GoString),
      scanDefault (s ++ rest) i params = scanDefault rest (i + s.length) params := by
  induction s with
  | nil => intro i params; rfl
  | cons c cs ih =>
    intro i params
    have hc : c ≠ '$' := fun e => hs (by rw [e]; exact List.mem_cons_self _ _)
    have hcs : '$' ∉ cs := fun h => hs (List.mem_cons_of_mem _ h)
    rw [List.cons_append, scanDefault_cons_ne _ _ _ _ hc, ih hcs]
    congr 1
    simp only [List.length_cons]
    omega

theorem scanTag_name (name : GoString) (hn : ∀ c ∈ name, IsAlnum c) (rest : GoString) :
    ∀ (i : Nat) (tag : GoString) (params : List GoString),
      scanTag (name ++ rest) i tag params = scanTag rest (i + name.length) (tag ++ name) params := by
  induction name with
  | nil => intro i tag params; simp
  | cons c cs ih =>
    intro i tag params
    have hc : IsAlnum c := hn c (List.mem_cons_self _ _)
    have hcs : ∀ x ∈ cs, IsAlnum x := fun x hx => hn x (List.mem_cons_of_mem _ hx)
    have h1 : ¬ notAlphaNumeric c = true := fun h => (notAlphaNumeric_iff c).1 h hc
    rw [List.cons_append, scanTag.eq_2, if_neg (isAlnum_ne_close hc), if_neg h1, ih hcs]
    simp only [List.length_cons, List.append_assoc, List.singleton_append]
    congr 1
    omega

theorem scanDefault_tok (name : GoString) (hne : name ≠ []) (hn : ∀ c ∈ name, IsAlnum c)
    (rest : GoString) (i : Nat) (params : List GoString) :
    scanDefault (placeholder name ++ rest) i params =
      scanDefault rest (i + (placeholder name).length) (params ++ [name]) := by
  unfold placeholder
  simp only [List.cons_append, List.nil_append, List.append_assoc]
  rw [scanDefault_dollar_cons, if_neg (by simp), scanTag_name name hn, scanTag.eq_2, if_pos rfl,
    List.nil_append, if_neg hne]
  simp only [List.length_cons, List.length_append, List.length_nil]
  congr 1
  omega

theorem scanDefault_pieces (ps : List Piece) (hps : ∀ p ∈ ps, p.WellFormed) (rest : GoString) :
    ∀ (i : Nat) (params : List GoString),
      scanDefault (renderTemplate ps ++ rest) i params =
        scanDefault rest (i + (renderTemplate ps).length) (params ++ tokenNames ps) := by
  induction ps with
  | nil => intro i params; simp [renderTemplate, tokenNames]
  | cons p ps ih =>
    intro i params
    have hp := hps p (List.mem_cons_self _ _)
    have hrest : ∀ q ∈ ps, q.WellFormed := fun q hq => hps q (List.mem_cons_of_mem _ hq)
    cases p with
    | lit s =>
      simp only [renderTemplate, tokenNames, List.append_assoc]
      rw [scanDefault_lit s hp, ih hrest]
      simp only [List.length_append]
      congr 1
      omega
    | tok name =>
      simp only [renderTemplate, tokenNames, List.append_assoc]
      rw [scanDefault_tok name hp.1 hp.2, ih hrest]
      simp only [List.length_append, List.append_assoc, List.singleton_append]
      congr 1
      omega

theorem urlParams_render (ps : List Piece) (hps : ∀ p ∈ ps, p.WellFormed) :
    urlParams (renderTemplate ps) = Except.ok (tokenNames ps) := by
  have := scanDefault_pieces ps hps [] 0 []
  simp only [List.append_nil, List.nil_append] at this
  unfold urlParams
  rw [this]
  rfl

/-- C8: for a template made of `$`-free text and well-formed tokens `${name}` (name
non-empty over `[A-Za-z0-9]`), `urlParams` returns no error and exactly the token names in
order of occurrence, one entry per token. -/
theorem urlParams_well_formed (ps : List Piece) (hps : ∀ p ∈ ps, p.WellFormed) :
    urlParams (renderTemplate ps) = Except.ok (tokenNames ps) :=
  urlParams_render ps hps

theorem urlParams_well_formed_witness :
    (∀ p ∈ [Piece.lit "http://x/".toList, Piece.tok "version".toList, Piece.lit "/s/".toList,
        Piece.tok "id".toList, Piece.tok "id".toList], p.WellFormed) ∧
    urlParams (renderTemplate [Piece.lit "http://x/".toList, Piece.tok "version".toList,
        Piece.lit "/s/".toList, Piece.tok "id".toList, Piece.tok "id".toList]) =
      Except.ok (tokenNames [Piece.lit "http://x/".toList, Piece.tok "version".toList,
        Piece.lit "/s/".toList, Piece.tok "id".toList, Piece.tok "id".toList]) :=
  ⟨by
    intro p hp
    simp only [List.mem_cons, List.mem_singleton, List.not_mem_nil, or_false] at hp
    rcases hp with h | h | h | h | h <;> subst h <;> simp only [Piece.WellFormed, IsAlnum] <;> decide,
   urlParams_well_formed _ (by
    intro p hp
    simp only [List.mem_cons, List.mem_singleton, List.not_mem_nil, or_false] at hp
    rcases hp with h | h | h | h | h <;> subst h <;> simp only [Piece.WellFormed, IsAlnum] <;> decide)⟩

theorem malformed_cons (p : Piece) (hp : p.WellFormed) (t : GoString) (h : Malformed t) :
    Malformed (renderTemplate [p] ++ t) := by
  obtain ⟨ps, hps, hform⟩ := h
  have hr : ∀ tail : GoString, renderTemplate [p] ++ (renderTemplate ps ++ tail) =
      renderTemplate (p :: ps) ++ tail := by
    intro tail
    cases p <;> simp [renderTemplate]
  refine ⟨p :: ps, ?_, ?_⟩
  · intro q hq
    rcases List.mem_cons.1 hq with h | h
    · rw [h]; exact hp
    · exact hps q h
  · rcases hform with ⟨rest, e, h⟩ | ⟨name, e, h⟩ | ⟨rest, e⟩ | ⟨name, c, rest, e, h⟩
    · exact Or.inl ⟨rest, by rw [e, hr], h⟩
    · exact Or.inr (Or.inl ⟨name, by rw [e, hr], h⟩)
    · exact Or.inr (Or.inr (Or.inl ⟨rest, by rw [e, hr]⟩))
    · exact Or.inr (Or.inr (Or.inr ⟨name, c, rest, by rw [e, hr], h⟩))

/-- Every string is a well-formed template or is malformed. -/
theorem template_dichotomy :
    ∀ (n : Nat) (u : GoString), u.length ≤ n →
      (∃ ps : List Piece, (∀ p ∈ ps, p.WellFormed) ∧ u = renderTemplate ps) ∨ Malformed u := by
  intro n
  induction n with
  | zero =>
    intro u hu
    have : u = [] := List.length_eq_zero.1 (by omega)
    subst this
    exact Or.inl ⟨[], by simp, rfl⟩
  | succ n ih =>
    intro u hu
    have hsplit := List.takeWhile_append_dropWhile (fun c => decide (c ≠ '$')) u
    have hpre : '$' ∉ u.takeWhile (fun c => decide (c ≠ '$')) := by
      intro hmem
      have := List.mem_takeWhile_imp hmem
      simp at this
    generalize u.takeWhile (fun c => decide (c ≠ '$')) = pre at hsplit hpre
    have hhead : ∀ c r, u.dropWhile (fun c => decide (c ≠ '$')) = c :: r → c = '$' := by
      intro c r e
      have hne : u.dropWhile (fun c => decide (c ≠ '$')) ≠ [] := by rw [e]; simp
      have := List.head_dropWhile_not (fun c => decide (c ≠ '$')) u hne
      simp only [e, List.head_cons] at this
      simpa using this
    generalize u.dropWhile (fun c => decide (c ≠ '$')) = r at hsplit hhead
    have hlit : (Piece.lit pre).WellFormed := hpre
    cases r with
    | nil =>
      refine Or.inl ⟨[Piece.lit pre], ?_, ?_⟩
      · intro p hp; rw [List.mem_singleton.1 hp]; exact hlit
      · rw [← hsplit]; simp [renderTemplate]
    | cons c r1 =>
      have hc := hhead c r1 rfl
      subst hc
      have hlitr : ∀ tail : GoString, pre ++ tail = renderTemplate [Piece.lit pre] ++ tail := by
        intro tail; simp [renderTemplate]
      have hwf1 : ∀ p ∈ [Piece.lit pre], p.WellFormed := by
        intro p hp; rw [List.mem_singleton.1 hp]; exact hlit
      cases r1 with
      | nil =>
        exact Or.inr ⟨[Piece.lit pre], hwf1, Or.inl ⟨[], by rw [← hsplit, hlitr], Or.inl rfl⟩⟩
      | cons c2 r2 =>
        by_cases hc2 : c2 = '{'
        · subst hc2
          have hsplit2 := List.takeWhile_append_dropWhile (fun c => !notAlphaNumeric c) r2
          have hname : ∀ c ∈ r2.takeWhile (fun c => !notAlphaNumeric c), IsAlnum c := by
            intro c hmem
            have := List.mem_takeWhile_imp hmem
            by_contra hcon
            rw [(notAlphaNumeric_iff c).2 hcon] at this
            simp at this
          generalize r2.takeWhile (fun c => !notAlphaNumeric c) = name at hsplit2 hname
          have hhead2 : ∀ c r, r2.dropWhile (fun c => !notAlphaNumeric c) = c :: r → ¬ IsAlnum c := by
            intro c r e
            have hne : r2.dropWhile (fun c => !notAlphaNumeric c) ≠ [] := by rw [e]; simp
            have := List.head_dropWhile_not (fun c => !notAlphaNumeric c) r2 hne
            simp only [e, List.head_cons] at this
            apply (notAlphaNumeric_iff c).1
            simpa using this
          generalize r2.dropWhile (fun c => !notAlphaNumeric c) = r3 at hsplit2 hhead2
          subst hsplit2
          cases r3 with
          | nil =>
            exact Or.inr ⟨[Piece.lit pre], hwf1,
              Or.inr (Or.inl ⟨name, by rw [← hsplit, hlitr]; simp, hname⟩)⟩
          | cons c3 r4 =>
            have hc3 := hhead2 c3 r4 rfl
            by_cases hclose : c3 = '}'
            · subst hclose
              by_cases hempty : name = []
              · subst hempty
                exact Or.inr ⟨[Piece.lit pre], hwf1,
                  Or.inr (Or.inr (Or.inl ⟨r4, by rw [← hsplit, hlitr]; simp⟩))⟩
              · have htok : (Piece.tok name).WellFormed := ⟨hempty, hname⟩
                have hueq : u = renderTemplate [Piece.lit pre] ++ (renderTemplate [Piece.tok name] ++ r4) := by
                  rw [← hsplit]; simp [renderTemplate, placeholder]
                have hlen : r4.length ≤ n := by
                  have := congrArg List.length hsplit
                  simp only [List.length_append, List.length_cons] at this
                  omega
                rcases ih r4 hlen with ⟨ps, hps, e⟩ | hm
                · left
                  refine ⟨Piece.lit pre :: Piece.tok name :: ps, ?_, ?_⟩
                  · intro q hq
                    rcases List.mem_cons.1 hq with h | h
                    · rw [h]; exact hlit
                    · rcases List.mem_cons.1 h with h | h
                      · rw [h]; exact htok
                      · exact hps q h
                  · rw [hueq, e]; simp [renderTemplate]
                · right
                  rw [hueq]
                  exact malformed_cons _ hlit _ (malformed_cons _ htok _ hm)
            · exact Or.inr ⟨[Piece.lit pre], hwf1,
                Or.inr (Or.inr (Or.inr ⟨name, c3, r4, by rw [← hsplit, hlitr], hname, hc3, hclose⟩))⟩
        · exact Or.inr ⟨[Piece.lit pre], hwf1,
            Or.inl ⟨c2 :: r2, by rw [← hsplit, hlitr], Or.inr ⟨c2, r2, rfl, hc2⟩⟩⟩

theorem scanDefault_malformed_tail (ps : List Piece) (hps : ∀ p ∈ ps, p.WellFormed)
    (tail : GoString) :
    urlParams (renderTemplate ps ++ tail) =
      scanDefault tail (renderTemplate ps).length (tokenNames ps) := by
  unfold urlParams
  rw [scanDefault_pieces ps hps]
  simp

theorem urlParams_error_of_malformed (u : GoString) (h : Malformed u) :
    ∃ e, urlParams u = Except.error e := by
  obtain ⟨ps, hps, hform⟩ := h
  rcases hform with ⟨rest, e, h⟩ | ⟨name, e, h⟩ | ⟨rest, e⟩ | ⟨name, c, rest, e, h1, h2, h3⟩
  · subst e
    rw [scanDefault_malformed_tail ps hps]
    rcases h with h | ⟨c, r, h, hc⟩
    · subst h
      exact ⟨_, scanDefault_dollar_nil _ _⟩
    · subst h
      rw [scanDefault_dollar_cons, if_pos hc]
      exact ⟨_, rfl⟩
  · subst e
    rw [scanDefault_malformed_tail ps hps, scanDefault_dollar_cons, if_neg (by simp)]
    have := scanTag_name name h [] ((renderTemplate ps).length + 2) [] (tokenNames ps)
    rw [List.append_nil] at this
    rw [this, scanTag.eq_1]
    exact ⟨_, rfl⟩
  · subst e
    rw [scanDefault_malformed_tail ps hps, scanDefault_dollar_cons, if_neg (by simp),
      scanTag.eq_2, if_pos rfl, if_pos rfl]
    exact ⟨_, rfl⟩
  · subst e
    rw [scanDefault_malformed_tail ps hps, scanDefault_dollar_cons, if_neg (by simp),
      scanTag_name name h1, scanTag.eq_2, if_neg h3, if_pos ((notAlphaNumeric_iff c).2 h2)]
    exact ⟨_, rfl⟩

/-- A template is accepted by `urlParams` only if it is well formed. -/
theorem pieces_of_urlParams_ok (u : GoString) (params : List GoString)
    (hu : urlParams u = Except.ok params) :
    ∃ ps : List Piece, (∀ p ∈ ps, p.WellFormed) ∧ u = renderTemplate ps ∧
      params = tokenNames ps := by
  rcases template_dichotomy u.length u (le_refl _) with ⟨ps, hps, e⟩ | hm
  · have h1 := urlParams_render ps hps
    rw [← e, hu] at h1
    cases h1
    exact ⟨ps, hps, e, rfl⟩
  · obtain ⟨err, he⟩ := urlParams_error_of_malformed u hm
    rw [hu] at he
    cases he

/-- C9: `urlParams` returns an error exactly when, after a well-formed beginning, the
template has a `$` not followed by `{` (or a `$` as last character), a `${` tag that is not
closed before the end, an empty tag `${}`, or a tag with a character outside `[A-Za-z0-9]`;
and a template without `$` is accepted with the empty list. -/
theorem urlParams_error_iff (u : GoString) :
    ((∃ e, urlParams u = Except.error e) ↔ Malformed u) ∧
    ('$' ∉ u → urlParams u = Except.ok []) := by
  constructor
  · constructor
    · rintro ⟨e, he⟩
      rcases template_dichotomy u.length u (le_refl _) with ⟨ps, hps, hu⟩ | hm
      · rw [hu, urlParams_render ps hps] at he
        cases he
      · exact hm
    · exact urlParams_error_of_malformed u
  · intro h
    have := urlParams_render [Piece.lit u] (by
      intro p hp; rw [List.mem_singleton.1 hp]; exact h)
    simpa [renderTemplate, tokenNames] using this

theorem placeholder_ne_nil (n : GoString) : placeholder n ≠ [] := by
  simp [placeholder]

theorem replaceFirstAux_skip (old new : GoString) (hold : ∃ t, old = '$' :: t) (s : GoString)
    (hs : '$' ∉ s) (rest : GoString) :
    replaceFirstAux old new (s ++ rest) = s ++ replaceFirstAux old new rest := by
  induction s with
  | nil => rfl
  | cons c cs ih =>
    obtain ⟨t, ht⟩ := hold
    have hc : c ≠ '$' := fun e => hs (by rw [e]; exact List.mem_cons_self _ _)
    have hcs : '$' ∉ cs := fun h => hs (List.mem_cons_of_mem _ h)
    rw [List.cons_append, replaceFirstAux]
    have hp : hasPrefixStr (c :: (cs ++ rest)) old = false := by
      rw [ht]
      simp [hasPrefixStr, List.isPrefixOf, Ne.symm hc]
    rw [hp]
    simp only [Bool.false_eq_true, if_false, List.cons_append]
    rw [ih hcs]

theorem replaceFirstAux_hit (old new : GoString) (hne : old ≠ []) (rest : GoString) :
    replaceFirstAux old new (old ++ rest) = new ++ rest := by
  cases old with
  | nil => exact absurd rfl hne
  | cons c cs =>
    rw [List.cons_append, replaceFirstAux]
    have hp : hasPrefixStr (c :: (cs ++ rest)) (c :: cs) = true := by
      simp [hasPrefixStr]
    rw [hp]
    simp

theorem replaceFirst_placeholder (P : GoString) (hP : '$' ∉ P) (n v rest : GoString) :
    replaceFirst (P ++ (placeholder n ++ rest)) (placeholder n) v = P ++ (v ++ rest) := by
  unfold replaceFirst
  rw [if_neg (placeholder_ne_nil n),
    replaceFirstAux_skip (placeholder n) v ⟨_, rfl⟩ P hP, replaceFirstAux_hit _ _ (placeholder_ne_nil n)]

theorem expandURL_pieces (bind : GoString → GoString) (ps : List Piece) :
    (∀ p ∈ ps, p.WellFormed) → (∀ n ∈ tokenNames ps, '$' ∉ bind n) →
    ∀ P : GoString, '$' ∉ P →
      expandURL (P ++ renderTemplate ps) (tokenNames ps) bind = P ++ substTemplate bind ps := by
  induction ps with
  | nil => intro _ _ P _; simp [expandURL, renderTemplate, tokenNames, substTemplate]
  | cons p ps ih =>
    intro hps hb P hP
    have hp := hps p (List.mem_cons_self _ _)
    have hrest : ∀ q ∈ ps, q.WellFormed := fun q hq => hps q (List.mem_cons_of_mem _ hq)
    cases p with
    | lit s =>
      simp only [renderTemplate, tokenNames, substTemplate] at hb ⊢
      rw [← List.append_assoc, ← List.append_assoc]
      apply ih hrest hb
      intro h
      rcases List.mem_append.1 h with h | h
      · exact hP h
      · exact hp h
    | tok name =>
      simp only [renderTemplate, tokenNames, substTemplate] at hb ⊢
      have hb1 : '$' ∉ bind name := hb name (List.mem_cons_self _ _)
      have hb2 : ∀ n ∈ tokenNames ps, '$' ∉ bind n := fun n hn => hb n (List.mem_cons_of_mem _ hn)
      unfold expandURL
      rw [List.foldl_cons, replaceFirst_placeholder P hP, ← List.append_assoc, ← List.append_assoc]
      apply ih hrest hb2
      intro h
      rcases List.mem_append.1 h with h | h
      · exact hP h
      · exact hb1 h

/-- C10 (amended): for a template accepted by `urlParams` and a binding whose values for
the template parameters hold no `$`, the URL computed by the expansion loop of `getResource`
is the template with every `${name}` token replaced by the binding of `name`. -/
theorem expandURL_substitutes (u : GoString) (params : List GoString) (bind : GoString → GoString)
    (hu : urlParams u = Except.ok params) (hb : ∀ n ∈ params, '$' ∉ bind n) :
    ∃ ps : List Piece, (∀ p ∈ ps, p.WellFormed) ∧ u = renderTemplate ps ∧
      params = tokenNames ps ∧ expandURL u params bind = substTemplate bind ps := by
  obtain ⟨ps, hps, e, hp⟩ := pieces_of_urlParams_ok u params hu
  subst hp
  refine ⟨ps, hps, e, rfl, ?_⟩
  have := expandURL_pieces bind ps hps hb [] (by simp)
  rw [e]
  simpa using this

theorem expandURL_substitutes_witness :
    ∃ ps : List Piece, (∀ p ∈ ps, p.WellFormed) ∧ "/${a}/x/${b}".toList = renderTemplate ps ∧
      ["a".toList, "b".toList] = tokenNames ps ∧
      expandURL "/${a}/x/${b}".toList ["a".toList, "b".toList] (fun n => n ++ n) =
        substTemplate (fun n => n ++ n) ps :=
  expandURL_substitutes "/${a}/x/${b}".toList ["a".toList, "b".toList] (fun n => n ++ n)
    rfl (by decide)

/-- C10 (counterexample): with the template `${a}${b}`, `a` bound to the text `${b}` and `b`
bound to `Z`, the expansion loop returns `Z${b}`: the text brought in by the binding of `a` is
substituted again, and the token `${b}` of the template is left in place. -/
theorem expandURL_counterexample :
    urlParams "${a}${b}".toList = Except.ok ["a".toList, "b".toList] ∧
    "${a}${b}".toList = renderTemplate [Piece.tok "a".toList, Piece.tok "b".toList] ∧
    expandURL "${a}${b}".toList ["a".toList, "b".toList]
        (fun n => if n = "a".toList then "${b}".toList else "Z".toList) = "Z${b}".toList ∧
    substTemplate (fun n => if n = "a".toList then "${b}".toList else "Z".toList)
        [Piece.tok "a".toList, Piece.tok "b".toList] = "${b}Z".toList ∧
    expandURL "${a}${b}".toList ["a".toList, "b".toList]
        (fun n => if n = "a".toList then "${b}".toList else "Z".toList) ≠
      substTemplate (fun n => if n = "a".toList then "${b}".toList else "Z".toList)
        [Piece.tok "a".toList, Piece.tok "b".toList] :=
  ⟨rfl, by decide, by decide, by decide, by decide⟩

/-! ## Theorems: pattern and path compiler -/

theorem countVerb_append_dot (t rest : GoString) :
    countVerb (t ++ '.' :: rest) = countVerb t + countVerb rest := by
  induction t with
  | nil => simp [countVerb]
  | cons c cs ih =>
    have hh : ((cs ++ '.' :: rest).head? = some 's') ↔ (cs.head? = some 's') := by
      cases cs with
      | nil => simp
      | cons c2 cs2 => simp
    rw [List.cons_append, countVerb, countVerb, ih]
    simp only [hh]
    omega

theorem countVerb_joinDot_cons (t : GoString) (ts : List GoString) :
    countVerb (joinDot (t :: ts)) = countVerb t + countVerb (joinDot ts) := by
  cases ts with
  | nil => simp [joinDot, countVerb]
  | cons t2 ts2 => rw [joinDot, countVerb_append_dot]

theorem parsePatternLoop_count (toks : List GoString) :
    ∀ (out : List GoString) (params : List PatternParam),
      parsePatternLoop toks = Except.ok (out, params) →
      (∀ t ∈ toks, t.head? ≠ some '$' → countVerb t = 0) →
      countVerb (joinDot out) = params.length := by
  induction toks with
  | nil =>
    intro out params h _
    simp only [parsePatternLoop, Except.ok.injEq, Prod.mk.injEq] at h
    obtain ⟨h1, h2⟩ := h
    subst h1 h2
    rfl
  | cons t ts ih =>
    intro out params h hlit
    have hts : ∀ t2 ∈ ts, t2.head? ≠ some '$' → countVerb t2 = 0 :=
      fun t2 h2 => hlit t2 (List.mem_cons_of_mem _ h2)
    cases t with
    | nil => simp [parsePatternLoop] at h
    | cons c name =>
      simp only [parsePatternLoop] at h
      split at h
      · split at h
        · cases h
        · split at h
          · cases h
          · rename_i toks2 params2 heq
            simp only [Except.ok.injEq, Prod.mk.injEq] at h
            obtain ⟨h1, h2⟩ := h
            subst h1 h2
            rw [countVerb_joinDot_cons, ih _ _ heq hts]
            simp [countVerb]
            omega
      · rename_i hc
        split at h
        · cases h
        · rename_i toks2 params2 heq
          simp only [Except.ok.injEq, Prod.mk.injEq] at h
          obtain ⟨h1, h2⟩ := h
          subst h1 h2
          rw [countVerb_joinDot_cons, ih _ _ heq hts]
          have := hlit (c :: name) (List.mem_cons_self _ _) (by simpa using hc)
          rw [this]
          omega

theorem markURLParams_length (us : List GoString) :
    ∀ (params params2 : List PatternParam),
      markURLParams params us = Except.ok params2 → params2.length = params.length := by
  induction us with
  | nil =>
    intro params params2 h
    simp only [markURLParams, Except.ok.injEq] at h
    rw [← h]
  | cons u rest ih =>
    intro params params2 h
    simp only [markURLParams] at h
    split at h
    · cases h
    · rw [ih _ _ h]
      simp [setParamTyp]

theorem nodeAt_setParam (l n : Node) (c : Char) (name : GoString) (ts : List GoString)
    (hc : c = '$') : nodeAt (l.setParam n) ((c :: name) :: ts) = nodeAt n ts := by
  subst hc
  cases l
  simp [nodeAt, Node.setParam, Node.param]

theorem nodeAt_setChild (l n : Node) (c : Char) (name : GoString) (ts : List GoString)
    (hc : c ≠ '$') : nodeAt (l.setChild (c :: name) n) ((c :: name) :: ts) = nodeAt n ts := by
  cases l
  rw [nodeAt]
  · simp [Node.setChild, Node.nodes, mapSet, mapGet]
  · intro x h
    simp only [List.cons.injEq] at h
    exact hc h.1

/-- The node that a successful `addPath` walk leaves at the end of the path. -/
theorem addPathLoop_node (typ : ResourceType) (pp idProp : GoString) (last : Int)
    (toks : List GoString) :
    ∀ (i : Nat) (l : Node) (params : List PatternParam) (ptyp : PathType) (l2 : Node),
      addPathLoop typ pp idProp last toks i l params ptyp = Except.ok l2 →
      ∃ n, nodeAt l2 toks = some n ∧ n.typ = typ ∧ n.pattern = pp ∧ n.idProp = idProp ∧
        n.params.length = params.length := by
  induction toks with
  | nil =>
    intro i l params ptyp l2 h
    simp only [addPathLoop] at h
    split at h
    · cases h
    · split at h
      · cases h
      · simp only [Except.ok.injEq] at h
        subst h
        cases l
        exact ⟨_, rfl, rfl, rfl, rfl, rfl⟩
  | cons t ts ih =>
    intro i l params ptyp l2 h
    cases t with
    | nil => simp [addPathLoop] at h
    | cons c name =>
      simp only [addPathLoop] at h
      split at h
      · rename_i hc
        split at h
        · cases h
        · split at h
          · cases h
          · split at h
            · cases h
            · split at h
              · cases h
              · split at h
                · cases h
                · rename_i n heq
                  simp only [Except.ok.injEq] at h
                  subst h
                  obtain ⟨m, h1, h2, h3, h4, h5⟩ := ih _ _ _ _ _ heq
                  refine ⟨m, ?_, h2, h3, h4, ?_⟩
                  · rw [nodeAt_setParam _ _ _ _ _ hc]; exact h1
                  · rw [h5]; simp [setParamPath]
      · rename_i hc
        split at h
        · cases h
        · rename_i n heq
          simp only [Except.ok.injEq] at h
          subst h
          obtain ⟨m, h1, h2, h3, h4, h5⟩ := ih _ _ _ _ _ heq
          refine ⟨m, ?_, h2, h3, h4, h5⟩
          rw [nodeAt_setChild _ _ _ _ _ hc]; exact h1

theorem addPath_verbs (rn : Node) (path pattern : GoString) (urlParams : List GoString)
    (typStr idProp : GoString) (rn2 : Node)
    (h : addPath rn path pattern urlParams typStr idProp = Except.ok rn2)
    (hlit : ∀ t ∈ tokensOf pattern, t.head? ≠ some '$' → countVerb t = 0) :
    ∃ n, nodeAt rn2 (tokensOf path) = some n ∧ countVerb n.pattern = n.params.length := by
  unfold addPath at h
  split at h
  · cases h
  · split at h
    · cases h
    · rename_i pp params hparse
      split at h
      · cases h
      · rename_i params2 hmark
        obtain ⟨n, h1, _, h3, _, h5⟩ := addPathLoop_node _ _ _ _ _ _ _ _ _ _ h
        refine ⟨n, h1, ?_⟩
        rw [h3, h5, markURLParams_length _ _ _ hmark]
        unfold parsePattern at hparse
        split at hparse
        · cases hparse
        · rename_i toks params3 hloop
          simp only [Except.ok.injEq, Prod.mk.injEq] at hparse
          obtain ⟨e1, e2⟩ := hparse
          subst e1 e2
          exact parsePatternLoop_count _ _ _ hloop hlit

/-- C6 (amended): when no token of the pattern other than a `$` parameter contains `%s`, a
successful `addPath` leaves at the path a node whose compiled pattern holds exactly
`len(params)` occurrences of `%s`. -/
theorem addPath_pattern_verbs (rn : Node) (path pattern : GoString) (urlParams : List GoString)
    (typStr idProp : GoString) (rn2 : Node)
    (h : addPath rn path pattern urlParams typStr idProp = Except.ok rn2)
    (hlit : ∀ t ∈ tokensOf pattern, t.head? ≠ some '$' → countVerb t = 0) :
    ∃ n, nodeAt rn2 (tokensOf path) = some n ∧ countVerb n.pattern = n.params.length :=
  addPath_verbs rn path pattern urlParams typStr idProp rn2 h hlit

theorem addPath_pattern_verbs_witness :
    addPath Node.empty "item".toList "svc.$v.item".toList ["v".toList] "model".toList [] =
      Except.ok (Node.mk ResourceType.unset
        [("item".toList, Node.mk ResourceType.model [] none "svc.%s.item".toList
          [⟨ParamType.url, "v".toList, 0⟩] PathType.default [])]
        none [] [] PathType.root []) ∧
    (∀ t ∈ tokensOf "svc.$v.item".toList, t.head? ≠ some '$' → countVerb t = 0) ∧
    ∃ n, nodeAt (Node.mk ResourceType.unset
        [("item".toList, Node.mk ResourceType.model [] none "svc.%s.item".toList
          [⟨ParamType.url, "v".toList, 0⟩] PathType.default [])]
        none [] [] PathType.root []) (tokensOf "item".toList) = some n ∧
      countVerb n.pattern = n.params.length :=
  ⟨rfl, by decide, addPath_pattern_verbs Node.empty "item".toList "svc.$v.item".toList
    ["v".toList] "model".toList [] _ rfl (by decide)⟩

/-- C6 (counterexample): registering the pattern `svc.%s` at the root path succeeds and
leaves a node whose compiled pattern `svc.%s` holds one `%s` while its parameter list is
empty. -/
theorem addPath_pattern_verbs_counterexample :
    addPath Node.empty [] "svc.%s".toList [] "model".toList [] =
      Except.ok (Node.mk ResourceType.model [] none "svc.%s".toList [] PathType.root []) ∧
    nodeAt (Node.mk ResourceType.model [] none "svc.%s".toList [] PathType.root []) (tokensOf []) =
      some (Node.mk ResourceType.model [] none "svc.%s".toList [] PathType.root []) ∧
    countVerb (Node.mk ResourceType.model [] none "svc.%s".toList [] PathType.root []).pattern = 1 ∧
    (Node.mk ResourceType.model [] none "svc.%s".toList [] PathType.root []).params.length = 0 :=
  ⟨rfl, rfl, rfl, rfl⟩

theorem parsePatternLoop_ok (toks : List GoString) (h : WellFormedTokens toks) :
    ∃ out, parsePatternLoop toks =
      Except.ok (out, (wildcardNames toks).map (fun n => ⟨ParamType.unset, n, 0⟩)) := by
  induction toks with
  | nil => exact ⟨[], rfl⟩
  | cons t ts ih =>
    have ht := h t (List.mem_cons_self _ _)
    obtain ⟨out, hout⟩ := ih (fun t2 h2 => h t2 (List.mem_cons_of_mem _ h2))
    cases t with
    | nil => exact absurd rfl ht.1
    | cons c name =>
      by_cases hc : c = '$'
      · subst hc
        have hname : name ≠ [] := by
          intro e; subst e; exact ht.2 rfl
        refine ⟨['%', 's'] :: out, ?_⟩
        simp only [parsePatternLoop, if_true, if_neg hname, hout, wildcardNames, List.map_cons]
      · refine ⟨(c :: name) :: out, ?_⟩
        simp only [parsePatternLoop, if_neg hc, hout]
        congr 3
        rw [wildcardNames]
        intro name2 h2
        simp only [List.cons.injEq] at h2
        exact hc h2.1

theorem patternParamsContain_mark (f : PatternParam → PatternParam)
    (hfn : ∀ q, (f q).name = q.name) (hft : ∀ q, (f q).typ ≠ ParamType.unset)
    (name : GoString) (cov : List GoString) :
    ∀ (params : List PatternParam), (params.map PatternParam.name).Nodup →
      name ∈ params.map PatternParam.name →
      (∀ p ∈ params, (p.typ = ParamType.unset ↔ p.name ∉ cov)) →
      ∃ j, patternParamsContain params name = some j ∧
        ((params.map PatternParam.typ).getD j ParamType.unset = ParamType.unset ↔ name ∉ cov) ∧
        (params.modify f j).map PatternParam.name = params.map PatternParam.name ∧
        ∀ p ∈ params.modify f j, (p.typ = ParamType.unset ↔ p.name ∉ name :: cov) := by
  intro params
  induction params with
  | nil => intro _ h; simp at h
  | cons p ps ih =>
    intro hnd hmem hst
    simp only [List.map_cons, List.nodup_cons] at hnd
    by_cases hp : p.name = name
    · refine ⟨0, by simp [patternParamsContain, hp], ?_, ?_, ?_⟩
      · simp only [List.map_cons, List.getD_cons_zero]
        rw [← hp]
        exact hst p (List.mem_cons_self _ _)
      · simp [List.modify, hfn]
      · intro q hq
        simp only [List.modify_zero_cons, List.mem_cons] at hq
        rcases hq with hq | hq
        · subst hq
          simp [hft, hfn, hp]
        · have hne : q.name ≠ name := by
            intro e
            apply hnd.1
            rw [hp, ← e]
            exact List.mem_map_of_mem _ hq
          have := hst q (List.mem_cons_of_mem _ hq)
          simp only [List.mem_cons, not_or]
          rw [this]
          constructor
          · intro h; exact ⟨hne, h⟩
          · intro h; exact h.2
    · have hmem2 : name ∈ ps.map PatternParam.name := by
        simp only [List.map_cons, List.mem_cons] at hmem
        rcases hmem with h | h
        · exact absurd h.symm hp
        · exact h
      obtain ⟨j, h1, h2, h3, h4⟩ := ih hnd.2 hmem2
        (fun q hq => hst q (List.mem_cons_of_mem _ hq))
      refine ⟨j + 1, by simp [patternParamsContain, hp, h1], ?_, ?_, ?_⟩
      · simpa using h2
      · simp [List.modify_succ_cons, h3]
      · intro q hq
        simp only [List.modify_succ_cons, List.mem_cons] at hq
        rcases hq with hq | hq
        · subst hq
          have := hst q (List.mem_cons_self _ _)
          simp only [List.mem_cons, not_or]
          rw [this]
          constructor
          · intro h; exact ⟨hp, h⟩
          · intro h; exact h.2
        · exact h4 q hq

theorem markURLParams_ok (us : List GoString) :
    ∀ (params : List PatternParam) (cov : List GoString),
      (params.map PatternParam.name).Nodup →
      (∀ u ∈ us, u ∈ params.map PatternParam.name) →
      (∀ p ∈ params, (p.typ = ParamType.unset ↔ p.name ∉ cov)) →
      ∃ params2, markURLParams params us = Except.ok params2 ∧
        params2.map PatternParam.name = params.map PatternParam.name ∧
        ∀ p ∈ params2, (p.typ = ParamType.unset ↔ p.name ∉ us ++ cov) := by
  induction us with
  | nil =>
    intro params cov _ _ hst
    exact ⟨params, rfl, rfl, by simpa using hst⟩
  | cons u rest ih =>
    intro params cov hnd hmem hst
    obtain ⟨j, h1, _, h3, h4⟩ := patternParamsContain_mark
      (fun p => { p with typ := ParamType.url }) (fun _ => rfl) (fun _ => by simp)
      u cov params hnd (hmem u (List.mem_cons_self _ _)) hst
    obtain ⟨params2, g1, g2, g3⟩ := ih (setParamTyp params j ParamType.url) (u :: cov)
      (by unfold setParamTyp; rw [h3]; exact hnd)
      (by unfold setParamTyp; rw [h3]; exact fun v hv => hmem v (List.mem_cons_of_mem _ hv))
      h4
    refine ⟨params2, ?_, ?_, ?_⟩
    · simp only [markURLParams, h1]
      exact g1
    · rw [g2]; unfold setParamTyp; exact h3
    · intro p hp
      rw [g3 p hp]
      simp only [List.mem_append, List.mem_cons, not_or]
      tauto

theorem firstUnset_none (params : List PatternParam)
    (h : ∀ p ∈ params, p.typ ≠ ParamType.unset) : firstUnset params = none := by
  induction params with
  | nil => rfl
  | cons p ps ih =>
    rw [firstUnset, if_neg (h p (List.mem_cons_self _ _))]
    exact ih (fun q hq => h q (List.mem_cons_of_mem _ hq))

theorem nodeAt_empty (ts : List GoString) (n : Node) (h : nodeAt Node.empty ts = some n) :
    n.typ = ResourceType.unset := by
  cases ts with
  | nil =>
    simp only [nodeAt, Option.some.injEq] at h
    rw [← h]; rfl
  | cons t ts2 =>
    exfalso
    cases t with
    | nil => simp [nodeAt, Node.empty, Node.nodes, mapGet] at h
    | cons c name =>
      by_cases hc : c = '$'
      · subst hc
        simp [nodeAt, Node.empty, Node.param] at h
      · rw [nodeAt] at h
        · simp [Node.empty, Node.nodes, mapGet] at h
        · intro x hx
          simp only [List.cons.injEq] at hx
          exact hc hx.1

theorem nodeAt_wildcard (l : Node) (name : GoString) (ts : List GoString) :
    nodeAt l (('$' :: name) :: ts) = l.param.bind (fun c => nodeAt c ts) := by
  rw [nodeAt]
  cases l.param <;> rfl

theorem nodeAt_literal (l : Node) (c : Char) (name : GoString) (ts : List GoString)
    (hc : c ≠ '$') :
    nodeAt l ((c :: name) :: ts) = (mapGet l.nodes (c :: name)).bind (fun ch => nodeAt ch ts) := by
  rw [nodeAt]
  · cases mapGet l.nodes (c :: name) <;> rfl
  · intro x hx
    simp only [List.cons.injEq] at hx
    exact hc hx.1

theorem lastIsWildcard_cons (t : GoString) (ts : List GoString) (h : ts ≠ []) :
    lastIsWildcard (t :: ts) = lastIsWildcard ts := by
  cases ts with
  | nil => exact absurd rfl h
  | cons t2 ts2 => simp [lastIsWildcard, List.getLast?_cons_cons]

theorem register_fields (l : Node) (typ : ResourceType) (pp : GoString)
    (params : List PatternParam) (ptyp : PathType) (idProp : GoString) :
    (l.register typ pp params ptyp idProp).typ = typ ∧
    (l.register typ pp params ptyp idProp).idProp = idProp ∧
    (l.register typ pp params ptyp idProp).pattern = pp ∧
    (l.register typ pp params ptyp idProp).ptyp = ptyp ∧
    (l.register typ pp params ptyp idProp).params = params := by
  cases l
  exact ⟨rfl, rfl, rfl, rfl, rfl⟩

theorem addPathLoop_ok (typ : ResourceType) (pp idProp : GoString) (last : Int)
    (ts : List GoString) :
    ∀ (i : Nat) (l : Node) (params : List PatternParam) (ptyp : PathType) (cov : List GoString),
      WellFormedTokens ts →
      (params.map PatternParam.name).Nodup →
      (∀ p ∈ params, (p.typ = ParamType.unset ↔ p.name ∉ cov)) →
      (wildcardNames ts).Nodup →
      (∀ w ∈ wildcardNames ts, w ∈ params.map PatternParam.name ∧ w ∉ cov) →
      (∀ n ∈ params.map PatternParam.name, n ∈ cov ∨ n ∈ wildcardNames ts) →
      (i : Int) + (ts.length : Int) - 1 = last →
      (∀ n, nodeAt l ts = some n → n.typ = ResourceType.unset) →
      (lastIsWildcard ts = true → ∃ parent, nodeAt l ts.dropLast = some parent ∧
          parent.typ ≠ ResourceType.unset ∧
          (parent.typ = ResourceType.collection → idProp ≠ [] → typ = ResourceType.model)) →
      ∃ l2 n, addPathLoop typ pp idProp last ts i l params ptyp = Except.ok l2 ∧
        nodeAt l2 ts = some n ∧ n.typ = typ ∧ n.idProp = idProp ∧ n.pattern = pp ∧
        (ts = [] → n.ptyp = ptyp) ∧
        (lastIsWildcard ts = true → ∀ parent, nodeAt l ts.dropLast = some parent →
          parent.typ = ResourceType.collection → idProp ≠ [] → n.ptyp = PathType.property) := by
  induction ts with
  | nil =>
    intro i l params ptyp cov _ _ hst _ _ hall _ htarget _
    have hl : l.typ = ResourceType.unset := htarget l rfl
    have hfu : firstUnset params = none := by
      apply firstUnset_none
      intro p hp hu
      have := (hst p hp).1 hu
      rcases hall p.name (List.mem_map_of_mem _ hp) with h | h
      · exact this h
      · simp [wildcardNames] at h
    obtain ⟨f1, f2, f3, f4, _⟩ := register_fields l typ pp params ptyp idProp
    refine ⟨l.register typ pp params ptyp idProp, l.register typ pp params ptyp idProp,
      ?_, rfl, f1, f2, f3, fun _ => f4, ?_⟩
    · simp only [addPathLoop, hl, ne_eq, not_true_eq_false, if_false, hfu]
    · intro h; simp [lastIsWildcard] at h
  | cons t ts ih =>
    intro i l params ptyp cov hwf hnd hst hwnd hw hall hidx htarget hparent
    have ht := hwf t (List.mem_cons_self _ _)
    have hwf2 : WellFormedTokens ts := fun t2 h2 => hwf t2 (List.mem_cons_of_mem _ h2)
    cases t with
    | nil => exact absurd rfl ht.1
    | cons c name =>
      by_cases hc : c = '$'
      · subst hc
        have hname : name ≠ [] := by
          intro e; subst e; exact ht.2 rfl
        simp only [wildcardNames, List.nodup_cons] at hwnd
        have hwn : ∀ w ∈ name :: wildcardNames ts, w ∈ params.map PatternParam.name ∧ w ∉ cov := by
          simpa only [wildcardNames] using hw
        have hmem := hwn name (List.mem_cons_self _ _)
        obtain ⟨j, h1, h2, h3, h4⟩ := patternParamsContain_mark
          (fun p => { p with typ := ParamType.path, idx := i }) (fun _ => rfl) (fun _ => by simp)
          name cov params hnd hmem.1 hst
        have hu : (params.map PatternParam.typ).getD j ParamType.unset = ParamType.unset :=
          h2.2 hmem.2
        -- the new ptyp
        have hpt : ∃ ptyp2, (if (i : Int) = last then
              lastWildcard l.typ typ idProp PathType.default
            else Except.ok PathType.default) = Except.ok ptyp2 ∧
            (ts = [] → l.typ = ResourceType.collection → idProp ≠ [] →
              ptyp2 = PathType.property) := by
          by_cases hts : ts = []
          · subst hts
            have hlast : (i : Int) = last := by
              simp only [List.length_cons, List.length_nil] at hidx
              omega
            obtain ⟨parent, hp1, hp2, hp3⟩ := hparent (by simp [lastIsWildcard])
            simp only [List.dropLast_single, nodeAt, Option.some.injEq] at hp1
            subst hp1
            rw [if_pos hlast]
            cases hlt : l.typ with
            | unset => exact absurd hlt hp2
            | model =>
              refine ⟨PathType.default, rfl, ?_⟩
              intro _ h; cases h
            | collection =>
              by_cases hid : idProp = []
              · refine ⟨PathType.default, by simp [lastWildcard, hid], ?_⟩
                intro _ _ h; exact absurd hid h
              · have := hp3 hlt hid
                exact ⟨PathType.property, by simp [lastWildcard, hid, this], fun _ _ _ => rfl⟩
          · have hlast : ¬ (i : Int) = last := by
              have : 0 < ts.length := List.length_pos.2 hts
              simp only [List.length_cons] at hidx
              omega
            rw [if_neg hlast]
            exact ⟨PathType.default, rfl, fun h => absurd h hts⟩
        obtain ⟨ptyp2, hpt1, hpt2⟩ := hpt
        have hchild : ∀ n, nodeAt (l.param.getD Node.empty) ts = some n →
            n.typ = ResourceType.unset := by
          intro n hn
          cases hlp : l.param with
          | none =>
            rw [hlp] at hn
            exact nodeAt_empty ts n hn
          | some ch =>
            rw [hlp] at hn
            apply htarget n
            rw [nodeAt_wildcard, hlp]
            exact hn
        have hpar2 : lastIsWildcard ts = true →
            ∃ parent, nodeAt (l.param.getD Node.empty) ts.dropLast = some parent ∧
              parent.typ ≠ ResourceType.unset ∧
              (parent.typ = ResourceType.collection → idProp ≠ [] → typ = ResourceType.model) := by
          intro hlw
          have hts : ts ≠ [] := by
            intro e; subst e; simp [lastIsWildcard] at hlw
          obtain ⟨parent, hp1, hp2, hp3⟩ := hparent (by rw [lastIsWildcard_cons _ _ hts]; exact hlw)
          rw [List.dropLast_cons_of_ne_nil hts, nodeAt_wildcard] at hp1
          cases hlp : l.param with
          | none => rw [hlp] at hp1; cases hp1
          | some ch =>
            rw [hlp] at hp1
            exact ⟨parent, hp1, hp2, hp3⟩
        obtain ⟨l2, n, g1, g2, g3, g4, g5, g6, g7⟩ := ih (i + 1) (l.param.getD Node.empty)
          (setParamPath params j i) ptyp2 (name :: cov) hwf2
          (by unfold setParamPath; rw [h3]; exact hnd)
          h4 hwnd.2
          (by
            intro w hwm
            have := hwn w (List.mem_cons_of_mem _ hwm)
            unfold setParamPath
            rw [h3]
            refine ⟨this.1, ?_⟩
            simp only [List.mem_cons, not_or]
            refine ⟨?_, this.2⟩
            intro e; subst e; exact hwnd.1 hwm)
          (by
            intro n hn
            unfold setParamPath at hn
            rw [h3] at hn
            rcases hall n hn with h | h
            · exact Or.inl (List.mem_cons_of_mem _ h)
            · simp only [wildcardNames, List.mem_cons] at h
              rcases h with h | h
              · exact Or.inl (by rw [h]; exact List.mem_cons_self _ _)
              · exact Or.inr h)
          (by simp only [List.length_cons] at hidx; push_cast; omega)
          hchild hpar2
        refine ⟨l.setParam l2, n, ?_, ?_, g3, g4, g5, ?_, ?_⟩
        · simp only [addPathLoop, if_true, if_neg hname, h1, hu, ne_eq, not_true_eq_false,
            if_false]
          rw [hpt1]
          simp only []
          rw [g1]
        · rw [nodeAt_setParam _ _ _ _ _ rfl]; exact g2
        · intro h; cases h
        · intro hlw parent hp1 hp2 hp3
          by_cases hts : ts = []
          · subst hts
            simp only [List.dropLast_single, nodeAt, Option.some.injEq] at hp1
            subst hp1
            rw [g6 rfl]
            exact hpt2 rfl hp2 hp3
          · rw [lastIsWildcard_cons _ _ hts] at hlw
            rw [List.dropLast_cons_of_ne_nil hts, nodeAt_wildcard] at hp1
            cases hlp : l.param with
            | none => rw [hlp] at hp1; cases hp1
            | some ch =>
              rw [hlp] at hp1
              apply g7 hlw parent _ hp2 hp3
              rw [hlp]; exact hp1
      · have hwn_eq : wildcardNames ((c :: name) :: ts) = wildcardNames ts := by
          rw [wildcardNames]
          intro name2 h2
          simp only [List.cons.injEq] at h2
          exact hc h2.1
        rw [hwn_eq] at hwnd hw hall
        have hchild : ∀ n, nodeAt ((mapGet l.nodes (c :: name)).getD Node.empty) ts = some n →
            n.typ = ResourceType.unset := by
          intro n hn
          cases hlp : mapGet l.nodes (c :: name) with
          | none =>
            rw [hlp] at hn
            exact nodeAt_empty ts n hn
          | some ch =>
            rw [hlp] at hn
            apply htarget n
            rw [nodeAt_literal _ _ _ _ hc, hlp]
            exact hn
        have hpar2 : lastIsWildcard ts = true →
            ∃ parent, nodeAt ((mapGet l.nodes (c :: name)).getD Node.empty) ts.dropLast =
                some parent ∧
              parent.typ ≠ ResourceType.unset ∧
              (parent.typ = ResourceType.collection → idProp ≠ [] → typ = ResourceType.model) := by
          intro hlw
          have hts : ts ≠ [] := by
            intro e; subst e; simp [lastIsWildcard] at hlw
          obtain ⟨parent, hp1, hp2, hp3⟩ := hparent (by rw [lastIsWildcard_cons _ _ hts]; exact hlw)
          rw [List.dropLast_cons_of_ne_nil hts, nodeAt_literal _ _ _ _ hc] at hp1
          cases hlp : mapGet l.nodes (c :: name) with
          | none => rw [hlp] at hp1; cases hp1
          | some ch =>
            rw [hlp] at hp1
            exact ⟨parent, hp1, hp2, hp3⟩
        obtain ⟨l2, n, g1, g2, g3, g4, g5, g6, g7⟩ := ih (i + 1)
          ((mapGet l.nodes (c :: name)).getD Node.empty) params PathType.default cov hwf2 hnd hst
          hwnd hw hall (by simp only [List.length_cons] at hidx; push_cast; omega) hchild hpar2
        refine ⟨l.setChild (c :: name) l2, n, ?_, ?_, g3, g4, g5, ?_, ?_⟩
        · simp only [addPathLoop, if_neg hc]
          rw [g1]
        · rw [nodeAt_setChild _ _ _ _ _ hc]; exact g2
        · intro h; cases h
        · intro hlw parent hp1 hp2 hp3
          have hts : ts ≠ [] := by
            intro e; subst e
            simp only [lastIsWildcard, List.getLast?_singleton] at hlw
            split at hlw
            · rename_i heq
              simp only [Option.some.injEq, List.cons.injEq] at heq
              exact hc heq.1
            · cases hlw
          rw [lastIsWildcard_cons _ _ hts] at hlw
          rw [List.dropLast_cons_of_ne_nil hts, nodeAt_literal _ _ _ _ hc] at hp1
          cases hlp : mapGet l.nodes (c :: name) with
          | none => rw [hlp] at hp1; cases hp1
          | some ch =>
            rw [hlp] at hp1
            apply g7 hlw parent _ hp2 hp3
            rw [hlp]; exact hp1

theorem addPath_ok (rn : Node) (path pattern : GoString) (urlParams : List GoString)
    (typStr idProp : GoString) (typ : ResourceType)
    (htyp : parseResourceType typStr = some typ)
    (hpat : WellFormedTokens (tokensOf pattern))
    (hpath : WellFormedTokens (tokensOf path))
    (hcov : Covered (tokensOf pattern) (tokensOf path) urlParams)
    (hnew : ∀ n, nodeAt rn (tokensOf path) = some n → n.typ = ResourceType.unset)
    (hparent : lastIsWildcard (tokensOf path) = true →
      ∃ parent, nodeAt rn (tokensOf path).dropLast = some parent ∧
        parent.typ ≠ ResourceType.unset ∧
        (parent.typ = ResourceType.collection → idProp ≠ [] → typ = ResourceType.model)) :
    ∃ rn2 n, addPath rn path pattern urlParams typStr idProp = Except.ok rn2 ∧
      nodeAt rn2 (tokensOf path) = some n ∧ n.typ = typ ∧ n.idProp = idProp ∧
      (lastIsWildcard (tokensOf path) = true →
        ∀ parent, nodeAt rn (tokensOf path).dropLast = some parent →
          parent.typ = ResourceType.collection → idProp ≠ [] → n.ptyp = PathType.property) := by
  obtain ⟨c1, c2, c3, c4, c5⟩ := hcov
  obtain ⟨out, hout⟩ := parsePatternLoop_ok (tokensOf pattern) hpat
  have hnames : ((wildcardNames (tokensOf pattern)).map
      (fun n => (⟨ParamType.unset, n, 0⟩ : PatternParam))).map PatternParam.name =
      wildcardNames (tokensOf pattern) := by
    rw [List.map_map]
    conv_rhs => rw [← List.map_id (wildcardNames (tokensOf pattern))]
    rfl
  obtain ⟨params2, m1, m2, m3⟩ := markURLParams_ok urlParams
    ((wildcardNames (tokensOf pattern)).map (fun n => ⟨ParamType.unset, n, 0⟩)) []
    (by rw [hnames]; exact c1)
    (by rw [hnames]; exact c3)
    (by
      intro p hp
      simp only [List.mem_map] at hp
      obtain ⟨n, _, e⟩ := hp
      subst e
      simp)
  rw [hnames] at m2
  obtain ⟨l2, n, g1, g2, g3, g4, _, _, g7⟩ := addPathLoop_ok typ (joinDot out) idProp
    (((tokensOf path).length : Int) - 1) (tokensOf path) 0 rn params2 PathType.root
    (urlParams ++ []) hpath (by rw [m2]; exact c1) m3 c2
    (by
      intro w hw
      rw [m2]
      have := c4 w hw
      exact ⟨this.1, by simpa using this.2⟩)
    (by
      intro n hn
      rw [m2] at hn
      rcases c5 n hn with h | h
      · exact Or.inl (by simpa using h)
      · exact Or.inr h)
    (by push_cast; omega) hnew hparent
  refine ⟨l2, n, ?_, g2, g3, g4, g7⟩
  unfold addPath
  simp only [htyp, parsePattern, hout, m1]
  exact g1

/-- C7 (amended): a registration with a valid type, well-formed path and pattern tokens,
every pattern parameter covered exactly once by `urlParams` or by a path wildcard, a path
not yet registered and, when the final token is a wildcard, a parent that is already
registered (and the type model if that parent is a collection and `idProp` is given)
succeeds; the node it registers has the given type and `idProp`, and `ptyp = property` when
the final token is a wildcard under a registered collection and `idProp` is non-empty.
The witness is `TestAddPath`. -/
theorem addPath_nested (rn : Node) (path pattern : GoString) (urlParams : List GoString)
    (typStr idProp : GoString) (typ : ResourceType)
    (htyp : parseResourceType typStr = some typ)
    (hpat : WellFormedTokens (tokensOf pattern))
    (hpath : WellFormedTokens (tokensOf path))
    (hcov : Covered (tokensOf pattern) (tokensOf path) urlParams)
    (hnew : ∀ n, nodeAt rn (tokensOf path) = some n → n.typ = ResourceType.unset)
    (hparent : lastIsWildcard (tokensOf path) = true →
      ∃ parent, nodeAt rn (tokensOf path).dropLast = some parent ∧
        parent.typ ≠ ResourceType.unset ∧
        (parent.typ = ResourceType.collection → idProp ≠ [] → typ = ResourceType.model)) :
    ∃ rn2 n, addPath rn path pattern urlParams typStr idProp = Except.ok rn2 ∧
      nodeAt rn2 (tokensOf path) = some n ∧ n.typ = typ ∧ n.idProp = idProp ∧
      (lastIsWildcard (tokensOf path) = true →
        ∀ parent, nodeAt rn (tokensOf path).dropLast = some parent →
          parent.typ = ResourceType.collection → idProp ≠ [] → n.ptyp = PathType.property) :=
  addPath_ok rn path pattern urlParams typStr idProp typ htyp hpat hpath hcov hnew hparent

theorem addPath_nested_witness :
    (∃ n, testTrie1 = Except.ok n) ∧ (∃ n, testTrie2 = Except.ok n) ∧
    (∃ n, testTrie3 = Except.ok n) ∧ (∃ n, testTrie4 = Except.ok n) ∧
    (∃ rn2 n, addPath (okNode testTrie4) "station.transfers.transfer.$transferId".toList
        "$version.stations.$stationId.station.transfers.transfer.$transferId".toList
        testURLParams "model".toList "id".toList = Except.ok rn2 ∧
      nodeAt rn2 (tokensOf "station.transfers.transfer.$transferId".toList) = some n ∧
      n.typ = ResourceType.model ∧ n.idProp = "id".toList ∧
      (lastIsWildcard (tokensOf "station.transfers.transfer.$transferId".toList) = true →
        ∀ parent, nodeAt (okNode testTrie4)
            (tokensOf "station.transfers.transfer.$transferId".toList).dropLast = some parent →
          parent.typ = ResourceType.collection → "id".toList ≠ [] →
          n.ptyp = PathType.property)) ∧
    (match testTrie5 with
      | Except.ok n =>
        (nodeAt n (tokensOf "station.transfers.transfer.$transferId".toList)).map
          (fun m => (m.ptyp, m.idProp))
      | Except.error _ => none) = some (PathType.property, "id".toList) :=
  ⟨⟨_, rfl⟩, ⟨_, rfl⟩, ⟨_, rfl⟩, ⟨_, rfl⟩,
    addPath_nested (okNode testTrie4) "station.transfers.transfer.$transferId".toList
      "$version.stations.$stationId.station.transfers.transfer.$transferId".toList
      testURLParams "model".toList "id".toList ResourceType.model rfl
      (by unfold WellFormedTokens; decide)
      (by unfold WellFormedTokens; decide)
      (by unfold Covered; decide)
      (by
        intro n h
        have e : nodeAt (okNode testTrie4)
            (tokensOf "station.transfers.transfer.$transferId".toList) = none := by rfl
        rw [e] at h
        cases h)
      (fun _ => ⟨_, rfl, by decide, fun _ _ => rfl⟩),
    rfl⟩

/-- C7 (counterexample): on an empty trie the root is registered as a collection, then the
nested path `$id` with pattern `svc.$id`, whose parameter is covered exactly once by the path
wildcard, is registered with type collection and `idProp = id`: the second call fails with
`idProp must only be used on model resources`. -/
theorem addPath_nested_counterexample :
    addPath Node.empty [] "svc".toList [] "collection".toList [] =
      Except.ok (Node.mk ResourceType.collection [] none "svc".toList [] PathType.root []) ∧
    Covered (tokensOf "svc.$id".toList) (tokensOf "$id".toList) [] ∧
    addPath (Node.mk ResourceType.collection [] none "svc".toList [] PathType.root [])
      "$id".toList "svc.$id".toList [] "collection".toList "id".toList =
      Except.error AddPathError.idPropOnlyOnModel :=
  ⟨rfl, by unfold Covered; decide, rfl⟩

/-! ## Theorems: reset-pattern containment -/

theorem splitDot_ne_nil (s : GoString) : splitDot s ≠ [] := by
  cases s with
  | nil => simp [splitDot]
  | cons c cs =>
    rw [splitDot]
    split
    · simp
    · split <;> simp

theorem splitDot_append_dot (s r : GoString) :
    splitDot (s ++ '.' :: r) = splitDot s ++ splitDot r := by
  induction s with
  | nil => simp [splitDot]
  | cons c cs ih =>
    rw [List.cons_append, splitDot, splitDot, ih]
    by_cases hc : c = '.'
    · simp [hc]
    · rw [if_neg hc, if_neg hc]
      cases h : splitDot cs with
      | nil => exact absurd h (splitDot_ne_nil cs)
      | cons t ts => simp

theorem splitDot_dotfree (s : GoString) (h : '.' ∉ s) : splitDot s = [s] := by
  induction s with
  | nil => rfl
  | cons c cs ih =>
    have hc : c ≠ '.' := fun e => h (by rw [e]; exact List.mem_cons_self _ _)
    have hcs : '.' ∉ cs := fun hm => h (List.mem_cons_of_mem _ hm)
    rw [splitDot, if_neg hc, ih hcs]

theorem joinDot_cons_cons (t t2 : GoString) (ts : List GoString) :
    joinDot (t :: t2 :: ts) = t ++ '.' :: joinDot (t2 :: ts) := by
  rw [joinDot]

theorem forall₂_splitDot_of_segMatch (p t : GoString) (h : SegMatch p t) :
    List.Forall₂ (fun p t => p = ['*'] ∨ p = t) (splitDot p) (splitDot t) := by
  rcases h with h | ⟨h1, h2⟩
  · subst h
    exact List.forall₂_same.2 (fun _ _ => Or.inr rfl)
  · subst h1
    rw [splitDot_dotfree t h2]
    exact List.Forall₂.cons (Or.inl rfl) List.Forall₂.nil

theorem matches_joinDot (P I : List GoString) (h : List.Forall₂ SegMatch P I) :
    Matches (joinDot P) (joinDot I) := by
  unfold Matches
  induction h with
  | nil => exact List.Forall₂.cons (Or.inr rfl) List.Forall₂.nil
  | @cons p t ps ts hpt hrest ih =>
    cases hrest with
    | nil => exact forall₂_splitDot_of_segMatch p t hpt
    | @cons p2 t2 ps2 ts2 h2 hr2 =>
      rw [joinDot_cons_cons, joinDot_cons_cons, splitDot_append_dot, splitDot_append_dot]
      exact List.rel_append (forall₂_splitDot_of_segMatch p t hpt) ih

theorem wildcardNames_wild (name : GoString) (ts : List GoString) :
    wildcardNames (('$' :: name) :: ts) = name :: wildcardNames ts := by
  rw [wildcardNames]

theorem wildcardNames_lit (c : Char) (name : GoString) (ts : List GoString) (hc : c ≠ '$') :
    wildcardNames ((c :: name) :: ts) = wildcardNames ts := by
  rw [wildcardNames]
  intro name2 h2
  simp only [List.cons.injEq] at h2
  exact hc h2.1

theorem wildcardNames_nil_tok (ts : List GoString) :
    wildcardNames ([] :: ts) = wildcardNames ts := by
  rw [wildcardNames]
  intro name2 h2
  cases h2

/-- What a successful `parsePatternLoop` returns. -/
theorem parsePatternLoop_eq (toks : List GoString) :
    ∀ (out : List GoString) (params : List PatternParam),
      parsePatternLoop toks = Except.ok (out, params) →
      WellFormedTokens toks ∧ out = compileTokens toks ∧
      params = (wildcardNames toks).map (fun n => ⟨ParamType.unset, n, 0⟩) := by
  induction toks with
  | nil =>
    intro out params h
    simp only [parsePatternLoop, Except.ok.injEq, Prod.mk.injEq] at h
    obtain ⟨h1, h2⟩ := h
    subst h1 h2
    exact ⟨fun t ht => (by cases ht), rfl, rfl⟩
  | cons t ts ih =>
    intro out params h
    cases t with
    | nil => simp [parsePatternLoop] at h
    | cons c name =>
      simp only [parsePatternLoop] at h
      split at h
      · rename_i hc
        subst hc
        split at h
        · cases h
        · rename_i hname
          split at h
          · cases h
          · rename_i toks2 params2 heq
            simp only [Except.ok.injEq, Prod.mk.injEq] at h
            obtain ⟨h1, h2⟩ := h
            subst h1 h2
            obtain ⟨g1, g2, g3⟩ := ih _ _ heq
            refine ⟨?_, ?_, ?_⟩
            · intro t ht
              rcases List.mem_cons.1 ht with e | e
              · subst e
                refine ⟨by simp, ?_⟩
                intro e2
                simp only [List.cons.injEq, true_and] at e2
                exact hname e2
              · exact g1 t e
            · simp [compileTokens, g2]
            · rw [wildcardNames_wild, g3]; rfl
      · rename_i hc
        split at h
        · cases h
        · rename_i toks2 params2 heq
          simp only [Except.ok.injEq, Prod.mk.injEq] at h
          obtain ⟨h1, h2⟩ := h
          subst h1 h2
          obtain ⟨g1, g2, g3⟩ := ih _ _ heq
          refine ⟨?_, ?_, ?_⟩
          · intro t ht
            rcases List.mem_cons.1 ht with e | e
            · subst e
              refine ⟨by simp, ?_⟩
              intro e2
              simp only [List.cons.injEq] at e2
              exact hc e2.1
            · exact g1 t e
          · simp [compileTokens, g2, hc]
          · rw [wildcardNames_lit _ _ _ hc, g3]

theorem sprintf_cons_ne (c : Char) (rest : GoString) (args : List (Option GoString))
    (hc : c ≠ '%') :
    sprintfPlain (c :: rest) args = (sprintfPlain rest args).map (fun out => c :: out) := by
  conv_lhs => rw [sprintfPlain.eq_def]
  simp only [if_neg hc]
  cases sprintfPlain rest args <;> rfl

theorem sprintf_verb (rest : GoString) (a : GoString) (args : List (Option GoString)) :
    sprintfPlain ('%' :: 's' :: rest) (some a :: args) =
      (sprintfPlain rest args).map (fun out => a ++ out) := by
  conv_lhs => rw [sprintfPlain.eq_def]
  simp only [if_true]
  cases sprintfPlain rest args <;> rfl

theorem sprintf_nil_nil : sprintfPlain [] [] = some [] := by
  rw [sprintfPlain.eq_def]

theorem sprintf_lit (s : GoString) (hs : '%' ∉ s) (rest : GoString)
    (args : List (Option GoString)) :
    sprintfPlain (s ++ rest) args = (sprintfPlain rest args).map (fun out => s ++ out) := by
  induction s with
  | nil =>
    simp only [List.nil_append]
    cases sprintfPlain rest args <;> rfl
  | cons c cs ih =>
    have hc : c ≠ '%' := fun e => hs (by rw [e]; exact List.mem_cons_self _ _)
    have hcs : '%' ∉ cs := fun hm => hs (List.mem_cons_of_mem _ hm)
    rw [List.cons_append, sprintf_cons_ne _ _ _ hc, ih hcs]
    cases sprintfPlain rest args <;> rfl

/-- `fmt.Sprintf` on a compiled pattern joins the filled tokens. -/
theorem sprintf_compile (toks : List GoString) :
    ∀ (args : List GoString),
      (∀ t ∈ toks, t.head? ≠ some '$' → '%' ∉ t) →
      args.length = (wildcardNames toks).length →
      sprintfPlain (joinDot (compileTokens toks)) (args.map some) =
        some (joinDot (fillTokens toks args)) := by
  induction toks with
  | nil =>
    intro args _ hlen
    simp only [wildcardNames, List.length_nil, List.length_eq_zero] at hlen
    subst hlen
    simp [compileTokens, fillTokens, joinDot, sprintf_nil_nil]
  | cons t ts ih =>
    intro args hlit hlen
    have hlit2 : ∀ t2 ∈ ts, t2.head? ≠ some '$' → '%' ∉ t2 :=
      fun t2 h2 => hlit t2 (List.mem_cons_of_mem _ h2)
    -- split on the shape of the first token
    have key : ∃ (o f : GoString) (args2 : List GoString),
        compileTokens (t :: ts) = o :: compileTokens ts ∧
        fillTokens (t :: ts) args = f :: fillTokens ts args2 ∧
        args2.length = (wildcardNames ts).length ∧
        ∀ rest, sprintfPlain (o ++ rest) (args.map some) =
          (sprintfPlain rest (args2.map some)).map (fun out => f ++ out) := by
      cases t with
      | nil =>
        refine ⟨[], [], args, by simp [compileTokens], by simp [fillTokens], ?_, ?_⟩
        · rw [hlen, wildcardNames_nil_tok]
        · intro rest
          simp only [List.nil_append]
          cases sprintfPlain rest (args.map some) <;> rfl
      | cons c name =>
        by_cases hc : c = '$'
        · subst hc
          rw [wildcardNames_wild] at hlen
          cases args with
          | nil => simp at hlen
          | cons a args2 =>
            refine ⟨['%', 's'], a, args2, by simp [compileTokens], by simp [fillTokens], ?_, ?_⟩
            · simpa using hlen
            · intro rest
              exact sprintf_verb rest a _
        · refine ⟨c :: name, c :: name, args, by simp [compileTokens, hc],
            by simp [fillTokens, hc], ?_, ?_⟩
          · rw [hlen, wildcardNames_lit _ _ _ hc]
          · intro rest
            apply sprintf_lit
            apply hlit (c :: name) (List.mem_cons_self _ _)
            simpa using hc
    obtain ⟨o, f, args2, k1, k2, k3, k4⟩ := key
    rw [k1, k2]
    have ih2 := ih args2 hlit2 k3
    cases ts with
    | nil =>
      simp only [compileTokens, fillTokens, joinDot] at ih2 ⊢
      have := k4 []
      rw [List.append_nil] at this
      rw [this]
      simp only [wildcardNames, List.length_nil, List.length_eq_zero] at k3
      subst k3
      simp [sprintf_nil_nil]
    | cons t2 ts2 =>
      have hc2 : ∃ o2 os, compileTokens (t2 :: ts2) = o2 :: os := by
        cases t2 with
        | nil => exact ⟨[], compileTokens ts2, by simp [compileTokens]⟩
        | cons c2 n2 =>
          by_cases h : c2 = '$'
          · exact ⟨['%', 's'], compileTokens ts2, by simp [compileTokens, h]⟩
          · exact ⟨c2 :: n2, compileTokens ts2, by simp [compileTokens, h]⟩
      have hf2 : ∃ f2 fs, fillTokens (t2 :: ts2) args2 = f2 :: fs := by
        cases t2 with
        | nil => exact ⟨[], fillTokens ts2 args2, by simp [fillTokens]⟩
        | cons c2 n2 =>
          by_cases h : c2 = '$'
          · cases args2 with
            | nil => exact ⟨c2 :: n2, fillTokens ts2 [], by simp [fillTokens, h]⟩
            | cons a as => exact ⟨a, fillTokens ts2 as, by simp [fillTokens, h]⟩
          · exact ⟨c2 :: n2, fillTokens ts2 args2, by simp [fillTokens, h]⟩
      obtain ⟨o2, os, e1⟩ := hc2
      obtain ⟨f2, fs, e2⟩ := hf2
      rw [e1, e2] at ih2 ⊢
      rw [joinDot_cons_cons, joinDot_cons_cons, k4]
      have hdot := sprintf_lit ['.'] (by decide) (joinDot (o2 :: os)) (args2.map some)
      simp only [List.singleton_append] at hdot
      rw [hdot, ih2]
      simp

theorem append_sep_inj (c : Char) :
    ∀ (u m t r : GoString), c ∉ u → c ∉ m → u ++ c :: t = m ++ c :: r → u = m := by
  intro u
  induction u with
  | nil =>
    intro m t r _ hm h
    cases m with
    | nil => rfl
    | cons x xs =>
      simp only [List.nil_append, List.cons_append, List.cons.injEq] at h
      exact absurd (by rw [h.1]; exact List.mem_cons_self _ _) hm
  | cons y ys ih =>
    intro m t r hu hm h
    cases m with
    | nil =>
      simp only [List.nil_append, List.cons_append, List.cons.injEq] at h
      exact absurd (by rw [← h.1]; exact List.mem_cons_self _ _) hu
    | cons x xs =>
      simp only [List.cons_append, List.cons.injEq] at h
      rw [h.1, ih xs t r (fun hh => hu (List.mem_cons_of_mem _ hh))
        (fun hh => hm (List.mem_cons_of_mem _ hh)) h.2]

theorem hasPrefixStr_placeholder (u m rest : GoString) (hu : '}' ∉ u) (hm : '}' ∉ m)
    (h : hasPrefixStr (placeholder m ++ rest) (placeholder u) = true) : m = u := by
  unfold hasPrefixStr at h
  rw [List.isPrefixOf_iff_prefix] at h
  obtain ⟨t, ht⟩ := h
  unfold placeholder at ht
  simp only [List.cons_append, List.nil_append, List.append_assoc, List.cons.injEq, true_and]
    at ht
  exact (append_sep_inj '}' u m _ _ hu hm ht).symm

theorem replaceFirstAux_cons_ne (old new : GoString) (c : Char) (rest : GoString)
    (h : hasPrefixStr (c :: rest) old = false) :
    replaceFirstAux old new (c :: rest) = c :: replaceFirstAux old new rest := by
  rw [replaceFirstAux, h]
  simp

theorem replaceFirstAux_skip_tok (u v m rest : GoString) (hne : m ≠ u) (hu : '}' ∉ u)
    (hm : '}' ∉ m) (hmd : '$' ∉ m) :
    replaceFirstAux (placeholder u) v (placeholder m ++ rest) =
      placeholder m ++ replaceFirstAux (placeholder u) v rest := by
  have hp : hasPrefixStr (placeholder m ++ rest) (placeholder u) = false := by
    cases h : hasPrefixStr (placeholder m ++ rest) (placeholder u) with
    | false => rfl
    | true => exact absurd (hasPrefixStr_placeholder u m rest hu hm h) hne
  have e : placeholder m ++ rest = '$' :: (('{' :: (m ++ ['}'])) ++ rest) := by
    simp [placeholder]
  rw [e] at hp ⊢
  rw [replaceFirstAux_cons_ne _ _ _ _ hp,
    replaceFirstAux_skip (placeholder u) v ⟨_, rfl⟩ ('{' :: (m ++ ['}']))]
  · simp [placeholder]
  · intro h
    simp only [List.mem_cons, List.mem_append, List.mem_singleton, List.not_mem_nil,
      or_false] at h
    rcases h with h | h | h
    · exact absurd h (by decide)
    · exact hmd h
    · exact absurd h (by decide)

theorem joinDot_cons (x : GoString) (xs : List GoString) :
    joinDot (x :: xs) = x ++ dotTail xs := by
  cases xs with
  | nil => simp [joinDot, dotTail]
  | cons y ys => rw [joinDot_cons_cons]; rfl

theorem replaceTok_cons (u v : GoString) (p : Piece) (ps : List Piece) :
    ∃ q qs, replaceTok u v (p :: ps) = q :: qs := by
  cases p with
  | lit s => exact ⟨_, _, rfl⟩
  | tok m =>
    by_cases h : m = u
    · exact ⟨Piece.lit v, ps, by simp [replaceTok, h]⟩
    · exact ⟨Piece.tok m, replaceTok u v ps, by simp [replaceTok, h]⟩

/-- One `strings.Replace` of a placeholder on a dot-joined list of pieces
replaces the first token with that name. -/
theorem replaceFirstAux_pieces (u v : GoString) (hu1 : '}' ∉ u) (ps : List Piece) :
    GoodPieces ps →
    replaceFirstAux (placeholder u) v (joinDot (ps.map pieceText)) =
        joinDot ((replaceTok u v ps).map pieceText) ∧
    replaceFirstAux (placeholder u) v (dotTail (ps.map pieceText)) =
        dotTail ((replaceTok u v ps).map pieceText) := by
  induction ps with
  | nil => intro _; exact ⟨rfl, rfl⟩
  | cons p ps ih =>
    intro hgood
    have hp := hgood p (List.mem_cons_self _ _)
    obtain ⟨ih1, ih2⟩ := ih (fun q hq => hgood q (List.mem_cons_of_mem _ hq))
    have main : replaceFirstAux (placeholder u) v (joinDot ((p :: ps).map pieceText)) =
        joinDot ((replaceTok u v (p :: ps)).map pieceText) := by
      rw [List.map_cons, joinDot_cons]
      cases p with
      | lit s =>
        simp only [pieceText, replaceTok, List.map_cons]
        rw [joinDot_cons, replaceFirstAux_skip (placeholder u) v ⟨_, rfl⟩ s hp, ih2]
      | tok m =>
        by_cases hmu : m = u
        · subst hmu
          simp only [pieceText, replaceTok, if_true, List.map_cons]
          rw [joinDot_cons, replaceFirstAux_hit _ _ (placeholder_ne_nil m)]
        · simp only [pieceText, replaceTok, if_neg hmu, List.map_cons]
          rw [joinDot_cons, replaceFirstAux_skip_tok u v m _ hmu hu1 hp.2 hp.1, ih2]
    refine ⟨main, ?_⟩
    obtain ⟨q, qs, hq⟩ := replaceTok_cons u v p ps
    rw [hq] at main ⊢
    simp only [List.map_cons, dotTail] at main ⊢
    have hdot := replaceFirstAux_skip (placeholder u) v ⟨_, rfl⟩ ['.'] (by decide)
      (joinDot (pieceText p :: ps.map pieceText))
    simp only [List.singleton_append] at hdot
    rw [hdot, main]

theorem goodPieces_replaceTok (u v : GoString) (hv : '$' ∉ v) (ps : List Piece)
    (h : GoodPieces ps) : GoodPieces (replaceTok u v ps) := by
  induction ps with
  | nil => exact h
  | cons p ps ih =>
    have hp := h p (List.mem_cons_self _ _)
    have hps : GoodPieces ps := fun q hq => h q (List.mem_cons_of_mem _ hq)
    cases p with
    | lit s =>
      intro q hq
      simp only [replaceTok, List.mem_cons] at hq
      rcases hq with e | e
      · subst e; exact hp
      · exact ih hps q e
    | tok m =>
      intro q hq
      by_cases hmu : m = u
      · simp only [replaceTok, if_pos hmu, List.mem_cons] at hq
        rcases hq with e | e
        · subst e; exact hv
        · exact hps q e
      · simp only [replaceTok, if_neg hmu, List.mem_cons] at hq
        rcases hq with e | e
        · subst e; exact hp
        · exact ih hps q e

theorem expandURL_joinPieces (bind : GoString → GoString) (us : List GoString) :
    ∀ ps : List Piece, GoodPieces ps → (∀ u ∈ us, '}' ∉ u ∧ '$' ∉ bind u) →
      expandURL (joinDot (ps.map pieceText)) us bind =
        joinDot ((us.foldl (fun ps u => replaceTok u (bind u) ps) ps).map pieceText) := by
  induction us with
  | nil => intro ps _ _; rfl
  | cons u us ih =>
    intro ps hgood hus
    have hu := hus u (List.mem_cons_self _ _)
    unfold expandURL
    rw [List.foldl_cons, List.foldl_cons]
    have e : replaceFirst (joinDot (ps.map pieceText)) (placeholder u) (bind u) =
        joinDot ((replaceTok u (bind u) ps).map pieceText) := by
      unfold replaceFirst
      rw [if_neg (placeholder_ne_nil u)]
      exact (replaceFirstAux_pieces u (bind u) hu.1 ps hgood).1
    rw [e]
    exact ih (replaceTok u (bind u) ps) (goodPieces_replaceTok u (bind u) hu.2 ps hgood)
      (fun w hw => hus w (List.mem_cons_of_mem _ hw))

theorem map_bindPiece_congr (bind : GoString → GoString) (u : GoString) (us : List GoString)
    (ps : List Piece) (h : u ∉ tokNames ps) :
    ps.map (bindPiece (u :: us) bind) = ps.map (bindPiece us bind) := by
  induction ps with
  | nil => rfl
  | cons p ps ih =>
    cases p with
    | lit s =>
      simp only [tokNames] at h
      simp only [List.map_cons, ih h, bindPiece]
    | tok m =>
      simp only [tokNames, List.mem_cons, not_or] at h
      have hm : m ≠ u := fun e => h.1 e.symm
      simp only [List.map_cons, ih h.2, bindPiece, List.mem_cons, hm, false_or]

theorem map_bindPiece_replaceTok (bind : GoString → GoString) (u : GoString)
    (us : List GoString) (ps : List Piece) (h : (tokNames ps).Nodup) :
    (replaceTok u (bind u) ps).map (bindPiece us bind) = ps.map (bindPiece (u :: us) bind) := by
  induction ps with
  | nil => rfl
  | cons p ps ih =>
    cases p with
    | lit s =>
      simp only [tokNames] at h
      simp only [replaceTok, List.map_cons, ih h, bindPiece]
    | tok m =>
      simp only [tokNames, List.nodup_cons] at h
      by_cases hmu : m = u
      · subst hmu
        simp only [replaceTok, if_true, List.map_cons, bindPiece, List.mem_cons, true_or]
        rw [map_bindPiece_congr bind m us ps h.1]
      · rw [replaceTok, if_neg hmu]
        simp only [List.map_cons, bindPiece, List.mem_cons, hmu, false_or, ih h.2]

theorem tokNames_replaceTok_sublist (u v : GoString) (ps : List Piece) :
    (tokNames (replaceTok u v ps)).Sublist (tokNames ps) := by
  induction ps with
  | nil => exact List.Sublist.refl _
  | cons p ps ih =>
    cases p with
    | lit s => simpa only [replaceTok, tokNames] using ih
    | tok m =>
      by_cases hmu : m = u
      · simp only [replaceTok, if_pos hmu, tokNames]
        exact List.sublist_cons_self _ _
      · simp only [replaceTok, if_neg hmu, tokNames]
        exact ih.cons₂ m

theorem foldl_replaceTok (bind : GoString → GoString) (us : List GoString) :
    ∀ ps : List Piece, (tokNames ps).Nodup →
      us.foldl (fun ps u => replaceTok u (bind u) ps) ps = ps.map (bindPiece us bind) := by
  induction us with
  | nil =>
    intro ps _
    simp only [List.foldl_nil]
    have hid : ∀ qs : List Piece, qs.map (bindPiece [] bind) = qs := by
      intro qs
      induction qs with
      | nil => rfl
      | cons p ps ih =>
        cases p with
        | lit s => simp only [List.map_cons, bindPiece, ih]
        | tok m => simp only [List.map_cons, bindPiece, List.not_mem_nil, if_false, ih]
    rw [hid]
  | cons u us ih =>
    intro ps hnd
    rw [List.foldl_cons, ih _ (hnd.sublist (tokNames_replaceTok_sublist u (bind u) ps)),
      map_bindPiece_replaceTok bind u us ps hnd]

theorem containsString_iff (a : List GoString) (s : GoString) :
    containsString a s = true ↔ s ∈ a := by
  induction a with
  | nil => simp [containsString]
  | cons w rest ih =>
    rw [containsString]
    by_cases h : w = s
    · simp [h]
    · have : ¬ s = w := fun e => h e.symm
      simp [h, this, ih]

theorem resetPattern_eq (rid : GoString) (ups : List GoString) :
    resetPattern rid ups = joinDot (((tokensOf rid).map (resetPiece ups)).map pieceText) := by
  unfold resetPattern
  rw [List.map_map]
  congr 1
  apply List.map_congr_left
  intro t _
  cases t with
  | nil => rfl
  | cons c tt =>
    simp only [Function.comp, resetPiece]
    by_cases hc : c = '$'
    · simp only [hc, if_true]
      by_cases hcs : containsString ups tt = true
      · simp only [hcs, if_true, pieceText]
      · simp only [hcs, Bool.false_eq_true, if_false, pieceText]
    · simp only [hc, if_false, pieceText]

theorem tokNames_resetPieces_sublist (ups : List GoString) (toks : List GoString) :
    (tokNames (toks.map (resetPiece ups))).Sublist (wildcardNames toks) := by
  induction toks with
  | nil => exact List.Sublist.refl _
  | cons t ts ih =>
    cases t with
    | nil =>
      rw [wildcardNames_nil_tok]
      simpa only [List.map_cons, resetPiece, tokNames] using ih
    | cons c tt =>
      by_cases hc : c = '$'
      · subst hc
        rw [wildcardNames_wild]
        by_cases hcs : containsString ups tt = true
        · simp only [List.map_cons, resetPiece, if_true, hcs, tokNames]
          exact ih.cons₂ tt
        · simp only [List.map_cons, resetPiece, if_true, hcs, Bool.false_eq_true, if_false,
            tokNames]
          exact ih.cons tt
      · rw [wildcardNames_lit _ _ _ hc]
        simpa only [List.map_cons, resetPiece, if_neg hc, tokNames] using ih

/-- The operands computed by `ridArgs` for parameters that are all marked. -/
theorem ridArgs_spec (reqParams : GoString → GoString) (path : List GoString)
    (params : List PatternParam) :
    ∀ (args : List (Option GoString)), ridArgs reqParams path params = some args →
      (∀ p ∈ params, p.typ ≠ ParamType.unset) →
      ∃ args2 : List GoString, args = args2.map some ∧
        List.Forall₂ (fun (p : PatternParam) a =>
          (p.typ = ParamType.url ∧ a = reqParams p.name) ∨ (p.typ = ParamType.path ∧ a ∈ path))
          params args2 := by
  induction params with
  | nil =>
    intro args h _
    simp only [ridArgs, Option.some.injEq] at h
    subst h
    exact ⟨[], rfl, List.Forall₂.nil⟩
  | cons p ps ih =>
    intro args h hall
    have hp := hall p (List.mem_cons_self _ _)
    have hps : ∀ q ∈ ps, q.typ ≠ ParamType.unset := fun q hq => hall q (List.mem_cons_of_mem _ hq)
    rw [ridArgs] at h
    cases hpt : p.typ with
    | unset => exact absurd hpt hp
    | url =>
      rw [hpt] at h
      simp only [] at h
      cases hr : ridArgs reqParams path ps with
      | none => rw [hr] at h; cases h
      | some rest =>
        rw [hr] at h
        simp only [Option.some.injEq] at h
        subst h
        obtain ⟨args2, e, hf⟩ := ih rest hr hps
        exact ⟨reqParams p.name :: args2, by rw [e]; rfl,
          List.Forall₂.cons (Or.inl ⟨hpt, rfl⟩) hf⟩
    | path =>
      rw [hpt] at h
      simp only [] at h
      cases hx : path[p.idx]? with
      | none => rw [hx] at h; cases h
      | some s =>
        rw [hx] at h
        simp only [] at h
        cases hr : ridArgs reqParams path ps with
        | none => rw [hr] at h; cases h
        | some rest =>
          rw [hr] at h
          simp only [Option.some.injEq] at h
          subst h
          obtain ⟨args2, e, hf⟩ := ih rest hr hps
          refine ⟨s :: args2, by rw [e]; rfl, List.Forall₂.cons (Or.inr ⟨hpt, ?_⟩) hf⟩
          exact List.getElem?_mem hx

/-- Token by token, the expanded reset pattern of a resource id pattern
matches the id made from it. -/
theorem segMatch_tokens (ups : List GoString) (reqParams : GoString → GoString)
    (path : List GoString) (hpath : ∀ s ∈ path, '.' ∉ s) (toks : List GoString) :
    ∀ (params : List PatternParam) (args : List GoString),
      params.map PatternParam.name = wildcardNames toks →
      List.Forall₂ (fun (p : PatternParam) a =>
          (p.typ = ParamType.url ∧ a = reqParams p.name) ∨ (p.typ = ParamType.path ∧ a ∈ path))
          params args →
      (∀ p ∈ params, (p.typ = ParamType.url ∧ p.name ∈ ups) ∨
        (p.typ = ParamType.path ∧ p.name ∉ ups)) →
      List.Forall₂ SegMatch
        (((toks.map (resetPiece ups)).map (bindPiece ups reqParams)).map pieceText)
        (fillTokens toks args) := by
  induction toks with
  | nil => intro params args _ _ _; exact List.Forall₂.nil
  | cons t ts ih =>
    intro params args hnames hargs htyp
    cases t with
    | nil =>
      rw [wildcardNames_nil_tok] at hnames
      simp only [List.map_cons, resetPiece, bindPiece, pieceText, fillTokens]
      exact List.Forall₂.cons (Or.inl rfl) (ih params args hnames hargs htyp)
    | cons c tt =>
      by_cases hc : c = '$'
      · subst hc
        rw [wildcardNames_wild] at hnames
        cases hargs with
        | nil => simp at hnames
        | @cons p a ps as hpa hrest =>
          simp only [List.map_cons, List.cons.injEq] at hnames
          have hp := htyp p (List.mem_cons_self _ _)
          have hps := fun q hq => htyp q (List.mem_cons_of_mem _ hq)
          have ih2 := ih ps as hnames.2 hrest hps
          simp only [List.map_cons, fillTokens, if_true]
          refine List.Forall₂.cons ?_ ih2
          rw [← hnames.1]
          rcases hp with ⟨h1, h2⟩ | ⟨h1, h2⟩
          · have hcs : containsString ups p.name = true := (containsString_iff _ _).2 h2
            simp only [resetPiece, if_true, hcs, bindPiece, h2, pieceText]
            rcases hpa with ⟨_, e⟩ | ⟨e, _⟩
            · exact Or.inl e.symm
            · rw [h1] at e; cases e
          · have hcs : ¬ containsString ups p.name = true :=
              fun h => h2 ((containsString_iff _ _).1 h)
            simp only [resetPiece, if_true, hcs, Bool.false_eq_true, if_false, bindPiece,
              pieceText]
            rcases hpa with ⟨e, _⟩ | ⟨_, e⟩
            · rw [h1] at e; cases e
            · exact Or.inr ⟨rfl, hpath a e⟩
      · rw [wildcardNames_lit _ _ _ hc] at hnames
        simp only [List.map_cons, resetPiece, if_neg hc, bindPiece, pieceText, fillTokens]
        exact List.Forall₂.cons (Or.inl rfl) (ih params args hnames hargs htyp)

theorem goodPieces_reset (ups : List GoString) (toks : List GoString)
    (hups : ∀ u ∈ ups, '$' ∉ u ∧ '}' ∉ u)
    (hlit : ∀ t ∈ toks, t.head? ≠ some '$' → '$' ∉ t) :
    GoodPieces (toks.map (resetPiece ups)) := by
  intro p hp
  simp only [List.mem_map] at hp
  obtain ⟨t, ht, e⟩ := hp
  subst e
  cases t with
  | nil => simp [resetPiece]
  | cons c tt =>
    by_cases hc : c = '$'
    · subst hc
      by_cases hcs : containsString ups tt = true
      · simp only [resetPiece, if_true, hcs]
        exact hups tt ((containsString_iff _ _).1 hcs)
      · simp only [resetPiece, if_true, hcs, Bool.false_eq_true, if_false]
        decide
    · simp only [resetPiece, if_neg hc]
      exact hlit (c :: tt) ht (by simpa using hc)

/-- The id that `createRid` makes on a registered node is matched by the
expanded reset pattern of the node. -/
theorem createRid_matches (lib : GoLib) (ups : List GoString) (reqParams : GoString → GoString)
    (rid : GoString) (n : Node) (path : List GoString) (k : GoString)
    (hreg : RegisteredFor ups rid n)
    (hups : ∀ u ∈ ups, ('$' ∉ u ∧ '}' ∉ u) ∧ '$' ∉ reqParams u)
    (hlit : ∀ t ∈ tokensOf rid, t.head? ≠ some '$' → '%' ∉ t ∧ '$' ∉ t)
    (hpath : ∀ s ∈ path, '.' ∉ s)
    (hk : createRid lib reqParams path n = Except.ok k) :
    Matches (expandURL (resetPattern rid ups) ups reqParams) k := by
  obtain ⟨_, r2, r3, r4, r5⟩ := hreg
  unfold createRid at hk
  cases hargs : ridArgs reqParams path n.params with
  | none => rw [hargs] at hk; cases hk
  | some args =>
    rw [hargs] at hk
    simp only [] at hk
    have hset : ∀ p ∈ n.params, p.typ ≠ ParamType.unset := by
      intro p hp
      rcases r5 p hp with ⟨h, _⟩ | ⟨h, _⟩ <;> rw [h] <;> simp
    obtain ⟨args2, e, hf⟩ := ridArgs_spec reqParams path n.params args hargs hset
    subst e
    have hlen : args2.length = (wildcardNames (tokensOf rid)).length := by
      rw [← r3, List.length_map, hf.length_eq]
    unfold sprintf at hk
    rw [r2, sprintf_compile (tokensOf rid) args2 (fun t ht h => (hlit t ht h).1) hlen] at hk
    simp only [Except.ok.injEq] at hk
    subst hk
    rw [resetPattern_eq,
      expandURL_joinPieces reqParams ups _
        (goodPieces_reset ups _ (fun u hu => (hups u hu).1) (fun t ht h => (hlit t ht h).2))
        (fun u hu => ⟨(hups u hu).1.2, (hups u hu).2⟩),
      foldl_replaceTok reqParams ups _ (r4.sublist (tokNames_resetPieces_sublist ups _))]
    exact matches_joinDot _ _ (segMatch_tokens ups reqParams path hpath _ _ _ r3 hf r5)

theorem patternParamsContain_congr :
    ∀ (params params2 : List PatternParam) (x : GoString),
      params.map PatternParam.name = params2.map PatternParam.name →
      patternParamsContain params x = patternParamsContain params2 x := by
  intro params
  induction params with
  | nil =>
    intro params2 x h
    cases params2 with
    | nil => rfl
    | cons q qs => simp at h
  | cons p ps ih =>
    intro params2 x h
    cases params2 with
    | nil => simp at h
    | cons q qs =>
      simp only [List.map_cons, List.cons.injEq] at h
      simp only [patternParamsContain, h.1, ih qs x h.2]

theorem patternParamsContain_some :
    ∀ (params : List PatternParam) (x : GoString) (j : Nat),
      patternParamsContain params x = some j → ∃ p, params[j]? = some p ∧ p.name = x := by
  intro params
  induction params with
  | nil => intro x j h; simp [patternParamsContain] at h
  | cons p ps ih =>
    intro x j h
    rw [patternParamsContain] at h
    split at h
    · rename_i hp
      simp only [Option.some.injEq] at h
      subst h
      exact ⟨p, by simp, hp⟩
    · split at h
      · cases h
      · rename_i j2 hj2
        simp only [Option.some.injEq] at h
        subst h
        obtain ⟨q, h1, h2⟩ := ih x j2 hj2
        exact ⟨q, by simpa using h1, h2⟩

theorem map_name_modify (f : PatternParam → PatternParam) (hfn : ∀ q, (f q).name = q.name)
    (j : Nat) : ∀ (params : List PatternParam),
      (params.modify f j).map PatternParam.name = params.map PatternParam.name := by
  induction j with
  | zero =>
    intro params
    cases params with
    | nil => rfl
    | cons p ps => simp [List.modify, hfn]
  | succ j ih =>
    intro params
    cases params with
    | nil => rfl
    | cons p ps => simp [List.modify_succ_cons, ih]

theorem typ_getD (params : List PatternParam) (j : Nat) (p : PatternParam)
    (h : params[j]? = some p) :
    (params.map PatternParam.typ).getD j ParamType.unset = p.typ := by
  simp [List.getD_eq_getElem?_getD, h]

theorem getElem?_modify_cases (f : PatternParam → PatternParam) (params : List PatternParam)
    (j k : Nat) (pj q : PatternParam) (hj : params[j]? = some pj)
    (hk : (params.modify f j)[k]? = some q) :
    (k = j ∧ q = f pj) ∨ (k ≠ j ∧ params[k]? = some q) := by
  by_cases e : k = j
  · subst e
    rw [List.getElem?_modify_eq, hj] at hk
    simp only [Option.map_eq_map, Option.map_some', Option.some.injEq] at hk
    exact Or.inl ⟨rfl, hk.symm⟩
  · rw [List.getElem?_modify_ne _ _ (fun h => e h.symm)] at hk
    exact Or.inr ⟨e, hk⟩

theorem markInv_url (ups done : List GoString) (params : List PatternParam) (u : GoString)
    (j : Nat) (hinv : MarkInv ups done params) (hu : u ∈ ups)
    (hj : patternParamsContain params u = some j) :
    MarkInv ups (u :: done) (setParamTyp params j ParamType.url) := by
  obtain ⟨pj, hpj, hname⟩ := patternParamsContain_some params u j hj
  obtain ⟨i1, i2, i3, i4⟩ := hinv
  have hnames := map_name_modify (fun p => { p with typ := ParamType.url }) (fun _ => rfl) j params
  have hppc : ∀ x, patternParamsContain (setParamTyp params j ParamType.url) x =
      patternParamsContain params x := fun x => patternParamsContain_congr _ _ x hnames
  have hjj : (setParamTyp params j ParamType.url)[j]? =
      some { pj with typ := ParamType.url } := by
    unfold setParamTyp
    rw [List.getElem?_modify_eq, hpj]; rfl
  refine ⟨?_, ?_, ?_, ?_⟩
  · intro k q hk hq
    rcases getElem?_modify_cases _ params j k pj q hpj hk with ⟨_, e⟩ | ⟨_, e⟩
    · subst e; rw [← hname] at hu; exact hu
    · exact i1 k q e hq
  · intro k q hk hq
    rcases getElem?_modify_cases _ params j k pj q hpj hk with ⟨_, e⟩ | ⟨_, e⟩
    · subst e; cases hq
    · exact i2 k q e hq
  · intro w hw
    rcases List.mem_cons.1 hw with e | e
    · subst e
      exact ⟨j, _, by rw [hppc]; exact hj, hjj, rfl⟩
    · obtain ⟨jw, pw, h1, h2, h3⟩ := i3 w e
      by_cases ejj : jw = j
      · subst ejj
        exact ⟨jw, _, by rw [hppc]; exact h1, hjj, rfl⟩
      · refine ⟨jw, pw, by rw [hppc]; exact h1, ?_, h3⟩
        unfold setParamTyp
        rw [List.getElem?_modify_ne _ _ (fun h => ejj h.symm)]
        exact h2
  · intro k q hk hq
    rw [hppc]
    rcases getElem?_modify_cases _ params j k pj q hpj hk with ⟨e1, e⟩ | ⟨_, e⟩
    · subst e e1
      simp only []
      rw [hname]; exact hj
    · exact i4 k q e hq

theorem markInv_path (ups : List GoString) (params : List PatternParam) (w : GoString)
    (j i : Nat) (hinv : MarkInv ups ups params)
    (hj : patternParamsContain params w = some j)
    (hunset : (params.map PatternParam.typ).getD j ParamType.unset = ParamType.unset) :
    MarkInv ups ups (setParamPath params j i) := by
  obtain ⟨pj, hpj, hname⟩ := patternParamsContain_some params w j hj
  rw [typ_getD params j pj hpj] at hunset
  obtain ⟨i1, i2, i3, i4⟩ := hinv
  have hnames := map_name_modify (fun p => { p with typ := ParamType.path, idx := i })
    (fun _ => rfl) j params
  have hppc : ∀ x, patternParamsContain (setParamPath params j i) x =
      patternParamsContain params x := fun x => patternParamsContain_congr _ _ x hnames
  refine ⟨?_, ?_, ?_, ?_⟩
  · intro k q hk hq
    rcases getElem?_modify_cases _ params j k pj q hpj hk with ⟨_, e⟩ | ⟨_, e⟩
    · subst e; cases hq
    · exact i1 k q e hq
  · intro k q hk hq
    rcases getElem?_modify_cases _ params j k pj q hpj hk with ⟨_, e⟩ | ⟨_, e⟩
    · subst e
      simp only []
      intro hmem
      rw [hname] at hmem
      obtain ⟨jw, pw, h1, h2, h3⟩ := i3 w hmem
      rw [hj] at h1
      simp only [Option.some.injEq] at h1
      subst h1
      rw [hpj] at h2
      simp only [Option.some.injEq] at h2
      subst h2
      rw [hunset] at h3
      cases h3
    · exact i2 k q e hq
  · intro u hu
    obtain ⟨ju, pu, h1, h2, h3⟩ := i3 u hu
    have ejj : ju ≠ j := by
      intro e
      subst e
      rw [hpj] at h2
      simp only [Option.some.injEq] at h2
      subst h2
      rw [hunset] at h3
      cases h3
    refine ⟨ju, pu, by rw [hppc]; exact h1, ?_, h3⟩
    unfold setParamPath
    rw [List.getElem?_modify_ne _ _ (fun h => ejj h.symm)]
    exact h2
  · intro k q hk hq
    rw [hppc]
    rcases getElem?_modify_cases _ params j k pj q hpj hk with ⟨e1, e⟩ | ⟨_, e⟩
    · subst e e1
      simp only []
      rw [hname]; exact hj
    · exact i4 k q e hq

theorem markInv_mono (ups done done2 : List GoString) (params : List PatternParam)
    (h : ∀ u ∈ done2, u ∈ done) (hinv : MarkInv ups done params) : MarkInv ups done2 params :=
  ⟨hinv.1, hinv.2.1, fun u hu => hinv.2.2.1 u (h u hu), hinv.2.2.2⟩

theorem markURLParams_inv (ups : List GoString) (us : List GoString) :
    ∀ (params params2 : List PatternParam) (done : List GoString),
      (∀ u ∈ us, u ∈ ups) → MarkInv ups done params →
      markURLParams params us = Except.ok params2 →
      MarkInv ups (us ++ done) params2 ∧
        params2.map PatternParam.name = params.map PatternParam.name := by
  induction us with
  | nil =>
    intro params params2 done _ hinv h
    simp only [markURLParams, Except.ok.injEq] at h
    subst h
    exact ⟨hinv, rfl⟩
  | cons u rest ih =>
    intro params params2 done hus hinv h
    rw [markURLParams] at h
    cases hj : patternParamsContain params u with
    | none => rw [hj] at h; cases h
    | some j =>
      rw [hj] at h
      simp only [] at h
      obtain ⟨g1, g2⟩ := ih _ params2 (u :: done)
        (fun w hw => hus w (List.mem_cons_of_mem _ hw))
        (markInv_url ups done params u j hinv (hus u (List.mem_cons_self _ _)) hj) h
      refine ⟨markInv_mono _ _ _ _ ?_ g1, ?_⟩
      · intro w hw
        simp only [List.cons_append, List.mem_cons, List.mem_append] at hw ⊢
        tauto
      · rw [g2]
        exact map_name_modify (fun p => { p with typ := ParamType.url }) (fun _ => rfl) j params

theorem markInv_init (ups : List GoString) (names : List GoString) :
    MarkInv ups [] (names.map (fun n => ⟨ParamType.unset, n, 0⟩)) := by
  have hall : ∀ (j : Nat) (p : PatternParam),
      (names.map (fun n => (⟨ParamType.unset, n, 0⟩ : PatternParam)))[j]? = some p →
      p.typ = ParamType.unset := by
    intro j p h
    have := List.getElem?_mem h
    simp only [List.mem_map] at this
    obtain ⟨n, _, e⟩ := this
    subst e
    rfl
  refine ⟨?_, ?_, ?_, ?_⟩
  · intro j p h ht; rw [hall j p h] at ht; cases ht
  · intro j p h ht; rw [hall j p h] at ht; cases ht
  · intro u hu; cases hu
  · intro j p h ht; exact absurd (hall j p h) ht

theorem firstUnset_eq_none (params : List PatternParam) (h : firstUnset params = none) :
    ∀ p ∈ params, p.typ ≠ ParamType.unset := by
  induction params with
  | nil => intro p hp; cases hp
  | cons q qs ih =>
    rw [firstUnset] at h
    split at h
    · cases h
    · rename_i hq
      intro p hp
      rcases List.mem_cons.1 hp with e | e
      · subst e; exact hq
      · exact ih h p e

theorem nodup_names_of_first :
    ∀ (params : List PatternParam),
      (∀ (j : Nat) (p : PatternParam), params[j]? = some p →
        patternParamsContain params p.name = some j) →
      (params.map PatternParam.name).Nodup := by
  intro params
  induction params with
  | nil => intro _; exact List.nodup_nil
  | cons p ps ih =>
    intro h
    have hne : ∀ q ∈ ps, q.name ≠ p.name := by
      intro q hq e
      obtain ⟨k, hk⟩ := List.mem_iff_getElem?.1 hq
      have := h (k + 1) q (by simpa using hk)
      rw [patternParamsContain, if_pos e.symm] at this
      cases this
    rw [List.map_cons, List.nodup_cons]
    refine ⟨?_, ih ?_⟩
    · intro hmem
      simp only [List.mem_map] at hmem
      obtain ⟨q, hq, e⟩ := hmem
      exact hne q hq e
    · intro j q hq
      have := h (j + 1) q (by simpa using hq)
      rw [patternParamsContain, if_neg (fun e => hne q (List.getElem?_mem hq) e.symm)] at this
      cases h2 : patternParamsContain ps q.name with
      | none => rw [h2] at this; cases this
      | some j2 =>
        rw [h2] at this
        simp only [Option.some.injEq, Nat.add_right_cancel_iff] at this
        rw [this]

theorem mapGet_mapSet_node {κ V : Type} [DecidableEq κ] (m : List (κ × V)) (k k2 : κ) (v : V) :
    mapGet (mapSet m k v) k2 = if k = k2 then some v else mapGet m k2 := by
  simp [mapSet, mapGet]

theorem desc_inv (l x : Node) (h : Desc l x) :
    x = l ∨ (∃ c, l.param = some c ∧ Desc c x) ∨
      (∃ k c, mapGet l.nodes k = some c ∧ Desc c x) := by
  cases h with
  | self => exact Or.inl rfl
  | param _ c _ h1 h2 => exact Or.inr (Or.inl ⟨c, h1, h2⟩)
  | child _ c _ k h1 h2 => exact Or.inr (Or.inr ⟨k, c, h1, h2⟩)

theorem desc_empty (x : Node) (h : Desc Node.empty x) : x = Node.empty := by
  rcases desc_inv _ _ h with e | ⟨c, h1, _⟩ | ⟨k, c, h1, _⟩
  · exact e
  · simp [Node.empty, Node.param] at h1
  · simp [Node.empty, Node.nodes, mapGet] at h1

theorem setParam_fields (l n : Node) :
    (l.setParam n).typ = l.typ ∧ (l.setParam n).pattern = l.pattern ∧
    (l.setParam n).params = l.params ∧ (l.setParam n).param = some n ∧
    (l.setParam n).nodes = l.nodes := by
  cases l
  exact ⟨rfl, rfl, rfl, rfl, rfl⟩

theorem setChild_fields (l n : Node) (t : GoString) :
    (l.setChild t n).typ = l.typ ∧ (l.setChild t n).pattern = l.pattern ∧
    (l.setChild t n).params = l.params ∧ (l.setChild t n).param = l.param ∧
    (l.setChild t n).nodes = mapSet l.nodes t n := by
  cases l
  exact ⟨rfl, rfl, rfl, rfl, rfl⟩

theorem register_children (l : Node) (typ : ResourceType) (pp : GoString)
    (params : List PatternParam) (ptyp : PathType) (idProp : GoString) :
    (l.register typ pp params ptyp idProp).param = l.param ∧
    (l.register typ pp params ptyp idProp).nodes = l.nodes := by
  cases l
  exact ⟨rfl, rfl⟩

/-- The registered nodes of the trie after a successful walk of `addPath`:
each one was registered before, or is the node of this registration. -/
theorem addPathLoop_desc (ups : List GoString) (typ : ResourceType) (pp idProp : GoString)
    (last : Int) (ts : List GoString) :
    ∀ (i : Nat) (l : Node) (params : List PatternParam) (ptyp : PathType) (l2 : Node),
      MarkInv ups ups params →
      addPathLoop typ pp idProp last ts i l params ptyp = Except.ok l2 →
      ∀ x, Desc l2 x → x.typ ≠ ResourceType.unset →
        (∃ m, Desc l m ∧ m.typ ≠ ResourceType.unset ∧ m.pattern = x.pattern ∧
          m.params = x.params) ∨
        (x.pattern = pp ∧ x.params.map PatternParam.name = params.map PatternParam.name ∧
          MarkInv ups ups x.params ∧ ∀ p ∈ x.params, p.typ ≠ ParamType.unset) := by
  induction ts with
  | nil =>
    intro i l params ptyp l2 hinv h x hx hxt
    simp only [addPathLoop] at h
    split at h
    · cases h
    · split at h
      · cases h
      · rename_i hfu
        simp only [Except.ok.injEq] at h
        subst h
        obtain ⟨c1, c2⟩ := register_children l typ pp params ptyp idProp
        obtain ⟨_, _, f3, _, f5⟩ := register_fields l typ pp params ptyp idProp
        rcases desc_inv _ _ hx with e | ⟨c, h1, h2⟩ | ⟨k, c, h1, h2⟩
        · subst e
          right
          rw [f3, f5]
          exact ⟨rfl, rfl, hinv, firstUnset_eq_none params hfu⟩
        · rw [c1] at h1
          exact Or.inl ⟨x, Desc.param l c x h1 h2, hxt, rfl, rfl⟩
        · rw [c2] at h1
          exact Or.inl ⟨x, Desc.child l c x k h1 h2, hxt, rfl, rfl⟩
  | cons t ts ih =>
    intro i l params ptyp l2 hinv h x hx hxt
    cases t with
    | nil => simp [addPathLoop] at h
    | cons c name =>
      simp only [addPathLoop] at h
      split at h
      · rename_i hc
        split at h
        · cases h
        · split at h
          · cases h
          · rename_i j hj
            split at h
            · cases h
            · rename_i hunset
              split at h
              · cases h
              · rename_i ptyp2 hpt
                split at h
                · cases h
                · rename_i n heq
                  simp only [Except.ok.injEq] at h
                  subst h
                  obtain ⟨s1, s2, s3, s4, s5⟩ := setParam_fields l n
                  have hunset2 : (params.map PatternParam.typ).getD j ParamType.unset =
                      ParamType.unset := by
                    by_contra hcon
                    exact hunset hcon
                  have hinv2 := markInv_path ups params name j i hinv hj hunset2
                  rcases desc_inv _ _ hx with e | ⟨c2, h1, h2⟩ | ⟨k, c2, h1, h2⟩
                  · subst e
                    rw [s1] at hxt
                    exact Or.inl ⟨l, Desc.self l, hxt, s2.symm, s3.symm⟩
                  · rw [s4] at h1
                    simp only [Option.some.injEq] at h1
                    subst h1
                    rcases ih _ _ _ _ _ hinv2 heq x h2 hxt with ⟨m, m1, m2, m3, m4⟩ | ⟨r1, r2, r3, r4⟩
                    · cases hlp : l.param with
                      | none =>
                        rw [hlp] at m1
                        have := desc_empty m m1
                        subst this
                        exact absurd rfl m2
                      | some c0 =>
                        rw [hlp] at m1
                        exact Or.inl ⟨m, Desc.param l c0 m hlp m1, m2, m3, m4⟩
                    · right
                      refine ⟨r1, ?_, r3, r4⟩
                      rw [r2]
                      exact map_name_modify (fun p => { p with typ := ParamType.path, idx := i })
                        (fun _ => rfl) j params
                  · rw [s5] at h1
                    exact Or.inl ⟨x, Desc.child l c2 x k h1 h2, hxt, rfl, rfl⟩
      · rename_i hc
        split at h
        · cases h
        · rename_i n heq
          simp only [Except.ok.injEq] at h
          subst h
          obtain ⟨s1, s2, s3, s4, s5⟩ := setChild_fields l n (c :: name)
          rcases desc_inv _ _ hx with e | ⟨c2, h1, h2⟩ | ⟨k, c2, h1, h2⟩
          · subst e
            rw [s1] at hxt
            exact Or.inl ⟨l, Desc.self l, hxt, s2.symm, s3.symm⟩
          · rw [s4] at h1
            exact Or.inl ⟨x, Desc.param l c2 x h1 h2, hxt, rfl, rfl⟩
          · rw [s5, mapGet_mapSet_node] at h1
            by_cases hk : (c :: name) = k
            · rw [if_pos hk] at h1
              simp only [Option.some.injEq] at h1
              subst h1
              rcases ih _ _ _ _ _ hinv heq x h2 hxt with ⟨m, m1, m2, m3, m4⟩ | hr
              · cases hlp : mapGet l.nodes (c :: name) with
                | none =>
                  rw [hlp] at m1
                  have := desc_empty m m1
                  subst this
                  exact absurd rfl m2
                | some c0 =>
                  rw [hlp] at m1
                  exact Or.inl ⟨m, Desc.child l c0 m (c :: name) hlp m1, m2, m3, m4⟩
              · exact Or.inr hr
            · rw [if_neg hk] at h1
              exact Or.inl ⟨x, Desc.child l c2 x k h1 h2, hxt, rfl, rfl⟩

theorem registeredFor_congr (ups : List GoString) (rid : GoString) (m x : Node)
    (h1 : m.pattern = x.pattern) (h2 : m.params = x.params) (h : RegisteredFor ups rid m) :
    RegisteredFor ups rid x := by
  unfold RegisteredFor at h ⊢
  rw [← h1, ← h2]
  exact h

theorem regInv_empty (ups : List GoString) : RegInv ups ⟨Node.empty, []⟩ := by
  intro n hn ht
  have := desc_empty n hn
  subst this
  exact absurd rfl ht

/-- A successful `addPath` followed by the `append` of the reset pattern keeps
the registration invariant. -/
theorem addPath_regInv (ups : List GoString) (st : EndpointState) (path rid typStr idProp : GoString)
    (node : Node) (hinv : RegInv ups st)
    (h : addPath st.node path rid ups typStr idProp = Except.ok node) :
    RegInv ups ⟨node, st.resetPatterns ++ [resetPattern rid ups]⟩ := by
  unfold addPath at h
  split at h
  · cases h
  · rename_i typ htyp
    split at h
    · cases h
    · rename_i pp params0 hparse
      split at h
      · cases h
      · rename_i params1 hmark
        unfold parsePattern at hparse
        split at hparse
        · cases hparse
        · rename_i toks params3 hloop
          simp only [Except.ok.injEq, Prod.mk.injEq] at hparse
          obtain ⟨e1, e2⟩ := hparse
          subst e1 e2
          obtain ⟨w1, w2, w3⟩ := parsePatternLoop_eq _ _ _ hloop
          subst w2 w3
          obtain ⟨k1, k2⟩ := markURLParams_inv ups ups _ params1 [] (fun u hu => hu)
            (markInv_init ups _) hmark
          have k1b : MarkInv ups ups params1 :=
            markInv_mono _ _ _ _ (fun u hu => by simpa using hu) k1
          have hnames : params1.map PatternParam.name = wildcardNames (tokensOf rid) := by
            rw [k2, List.map_map]
            conv_rhs => rw [← List.map_id (wildcardNames (tokensOf rid))]
            rfl
          intro x hx hxt
          rcases addPathLoop_desc ups typ _ idProp _ _ _ _ _ _ _ k1b h x hx hxt with
            ⟨m, m1, m2, m3, m4⟩ | ⟨r1, r2, r3, r4⟩
          · obtain ⟨rid0, g1, g2⟩ := hinv m m1 m2
            exact ⟨rid0, registeredFor_congr ups rid0 m x m3 m4 g1,
              List.mem_append_left _ g2⟩
          · refine ⟨rid, ⟨w1, r1, by rw [r2, hnames], ?_, ?_⟩, by simp⟩
            · rw [← hnames, ← r2]
              apply nodup_names_of_first
              intro j p hp
              exact r3.2.2.2 j p hp (r4 p (List.getElem?_mem hp))
            · intro p hp
              obtain ⟨j, hj⟩ := List.mem_iff_getElem?.1 hp
              cases hpt : p.typ with
              | unset => exact absurd hpt (r4 p hp)
              | url => exact Or.inl ⟨rfl, r3.1 j p hj hpt⟩
              | path => exact Or.inr ⟨rfl, r3.2.1 j p hj hpt⟩

mutual
/-- Registration through `addResource` keeps the registration invariant. -/
theorem addResource_regInv (sn : GoString) (ups : List GoString) :
    ∀ (r : ResourceCfg) (pattern path : GoString) (st st2 : EndpointState),
      RegInv ups st → addResource sn ups r pattern path st = Except.ok st2 → RegInv ups st2
  | ResourceCfg.mk typ rPattern rPath idProp resources, pattern, path, st, st2, hinv, h => by
    rw [addResource] at h
    split at h
    · cases h
    · rename_i node hadd
      exact addResources_regInv sn ups resources _ _ _ st2
        (addPath_regInv ups st _ _ _ _ node hinv hadd) h
theorem addResources_regInv (sn : GoString) (ups : List GoString) :
    ∀ (rs : List ResourceCfg) (pattern path : GoString) (st st2 : EndpointState),
      RegInv ups st → addResources sn ups rs pattern path st = Except.ok st2 → RegInv ups st2
  | [], pattern, path, st, st2, hinv, h => by
    rw [addResources] at h
    simp only [Except.ok.injEq] at h
    subst h
    exact hinv
  | r :: rest, pattern, path, st, st2, hinv, h => by
    rw [addResources] at h
    split at h
    · cases h
    · rename_i st1 h1
      exact addResources_regInv sn ups rest pattern path st1 st2
        (addResource_regInv sn ups r pattern path st st1 hinv h1) h
end


theorem desc_trans (a b c : Node) (h1 : Desc a b) (h2 : Desc b c) : Desc a c := by
  induction h1 with
  | self => exact h2
  | param l ch x hp _ ih => exact Desc.param l ch c hp (ih h2)
  | child l ch x k hk _ ih => exact Desc.child l ch c k hk (ih h2)

theorem desc_nextNode (root n next : Node) (k : GoString) (hn : Desc root n)
    (h : nextNode n k = some next) : Desc root next := by
  unfold nextNode at h
  split at h
  · rename_i c hc
    simp only [Option.some.injEq] at h
    subst h
    exact desc_trans root n c hn (Desc.child n c c k hc (Desc.self c))
  · exact desc_trans root n next hn (Desc.param n next next h (Desc.self next))

theorem desc_param (root n next : Node) (hn : Desc root n) (h : n.param = some next) :
    Desc root next :=
  desc_trans root n next hn (Desc.param n next next h (Desc.self next))

theorem digitChar_ne_dot (d : Nat) : digitChar d ≠ '.' := by
  unfold digitChar
  have h : d % 10 < 10 := Nat.mod_lt _ (by decide)
  generalize d % 10 = k at h
  interval_cases k <;> decide

theorem itoaLoop_dotfree : ∀ (fuel n : Nat) (acc : GoString), '.' ∉ acc →
    '.' ∉ itoaLoop fuel n acc := by
  intro fuel
  induction fuel with
  | zero => intro n acc h; exact h
  | succ f ih =>
    intro n acc h
    rw [itoaLoop]
    have hacc : '.' ∉ digitChar n :: acc := by
      intro hm
      rcases List.mem_cons.1 hm with e | e
      · exact digitChar_ne_dot n e.symm
      · exact h e
    split
    · exact hacc
    · exact ih _ _ hacc

theorem itoa_dotfree (j : Nat) : '.' ∉ itoa j :=
  itoaLoop_dotfree _ _ _ (by simp)

theorem mapGet_mem {κ V : Type} [DecidableEq κ] (m : List (κ × V)) (k : κ) (v : V)
    (h : mapGet m k = some v) : (k, v) ∈ m := by
  induction m with
  | nil => simp [mapGet] at h
  | cons kv rest ih =>
    obtain ⟨k2, v2⟩ := kv
    rw [mapGet] at h
    split at h
    · rename_i e
      simp only [Option.some.injEq] at h
      subst h e
      exact List.mem_cons_self _ _
    · exact List.mem_cons_of_mem _ (ih h)

theorem pathPartsSafe_obj (lib : GoLib) (n : Node) (fields : List (GoString × Value))
    (h : PathPartsSafe lib n (Value.obj fields)) (htyp : n.typ = ResourceType.model) :
    (n.ptyp = PathType.property →
      ∀ raw s, mapGet fields n.idProp = some (Value.str raw) → lib.unmarshal raw = some s →
        '.' ∉ s) ∧
    (n.ptyp = PathType.property →
      ∀ raw, mapGet fields n.idProp = some (Value.num raw) → '.' ∉ raw) ∧
    (∀ k x next, (k, x) ∈ fields → nextNode n k = some next →
      appendsPathPart next x = true → '.' ∉ k) ∧
    (∀ k x next, (k, x) ∈ fields → nextNode n k = some next → PathPartsSafe lib next x) := by
  cases h with
  | obj _ _ h1 h2 h3 h4 => exact ⟨h1 htyp, h2 htyp, h3 htyp, h4 htyp⟩
  | prim _ _ hp => cases hp

theorem pathPartsSafe_arr (lib : GoLib) (n : Node) (elems : List Value)
    (h : PathPartsSafe lib n (Value.arr elems)) (htyp : n.typ = ResourceType.collection) :
    ∀ x next, x ∈ elems → n.param = some next → PathPartsSafe lib next x := by
  cases h with
  | arr _ _ h1 => exact h1 htyp
  | prim _ _ hp => cases hp

theorem modelPath_dotfree (lib : GoLib)
    (fields : List (GoString × Value)) (path path2 : List GoString) (n : Node)
    (pathPart : GoString)
    (hstr : n.ptyp = PathType.property →
      ∀ raw s, mapGet fields n.idProp = some (Value.str raw) → lib.unmarshal raw = some s →
        '.' ∉ s)
    (hnum : n.ptyp = PathType.property →
      ∀ raw, mapGet fields n.idProp = some (Value.num raw) → '.' ∉ raw)
    (hpath : ∀ s ∈ path, '.' ∉ s) (hpart : n.ptyp = PathType.default → '.' ∉ pathPart)
    (h : modelPath lib fields path n pathPart = Except.ok path2) :
    ∀ s ∈ path2, '.' ∉ s := by
  have happ : ∀ x : GoString, '.' ∉ x → ∀ s ∈ path ++ [x], '.' ∉ s := by
    intro x hx s hs
    rcases List.mem_append.1 hs with e | e
    · exact hpath s e
    · rw [List.mem_singleton.1 e]; exact hx
  unfold modelPath at h
  split at h
  · simp only [Except.ok.injEq] at h; subst h; exact hpath
  · rename_i hpt
    simp only [Except.ok.injEq] at h; subst h; exact happ pathPart (hpart hpt)
  · rename_i hpt
    split at h
    · cases h
    · rename_i raw hget
      split at h
      · cases h
      · rename_i idstr hdec
        simp only [Except.ok.injEq] at h
        subst h
        exact happ idstr (hstr hpt raw idstr hget hdec)
    · rename_i raw hget
      simp only [Except.ok.injEq] at h
      subst h
      exact happ raw (hnum hpt raw hget)
    · cases h


theorem keysFrom_refl (lib : GoLib) (root : Node) (rq : GoString → GoString) (crs : Crs) :
    KeysFrom lib root rq crs crs := fun k hk => Or.inl hk

theorem keysFrom_trans (lib : GoLib) (root : Node) (rq : GoString → GoString) (a b c : Crs)
    (h1 : KeysFrom lib root rq a b) (h2 : KeysFrom lib root rq b c) : KeysFrom lib root rq a c := by
  intro k hk
  rcases h2 k hk with e | e
  · exact h1 k e
  · exact Or.inr e

theorem keysFrom_set (lib : GoLib) (root : Node) (rq : GoString → GoString) (a b : Crs) (rid : GoString)
    (x : CachedResource) (h1 : KeysFrom lib root rq a b) (h2 : InsertedId lib root rq rid) :
    KeysFrom lib root rq a (mapSet b rid x) := by
  intro k hk
  simp only [crsKeys, mapSet, List.map_cons, List.mem_cons] at hk
  rcases hk with e | e
  · subst e; exact Or.inr h2
  · exact h1 k e

theorem dotfree_snoc (path : List GoString) (x : GoString) (hpath : ∀ s ∈ path, '.' ∉ s)
    (hx : '.' ∉ x) : ∀ s ∈ path ++ [x], '.' ∉ s := by
  intro s hs
  rcases List.mem_append.1 hs with e | e
  · exact hpath s e
  · rw [List.mem_singleton.1 e]; exact hx

theorem traverseModel_keys_other (lib : GoLib)
    (rq : GoString → GoString) (root : Node) (v : Value) (crs : Crs) (path : List GoString)
    (n : Node) (pathPart : GoString) (hv : ∀ fields, v = Value.obj fields → False)
    (hn : Desc root n) (hpath : ∀ s ∈ path, '.' ∉ s)
    (hpart : n.typ = ResourceType.model → n.ptyp = PathType.default → '.' ∉ pathPart) :
    KeysFrom lib root rq crs (traverseModel lib rq v crs path n pathPart).1 := by
  rw [traverseModel.eq_2 _ _ _ _ _ _ _ hv]
  split
  · exact keysFrom_refl _ _ _ _
  · rename_i htyp
    have htyp2 : n.typ = ResourceType.model := by
      by_contra hc
      exact htyp hc
    split
    · exact keysFrom_refl _ _ _ _
    · rename_i path2 hmp
      split
      · exact keysFrom_refl _ _ _ _
      · rename_i rid hrid
        refine keysFrom_set _ _ _ _ _ _ _ (keysFrom_refl _ _ _ _) ⟨n, path2, hn, ?_, ?_, hrid⟩
        · intro e
          rw [e] at htyp
          exact htyp (by decide)
        · exact modelPath_dotfree lib [] path path2 n pathPart
            (fun _ raw s hm => by cases hm) (fun _ raw hm => by cases hm) hpath
            (hpart htyp2) hmp

theorem traverseCollection_keys_other (lib : GoLib)
    (rq : GoString → GoString) (root : Node) (v : Value) (crs : Crs) (path : List GoString)
    (n : Node) (pathPart : GoString) (hv : ∀ elems, v = Value.arr elems → False)
    (hn : Desc root n) (hpath : ∀ s ∈ path, '.' ∉ s)
    (hpart : n.typ = ResourceType.collection → n.ptyp ≠ PathType.root → '.' ∉ pathPart) :
    KeysFrom lib root rq crs (traverseCollection lib rq v crs path n pathPart).1 := by
  rw [traverseCollection.eq_2 _ _ _ _ _ _ _ hv]
  split
  · exact keysFrom_refl _ _ _ _
  · rename_i htyp
    have htyp2 : n.typ = ResourceType.collection := by
      by_contra hc
      exact htyp hc
    split
    · exact keysFrom_refl _ _ _ _
    · rename_i rid hrid
      refine keysFrom_set _ _ _ _ _ _ _ (keysFrom_refl _ _ _ _) ⟨n, _, hn, ?_, ?_, hrid⟩
      · intro e
        rw [e] at htyp
        exact htyp (by decide)
      · split
        · rename_i hpt
          exact dotfree_snoc path pathPart hpath (hpart htyp2 hpt)
        · exact hpath


theorem traverseFields_prim (lib : GoLib) (rq : GoString → GoString)
    (root : Node) (k : GoString) (prim : Value) (rest : List (GoString × Value)) (crs : Crs)
    (path : List GoString) (n : Node) (model : List (GoString × Entry))
    (h1 : ∀ fs, prim = Value.obj fs → False) (h2 : ∀ es, prim = Value.arr es → False)
    (ih : ∀ model2, KeysFrom lib root rq crs (traverseFields lib rq rest crs path n model2).1) :
    KeysFrom lib root rq crs (traverseFields lib rq ((k, prim) :: rest) crs path n model).1 := by
  rw [traverseFields.eq_4 _ _ _ _ _ _ _ _ _ h1 h2]
  split
  · exact keysFrom_refl _ _ _ _
  · exact ih _

theorem traverseElems_prim (lib : GoLib) (rq : GoString → GoString)
    (root : Node) (prim : Value) (rest : List Value) (crs : Crs)
    (path : List GoString) (n : Node) (j : Nat)
    (h1 : ∀ fs, prim = Value.obj fs → False) (h2 : ∀ es, prim = Value.arr es → False)
    (ih : KeysFrom lib root rq crs (traverseElems lib rq rest crs path n (j + 1)).1) :
    KeysFrom lib root rq crs (traverseElems lib rq (prim :: rest) crs path n j).1 := by
  rw [traverseElems.eq_4 _ _ _ _ _ _ _ _ h1 h2]
  split
  · exact keysFrom_refl _ _ _ _
  · split
    · rename_i crs2 e heq
      rw [heq] at ih
      exact ih
    · rename_i crs2 tail heq
      rw [heq] at ih
      exact ih

theorem appendsPathPart_obj (next : Node) (fs : List (GoString × Value)) :
    appendsPathPart next (Value.obj fs) = true ↔
      next.typ = ResourceType.model ∧ next.ptyp = PathType.default := by
  simp [appendsPathPart]

theorem appendsPathPart_arr (next : Node) (es : List Value) :
    appendsPathPart next (Value.arr es) = true ↔
      next.typ = ResourceType.collection ∧ next.ptyp ≠ PathType.root := by
  simp [appendsPathPart]

mutual
theorem traverseModel_keys (lib : GoLib) (rq : GoString → GoString)
    (root : Node) :
    ∀ (v : Value) (crs : Crs) (path : List GoString) (n : Node) (pathPart : GoString),
      PathPartsSafe lib n v → Desc root n → (∀ s ∈ path, '.' ∉ s) →
      (n.typ = ResourceType.model → n.ptyp = PathType.default → '.' ∉ pathPart) →
      KeysFrom lib root rq crs (traverseModel lib rq v crs path n pathPart).1
  | Value.obj fields, crs, path, n, pathPart, hs, hn, hpath, hpart => by
    rw [traverseModel.eq_1]
    split
    · exact keysFrom_refl _ _ _ _
    · rename_i htyp
      have htyp2 : n.typ = ResourceType.model := by
        by_contra hc
        exact htyp hc
      obtain ⟨hstr, hnum, hk, hx⟩ := pathPartsSafe_obj lib n fields hs htyp2
      split
      · exact keysFrom_refl _ _ _ _
      · rename_i path2 hmp
        have hp2 := modelPath_dotfree lib fields path path2 n pathPart hstr hnum hpath
          (hpart htyp2) hmp
        have ih := traverseFields_keys lib rq root fields crs path2 n [] hk hx hn hp2
        split
        · rename_i crs2 e heq
          rw [heq] at ih
          exact ih
        · rename_i crs2 model heq
          rw [heq] at ih
          split
          · exact ih
          · rename_i rid hrid
            refine keysFrom_set _ _ _ _ _ _ _ ih ⟨n, path2, hn, ?_, hp2, hrid⟩
            intro e
            rw [e] at htyp
            exact htyp (by decide)
  | Value.arr es, crs, path, n, pathPart, hs, hn, hpath, hpart =>
    traverseModel_keys_other lib rq root _ crs path n pathPart
      (fun f hf => by cases hf) hn hpath hpart
  | Value.str s, crs, path, n, pathPart, hs, hn, hpath, hpart =>
    traverseModel_keys_other lib rq root _ crs path n pathPart
      (fun f hf => by cases hf) hn hpath hpart
  | Value.num s, crs, path, n, pathPart, hs, hn, hpath, hpart =>
    traverseModel_keys_other lib rq root _ crs path n pathPart
      (fun f hf => by cases hf) hn hpath hpart
  | Value.vtrue, crs, path, n, pathPart, hs, hn, hpath, hpart =>
    traverseModel_keys_other lib rq root _ crs path n pathPart
      (fun f hf => by cases hf) hn hpath hpart
  | Value.vfalse, crs, path, n, pathPart, hs, hn, hpath, hpart =>
    traverseModel_keys_other lib rq root _ crs path n pathPart
      (fun f hf => by cases hf) hn hpath hpart
  | Value.vnull, crs, path, n, pathPart, hs, hn, hpath, hpart =>
    traverseModel_keys_other lib rq root _ crs path n pathPart
      (fun f hf => by cases hf) hn hpath hpart
theorem traverseCollection_keys (lib : GoLib)
    (rq : GoString → GoString) (root : Node) :
    ∀ (v : Value) (crs : Crs) (path : List GoString) (n : Node) (pathPart : GoString),
      PathPartsSafe lib n v → Desc root n → (∀ s ∈ path, '.' ∉ s) →
      (n.typ = ResourceType.collection → n.ptyp ≠ PathType.root → '.' ∉ pathPart) →
      KeysFrom lib root rq crs (traverseCollection lib rq v crs path n pathPart).1
  | Value.arr elems, crs, path, n, pathPart, hs, hn, hpath, hpart => by
    rw [traverseCollection.eq_1]
    split
    · exact keysFrom_refl _ _ _ _
    · rename_i htyp
      have htyp2 : n.typ = ResourceType.collection := by
        by_contra hc
        exact htyp hc
      have hx := pathPartsSafe_arr lib n elems hs htyp2
      have hp2 : ∀ s ∈ (if n.ptyp ≠ PathType.root then path ++ [pathPart] else path),
          '.' ∉ s := by
        split
        · rename_i hpt
          exact dotfree_snoc path pathPart hpath (hpart htyp2 hpt)
        · exact hpath
      have ih := traverseElems_keys lib rq root elems crs _ n 0 hx hn hp2
      split
      · rename_i crs2 e heq
        rw [heq] at ih
        exact ih
      · rename_i crs2 coll heq
        rw [heq] at ih
        split
        · exact ih
        · rename_i rid hrid
          refine keysFrom_set _ _ _ _ _ _ _ ih ⟨n, _, hn, ?_, hp2, hrid⟩
          intro e
          rw [e] at htyp
          exact htyp (by decide)
  | Value.obj fs, crs, path, n, pathPart, hs, hn, hpath, hpart =>
    traverseCollection_keys_other lib rq root _ crs path n pathPart
      (fun f hf => by cases hf) hn hpath hpart
  | Value.str s, crs, path, n, pathPart, hs, hn, hpath, hpart =>
    traverseCollection_keys_other lib rq root _ crs path n pathPart
      (fun f hf => by cases hf) hn hpath hpart
  | Value.num s, crs, path, n, pathPart, hs, hn, hpath, hpart =>
    traverseCollection_keys_other lib rq root _ crs path n pathPart
      (fun f hf => by cases hf) hn hpath hpart
  | Value.vtrue, crs, path, n, pathPart, hs, hn, hpath, hpart =>
    traverseCollection_keys_other lib rq root _ crs path n pathPart
      (fun f hf => by cases hf) hn hpath hpart
  | Value.vfalse, crs, path, n, pathPart, hs, hn, hpath, hpart =>
    traverseCollection_keys_other lib rq root _ crs path n pathPart
      (fun f hf => by cases hf) hn hpath hpart
  | Value.vnull, crs, path, n, pathPart, hs, hn, hpath, hpart =>
    traverseCollection_keys_other lib rq root _ crs path n pathPart
      (fun f hf => by cases hf) hn hpath hpart
theorem traverseFields_keys (lib : GoLib) (rq : GoString → GoString)
    (root : Node) :
    ∀ (fields : List (GoString × Value)) (crs : Crs) (path : List GoString) (n : Node)
      (model : List (GoString × Entry)),
      (∀ k x next, (k, x) ∈ fields → nextNode n k = some next →
        appendsPathPart next x = true → '.' ∉ k) →
      (∀ k x next, (k, x) ∈ fields → nextNode n k = some next → PathPartsSafe lib next x) →
      Desc root n → (∀ s ∈ path, '.' ∉ s) →
      KeysFrom lib root rq crs (traverseFields lib rq fields crs path n model).1
  | [], crs, path, n, model, hk, hx, hn, hpath => by
    rw [traverseFields.eq_1]
    exact keysFrom_refl _ _ _ _
  | (k, Value.obj fs) :: rest, crs, path, n, model, hk, hx, hn, hpath => by
    have hk2 : ∀ k x next, (k, x) ∈ rest → nextNode n k = some next →
        appendsPathPart next x = true → '.' ∉ k :=
      fun a b nx hm => hk a b nx (List.mem_cons_of_mem _ hm)
    have hx2 : ∀ k x next, (k, x) ∈ rest → nextNode n k = some next →
        PathPartsSafe lib next x :=
      fun a b nx hm => hx a b nx (List.mem_cons_of_mem _ hm)
    rw [traverseFields.eq_2]
    split
    · exact traverseFields_keys lib rq root rest crs path n model hk2 hx2 hn hpath
    · rename_i next hnext
      have ih := traverseModel_keys lib rq root (Value.obj fs) crs path next k
        (hx k _ next (List.mem_cons_self _ _) hnext) (desc_nextNode root n next k hn hnext)
        hpath
        (fun h1 h2 => hk k _ next (List.mem_cons_self _ _) hnext
          ((appendsPathPart_obj next fs).2 ⟨h1, h2⟩))
      split
      · rename_i crs2 e heq
        rw [heq] at ih
        exact ih
      · rename_i crs2 ref heq
        rw [heq] at ih
        exact keysFrom_trans _ _ _ _ _ _ ih
          (traverseFields_keys lib rq root rest crs2 path n _ hk2 hx2 hn hpath)
  | (k, Value.arr es) :: rest, crs, path, n, model, hk, hx, hn, hpath => by
    have hk2 : ∀ k x next, (k, x) ∈ rest → nextNode n k = some next →
        appendsPathPart next x = true → '.' ∉ k :=
      fun a b nx hm => hk a b nx (List.mem_cons_of_mem _ hm)
    have hx2 : ∀ k x next, (k, x) ∈ rest → nextNode n k = some next →
        PathPartsSafe lib next x :=
      fun a b nx hm => hx a b nx (List.mem_cons_of_mem _ hm)
    rw [traverseFields.eq_3]
    split
    · exact traverseFields_keys lib rq root rest crs path n model hk2 hx2 hn hpath
    · rename_i next hnext
      have ih := traverseCollection_keys lib rq root (Value.arr es) crs path next k
        (hx k _ next (List.mem_cons_self _ _) hnext) (desc_nextNode root n next k hn hnext)
        hpath
        (fun h1 h2 => hk k _ next (List.mem_cons_self _ _) hnext
          ((appendsPathPart_arr next es).2 ⟨h1, h2⟩))
      split
      · rename_i crs2 e heq
        rw [heq] at ih
        exact ih
      · rename_i crs2 ref heq
        rw [heq] at ih
        exact keysFrom_trans _ _ _ _ _ _ ih
          (traverseFields_keys lib rq root rest crs2 path n _ hk2 hx2 hn hpath)
  | (k, Value.str s) :: rest, crs, path, n, model, hk, hx, hn, hpath =>
    traverseFields_prim lib rq root k _ rest crs path n model
      (fun f hf => by cases hf) (fun f hf => by cases hf)
      (fun m2 => traverseFields_keys lib rq root rest crs path n m2
        (fun a b nx hm => hk a b nx (List.mem_cons_of_mem _ hm))
        (fun a b nx hm => hx a b nx (List.mem_cons_of_mem _ hm)) hn hpath)
  | (k, Value.num s) :: rest, crs, path, n, model, hk, hx, hn, hpath =>
    traverseFields_prim lib rq root k _ rest crs path n model
      (fun f hf => by cases hf) (fun f hf => by cases hf)
      (fun m2 => traverseFields_keys lib rq root rest crs path n m2
        (fun a b nx hm => hk a b nx (List.mem_cons_of_mem _ hm))
        (fun a b nx hm => hx a b nx (List.mem_cons_of_mem _ hm)) hn hpath)
  | (k, Value.vtrue) :: rest, crs, path, n, model, hk, hx, hn, hpath =>
    traverseFields_prim lib rq root k _ rest crs path n model
      (fun f hf => by cases hf) (fun f hf => by cases hf)
      (fun m2 => traverseFields_keys lib rq root rest crs path n m2
        (fun a b nx hm => hk a b nx (List.mem_cons_of_mem _ hm))
        (fun a b nx hm => hx a b nx (List.mem_cons_of_mem _ hm)) hn hpath)
  | (k, Value.vfalse) :: rest, crs, path, n, model, hk, hx, hn, hpath =>
    traverseFields_prim lib rq root k _ rest crs path n model
      (fun f hf => by cases hf) (fun f hf => by cases hf)
      (fun m2 => traverseFields_keys lib rq root rest crs path n m2
        (fun a b nx hm => hk a b nx (List.mem_cons_of_mem _ hm))
        (fun a b nx hm => hx a b nx (List.mem_cons_of_mem _ hm)) hn hpath)
  | (k, Value.vnull) :: rest, crs, path, n, model, hk, hx, hn, hpath =>
    traverseFields_prim lib rq root k _ rest crs path n model
      (fun f hf => by cases hf) (fun f hf => by cases hf)
      (fun m2 => traverseFields_keys lib rq root rest crs path n m2
        (fun a b nx hm => hk a b nx (List.mem_cons_of_mem _ hm))
        (fun a b nx hm => hx a b nx (List.mem_cons_of_mem _ hm)) hn hpath)
theorem traverseElems_keys (lib : GoLib) (rq : GoString → GoString)
    (root : Node) :
    ∀ (elems : List Value) (crs : Crs) (path : List GoString) (n : Node) (j : Nat),
      (∀ x next, x ∈ elems → n.param = some next → PathPartsSafe lib next x) →
      Desc root n → (∀ s ∈ path, '.' ∉ s) →
      KeysFrom lib root rq crs (traverseElems lib rq elems crs path n j).1
  | [], crs, path, n, j, hx, hn, hpath => by
    rw [traverseElems.eq_1]
    exact keysFrom_refl _ _ _ _
  | Value.obj fs :: rest, crs, path, n, j, hx, hn, hpath => by
    have hx2 : ∀ x next, x ∈ rest → n.param = some next → PathPartsSafe lib next x :=
      fun b nx hm => hx b nx (List.mem_cons_of_mem _ hm)
    rw [traverseElems.eq_2]
    split
    · have ih := traverseElems_keys lib rq root rest crs path n (j + 1) hx2 hn hpath
      split
      · rename_i crs2 e heq
        rw [heq] at ih
        exact ih
      · rename_i crs2 tail heq
        rw [heq] at ih
        exact ih
    · rename_i next hnext
      have ih := traverseModel_keys lib rq root (Value.obj fs) crs path next (itoa j)
        (hx _ next (List.mem_cons_self _ _) hnext) (desc_param root n next hn hnext) hpath
        (fun _ _ => itoa_dotfree j)
      split
      · rename_i crs2 e heq
        rw [heq] at ih
        exact ih
      · rename_i crs2 ref heq
        rw [heq] at ih
        have ih2 := traverseElems_keys lib rq root rest crs2 path n (j + 1) hx2 hn hpath
        split
        · rename_i crs3 e heq2
          rw [heq2] at ih2
          exact keysFrom_trans _ _ _ _ _ _ ih ih2
        · rename_i crs3 tail heq2
          rw [heq2] at ih2
          exact keysFrom_trans _ _ _ _ _ _ ih ih2
  | Value.arr es :: rest, crs, path, n, j, hx, hn, hpath => by
    have hx2 : ∀ x next, x ∈ rest → n.param = some next → PathPartsSafe lib next x :=
      fun b nx hm => hx b nx (List.mem_cons_of_mem _ hm)
    rw [traverseElems.eq_3]
    split
    · have ih := traverseElems_keys lib rq root rest crs path n (j + 1) hx2 hn hpath
      split
      · rename_i crs2 e heq
        rw [heq] at ih
        exact ih
      · rename_i crs2 tail heq
        rw [heq] at ih
        exact ih
    · rename_i next hnext
      have ih := traverseCollection_keys lib rq root (Value.arr es) crs path next (itoa j)
        (hx _ next (List.mem_cons_self _ _) hnext) (desc_param root n next hn hnext) hpath
        (fun _ _ => itoa_dotfree j)
      split
      · rename_i crs2 e heq
        rw [heq] at ih
        exact ih
      · rename_i crs2 ref heq
        rw [heq] at ih
        have ih2 := traverseElems_keys lib rq root rest crs2 path n (j + 1) hx2 hn hpath
        split
        · rename_i crs3 e heq2
          rw [heq2] at ih2
          exact keysFrom_trans _ _ _ _ _ _ ih ih2
        · rename_i crs3 tail heq2
          rw [heq2] at ih2
          exact keysFrom_trans _ _ _ _ _ _ ih ih2
  | Value.str s :: rest, crs, path, n, j, hx, hn, hpath =>
    traverseElems_prim lib rq root _ rest crs path n j
      (fun f hf => by cases hf) (fun f hf => by cases hf)
      (traverseElems_keys lib rq root rest crs path n (j + 1)
        (fun b nx hm => hx b nx (List.mem_cons_of_mem _ hm)) hn hpath)
  | Value.num s :: rest, crs, path, n, j, hx, hn, hpath =>
    traverseElems_prim lib rq root _ rest crs path n j
      (fun f hf => by cases hf) (fun f hf => by cases hf)
      (traverseElems_keys lib rq root rest crs path n (j + 1)
        (fun b nx hm => hx b nx (List.mem_cons_of_mem _ hm)) hn hpath)
  | Value.vtrue :: rest, crs, path, n, j, hx, hn, hpath =>
    traverseElems_prim lib rq root _ rest crs path n j
      (fun f hf => by cases hf) (fun f hf => by cases hf)
      (traverseElems_keys lib rq root rest crs path n (j + 1)
        (fun b nx hm => hx b nx (List.mem_cons_of_mem _ hm)) hn hpath)
  | Value.vfalse :: rest, crs, path, n, j, hx, hn, hpath =>
    traverseElems_prim lib rq root _ rest crs path n j
      (fun f hf => by cases hf) (fun f hf => by cases hf)
      (traverseElems_keys lib rq root rest crs path n (j + 1)
        (fun b nx hm => hx b nx (List.mem_cons_of_mem _ hm)) hn hpath)
  | Value.vnull :: rest, crs, path, n, j, hx, hn, hpath =>
    traverseElems_prim lib rq root _ rest crs path n j
      (fun f hf => by cases hf) (fun f hf => by cases hf)
      (traverseElems_keys lib rq root rest crs path n (j + 1)
        (fun b nx hm => hx b nx (List.mem_cons_of_mem _ hm)) hn hpath)
end


theorem splitDot_mem_dotfree : ∀ (s : GoString), ∀ t ∈ splitDot s, '.' ∉ t := by
  intro s
  induction s with
  | nil => intro t ht; simp [splitDot] at ht; subst ht; simp
  | cons c cs ih =>
    intro t ht
    rw [splitDot] at ht
    split at ht
    · rcases List.mem_cons.1 ht with e | e
      · subst e; simp
      · exact ih t e
    · rename_i hc
      split at ht
      · simp only [List.mem_singleton] at ht
        subst ht
        intro hm
        simp only [List.mem_singleton] at hm
        exact hc hm.symm
      · rename_i t0 ts heq
        rw [heq] at ih
        rcases List.mem_cons.1 ht with e | e
        · subst e
          intro hm
          rcases List.mem_cons.1 hm with e2 | e2
          · exact hc e2.symm
          · exact ih t0 (List.mem_cons_self _ _) e2
        · exact ih t (List.mem_cons_of_mem _ e)

theorem tokensOf_mem_dotfree (s : GoString) : ∀ t ∈ tokensOf s, '.' ∉ t := by
  intro t ht
  unfold tokensOf at ht
  split at ht
  · exact splitDot_mem_dotfree s t ht
  · cases ht

theorem splitDot_joinDot : ∀ (X : List GoString), X ≠ [] → (∀ x ∈ X, '.' ∉ x) →
    splitDot (joinDot X) = X := by
  intro X
  induction X with
  | nil => intro h; exact absurd rfl h
  | cons x xs ih =>
    intro _ hX
    cases xs with
    | nil => exact splitDot_dotfree x (hX x (List.mem_cons_self _ _))
    | cons y ys =>
      rw [joinDot_cons_cons, splitDot_append_dot,
        splitDot_dotfree x (hX x (List.mem_cons_self _ _)),
        ih (by simp) (fun z hz => hX z (List.mem_cons_of_mem _ hz))]
      rfl

theorem joinDot_ne_nil (x : GoString) (xs : List GoString) (hx : x ≠ []) :
    joinDot (x :: xs) ≠ [] := by
  cases xs with
  | nil => exact hx
  | cons y ys =>
    rw [joinDot_cons_cons]
    cases x with
    | nil => exact absurd rfl hx
    | cons c cs => simp

theorem tokensOf_joinDot (X : List GoString) (hne : ∀ x ∈ X, x ≠ [])
    (hdot : ∀ x ∈ X, '.' ∉ x) : tokensOf (joinDot X) = X := by
  cases X with
  | nil => rfl
  | cons x xs =>
    unfold tokensOf
    rw [if_pos (joinDot_ne_nil x xs (hne x (List.mem_cons_self _ _)))]
    exact splitDot_joinDot _ (by simp) hdot

theorem pieceText_resetPiece_lit (ups : List GoString) (t : GoString)
    (h : t.head? ≠ some '$') : pieceText (resetPiece ups t) = t := by
  cases t with
  | nil => rfl
  | cons c tt =>
    have hc : c ≠ '$' := fun e => h (by rw [e]; rfl)
    simp only [resetPiece, if_neg hc, pieceText]

theorem pieceText_resetPiece_props (ups : List GoString) (t : GoString) (ht : t ≠ [])
    (hdot : '.' ∉ t) :
    pieceText (resetPiece ups t) ≠ [] ∧ '.' ∉ pieceText (resetPiece ups t) := by
  cases t with
  | nil => exact absurd rfl ht
  | cons c tt =>
    simp only [resetPiece]
    split
    · split
      · simp only [pieceText, placeholder]
        refine ⟨by simp, ?_⟩
        intro hm
        simp only [List.cons_append, List.nil_append, List.mem_cons, List.mem_append,
          List.mem_singleton] at hm
        rcases hm with e | e | e | e
        · exact absurd e (by decide)
        · exact absurd e (by decide)
        · exact hdot (List.mem_cons_of_mem _ e)
        · exact absurd e (by decide)
      · simp only [pieceText]
        exact ⟨by simp, by decide⟩
    · simp only [pieceText]
      exact ⟨ht, hdot⟩

theorem tokensOf_resetPattern (rid : GoString) (ups : List GoString)
    (hwf : WellFormedTokens (tokensOf rid)) :
    tokensOf (resetPattern rid ups) =
      ((tokensOf rid).map (resetPiece ups)).map pieceText := by
  rw [resetPattern_eq]
  apply tokensOf_joinDot
  · intro x hx
    simp only [List.map_map, List.mem_map, Function.comp] at hx
    obtain ⟨t, ht, e⟩ := hx
    rw [← e]
    exact (pieceText_resetPiece_props ups t (hwf t ht).1 (tokensOf_mem_dotfree rid t ht)).1
  · intro x hx
    simp only [List.map_map, List.mem_map, Function.comp] at hx
    obtain ⟨t, ht, e⟩ := hx
    rw [← e]
    exact (pieceText_resetPiece_props ups t (hwf t ht).1 (tokensOf_mem_dotfree rid t ht)).2

theorem literal_tokens_of_reset (rid : GoString) (ups : List GoString)
    (hwf : WellFormedTokens (tokensOf rid))
    (h : ∀ t ∈ tokensOf (resetPattern rid ups),
      t = ['*'] ∨ (∃ u ∈ ups, t = placeholder u) ∨ ('%' ∉ t ∧ '$' ∉ t)) :
    ∀ t ∈ tokensOf rid, t.head? ≠ some '$' → '%' ∉ t ∧ '$' ∉ t := by
  intro t ht hhead
  have hm : t ∈ tokensOf (resetPattern rid ups) := by
    rw [tokensOf_resetPattern rid ups hwf]
    simp only [List.map_map, List.mem_map, Function.comp]
    exact ⟨t, ht, pieceText_resetPiece_lit ups t hhead⟩
  rcases h t hm with e | ⟨u, _, e⟩ | e
  · subst e
    exact ⟨by decide, by decide⟩
  · subst e
    exact absurd rfl hhead
  · exact e

theorem mem_tokenNames (ps : List Piece) (u : GoString) (h : u ∈ tokenNames ps) :
    Piece.tok u ∈ ps := by
  induction ps with
  | nil => cases h
  | cons p ps ih =>
    cases p with
    | lit s => exact List.mem_cons_of_mem _ (ih h)
    | tok m =>
      rcases List.mem_cons.1 h with e | e
      · subst e; exact List.mem_cons_self _ _
      · exact List.mem_cons_of_mem _ (ih e)

theorem urlParams_names (url : GoString) (ups : List GoString)
    (h : urlParams url = Except.ok ups) : ∀ u ∈ ups, '$' ∉ u ∧ '}' ∉ u := by
  obtain ⟨ps, hps, _, e⟩ := pieces_of_urlParams_ok url ups h
  intro u hu
  rw [e] at hu
  have hw := hps _ (mem_tokenNames ps u hu)
  exact ⟨fun hm => isAlnum_ne_dollar (hw.2 _ hm) rfl, fun hm => isAlnum_ne_close (hw.2 _ hm) rfl⟩

theorem traverse_keys (lib : GoLib) (rq : GoString → GoString)
    (root : Node) (v : Value) (hs : PathPartsSafe lib root v) :
    ∀ k ∈ crsKeys (traverse lib rq root v).1, InsertedId lib root rq k := by
  have h0 : ∀ crs, KeysFrom lib root rq [] crs → ∀ k ∈ crsKeys crs, InsertedId lib root rq k := by
    intro crs h k hk
    rcases h k hk with e | e
    · cases e
    · exact e
  have hp : ∀ s ∈ ([] : List GoString), '.' ∉ s := fun s hs => by cases hs
  unfold traverse
  split
  · rename_i fields
    have ih := traverseModel_keys lib rq root (Value.obj fields) [] [] root [] hs
      (Desc.self root) hp (fun _ _ => by simp)
    split
    · rename_i crs e heq
      rw [heq] at ih
      exact h0 _ ih
    · rename_i crs r heq
      rw [heq] at ih
      exact h0 _ ih
  · rename_i elems
    have ih := traverseCollection_keys lib rq root (Value.arr elems) [] [] root [] hs
      (Desc.self root) hp (fun _ _ => by simp)
    split
    · rename_i crs e heq
      rw [heq] at ih
      exact h0 _ ih
    · rename_i crs r heq
      rw [heq] at ih
      exact h0 _ ih
  · intro k hk
    cases hk

/-- C5 (amended): for an endpoint whose resources were registered through `addResource` from
the parameters of its URL template, if every token of every reset pattern is `*`, the
placeholder of a URL parameter, or a text without `%` and `$`, the bindings of the URL
parameters hold no `$`, and no path part that the decomposition takes from the value holds a
`.` (the key of a property decomposed at a child node that appends it, and the decoded string
or number text of the id property of an object decomposed at a property-id model; other keys
and values are free), then every id that `traverse` inserts into the cached-resource map is
matched by a reset pattern after the substitution of the bindings. -/
theorem traverse_ids_matched (lib : GoLib)
    (reqParams : GoString → GoString) (serviceName url : GoString) (ups : List GoString)
    (cfg : ResourceCfg) (st : EndpointState) (v : Value) (rid : GoString)
    (hups : urlParams url = Except.ok ups)
    (hreg : addResource serviceName ups cfg [] [] ⟨Node.empty, []⟩ = Except.ok st)
    (hlit : ∀ rp ∈ st.resetPatterns, ∀ t ∈ tokensOf rp,
      t = ['*'] ∨ (∃ u ∈ ups, t = placeholder u) ∨ ('%' ∉ t ∧ '$' ∉ t))
    (hbind : ∀ u ∈ ups, '$' ∉ reqParams u)
    (hsafe : PathPartsSafe lib st.node v)
    (hin : rid ∈ crsKeys (traverse lib reqParams st.node v).1) :
    ∃ rp ∈ st.resetPatterns, Matches (expandURL rp ups reqParams) rid := by
  obtain ⟨n, path, hn, htyp, hpath, hk⟩ := traverse_keys lib reqParams st.node v hsafe rid hin
  have hinv := addResource_regInv serviceName ups cfg [] [] _ st (regInv_empty ups) hreg
  obtain ⟨rid0, hr, hmem⟩ := hinv n hn htyp
  refine ⟨resetPattern rid0 ups, hmem, ?_⟩
  have hnames := urlParams_names url ups hups
  exact createRid_matches lib ups reqParams rid0 n path rid hr
    (fun u hu => ⟨hnames u hu, hbind u hu⟩)
    (literal_tokens_of_reset rid0 ups hr.1 (hlit _ hmem)) hpath hk


/-- The endpoint `itemState` and a response whose object `ab` holds the key `x.y` with the
number `1.5`: neither becomes a path part, the object is decomposed under `svc.item.7.ab`,
and this id is matched by a reset pattern. -/
theorem traverse_ids_matched_witness :
    ∃ rp ∈ itemState.resetPatterns,
      Matches (expandURL rp ["id".toList] (fun _ => "7".toList)) "svc.item.7.ab".toList :=
  traverse_ids_matched plainLib (fun _ => "7".toList) "svc".toList "http://x/${id}".toList
    ["id".toList] itemCfg itemState
    (Value.obj [("ab".toList, Value.obj [("x.y".toList, Value.num "1.5".toList)])])
    "svc.item.7.ab".toList rfl rfl (by decide) (by decide)
    (PathPartsSafe.obj _ _
      (fun _ hp => absurd hp (by decide))
      (fun _ hp => absurd hp (by decide))
      (fun _ k x next hm _ _ => by
        simp only [List.mem_singleton, Prod.mk.injEq] at hm
        rw [hm.1]
        decide)
      (fun _ k x next hm hnext => by
        simp only [List.mem_singleton, Prod.mk.injEq] at hm
        obtain ⟨hk, hx⟩ := hm
        subst hk hx
        have e : nextNode itemState.node "ab".toList =
            some (Node.mk ResourceType.model [] none "svc.item.%s.%s".toList
              [⟨ParamType.url, "id".toList, 0⟩, ⟨ParamType.path, "key".toList, 0⟩]
              PathType.default []) := rfl
        rw [e] at hnext
        simp only [Option.some.injEq] at hnext
        subst hnext
        exact PathPartsSafe.obj _ _ (fun _ hp => absurd hp (by decide))
          (fun _ hp => absurd hp (by decide))
          (fun _ k x nx h _ ha => by
            simp only [List.mem_singleton, Prod.mk.injEq] at h
            rw [h.2] at ha
            cases ha)
          (fun _ k x nx h _ => by
            simp only [List.mem_singleton, Prod.mk.injEq] at h
            rw [h.2]
            exact PathPartsSafe.prim _ _ rfl)))
    (by decide)

/-- C5 (counterexample): the service `svc` registers the model `root` and a model below it
for every key, so the reset patterns are `svc.root` and `svc.root.*`. For a response
that is an object with the single key `a.b` holding an empty object the traversal succeeds and inserts the id `svc.root.a.b`, which has
four tokens and is matched by neither reset pattern. -/
theorem traverse_ids_counterexample :
    urlParams "http://x".toList = Except.ok [] ∧
    addResource "svc".toList [] rootCfg [] [] ⟨Node.empty, []⟩ = Except.ok rootState ∧
    rootState.resetPatterns = ["svc.root".toList, "svc.root.*".toList] ∧
    (traverse plainLib (fun _ => []) rootState.node
      (Value.obj [("a.b".toList, Value.obj [])])).2 = Except.ok () ∧
    "svc.root.a.b".toList ∈ crsKeys (traverse plainLib (fun _ => []) rootState.node
      (Value.obj [("a.b".toList, Value.obj [])])).1 ∧
    ∀ rp ∈ rootState.resetPatterns,
      ¬ Matches (expandURL rp [] (fun _ => [])) "svc.root.a.b".toList := by
  refine ⟨rfl, rfl, rfl, rfl, by decide, ?_⟩
  intro rp hrp hm
  have hlen := List.Forall₂.length_eq hm
  have hrp2 : rp ∈ ["svc.root".toList, "svc.root.*".toList] := hrp
  simp only [List.mem_cons, List.mem_singleton, List.not_mem_nil, or_false] at hrp2
  rcases hrp2 with e | e
  · subst e
    revert hlen
    decide
  · subst e
    revert hlen
    decide


/-- A path that starts with `.` is never registered. -/
theorem addPath_leading_dot (rn : Node) (p pattern : GoString) (ups : List GoString)
    (typStr idProp : GoString) :
    ∃ e, addPath rn ('.' :: p) pattern ups typStr idProp = Except.error e := by
  unfold addPath
  split
  · exact ⟨_, rfl⟩
  · split
    · exact ⟨_, rfl⟩
    · split
      · exact ⟨_, rfl⟩
      · have ht : tokensOf ('.' :: p) = [] :: splitDot p := by
          simp [tokensOf, splitDot]
        rw [ht, addPathLoop]
        exact ⟨_, rfl⟩


/-- The call of `addPath` made by `addResource`. -/
theorem addResource_eq (sn : GoString) (ups : List GoString) (typ rPattern rPath idProp : GoString)
    (resources : List ResourceCfg) (pattern path : GoString) (ep : EndpointState) :
    addResource sn ups (ResourceCfg.mk typ rPattern rPath idProp resources) pattern path ep =
      match addPath ep.node (childPath path rPath)
          (childRid sn (childPattern pattern rPattern rPath)) ups typ idProp with
      | Except.error e => Except.error e
      | Except.ok node =>
        addResources sn ups resources (childPattern pattern rPattern rPath)
          (childPath path rPath)
          ⟨node, ep.resetPatterns ++
            [resetPattern (childRid sn (childPattern pattern rPattern rPath)) ups]⟩ := by
  rw [addResource]
  rfl

/-- C11: the resource tree `stations` / `station` / `transfers` does not register. Below the
parent path `station` the segment `transfers` is composed to the path `.transfers`, not to
`station.transfers`; `addPath` rejects it as an invalid path, although the first two levels
alone register and `addPath` accepts the path `station.transfers` on the trie they leave. -/
theorem addResource_nested_path_error :
    childPath "station".toList "transfers".toList = ".transfers".toList ∧
    specChildPath "station".toList "transfers".toList = "station.transfers".toList ∧
    addResource "svc".toList [] stationsCfg [] [] ⟨Node.empty, []⟩ =
      Except.error AddPathError.invalidPath ∧
    (∃ st, addResource "svc".toList [] stationCfg [] [] ⟨Node.empty, []⟩ = Except.ok st ∧
      (∃ node, addPath st.node "station.transfers".toList "svc.stations.station.transfers".toList
        [] "collection".toList [] = Except.ok node) ∧
      addPath st.node ".transfers".toList "svc.stations.station.transfers".toList
        [] "collection".toList [] = Except.error AddPathError.invalidPath) :=
  ⟨by decide, by decide, rfl, _, rfl, ⟨_, rfl⟩, rfl⟩


/-- Every resource with a path segment below a parent with a composed path
fails to register. -/
theorem addResource_nested_fails (sn : GoString) (ups : List GoString)
    (typ rPattern rPath idProp : GoString) (resources : List ResourceCfg)
    (pattern path : GoString) (ep : EndpointState) (hpath : path ≠ []) (hseg : rPath ≠ []) :
    ∃ e, addResource sn ups (ResourceCfg.mk typ rPattern rPath idProp resources) pattern path ep =
      Except.error e := by
  rw [addResource_eq]
  have hp : childPath path rPath = '.' :: rPath := by
    simp [childPath, hpath, hseg]
  rw [hp]
  obtain ⟨e, he⟩ := addPath_leading_dot ep.node rPath
    (childRid sn (childPattern pattern rPattern rPath)) ups typ idProp
  rw [he]
  exact ⟨e, rfl⟩


theorem joinDot_splitDot : ∀ (s : GoString), joinDot (splitDot s) = s := by
  intro s
  induction s with
  | nil => rfl
  | cons c cs ih =>
    rw [splitDot]
    split
    · rename_i hc
      subst hc
      have hne := splitDot_ne_nil cs
      cases h : splitDot cs with
      | nil => exact absurd h hne
      | cons t ts =>
        rw [joinDot_cons_cons, ← h, ih]
        rfl
    · split
      · rename_i h
        exact absurd h (splitDot_ne_nil cs)
      · rename_i t ts h
        rw [h] at ih
        cases ts with
        | nil =>
          simp only [joinDot] at ih ⊢
          rw [ih]
        | cons t2 ts2 =>
          rw [joinDot_cons_cons] at ih ⊢
          rw [← ih]
          rfl

theorem joinDot_eq_nil_iff (X : List GoString) : joinDot X = [] ↔ X = [] ∨ X = [[]] := by
  constructor
  · intro h
    cases X with
    | nil => exact Or.inl rfl
    | cons x xs =>
      cases xs with
      | nil =>
        right
        simp only [joinDot] at h
        rw [h]
      | cons y ys =>
        rw [joinDot_cons_cons] at h
        simp at h
  · intro h
    rcases h with h | h <;> subst h <;> rfl

theorem tokensOf_ne_single_nil (s : GoString) : tokensOf s ≠ [[]] := by
  unfold tokensOf
  split
  · rename_i hs
    intro h
    have := joinDot_splitDot s
    rw [h] at this
    exact hs this.symm
  · intro h
    cases h

theorem resetToken_eq (ups : List GoString) (t : GoString) :
    pieceText (resetPiece ups t) = resetToken ups t := by
  cases t with
  | nil => rfl
  | cons c tt =>
    by_cases hc : c = '$'
    · subst hc
      simp only [resetPiece, resetToken, if_pos]
      by_cases hm : tt ∈ ups
      · rw [if_pos ((containsString_iff ups tt).2 hm), if_pos hm]
        rfl
      · have : ¬ containsString ups tt = true := fun h => hm ((containsString_iff ups tt).1 h)
        rw [if_neg this, if_neg hm]
        rfl
    · simp only [resetPiece, if_neg hc, pieceText]
      unfold resetToken
      split
      · rename_i name heq
        simp only [List.cons.injEq] at heq
        exact absurd heq.1 hc
      · rfl

theorem resetToken_dotfree (ups : List GoString) (t : GoString) (h : '.' ∉ t) :
    '.' ∉ resetToken ups t := by
  unfold resetToken
  split
  · rename_i name
    split
    · intro hm
      simp only [List.cons_append, List.nil_append, List.mem_cons, List.mem_append,
        List.mem_singleton] at hm
      rcases hm with e | e | e | e
      · exact absurd e (by decide)
      · exact absurd e (by decide)
      · exact h (List.mem_cons_of_mem _ e)
      · exact absurd e (by decide)
    · decide
  · exact h

theorem resetToken_eq_nil (ups : List GoString) (t : GoString) :
    resetToken ups t = [] ↔ t = [] := by
  unfold resetToken
  split
  · split <;> simp
  · rfl

theorem resetPattern_spec (pattern : GoString) (ups : List GoString) :
    resetPattern pattern ups = joinDot ((tokensOf pattern).map (resetToken ups)) ∧
    tokensOf (resetPattern pattern ups) = (tokensOf pattern).map (resetToken ups) := by
  have h1 : resetPattern pattern ups = joinDot ((tokensOf pattern).map (resetToken ups)) := by
    rw [resetPattern_eq, List.map_map]
    congr 1
    apply List.map_congr_left
    intro t _
    exact resetToken_eq ups t
  refine ⟨h1, ?_⟩
  rw [h1]
  by_cases hX : tokensOf pattern = []
  · rw [hX]
    rfl
  · have hne : joinDot ((tokensOf pattern).map (resetToken ups)) ≠ [] := by
      intro h
      rcases (joinDot_eq_nil_iff _).1 h with e | e
      · exact hX (List.map_eq_nil_iff.1 e)
      · apply tokensOf_ne_single_nil pattern
        cases hp : tokensOf pattern with
        | nil => exact absurd hp hX
        | cons x xs =>
          rw [hp] at e
          simp only [List.map_cons, List.cons.injEq, List.map_eq_nil_iff] at e
          rw [e.2, (resetToken_eq_nil ups x).1 e.1]
    conv_lhs => rw [tokensOf, if_pos hne]
    apply splitDot_joinDot
    · intro h
      exact hX (List.map_eq_nil_iff.1 h)
    · intro x hx
      obtain ⟨t, ht, e⟩ := List.mem_map.1 hx
      rw [← e]
      exact resetToken_dotfree ups t (tokensOf_mem_dotfree pattern t ht)

/-- C12: `resetPattern` returns the tokens of the pattern, in their order and joined by `.`,
with every token `$name` rewritten to the placeholder of `name` when `name` is a URL parameter
and to `*` otherwise, and every other token unchanged; split again at `.`, the result has
exactly these tokens. -/
theorem resetPattern_tokens (pattern : GoString) (urlParams : List GoString) :
    resetPattern pattern urlParams =
      joinDot ((tokensOf pattern).map (resetToken urlParams)) ∧
    tokensOf (resetPattern pattern urlParams) = (tokensOf pattern).map (resetToken urlParams) ∧
    (tokensOf (resetPattern pattern urlParams)).length = (tokensOf pattern).length :=
  ⟨(resetPattern_spec pattern urlParams).1, (resetPattern_spec pattern urlParams).2, by
    rw [(resetPattern_spec pattern urlParams).2, List.length_map]⟩


theorem nodeAt_getD_param (l : Node) (name : GoString) (pre : List GoString)
    (h : ∀ parent, nodeAt l (('$' :: name) :: pre) = some parent →
      parent.typ ≠ ResourceType.model) :
    ∀ parent, nodeAt (l.param.getD Node.empty) pre = some parent →
      parent.typ ≠ ResourceType.model := by
  intro parent hp
  cases hpar : l.param with
  | none =>
    rw [hpar] at hp
    simp only [Option.getD_none] at hp
    rw [nodeAt_empty pre parent hp]
    decide
  | some c =>
    rw [hpar] at hp
    simp only [Option.getD_some] at hp
    apply h
    rw [nodeAt_wildcard, hpar]
    exact hp

theorem nodeAt_getD_child (l : Node) (c : Char) (name : GoString) (pre : List GoString)
    (hc : c ≠ '$')
    (h : ∀ parent, nodeAt l ((c :: name) :: pre) = some parent →
      parent.typ ≠ ResourceType.model) :
    ∀ parent, nodeAt ((mapGet l.nodes (c :: name)).getD Node.empty) pre = some parent →
      parent.typ ≠ ResourceType.model := by
  intro parent hp
  cases hch : mapGet l.nodes (c :: name) with
  | none =>
    rw [hch] at hp
    simp only [Option.getD_none] at hp
    rw [nodeAt_empty pre parent hp]
    decide
  | some ch =>
    rw [hch] at hp
    simp only [Option.getD_some] at hp
    apply h
    rw [nodeAt_literal l c name pre hc, hch]
    exact hp

/-- The walk of `addPath` for a collection with an `idProp` fails on a path that
ends in a wildcard below a node that is not a model. -/
theorem addPathLoop_idProp_error (pp idProp : GoString) (last : Int) (hid : idProp ≠ [])
    (name : GoString) :
    ∀ (pre : List GoString) (i : Nat) (l : Node) (params : List PatternParam) (ptyp : PathType),
      (i : Int) + (pre.length : Int) = last →
      (∀ parent, nodeAt l pre = some parent → parent.typ ≠ ResourceType.model) →
      ∃ e, addPathLoop ResourceType.collection pp idProp last (pre ++ [('$' :: name)]) i l
        params ptyp = Except.error e := by
  intro pre
  induction pre with
  | nil =>
    intro i l params ptyp hlast hparent
    have hl : (i : Int) = last := by simpa using hlast
    have hlt : l.typ ≠ ResourceType.model := hparent l rfl
    simp only [List.nil_append]
    rw [addPathLoop]
    simp only [if_true]
    split
    · exact ⟨_, rfl⟩
    · split
      · exact ⟨_, rfl⟩
      · split
        · exact ⟨_, rfl⟩
        · cases ht : l.typ with
          | model => exact absurd ht hlt
          | unset => exact ⟨_, rfl⟩
          | collection =>
            simp only [lastWildcard, hid, ne_eq, not_false_eq_true, if_true]
            exact ⟨_, rfl⟩
  | cons t pre ih =>
    intro i l params ptyp hlast hparent
    have hl : ¬ (i : Int) = last := by
      simp only [List.length_cons] at hlast
      omega
    have hl2 : ((i + 1 : Nat) : Int) + (pre.length : Int) = last := by
      simp only [List.length_cons] at hlast
      omega
    simp only [List.cons_append]
    cases t with
    | nil => rw [addPathLoop]; exact ⟨_, rfl⟩
    | cons c nm =>
      rw [addPathLoop]
      split
      · rename_i hc
        subst hc
        split
        · exact ⟨_, rfl⟩
        · split
          · exact ⟨_, rfl⟩
          · split
            · exact ⟨_, rfl⟩
            · rename_i j _ _
              obtain ⟨e, he⟩ := ih (i + 1) (l.param.getD Node.empty) (setParamPath params j i)
                PathType.default hl2 (nodeAt_getD_param l nm pre hparent)
              simp only [he]
              exact ⟨_, rfl⟩
      · rename_i hc
        obtain ⟨e, he⟩ := ih (i + 1) ((mapGet l.nodes (c :: nm)).getD Node.empty) params
          PathType.default hl2 (nodeAt_getD_child l c nm pre hc hparent)
        simp only [he]
        exact ⟨_, rfl⟩

/-- C15 (amended): an `addPath` call with a non-empty `idProp` and the resource type
collection returns an error when its path ends in a wildcard token below a node that is not
registered as a model (a collection, or a node without a resource type). -/
theorem addPath_idProp_collection (rn : Node) (path pattern : GoString)
    (urlParams : List GoString) (idProp : GoString) (pre : List GoString) (name : GoString)
    (hid : idProp ≠ [])
    (htoks : tokensOf path = pre ++ [('$' :: name)])
    (hparent : ∀ parent, nodeAt rn pre = some parent → parent.typ ≠ ResourceType.model) :
    ∃ e, addPath rn path pattern urlParams "collection".toList idProp = Except.error e := by
  unfold addPath
  have ht : parseResourceType "collection".toList = some ResourceType.collection := by decide
  rw [ht]
  simp only
  split
  · exact ⟨_, rfl⟩
  · split
    · exact ⟨_, rfl⟩
    · rw [htoks]
      apply addPathLoop_idProp_error _ _ _ hid
      · simp only [List.length_append, List.length_singleton, Nat.cast_add, Nat.cast_one]
        omega
      · exact hparent

theorem addPath_idProp_collection_witness :
    ∃ e, addPath (Node.mk ResourceType.collection [] none "svc".toList [] PathType.root [])
      "$id".toList "svc.$id".toList [] "collection".toList "id".toList = Except.error e :=
  addPath_idProp_collection
    (Node.mk ResourceType.collection [] none "svc".toList [] PathType.root [])
    "$id".toList "svc.$id".toList [] "id".toList [] "id".toList (by decide) (by decide)
    (fun parent h => by
      simp only [nodeAt, Option.some.injEq] at h
      rw [← h]
      decide)

/-- C15 (counterexample): two `addPath` calls with the type collection and the non-empty
`idProp` `id` succeed: one for the empty path, and one for a path that ends in a wildcard
below a model. In both the `idProp` is stored on the node and no check is made. -/
theorem addPath_idProp_counterexample :
    addPath Node.empty [] "svc".toList [] "collection".toList "id".toList =
      Except.ok (Node.mk ResourceType.collection [] none "svc".toList [] PathType.root
        "id".toList) ∧
    addPath (Node.mk ResourceType.model [] none "svc".toList [] PathType.root [])
      "$k".toList "svc.$k".toList [] "collection".toList "id".toList =
      Except.ok (Node.mk ResourceType.model []
        (some (Node.mk ResourceType.collection [] none "svc.%s".toList
          [⟨ParamType.path, "k".toList, 0⟩] PathType.default "id".toList))
        "svc".toList [] PathType.root []) :=
  ⟨rfl, rfl⟩


theorem lastIsWildcard_single (t : GoString) :
    lastIsWildcard [t] = true → ∃ name, t = '$' :: name := by
  intro h
  unfold lastIsWildcard at h
  simp only [List.getLast?_singleton] at h
  split at h
  · rename_i name heq
    simp only [Option.some.injEq] at heq
    exact ⟨_, heq⟩
  · cases h

/-- The `ptyp` that a successful walk of `addPath` stores: the one it was
started with for an empty path, and `default` for a final wildcard unless the
parent is a collection and an `idProp` is given. -/
theorem addPathLoop_ptyp (typ : ResourceType) (pp idProp : GoString) (last : Int)
    (ts : List GoString) :
    ∀ (i : Nat) (l : Node) (params : List PatternParam) (ptyp : PathType) (l2 : Node),
      addPathLoop typ pp idProp last ts i l params ptyp = Except.ok l2 →
      (i : Int) + (ts.length : Int) - 1 = last →
      ∃ n, nodeAt l2 ts = some n ∧ (ts = [] → n.ptyp = ptyp) ∧
        (lastIsWildcard ts = true → ∀ parent, nodeAt l ts.dropLast = some parent →
          ¬ (parent.typ = ResourceType.collection ∧ idProp ≠ []) →
          n.ptyp = PathType.default) := by
  induction ts with
  | nil =>
    intro i l params ptyp l2 h _
    simp only [addPathLoop] at h
    split at h
    · cases h
    · split at h
      · cases h
      · simp only [Except.ok.injEq] at h
        subst h
        refine ⟨_, rfl, fun _ => (register_fields l typ pp params ptyp idProp).2.2.2.1, ?_⟩
        intro hw
        simp [lastIsWildcard] at hw
  | cons t ts ih =>
    intro i l params ptyp l2 h hlast
    cases t with
    | nil => simp [addPathLoop] at h
    | cons c name =>
      simp only [addPathLoop] at h
      split at h
      · rename_i hc
        split at h
        · cases h
        · split at h
          · cases h
          · split at h
            · cases h
            · split at h
              · cases h
              · rename_i ptyp2 hpt
                split at h
                · cases h
                · rename_i n heq
                  simp only [Except.ok.injEq] at h
                  subst h
                  obtain ⟨m, h1, h2, h3⟩ := ih _ _ _ _ _ heq (by
                    simp only [List.length_cons] at hlast
                    push_cast
                    omega)
                  refine ⟨m, ?_, (fun hnil => by cases hnil), ?_⟩
                  · rw [nodeAt_setParam _ _ _ _ _ hc]; exact h1
                  · intro hw parent hparent hnot
                    cases ts with
                    | nil =>
                      have hm := h2 rfl
                      rw [hm]
                      simp only [List.dropLast_single, nodeAt, Option.some.injEq] at hparent
                      subst hparent
                      have hl : (i : Int) = last := by
                        simp only [List.length_cons, List.length_nil] at hlast
                        omega
                      rw [if_pos hl] at hpt
                      unfold lastWildcard at hpt
                      split at hpt
                      · simp only [Except.ok.injEq] at hpt
                        exact hpt.symm
                      · rename_i hcol
                        split at hpt
                        · rename_i hid
                          exact absurd ⟨hcol, hid⟩ hnot
                        · simp only [Except.ok.injEq] at hpt
                          exact hpt.symm
                      · cases hpt
                    | cons t2 rest =>
                      rw [lastIsWildcard_cons _ _ (by simp)] at hw
                      subst hc
                      have hd : (('$' :: name) :: t2 :: rest).dropLast =
                          ('$' :: name) :: (t2 :: rest).dropLast := rfl
                      rw [hd, nodeAt_wildcard] at hparent
                      cases hp : l.param with
                      | none => rw [hp] at hparent; cases hparent
                      | some ch =>
                        rw [hp] at hparent
                        exact h3 hw parent (by rw [hp]; exact hparent) hnot
      · rename_i hc
        split at h
        · cases h
        · rename_i n heq
          simp only [Except.ok.injEq] at h
          subst h
          obtain ⟨m, h1, h2, h3⟩ := ih _ _ _ _ _ heq (by
            simp only [List.length_cons] at hlast
            push_cast
            omega)
          refine ⟨m, ?_, (fun hnil => by cases hnil), ?_⟩
          · rw [nodeAt_setChild _ _ _ _ _ hc]; exact h1
          · intro hw parent hparent hnot
            cases ts with
            | nil =>
              obtain ⟨nm, hnm⟩ := lastIsWildcard_single _ hw
              simp only [List.cons.injEq] at hnm
              exact absurd hnm.1 hc
            | cons t2 rest =>
              rw [lastIsWildcard_cons _ _ (by simp)] at hw
              have hd : ((c :: name) :: t2 :: rest).dropLast =
                  (c :: name) :: (t2 :: rest).dropLast := rfl
              rw [hd, nodeAt_literal l c name _ hc] at hparent
              cases hp : mapGet l.nodes (c :: name) with
              | none => rw [hp] at hparent; cases hparent
              | some ch =>
                rw [hp] at hparent
                exact h3 hw parent (by rw [hp]; exact hparent) hnot

theorem addPath_ptyp (rn : Node) (path pattern : GoString) (urlParams : List GoString)
    (typStr idProp : GoString) (rn2 : Node)
    (h : addPath rn path pattern urlParams typStr idProp = Except.ok rn2) :
    ∃ n, nodeAt rn2 (tokensOf path) = some n ∧
      (tokensOf path = [] → n.ptyp = PathType.root) ∧
      (lastIsWildcard (tokensOf path) = true →
        ∀ parent, nodeAt rn (tokensOf path).dropLast = some parent →
          ¬ (parent.typ = ResourceType.collection ∧ idProp ≠ []) →
          n.ptyp = PathType.default) := by
  unfold addPath at h
  split at h
  · cases h
  · split at h
    · cases h
    · split at h
      · cases h
      · exact addPathLoop_ptyp _ _ _ _ _ _ _ _ _ _ h (by omega)

/-- The walk of `addPath` along a path that ends in a wildcard below a node
without a resource type stops at the last token with the error
`no parent resource set`: every check before it passes. -/
theorem addPathLoop_noParent (typ : ResourceType) (pp idProp : GoString) (last : Int)
    (ts : List GoString) :
    ∀ (i : Nat) (l : Node) (params : List PatternParam) (ptyp : PathType) (cov : List GoString),
      WellFormedTokens ts →
      (params.map PatternParam.name).Nodup →
      (∀ p ∈ params, (p.typ = ParamType.unset ↔ p.name ∉ cov)) →
      (wildcardNames ts).Nodup →
      (∀ w ∈ wildcardNames ts, w ∈ params.map PatternParam.name ∧ w ∉ cov) →
      (i : Int) + (ts.length : Int) - 1 = last →
      lastIsWildcard ts = true →
      (∀ parent, nodeAt l ts.dropLast = some parent → parent.typ = ResourceType.unset) →
      addPathLoop typ pp idProp last ts i l params ptyp =
        Except.error AddPathError.noParentResource := by
  induction ts with
  | nil =>
    intro i l params ptyp cov _ _ _ _ _ _ hlw
    simp [lastIsWildcard] at hlw
  | cons t ts ih =>
    intro i l params ptyp cov hwf hnd hst hwnd hw hidx hlw hparent
    have ht := hwf t (List.mem_cons_self _ _)
    have hwf2 : WellFormedTokens ts := fun t2 h2 => hwf t2 (List.mem_cons_of_mem _ h2)
    cases t with
    | nil => exact absurd rfl ht.1
    | cons c name =>
      by_cases hc : c = '$'
      · subst hc
        have hname : name ≠ [] := by
          intro e; subst e; exact ht.2 rfl
        simp only [wildcardNames, List.nodup_cons] at hwnd
        have hwn : ∀ w ∈ name :: wildcardNames ts, w ∈ params.map PatternParam.name ∧ w ∉ cov := by
          simpa only [wildcardNames] using hw
        have hmem := hwn name (List.mem_cons_self _ _)
        obtain ⟨j, h1, h2, h3, h4⟩ := patternParamsContain_mark
          (fun p => { p with typ := ParamType.path, idx := i }) (fun _ => rfl) (fun _ => by simp)
          name cov params hnd hmem.1 hst
        have hu : (params.map PatternParam.typ).getD j ParamType.unset = ParamType.unset :=
          h2.2 hmem.2
        by_cases hts : ts = []
        · subst hts
          have hlast : (i : Int) = last := by
            simp only [List.length_cons, List.length_nil] at hidx
            omega
          have hl : l.typ = ResourceType.unset := hparent l (by
            simp only [List.dropLast_single, nodeAt])
          simp only [addPathLoop, if_true, if_neg hname, h1, hu, ne_eq, not_true_eq_false,
            if_false, if_pos hlast, hl, lastWildcard]
        · have hlast : ¬ (i : Int) = last := by
            have : 0 < ts.length := List.length_pos.2 hts
            simp only [List.length_cons] at hidx
            omega
          have hrec := ih (i + 1) (l.param.getD Node.empty) (setParamPath params j i)
            PathType.default (name :: cov) hwf2
            (by unfold setParamPath; rw [h3]; exact hnd)
            h4 hwnd.2
            (by
              intro w hwm
              have := hwn w (List.mem_cons_of_mem _ hwm)
              unfold setParamPath
              rw [h3]
              refine ⟨this.1, ?_⟩
              simp only [List.mem_cons, not_or]
              refine ⟨?_, this.2⟩
              intro e; subst e; exact hwnd.1 hwm)
            (by simp only [List.length_cons] at hidx; push_cast; omega)
            (by rw [← lastIsWildcard_cons _ _ hts]; exact hlw)
            (by
              intro parent hp
              cases hlp : l.param with
              | none =>
                rw [hlp] at hp
                exact nodeAt_empty _ parent hp
              | some ch =>
                rw [hlp] at hp
                apply hparent parent
                rw [List.dropLast_cons_of_ne_nil hts, nodeAt_wildcard, hlp]
                exact hp)
          simp only [addPathLoop, if_true, if_neg hname, h1, hu, ne_eq, not_true_eq_false,
            if_false, if_neg hlast]
          rw [hrec]
      · have hts : ts ≠ [] := by
          intro e; subst e
          simp only [lastIsWildcard, List.getLast?_singleton] at hlw
          split at hlw
          · rename_i heq
            simp only [Option.some.injEq, List.cons.injEq] at heq
            exact hc heq.1
          · cases hlw
        have hwn_eq : wildcardNames ((c :: name) :: ts) = wildcardNames ts := by
          rw [wildcardNames]
          intro name2 h2
          simp only [List.cons.injEq] at h2
          exact hc h2.1
        rw [hwn_eq] at hwnd hw
        have hrec := ih (i + 1) ((mapGet l.nodes (c :: name)).getD Node.empty) params
          PathType.default cov hwf2 hnd hst hwnd hw
          (by simp only [List.length_cons] at hidx; push_cast; omega)
          (by rw [← lastIsWildcard_cons _ _ hts]; exact hlw)
          (by
            intro parent hp
            cases hlp : mapGet l.nodes (c :: name) with
            | none =>
              rw [hlp] at hp
              exact nodeAt_empty _ parent hp
            | some ch =>
              rw [hlp] at hp
              apply hparent parent
              rw [List.dropLast_cons_of_ne_nil hts, nodeAt_literal _ _ _ _ hc, hlp]
              exact hp)
        simp only [addPathLoop, if_neg hc]
        rw [hrec]

/-- A registration of a path that ends in a wildcard below a node without a
resource type fails with `no parent resource set`. -/
theorem addPath_noParent (rn : Node) (path pattern : GoString) (urlParams : List GoString)
    (typStr idProp : GoString) (typ : ResourceType)
    (htyp : parseResourceType typStr = some typ)
    (hpat : WellFormedTokens (tokensOf pattern))
    (hpath : WellFormedTokens (tokensOf path))
    (hcov : Covered (tokensOf pattern) (tokensOf path) urlParams)
    (hlast : lastIsWildcard (tokensOf path) = true)
    (hparent : ∀ parent, nodeAt rn (tokensOf path).dropLast = some parent →
      parent.typ = ResourceType.unset) :
    addPath rn path pattern urlParams typStr idProp =
      Except.error AddPathError.noParentResource := by
  obtain ⟨c1, c2, c3, c4, c5⟩ := hcov
  obtain ⟨out, hout⟩ := parsePatternLoop_ok (tokensOf pattern) hpat
  have hnames : ((wildcardNames (tokensOf pattern)).map
      (fun n => (⟨ParamType.unset, n, 0⟩ : PatternParam))).map PatternParam.name =
      wildcardNames (tokensOf pattern) := by
    rw [List.map_map]
    conv_rhs => rw [← List.map_id (wildcardNames (tokensOf pattern))]
    rfl
  obtain ⟨params2, m1, m2, m3⟩ := markURLParams_ok urlParams
    ((wildcardNames (tokensOf pattern)).map (fun n => ⟨ParamType.unset, n, 0⟩)) []
    (by rw [hnames]; exact c1)
    (by rw [hnames]; exact c3)
    (by
      intro p hp
      simp only [List.mem_map] at hp
      obtain ⟨n, _, e⟩ := hp
      subst e
      simp)
  rw [hnames] at m2
  have g := addPathLoop_noParent typ (joinDot out) idProp
    (((tokensOf path).length : Int) - 1) (tokensOf path) 0 rn params2 PathType.root
    (urlParams ++ []) hpath (by rw [m2]; exact c1) m3 c2
    (by
      intro w hw
      rw [m2]
      have := c4 w hw
      exact ⟨this.1, by simpa using this.2⟩)
    (by push_cast; omega) hlast hparent
  unfold addPath
  simp only [htyp, parsePattern, hout, m1]
  exact g

/-- C16 (amended): for an `addPath` call with a valid type, well-formed path
and pattern tokens, every pattern parameter covered exactly once, and a path
that ends in a wildcard token: when the path is not registered yet, the parent
node has the type model and `idProp` is empty, the call succeeds and the node
it registers has `ptyp = default`; when the parent node has no resource type
(it was never registered, or the walk creates it), the call returns the error
`no parent resource set`, whatever `idProp` is. -/
theorem addPath_wildcard_default (rn : Node) (path pattern : GoString)
    (urlParams : List GoString) (typStr : GoString) (typ : ResourceType)
    (htyp : parseResourceType typStr = some typ)
    (hpat : WellFormedTokens (tokensOf pattern))
    (hpath : WellFormedTokens (tokensOf path))
    (hcov : Covered (tokensOf pattern) (tokensOf path) urlParams)
    (hlast : lastIsWildcard (tokensOf path) = true) :
    ((∀ n, nodeAt rn (tokensOf path) = some n → n.typ = ResourceType.unset) →
      (∃ parent, nodeAt rn (tokensOf path).dropLast = some parent ∧
        parent.typ = ResourceType.model) →
      ∃ rn2 n, addPath rn path pattern urlParams typStr [] = Except.ok rn2 ∧
        nodeAt rn2 (tokensOf path) = some n ∧ n.typ = typ ∧ n.ptyp = PathType.default) ∧
    ((∀ parent, nodeAt rn (tokensOf path).dropLast = some parent →
        parent.typ = ResourceType.unset) →
      ∀ idProp, addPath rn path pattern urlParams typStr idProp =
        Except.error AddPathError.noParentResource) := by
  refine ⟨?_, ?_⟩
  · intro hnew hparent
    obtain ⟨parent, hp1, hp2⟩ := hparent
    obtain ⟨rn2, n, h1, h2, h3, _, _⟩ := addPath_ok rn path pattern urlParams typStr [] typ
      htyp hpat hpath hcov hnew (fun _ => ⟨parent, hp1, by rw [hp2]; decide,
        fun _ hne => absurd rfl hne⟩)
    obtain ⟨n2, g1, _, g3⟩ := addPath_ptyp rn path pattern urlParams typStr [] rn2 h1
    rw [h2] at g1
    simp only [Option.some.injEq] at g1
    subst g1
    refine ⟨rn2, n, h1, h2, h3, g3 hlast parent hp1 ?_⟩
    intro hc
    exact hc.2 rfl
  · intro hparent idProp
    exact addPath_noParent rn path pattern urlParams typStr idProp typ htyp hpat hpath hcov
      hlast hparent

/-- The path `$k` with the pattern `svc.$k`: below the root model `svc` it is
registered with `ptyp = default`; on the empty trie, whose root has no
resource type, the call fails with `no parent resource set`. -/
theorem addPath_wildcard_default_witness :
    (∃ rn2 n, addPath (Node.mk ResourceType.model [] none "svc".toList [] PathType.root [])
        "$k".toList "svc.$k".toList [] "model".toList [] = Except.ok rn2 ∧
      nodeAt rn2 (tokensOf "$k".toList) = some n ∧ n.typ = ResourceType.model ∧
      n.ptyp = PathType.default) ∧
    (∀ idProp, addPath Node.empty "$k".toList "svc.$k".toList [] "model".toList idProp =
      Except.error AddPathError.noParentResource) :=
  ⟨(addPath_wildcard_default
      (Node.mk ResourceType.model [] none "svc".toList [] PathType.root [])
      "$k".toList "svc.$k".toList [] "model".toList ResourceType.model (by decide)
      (by unfold WellFormedTokens; decide) (by unfold WellFormedTokens; decide)
      (by unfold Covered; decide) (by decide)).1
      (fun n h => by
        have e : nodeAt (Node.mk ResourceType.model [] none "svc".toList [] PathType.root [])
            (tokensOf "$k".toList) = none := by rfl
        rw [e] at h
        cases h)
      ⟨Node.mk ResourceType.model [] none "svc".toList [] PathType.root [], rfl, rfl⟩,
    (addPath_wildcard_default Node.empty "$k".toList "svc.$k".toList [] "model".toList
      ResourceType.model (by decide)
      (by unfold WellFormedTokens; decide) (by unfold WellFormedTokens; decide)
      (by unfold Covered; decide) (by decide)).2
      (fun parent h => by
        have e : nodeAt Node.empty (tokensOf "$k".toList).dropLast = some Node.empty := by rfl
        rw [e] at h
        simp only [Option.some.injEq] at h
        rw [← h]
        rfl)⟩

/-- C16 (counterexample): on the empty trie, whose root has no resource type, the path `$k`
with the pattern `svc.$k`, whose parameter is covered exactly once by the path wildcard, is
registered with an empty `idProp`: the call fails with `no parent resource set`. -/
theorem addPath_wildcard_counterexample :
    lastIsWildcard (tokensOf "$k".toList) = true ∧
    nodeAt Node.empty (tokensOf "$k".toList).dropLast = some Node.empty ∧
    Node.empty.typ = ResourceType.unset ∧
    Covered (tokensOf "svc.$k".toList) (tokensOf "$k".toList) [] ∧
    addPath Node.empty "$k".toList "svc.$k".toList [] "model".toList [] =
      Except.error AddPathError.noParentResource :=
  ⟨by decide, rfl, rfl, by unfold Covered; decide, rfl⟩


theorem wildcardNames_append (a b : List GoString) :
    wildcardNames (a ++ b) = wildcardNames a ++ wildcardNames b := by
  induction a with
  | nil => rfl
  | cons t ts ih =>
    cases t with
    | nil => simp only [List.cons_append, wildcardNames_nil_tok, ih]
    | cons c name =>
      by_cases hc : c = '$'
      · subst hc
        simp only [List.cons_append, wildcardNames_wild, ih]
      · simp only [List.cons_append, wildcardNames_lit _ _ _ hc, ih]

theorem mem_wildcardNames_of_getElem? (toks : List GoString) :
    ∀ (k : Nat) (w : GoString), toks[k]? = some ('$' :: w) → w ∈ wildcardNames toks := by
  induction toks with
  | nil => intro k w h; simp at h
  | cons t ts ih =>
    intro k w h
    cases k with
    | zero =>
      simp only [List.getElem?_cons_zero, Option.some.injEq] at h
      subst h
      rw [wildcardNames_wild]
      exact List.mem_cons_self _ _
    | succ k =>
      simp only [List.getElem?_cons_succ] at h
      have := ih k w h
      cases t with
      | nil => rw [wildcardNames_nil_tok]; exact this
      | cons c name =>
        by_cases hc : c = '$'
        · subst hc
          rw [wildcardNames_wild]
          exact List.mem_cons_of_mem _ this
        · rw [wildcardNames_lit _ _ _ hc]; exact this

theorem getElem?_snoc_of_some {α : Type} (pre : List α) (x : α) (k : Nat) (y : α)
    (h : pre[k]? = some y) : (pre ++ [x])[k]? = some y := by
  have hlt : k < pre.length := by
    by_contra hc
    rw [List.getElem?_eq_none (by omega)] at h
    cases h
  rw [List.getElem?_append_left hlt]
  exact h

theorem pathInv_literal (pre : List GoString) (params : List PatternParam) (c : Char)
    (name : GoString) (hc : c ≠ '$') (h : PathInv pre params) :
    PathInv (pre ++ [c :: name]) params := by
  obtain ⟨h1, h2, h3⟩ := h
  have hw : wildcardNames (pre ++ [c :: name]) = wildcardNames pre := by
    rw [wildcardNames_append, wildcardNames_lit _ _ _ hc]
    simp [wildcardNames]
  refine ⟨?_, ?_, ?_⟩
  · intro j p hp ht
    exact getElem?_snoc_of_some _ _ _ _ (h1 j p hp ht)
  · rw [hw]; exact h2
  · rw [hw]; exact h3

theorem pathInv_wildcard (ups : List GoString) (pre : List GoString)
    (params : List PatternParam) (name : GoString) (j : Nat)
    (hm : MarkInv ups ups params) (h : PathInv pre params)
    (hj : patternParamsContain params name = some j)
    (hunset : (params.map PatternParam.typ).getD j ParamType.unset = ParamType.unset) :
    PathInv (pre ++ [('$' :: name)]) (setParamPath params j pre.length) := by
  obtain ⟨h1, h2, h3⟩ := h
  obtain ⟨pj, hpj, hname⟩ := patternParamsContain_some params name j hj
  have hpjt : pj.typ = ParamType.unset := by
    rw [← typ_getD params j pj hpj]; exact hunset
  have hw : wildcardNames (pre ++ [('$' :: name)]) = wildcardNames pre ++ [name] := by
    rw [wildcardNames_append, wildcardNames_wild]
    rfl
  have hnew : (setParamPath params j pre.length)[j]? =
      some { pj with typ := ParamType.path, idx := pre.length } := by
    unfold setParamPath
    rw [List.getElem?_modify_eq, hpj]
    rfl
  have hkeep : ∀ (k : Nat) (p : PatternParam), params[k]? = some p → p.typ = ParamType.path →
      (setParamPath params j pre.length)[k]? = some p := by
    intro k p hk ht
    have hkj : k ≠ j := by
      intro e
      subst e
      rw [hpj] at hk
      simp only [Option.some.injEq] at hk
      subst hk
      rw [hpjt] at ht
      cases ht
    unfold setParamPath
    rw [List.getElem?_modify_ne _ _ (fun e => hkj e.symm)]
    exact hk
  refine ⟨?_, ?_, ?_⟩
  · intro k q hq ht
    rcases getElem?_modify_cases _ params j k pj q hpj hq with ⟨_, e⟩ | ⟨_, e⟩
    · subst e
      simp only
      rw [hname]
      exact List.getElem?_concat_length _ _
    · exact getElem?_snoc_of_some _ _ _ _ (h1 k q e ht)
  · intro w hwm
    rw [hw] at hwm
    rcases List.mem_append.1 hwm with e | e
    · obtain ⟨p, hp, hpn, hpt⟩ := h2 w e
      obtain ⟨k, hk⟩ := List.getElem?_of_mem hp
      exact ⟨p, List.getElem?_mem (hkeep k p hk hpt), hpn, hpt⟩
    · simp only [List.mem_singleton] at e
      subst e
      exact ⟨_, List.getElem?_mem hnew, hname, rfl⟩
  · rw [hw]
    apply List.Nodup.append h3 (List.nodup_singleton _)
    intro a ha hb
    simp only [List.mem_singleton] at hb
    subst hb
    obtain ⟨p, hp, hpn, hpt⟩ := h2 a ha
    obtain ⟨k, hk⟩ := List.getElem?_of_mem hp
    have h4 := hm.2.2.2 k p hk (by rw [hpt]; decide)
    rw [hpn, hj] at h4
    simp only [Option.some.injEq] at h4
    subst h4
    rw [hpj] at hk
    simp only [Option.some.injEq] at hk
    subst hk
    rw [hpjt] at hpt
    cases hpt


/-- The parameter list that a successful walk of `addPath` stores on the node
it registers. -/
theorem addPathLoop_params (ups : List GoString) (typ : ResourceType) (pp idProp : GoString)
    (last : Int) (ts : List GoString) :
    ∀ (i : Nat) (l : Node) (params : List PatternParam) (ptyp : PathType) (l2 : Node)
      (pre : List GoString),
      addPathLoop typ pp idProp last ts i l params ptyp = Except.ok l2 →
      pre.length = i → MarkInv ups ups params → PathInv pre params →
      ∃ n, nodeAt l2 ts = some n ∧
        n.params.map PatternParam.name = params.map PatternParam.name ∧
        MarkInv ups ups n.params ∧ PathInv (pre ++ ts) n.params ∧
        ∀ p ∈ n.params, p.typ ≠ ParamType.unset := by
  induction ts with
  | nil =>
    intro i l params ptyp l2 pre h _ hm hp
    simp only [addPathLoop] at h
    split at h
    · cases h
    · split at h
      · cases h
      · rename_i hfirst
        simp only [Except.ok.injEq] at h
        subst h
        have hpar := (register_fields l typ pp params ptyp idProp).2.2.2.2
        refine ⟨_, rfl, ?_, ?_, ?_, ?_⟩
        · rw [hpar]
        · rw [hpar]; exact hm
        · rw [hpar, List.append_nil]; exact hp
        · rw [hpar]; exact firstUnset_eq_none params hfirst
  | cons t ts ih =>
    intro i l params ptyp l2 pre h hlen hm hp
    cases t with
    | nil => simp [addPathLoop] at h
    | cons c name =>
      simp only [addPathLoop] at h
      split at h
      · rename_i hc
        subst hc
        split at h
        · cases h
        · split at h
          · cases h
          · split at h
            · cases h
            · rename_i j hj hunset
              split at h
              · cases h
              · split at h
                · cases h
                · rename_i n heq
                  simp only [Except.ok.injEq] at h
                  subst h
                  have hunset2 : (params.map PatternParam.typ).getD j ParamType.unset =
                      ParamType.unset := by
                    by_contra hne
                    exact hunset hne
                  have hp2 := pathInv_wildcard ups pre params name j hm hp hj hunset2
                  rw [hlen] at hp2
                  obtain ⟨m, h1, h2, h3, h4, h5⟩ := ih (i + 1) _ _ _ _ (pre ++ [('$' :: name)])
                    heq (by simp [hlen]) (markInv_path ups params name j i hm hj hunset2) hp2
                  refine ⟨m, ?_, ?_, h3, ?_, h5⟩
                  · rw [nodeAt_setParam _ _ _ _ _ rfl]; exact h1
                  · rw [h2]
                    exact map_name_modify
                      (fun p => { p with typ := ParamType.path, idx := i }) (fun _ => rfl) j params
                  · rw [List.append_assoc] at h4
                    exact h4
      · rename_i hc
        split at h
        · cases h
        · rename_i n heq
          simp only [Except.ok.injEq] at h
          subst h
          obtain ⟨m, h1, h2, h3, h4, h5⟩ := ih (i + 1) _ _ _ _ (pre ++ [c :: name])
            heq (by simp [hlen]) hm (pathInv_literal pre params c name hc hp)
          refine ⟨m, ?_, h2, h3, ?_, h5⟩
          · rw [nodeAt_setChild _ _ _ _ _ hc]; exact h1
          · rw [List.append_assoc] at h4
            exact h4

theorem markURLParams_no_path (us : List GoString) :
    ∀ (params params2 : List PatternParam),
      (∀ p ∈ params, p.typ ≠ ParamType.path) →
      markURLParams params us = Except.ok params2 → ∀ p ∈ params2, p.typ ≠ ParamType.path := by
  induction us with
  | nil =>
    intro params params2 h hm
    simp only [markURLParams, Except.ok.injEq] at hm
    subst hm
    exact h
  | cons u us ih =>
    intro params params2 h hm
    rw [markURLParams] at hm
    split at hm
    · cases hm
    · rename_i j hj
      apply ih _ _ _ hm
      intro p hp
      obtain ⟨k, hk⟩ := List.getElem?_of_mem hp
      obtain ⟨pj, hpj, _⟩ := patternParamsContain_some params u j hj
      rcases getElem?_modify_cases _ params j k pj p hpj hk with ⟨_, e⟩ | ⟨_, e⟩
      · subst e
        simp
      · exact h p (List.getElem?_mem e)


theorem pathInv_init (params : List PatternParam) (h : ∀ p ∈ params, p.typ ≠ ParamType.path) :
    PathInv [] params := by
  refine ⟨?_, ?_, List.nodup_nil⟩
  · intro j p hp ht
    exact absurd ht (h p (List.getElem?_mem hp))
  · intro w hw
    cases hw

/-- The parameter list of the node registered by a successful `addPath`. -/
theorem addPath_registered_params (rn : Node) (path pattern : GoString) (ups : List GoString)
    (typStr idProp : GoString) (rn2 : Node)
    (h : addPath rn path pattern ups typStr idProp = Except.ok rn2) :
    ∃ n, nodeAt rn2 (tokensOf path) = some n ∧
      n.params.map PatternParam.name = wildcardNames (tokensOf pattern) ∧
      (n.params.map PatternParam.name).Nodup ∧
      (∀ p ∈ n.params, (p.typ = ParamType.url ∧ p.name ∈ ups) ∨
        (p.typ = ParamType.path ∧ (tokensOf path)[p.idx]? = some ('$' :: p.name))) ∧
      Covered (tokensOf pattern) (tokensOf path) ups := by
  unfold addPath at h
  split at h
  · cases h
  · rename_i typ htyp
    split at h
    · cases h
    · rename_i pp params0 hparse
      split at h
      · cases h
      · rename_i params1 hmark
        unfold parsePattern at hparse
        split at hparse
        · cases hparse
        · rename_i toks params3 hloop
          simp only [Except.ok.injEq, Prod.mk.injEq] at hparse
          obtain ⟨e1, e2⟩ := hparse
          subst e1 e2
          obtain ⟨w1, w2, w3⟩ := parsePatternLoop_eq _ _ _ hloop
          subst w2 w3
          obtain ⟨k1, k2⟩ := markURLParams_inv ups ups _ params1 [] (fun u hu => hu)
            (markInv_init ups _) hmark
          have k1b : MarkInv ups ups params1 :=
            markInv_mono _ _ _ _ (fun u hu => by simpa using hu) k1
          have hnames : params1.map PatternParam.name = wildcardNames (tokensOf pattern) := by
            rw [k2, List.map_map]
            conv_rhs => rw [← List.map_id (wildcardNames (tokensOf pattern))]
            rfl
          have hnp : ∀ p ∈ params1, p.typ ≠ ParamType.path := by
            apply markURLParams_no_path ups _ params1 _ hmark
            intro p hp
            obtain ⟨w, _, e⟩ := List.mem_map.1 hp
            rw [← e]
            intro hc
            cases hc
          obtain ⟨n, h1, h2, h3, h4, h5⟩ := addPathLoop_params ups typ _ idProp _ _ 0 rn params1
            PathType.root rn2 [] h rfl k1b (pathInv_init params1 hnp)
          rw [List.nil_append] at h4
          have hn : n.params.map PatternParam.name = wildcardNames (tokensOf pattern) := by
            rw [h2, hnames]
          have hnd : (n.params.map PatternParam.name).Nodup := by
            apply nodup_names_of_first
            intro j p hp
            exact h3.2.2.2 j p hp (h5 p (List.getElem?_mem hp))
          have hcases : ∀ p ∈ n.params, (p.typ = ParamType.url ∧ p.name ∈ ups) ∨
              (p.typ = ParamType.path ∧ (tokensOf path)[p.idx]? = some ('$' :: p.name)) := by
            intro p hp
            obtain ⟨j, hj⟩ := List.mem_iff_getElem?.1 hp
            cases hpt : p.typ with
            | unset => exact absurd hpt (h5 p hp)
            | url => exact Or.inl ⟨rfl, h3.1 j p hj hpt⟩
            | path => exact Or.inr ⟨rfl, h4.1 j p hj hpt⟩
          refine ⟨n, h1, hn, hnd, hcases, ?_⟩
          refine ⟨by rw [← hn]; exact hnd, h4.2.2, ?_, ?_, ?_⟩
          · intro u hu
            obtain ⟨j, p, g1, g2, _⟩ := h3.2.2.1 u hu
            obtain ⟨q, hq, hqn⟩ := patternParamsContain_some n.params u j g1
            rw [← hn]
            exact List.mem_map.2 ⟨q, List.getElem?_mem hq, hqn⟩
          · intro w hw
            obtain ⟨p, hp, hpn, hpt⟩ := h4.2.1 w hw
            obtain ⟨j, hj⟩ := List.mem_iff_getElem?.1 hp
            refine ⟨?_, ?_⟩
            · rw [← hn]
              exact List.mem_map.2 ⟨p, hp, hpn⟩
            · rw [← hpn]
              exact h3.2.1 j p hj hpt
          · intro x hx
            rw [← hn] at hx
            obtain ⟨p, hp, hpn⟩ := List.mem_map.1 hx
            rcases hcases p hp with ⟨_, g⟩ | ⟨_, g⟩
            · left; rw [← hpn]; exact g
            · right; rw [← hpn]
              exact mem_wildcardNames_of_getElem? _ _ _ g

/-- C17: after a successful `addPath` the parameter list stored on the registered node has
pairwise distinct names, which are the parameter names of the pattern; every entry is
url-sourced with a name in `urlParams`, or path-sourced with the index of the wildcard token
`$name` in the path; and every pattern parameter is covered exactly once: the pattern and the
path name no parameter twice, every URL parameter and every path wildcard is in the pattern,
no path wildcard is a URL parameter, and every pattern parameter is a URL parameter or a
path wildcard. -/
theorem addPath_params (rn : Node) (path pattern : GoString) (urlParams : List GoString)
    (typStr idProp : GoString) (rn2 : Node)
    (h : addPath rn path pattern urlParams typStr idProp = Except.ok rn2) :
    ∃ n, nodeAt rn2 (tokensOf path) = some n ∧
      n.params.map PatternParam.name = wildcardNames (tokensOf pattern) ∧
      (n.params.map PatternParam.name).Nodup ∧
      (∀ p ∈ n.params, (p.typ = ParamType.url ∧ p.name ∈ urlParams) ∨
        (p.typ = ParamType.path ∧ (tokensOf path)[p.idx]? = some ('$' :: p.name))) ∧
      Covered (tokensOf pattern) (tokensOf path) urlParams :=
  addPath_registered_params rn path pattern urlParams typStr idProp rn2 h

theorem addPath_params_witness :
    ∃ n, nodeAt (okNode testTrie5)
        (tokensOf "station.transfers.transfer.$transferId".toList) = some n ∧
      n.params.map PatternParam.name = wildcardNames (tokensOf
        "$version.stations.$stationId.station.transfers.transfer.$transferId".toList) ∧
      (n.params.map PatternParam.name).Nodup ∧
      (∀ p ∈ n.params, (p.typ = ParamType.url ∧ p.name ∈ testURLParams) ∨
        (p.typ = ParamType.path ∧
          (tokensOf "station.transfers.transfer.$transferId".toList)[p.idx]? =
            some ('$' :: p.name))) ∧
      Covered (tokensOf
          "$version.stations.$stationId.station.transfers.transfer.$transferId".toList)
        (tokensOf "station.transfers.transfer.$transferId".toList) testURLParams :=
  addPath_params (okNode testTrie4) "station.transfers.transfer.$transferId".toList
    "$version.stations.$stationId.station.transfers.transfer.$transferId".toList
    testURLParams "model".toList "id".toList (okNode testTrie5) rfl


theorem traverseFields_primitive (lib : GoLib)
    (rq : GoString → GoString) (k : GoString) (kv : Value) (rest : List (GoString × Value))
    (crs : Crs) (path : List GoString) (n : Node) (model : List (GoString × Entry))
    (h : kv.isComposite = false) :
    traverseFields lib rq ((k, kv) :: rest) crs path n model =
      match nextNode n k with
      | some _ => (crs, Except.error TraverseError.unexpectedPrimitive)
      | none => traverseFields lib rq rest crs path n (mapSet model k (Entry.value kv)) := by
  have h1 : ∀ fs, kv = Value.obj fs → False := by
    intro fs hfs
    subst hfs
    cases h
  have h2 : ∀ es, kv = Value.arr es → False := by
    intro es hes
    subst hes
    cases h
  exact traverseFields.eq_4 _ _ _ _ _ _ _ _ _ h1 h2

theorem isComposite_cases (kv : Value) (h : kv.isComposite = true) :
    (∃ fs, kv = Value.obj fs) ∨ (∃ es, kv = Value.arr es) := by
  cases kv with
  | obj fs => exact Or.inl ⟨fs, rfl⟩
  | arr es => exact Or.inr ⟨es, rfl⟩
  | str _ => cases h
  | num _ => cases h
  | vtrue => cases h
  | vfalse => cases h
  | vnull => cases h

/-- A primitive property with a schema node makes the property loop fail. -/
theorem traverseFields_primitive_error (lib : GoLib)
    (rq : GoString → GoString) (path : List GoString) (n : Node) :
    ∀ (fields : List (GoString × Value)) (crs : Crs) (model : List (GoString × Entry))
      (k : GoString) (kv : Value) (next : Node),
      (k, kv) ∈ fields → nextNode n k = some next → kv.isComposite = false →
      ∃ e, (traverseFields lib rq fields crs path n model).2 = Except.error e := by
  intro fields
  induction fields with
  | nil => intro crs model k kv next hm; cases hm
  | cons f rest ih =>
    intro crs model k kv next hm hnext hprim
    obtain ⟨k0, kv0⟩ := f
    have hrest : (k0, kv0) = (k, kv) ∨ (k, kv) ∈ rest := by
      rcases List.mem_cons.1 hm with e | e
      · exact Or.inl e.symm
      · exact Or.inr e
    cases hc : kv0.isComposite with
    | false =>
      rw [traverseFields_primitive lib rq k0 kv0 rest crs path n model hc]
      split
      · exact ⟨_, rfl⟩
      · rename_i hnone
        rcases hrest with e | e
        · simp only [Prod.mk.injEq] at e
          rw [e.1, hnext] at hnone
          cases hnone
        · exact ih _ _ k kv next e hnext hprim
    | true =>
      have hne : (k, kv) ∈ rest := by
        rcases hrest with e | e
        · simp only [Prod.mk.injEq] at e
          rw [e.2, hprim] at hc
          cases hc
        · exact e
      rcases isComposite_cases kv0 hc with ⟨fs, e⟩ | ⟨es, e⟩
      · subst e
        rw [traverseFields.eq_2]
        split
        · exact ih _ _ k kv next hne hnext hprim
        · split
          · exact ⟨_, rfl⟩
          · exact ih _ _ k kv next hne hnext hprim
      · subst e
        rw [traverseFields.eq_3]
        split
        · exact ih _ _ k kv next hne hnext hprim
        · split
          · exact ⟨_, rfl⟩
          · exact ih _ _ k kv next hne hnext hprim


theorem fieldStored_step (lib : GoLib) (rq : GoString → GoString)
    (path : List GoString) (n : Node) (k0 : GoString) (kv0 : Value)
    (rest : List (GoString × Value)) (model model1 model2 : List (GoString × Entry))
    (hk0 : k0 ∉ rest.map Prod.fst)
    (hpre : ∀ k, k ≠ k0 → mapGet model1 k = mapGet model k)
    (h0 : FieldStored lib rq path n k0 kv0 (mapGet model k0) (mapGet model1 k0))
    (ih : (∀ k, k ∉ rest.map Prod.fst → mapGet model2 k = mapGet model1 k) ∧
      ∀ k kv, (k, kv) ∈ rest →
        FieldStored lib rq path n k kv (mapGet model1 k) (mapGet model2 k)) :
    (∀ k, k ∉ ((k0, kv0) :: rest).map Prod.fst → mapGet model2 k = mapGet model k) ∧
      ∀ k kv, (k, kv) ∈ (k0, kv0) :: rest →
        FieldStored lib rq path n k kv (mapGet model k) (mapGet model2 k) := by
  obtain ⟨ih1, ih2⟩ := ih
  refine ⟨?_, ?_⟩
  · intro k hk
    simp only [List.map_cons, List.mem_cons, not_or] at hk
    rw [ih1 k hk.2, hpre k hk.1]
  · intro k kv hm
    rcases List.mem_cons.1 hm with e | e
    · simp only [Prod.mk.injEq] at e
      obtain ⟨e1, e2⟩ := e
      subst e1 e2
      rw [ih1 k hk0]
      exact h0
    · have hk : k ≠ k0 := by
        intro hc
        subst hc
        exact hk0 (List.mem_map.2 ⟨(k, kv), e, rfl⟩)
      have := ih2 k kv e
      rw [hpre k hk] at this
      exact this

theorem mapGet_mapSet_ne {V : Type} (m : List (GoString × V)) (k0 : GoString) (v : V) :
    ∀ k, k ≠ k0 → mapGet (mapSet m k0 v) k = mapGet m k := by
  intro k hk
  rw [mapGet_mapSet_node, if_neg (fun e => hk e.symm)]

theorem mapGet_mapSet_self {V : Type} (m : List (GoString × V)) (k0 : GoString) (v : V) :
    mapGet (mapSet m k0 v) k0 = some v := by
  rw [mapGet_mapSet_node, if_pos rfl]

/-- The model built by a successful property loop. -/
theorem traverseFields_stored (lib : GoLib)
    (rq : GoString → GoString) (path : List GoString) (n : Node) :
    ∀ (fields : List (GoString × Value)) (crs : Crs) (model : List (GoString × Entry))
      (crs2 : Crs) (model2 : List (GoString × Entry)),
      traverseFields lib rq fields crs path n model = (crs2, Except.ok model2) →
      (fields.map Prod.fst).Nodup →
      (∀ k, k ∉ fields.map Prod.fst → mapGet model2 k = mapGet model k) ∧
      ∀ k kv, (k, kv) ∈ fields →
        FieldStored lib rq path n k kv (mapGet model k) (mapGet model2 k) := by
  intro fields
  induction fields with
  | nil =>
    intro crs model crs2 model2 h _
    rw [traverseFields.eq_1] at h
    simp only [Prod.mk.injEq, Except.ok.injEq] at h
    rw [h.2]
    exact ⟨fun _ _ => rfl, fun k kv hm => by cases hm⟩
  | cons f rest ih =>
    intro crs model crs2 model2 h hnd
    obtain ⟨k0, kv0⟩ := f
    simp only [List.map_cons, List.nodup_cons] at hnd
    obtain ⟨hk0, hnd2⟩ := hnd
    cases hc : kv0.isComposite with
    | false =>
      rw [traverseFields_primitive lib rq k0 kv0 rest crs path n model hc] at h
      split at h
      · simp only [Prod.mk.injEq] at h
        cases h.2
      · rename_i hnone
        apply fieldStored_step lib rq path n k0 kv0 rest model _ model2 hk0
          (mapGet_mapSet_ne model k0 _) _ (ih _ _ _ _ h hnd2)
        unfold FieldStored
        rw [hnone, mapGet_mapSet_self]
        simp [hc]
    | true =>
      rcases isComposite_cases kv0 hc with ⟨fs, e⟩ | ⟨es, e⟩
      · subst e
        rw [traverseFields.eq_2] at h
        split at h
        · rename_i hnone
          apply fieldStored_step lib rq path n k0 _ rest model model model2 hk0
            (fun _ _ => rfl) _ (ih _ _ _ _ h hnd2)
          unfold FieldStored
          rw [hnone]
          simp [hc]
        · rename_i next hnext
          split at h
          · simp only [Prod.mk.injEq] at h
            cases h.2
          · rename_i crs1 ref heq
            apply fieldStored_step lib rq path n k0 _ rest model _ model2 hk0
              (mapGet_mapSet_ne model k0 _) _ (ih _ _ _ _ h hnd2)
            unfold FieldStored
            rw [hnext, mapGet_mapSet_self]
            exact ⟨crs, crs1, ref, Or.inl ⟨fs, rfl, heq⟩, rfl⟩
      · subst e
        rw [traverseFields.eq_3] at h
        split at h
        · rename_i hnone
          apply fieldStored_step lib rq path n k0 _ rest model model model2 hk0
            (fun _ _ => rfl) _ (ih _ _ _ _ h hnd2)
          unfold FieldStored
          rw [hnone]
          simp [hc]
        · rename_i next hnext
          split at h
          · simp only [Prod.mk.injEq] at h
            cases h.2
          · rename_i crs1 ref heq
            apply fieldStored_step lib rq path n k0 _ rest model _ model2 hk0
              (mapGet_mapSet_ne model k0 _) _ (ih _ _ _ _ h hnd2)
            unfold FieldStored
            rw [hnext, mapGet_mapSet_self]
            exact ⟨crs, crs1, ref, Or.inr ⟨es, rfl, heq⟩, rfl⟩


theorem traverseModel_primitive_error (lib : GoLib)
    (rq : GoString → GoString) (fields : List (GoString × Value)) (crs : Crs)
    (path : List GoString) (n : Node) (pathPart : GoString)
    (k : GoString) (kv : Value) (next : Node)
    (hm : (k, kv) ∈ fields) (hnext : nextNode n k = some next) (hprim : kv.isComposite = false) :
    ∃ e, (traverseModel lib rq (Value.obj fields) crs path n pathPart).2 =
      Except.error e := by
  rw [traverseModel.eq_1]
  split
  · exact ⟨_, rfl⟩
  · split
    · exact ⟨_, rfl⟩
    · rename_i path2 _
      obtain ⟨e, he⟩ := traverseFields_primitive_error lib rq path2 n fields crs [] k kv next
        hm hnext hprim
      split
      · exact ⟨_, rfl⟩
      · rename_i crs2 model heq
        rw [heq] at he
        cases he

theorem traverseModel_stored (lib : GoLib)
    (rq : GoString → GoString) (fields : List (GoString × Value)) (crs : Crs)
    (path : List GoString) (n : Node) (pathPart : GoString)
    (hnodup : (fields.map Prod.fst).Nodup) (crs2 : Crs) (rid : GoString)
    (h : traverseModel lib rq (Value.obj fields) crs path n pathPart =
      (crs2, Except.ok rid)) :
    ∃ path2 model, modelPath lib fields path n pathPart = Except.ok path2 ∧
      createRid lib rq path2 n = Except.ok rid ∧
      mapGet crs2 rid = some (CachedResource.model model) ∧
      ∀ k kv, (k, kv) ∈ fields → FieldStored lib rq path2 n k kv none (mapGet model k) := by
  rw [traverseModel.eq_1] at h
  split at h
  · simp only [Prod.mk.injEq] at h
    cases h.2
  · split at h
    · simp only [Prod.mk.injEq] at h
      cases h.2
    · rename_i path2 hmp
      split at h
      · simp only [Prod.mk.injEq] at h
        cases h.2
      · rename_i crs1 model heq
        split at h
        · simp only [Prod.mk.injEq] at h
          cases h.2
        · rename_i rid1 hrid
          simp only [Prod.mk.injEq, Except.ok.injEq] at h
          obtain ⟨e1, e2⟩ := h
          subst e1 e2
          refine ⟨path2, model, hmp, hrid, mapGet_mapSet_self _ _ _, ?_⟩
          exact (traverseFields_stored lib rq path2 n fields crs [] crs1 model heq hnodup).2


/-- C19: in `traverseModel` on an object (a Go map: its keys are distinct), with
`next = n.nodes[k]` if present, else `n.param`, for every property `(k, kv)`: a primitive
`kv` with a `next` makes the traversal fail; and when the traversal succeeds, the model
stored under the returned id maps `k` to `kv` unchanged if `next` is absent and `kv` is
primitive, has no key `k` if `next` is absent and `kv` is an object or array, and maps `k`
to the reference returned by the recursive traversal of `kv` at `next` if `next` is
present. -/
theorem traverseModel_properties (lib : GoLib)
    (reqParams : GoString → GoString) (fields : List (GoString × Value)) (crs : Crs)
    (path : List GoString) (n : Node) (pathPart : GoString)
    (hnodup : (fields.map Prod.fst).Nodup) :
    (∀ k kv next, (k, kv) ∈ fields → nextNode n k = some next → kv.isComposite = false →
      ∃ e, (traverseModel lib reqParams (Value.obj fields) crs path n pathPart).2 =
        Except.error e) ∧
    (∀ crs2 rid,
      traverseModel lib reqParams (Value.obj fields) crs path n pathPart =
        (crs2, Except.ok rid) →
      ∃ path2 model, modelPath lib fields path n pathPart = Except.ok path2 ∧
        mapGet crs2 rid = some (CachedResource.model model) ∧
        ∀ k kv, (k, kv) ∈ fields →
          (nextNode n k = none → kv.isComposite = false →
            mapGet model k = some (Entry.value kv)) ∧
          (nextNode n k = none → kv.isComposite = true → mapGet model k = none) ∧
          (∀ next, nextNode n k = some next →
            kv.isComposite = true ∧
            ∃ (crsIn crsOut : Crs) (r : GoString),
              ((∃ fs, kv = Value.obj fs ∧
                  traverseModel lib reqParams kv crsIn path2 next k =
                    (crsOut, Except.ok r)) ∨
                (∃ es, kv = Value.arr es ∧
                  traverseCollection lib reqParams kv crsIn path2 next k =
                    (crsOut, Except.ok r))) ∧
              mapGet model k = some (Entry.ref r))) := by
  refine ⟨?_, ?_⟩
  · intro k kv next hm hnext hprim
    exact traverseModel_primitive_error lib reqParams fields crs path n pathPart k kv next
      hm hnext hprim
  · intro crs2 rid h
    obtain ⟨path2, model, h1, _, h3, h4⟩ :=
      traverseModel_stored lib reqParams fields crs path n pathPart hnodup crs2 rid h
    refine ⟨path2, model, h1, h3, ?_⟩
    intro k kv hm
    have hs := h4 k kv hm
    unfold FieldStored at hs
    refine ⟨?_, ?_, ?_⟩
    · intro hnone hprim
      rw [hnone] at hs
      simpa [hprim] using hs
    · intro hnone hcomp
      rw [hnone] at hs
      simpa [hcomp] using hs
    · intro next hnext
      rw [hnext] at hs
      obtain ⟨crsIn, crsOut, r, hr, hget⟩ := hs
      refine ⟨?_, crsIn, crsOut, r, hr, hget⟩
      rcases hr with ⟨fs, e, _⟩ | ⟨es, e, _⟩ <;> subst e <;> rfl

/-- The object `{"a":1,"sub":{},"x":[]}` at the root model `svc.m` with the
model `svc.m.sub` at `sub`: the traversal succeeds, and the stored model keeps
`a`, maps `sub` to the reference `svc.m.sub` and has no key `x`; the object
`{"sub":5}` makes the traversal fail. -/
theorem traverseModel_properties_witness :
    traverseModel plainLib (fun _ => []) (Value.obj subFields) [] [] subTrie [] =
      ([("svc.m".toList, CachedResource.model
          [("sub".toList, Entry.ref "svc.m.sub".toList),
            ("a".toList, Entry.value (Value.num "1".toList))]),
        ("svc.m.sub".toList, CachedResource.model [])],
        Except.ok "svc.m".toList) ∧
    (∃ path2 model, modelPath plainLib subFields [] subTrie [] = Except.ok path2 ∧
      mapGet [("svc.m".toList, CachedResource.model
          [("sub".toList, Entry.ref "svc.m.sub".toList),
            ("a".toList, Entry.value (Value.num "1".toList))]),
        ("svc.m.sub".toList, CachedResource.model [])] "svc.m".toList =
        some (CachedResource.model model) ∧
      ∀ k kv, (k, kv) ∈ subFields →
        (nextNode subTrie k = none → kv.isComposite = false →
          mapGet model k = some (Entry.value kv)) ∧
        (nextNode subTrie k = none → kv.isComposite = true → mapGet model k = none) ∧
        (∀ next, nextNode subTrie k = some next →
          kv.isComposite = true ∧
          ∃ (crsIn crsOut : Crs) (r : GoString),
            ((∃ fs, kv = Value.obj fs ∧
                traverseModel plainLib (fun _ => []) kv crsIn path2 next k =
                  (crsOut, Except.ok r)) ∨
              (∃ es, kv = Value.arr es ∧
                traverseCollection plainLib (fun _ => []) kv crsIn path2 next k =
                  (crsOut, Except.ok r))) ∧
            mapGet model k = some (Entry.ref r))) ∧
    (∃ e, (traverseModel plainLib (fun _ => [])
        (Value.obj [("sub".toList, Value.num "5".toList)]) [] [] subTrie []).2 =
      Except.error e) :=
  ⟨rfl,
    (traverseModel_properties plainLib (fun _ => []) subFields [] [] subTrie []
      (by decide)).2 _ _ rfl,
    (traverseModel_properties plainLib (fun _ => [])
      [("sub".toList, Value.num "5".toList)] [] [] subTrie [] (by decide)).1
      "sub".toList (Value.num "5".toList)
      (Node.mk ResourceType.model [] none "svc.m.sub".toList [] PathType.default [])
      (List.mem_cons_self _ _) rfl rfl⟩


theorem traverseElems_primitive (lib : GoLib)
    (rq : GoString → GoString) (kv : Value) (rest : List Value)
    (crs : Crs) (path : List GoString) (n : Node) (j : Nat)
    (h : kv.isComposite = false) :
    traverseElems lib rq (kv :: rest) crs path n j =
      match n.param with
      | some _ => (crs, Except.error TraverseError.unexpectedPrimitive)
      | none =>
        match traverseElems lib rq rest crs path n (j + 1) with
        | (crs2, Except.error e) => (crs2, Except.error e)
        | (crs2, Except.ok tail) => (crs2, Except.ok (Entry.value kv :: tail)) := by
  have h1 : ∀ fs, kv = Value.obj fs → False := by
    intro fs hfs
    subst hfs
    cases h
  have h2 : ∀ es, kv = Value.arr es → False := by
    intro es hes
    subst hes
    cases h
  exact traverseElems.eq_4 _ _ _ _ _ _ _ _ h1 h2

theorem withNodes_fields (n : Node) (nodes : List (GoString × Node)) :
    (n.withNodes nodes).typ = n.typ ∧ (n.withNodes nodes).param = n.param ∧
    (n.withNodes nodes).pattern = n.pattern ∧ (n.withNodes nodes).params = n.params ∧
    (n.withNodes nodes).ptyp = n.ptyp ∧ (n.withNodes nodes).idProp = n.idProp := by
  cases n
  exact ⟨rfl, rfl, rfl, rfl, rfl, rfl⟩

/-- The element loop does not read the literal children of the node. -/
theorem traverseElems_withNodes (lib : GoLib)
    (rq : GoString → GoString) (path : List GoString) (n : Node)
    (nodes : List (GoString × Node)) :
    ∀ (elems : List Value) (crs : Crs) (j : Nat),
      traverseElems lib rq elems crs path (n.withNodes nodes) j =
        traverseElems lib rq elems crs path n j := by
  have hp := (withNodes_fields n nodes).2.1
  intro elems
  induction elems with
  | nil =>
    intro crs j
    rw [traverseElems.eq_1, traverseElems.eq_1]
  | cons kv rest ih =>
    intro crs j
    cases hc : kv.isComposite with
    | false =>
      rw [traverseElems_primitive lib rq kv rest crs path _ j hc,
        traverseElems_primitive lib rq kv rest crs path _ j hc, hp, ih]
    | true =>
      rcases isComposite_cases kv hc with ⟨fs, e⟩ | ⟨es, e⟩
      · subst e
        rw [traverseElems.eq_2, traverseElems.eq_2, hp]
        simp only [ih]
      · subst e
        rw [traverseElems.eq_3, traverseElems.eq_3, hp]
        simp only [ih]

theorem createRid_withNodes (lib : GoLib) (rq : GoString → GoString) (path : List GoString) (n : Node)
    (nodes : List (GoString × Node)) :
    createRid lib rq path (n.withNodes nodes) = createRid lib rq path n := by
  unfold createRid
  rw [(withNodes_fields n nodes).2.2.1, (withNodes_fields n nodes).2.2.2.1]

/-- The function `traverseCollection` does not read the literal children of the node. -/
theorem traverseCollection_withNodes (lib : GoLib)
    (rq : GoString → GoString) (v : Value) (crs : Crs) (path : List GoString) (n : Node)
    (pathPart : GoString) (nodes : List (GoString × Node)) :
    traverseCollection lib rq v crs path (n.withNodes nodes) pathPart =
      traverseCollection lib rq v crs path n pathPart := by
  cases v with
  | arr elems =>
    rw [traverseCollection.eq_1, traverseCollection.eq_1, (withNodes_fields n nodes).1,
      (withNodes_fields n nodes).2.2.2.2.1]
    simp only [traverseElems_withNodes, createRid_withNodes]
  | obj fs =>
    rw [traverseCollection.eq_2 _ _ _ _ _ _ _ (fun es h => by cases h),
      traverseCollection.eq_2 _ _ _ _ _ _ _ (fun es h => by cases h),
      (withNodes_fields n nodes).1, (withNodes_fields n nodes).2.2.2.2.1]
    simp only [createRid_withNodes]
  | str s =>
    rw [traverseCollection.eq_2 _ _ _ _ _ _ _ (fun es h => by cases h),
      traverseCollection.eq_2 _ _ _ _ _ _ _ (fun es h => by cases h),
      (withNodes_fields n nodes).1, (withNodes_fields n nodes).2.2.2.2.1]
    simp only [createRid_withNodes]
  | num s =>
    rw [traverseCollection.eq_2 _ _ _ _ _ _ _ (fun es h => by cases h),
      traverseCollection.eq_2 _ _ _ _ _ _ _ (fun es h => by cases h),
      (withNodes_fields n nodes).1, (withNodes_fields n nodes).2.2.2.2.1]
    simp only [createRid_withNodes]
  | vtrue =>
    rw [traverseCollection.eq_2 _ _ _ _ _ _ _ (fun es h => by cases h),
      traverseCollection.eq_2 _ _ _ _ _ _ _ (fun es h => by cases h),
      (withNodes_fields n nodes).1, (withNodes_fields n nodes).2.2.2.2.1]
    simp only [createRid_withNodes]
  | vfalse =>
    rw [traverseCollection.eq_2 _ _ _ _ _ _ _ (fun es h => by cases h),
      traverseCollection.eq_2 _ _ _ _ _ _ _ (fun es h => by cases h),
      (withNodes_fields n nodes).1, (withNodes_fields n nodes).2.2.2.2.1]
    simp only [createRid_withNodes]
  | vnull =>
    rw [traverseCollection.eq_2 _ _ _ _ _ _ _ (fun es h => by cases h),
      traverseCollection.eq_2 _ _ _ _ _ _ _ (fun es h => by cases h),
      (withNodes_fields n nodes).1, (withNodes_fields n nodes).2.2.2.2.1]
    simp only [createRid_withNodes]


/-- A primitive element under a node with a wildcard child makes the element
loop fail. -/
theorem traverseElems_primitive_error (lib : GoLib)
    (rq : GoString → GoString) (path : List GoString) (n : Node) (next : Node)
    (hnext : n.param = some next) :
    ∀ (elems : List Value) (crs : Crs) (j : Nat) (kv : Value),
      kv ∈ elems → kv.isComposite = false →
      ∃ e, (traverseElems lib rq elems crs path n j).2 = Except.error e := by
  intro elems
  induction elems with
  | nil => intro crs j kv hm; cases hm
  | cons kv0 rest ih =>
    intro crs j kv hm hprim
    cases hc : kv0.isComposite with
    | false =>
      rw [traverseElems_primitive lib rq kv0 rest crs path n j hc, hnext]
      exact ⟨_, rfl⟩
    | true =>
      have hne : kv ∈ rest := by
        rcases List.mem_cons.1 hm with e | e
        · rw [e, hc] at hprim
          cases hprim
        · exact e
      rcases isComposite_cases kv0 hc with ⟨fs, e⟩ | ⟨es, e⟩
      · subst e
        rw [traverseElems.eq_2, hnext]
        simp only
        split
        · exact ⟨_, rfl⟩
        · rename_i crs1 ref _
          obtain ⟨e, he⟩ := ih crs1 (j + 1) kv hne hprim
          split
          · exact ⟨_, rfl⟩
          · rename_i heq
            rw [heq] at he
            cases he
      · subst e
        rw [traverseElems.eq_3, hnext]
        simp only
        split
        · exact ⟨_, rfl⟩
        · rename_i crs1 ref _
          obtain ⟨e, he⟩ := ih crs1 (j + 1) kv hne hprim
          split
          · exact ⟨_, rfl⟩
          · rename_i heq
            rw [heq] at he
            cases he

theorem elemStored_cons (lib : GoLib) (rq : GoString → GoString)
    (path : List GoString) (n : Node) (j : Nat) (kv0 : Value) (rest : List Value)
    (e0 : Entry) (tail : List Entry)
    (h0 : ElemStored lib rq path n j kv0 e0)
    (ih : tail.length = rest.length ∧ ∀ i kv, rest[i]? = some kv →
      ∃ entry, tail[i]? = some entry ∧ ElemStored lib rq path n (j + 1 + i) kv entry) :
    (e0 :: tail).length = (kv0 :: rest).length ∧ ∀ i kv, (kv0 :: rest)[i]? = some kv →
      ∃ entry, (e0 :: tail)[i]? = some entry ∧ ElemStored lib rq path n (j + i) kv entry := by
  refine ⟨by simp [ih.1], ?_⟩
  intro i kv hi
  cases i with
  | zero =>
    simp only [List.getElem?_cons_zero, Option.some.injEq] at hi
    subst hi
    exact ⟨e0, by simp, h0⟩
  | succ i =>
    simp only [List.getElem?_cons_succ] at hi
    obtain ⟨entry, g1, g2⟩ := ih.2 i kv hi
    refine ⟨entry, by simpa using g1, ?_⟩
    have e : j + (i + 1) = j + 1 + i := by omega
    rw [e]
    exact g2

/-- The collection built by a successful element loop. -/
theorem traverseElems_stored (lib : GoLib)
    (rq : GoString → GoString) (path : List GoString) (n : Node) :
    ∀ (elems : List Value) (crs : Crs) (j : Nat) (crs2 : Crs) (entries : List Entry),
      traverseElems lib rq elems crs path n j = (crs2, Except.ok entries) →
      entries.length = elems.length ∧ ∀ i kv, elems[i]? = some kv →
        ∃ entry, entries[i]? = some entry ∧
          ElemStored lib rq path n (j + i) kv entry := by
  intro elems
  induction elems with
  | nil =>
    intro crs j crs2 entries h
    rw [traverseElems.eq_1] at h
    simp only [Prod.mk.injEq, Except.ok.injEq] at h
    rw [← h.2]
    exact ⟨rfl, fun i kv hi => by simp at hi⟩
  | cons kv0 rest ih =>
    intro crs j crs2 entries h
    cases hc : kv0.isComposite with
    | false =>
      rw [traverseElems_primitive lib rq kv0 rest crs path n j hc] at h
      split at h
      · simp only [Prod.mk.injEq] at h
        cases h.2
      · rename_i hnone
        split at h
        · simp only [Prod.mk.injEq] at h
          cases h.2
        · rename_i crs1 tail heq
          simp only [Prod.mk.injEq, Except.ok.injEq] at h
          rw [← h.2]
          apply elemStored_cons lib rq path n j kv0 rest _ tail _ (ih _ _ _ _ heq)
          unfold ElemStored
          rw [hnone]
          simp [hc]
    | true =>
      rcases isComposite_cases kv0 hc with ⟨fs, e⟩ | ⟨es, e⟩
      · subst e
        rw [traverseElems.eq_2] at h
        split at h
        · rename_i hnone
          split at h
          · simp only [Prod.mk.injEq] at h
            cases h.2
          · rename_i crs1 tail heq
            simp only [Prod.mk.injEq, Except.ok.injEq] at h
            rw [← h.2]
            apply elemStored_cons lib rq path n j _ rest _ tail _ (ih _ _ _ _ heq)
            unfold ElemStored
            rw [hnone]
            simp [hc]
        · rename_i next hnext
          split at h
          · simp only [Prod.mk.injEq] at h
            cases h.2
          · rename_i crs1 ref href
            split at h
            · simp only [Prod.mk.injEq] at h
              cases h.2
            · rename_i crs3 tail heq
              simp only [Prod.mk.injEq, Except.ok.injEq] at h
              rw [← h.2]
              apply elemStored_cons lib rq path n j _ rest _ tail _ (ih _ _ _ _ heq)
              unfold ElemStored
              rw [hnext]
              exact ⟨crs, crs1, ref, Or.inl ⟨fs, rfl, href⟩, rfl⟩
      · subst e
        rw [traverseElems.eq_3] at h
        split at h
        · rename_i hnone
          split at h
          · simp only [Prod.mk.injEq] at h
            cases h.2
          · rename_i crs1 tail heq
            simp only [Prod.mk.injEq, Except.ok.injEq] at h
            rw [← h.2]
            apply elemStored_cons lib rq path n j _ rest _ tail _ (ih _ _ _ _ heq)
            unfold ElemStored
            rw [hnone]
            simp [hc]
        · rename_i next hnext
          split at h
          · simp only [Prod.mk.injEq] at h
            cases h.2
          · rename_i crs1 ref href
            split at h
            · simp only [Prod.mk.injEq] at h
              cases h.2
            · rename_i crs3 tail heq
              simp only [Prod.mk.injEq, Except.ok.injEq] at h
              rw [← h.2]
              apply elemStored_cons lib rq path n j _ rest _ tail _ (ih _ _ _ _ heq)
              unfold ElemStored
              rw [hnext]
              exact ⟨crs, crs1, ref, Or.inr ⟨es, rfl, href⟩, rfl⟩


theorem traverseCollection_primitive_error (lib : GoLib)
    (rq : GoString → GoString) (elems : List Value) (crs : Crs) (path : List GoString)
    (n : Node) (pathPart : GoString) (kv : Value) (next : Node)
    (hm : kv ∈ elems) (hnext : n.param = some next) (hprim : kv.isComposite = false) :
    ∃ e, (traverseCollection lib rq (Value.arr elems) crs path n pathPart).2 =
      Except.error e := by
  rw [traverseCollection.eq_1]
  split
  · exact ⟨_, rfl⟩
  · obtain ⟨e, he⟩ := traverseElems_primitive_error lib rq
      (if n.ptyp ≠ PathType.root then path ++ [pathPart] else path) n next hnext elems crs 0 kv
      hm hprim
    split
    · exact ⟨_, rfl⟩
    · rename_i heq
      rw [heq] at he
      cases he

theorem traverseCollection_stored (lib : GoLib)
    (rq : GoString → GoString) (elems : List Value) (crs : Crs) (path : List GoString)
    (n : Node) (pathPart : GoString) (crs2 : Crs) (rid : GoString)
    (h : traverseCollection lib rq (Value.arr elems) crs path n pathPart =
      (crs2, Except.ok rid)) :
    ∃ collection,
      createRid lib rq (if n.ptyp ≠ PathType.root then path ++ [pathPart] else path) n =
        Except.ok rid ∧
      mapGet crs2 rid = some (CachedResource.collection collection) ∧
      collection.length = elems.length ∧
      ∀ i kv, elems[i]? = some kv → ∃ entry, collection[i]? = some entry ∧
        ElemStored lib rq (if n.ptyp ≠ PathType.root then path ++ [pathPart] else path)
          n i kv entry := by
  rw [traverseCollection.eq_1] at h
  split at h
  · simp only [Prod.mk.injEq] at h
    cases h.2
  · split at h
    · simp only [Prod.mk.injEq] at h
      cases h.2
    · rename_i crs1 collection heq
      split at h
      · simp only [Prod.mk.injEq] at h
        cases h.2
      · rename_i rid1 hrid
        simp only [Prod.mk.injEq, Except.ok.injEq] at h
        obtain ⟨e1, e2⟩ := h
        subst e1 e2
        have hs := traverseElems_stored lib rq _ n elems crs 0 crs1 collection heq
        refine ⟨collection, hrid, mapGet_mapSet_self _ _ _, hs.1, ?_⟩
        intro i kv hi
        obtain ⟨entry, g1, g2⟩ := hs.2 i kv hi
        rw [Nat.zero_add] at g2
        exact ⟨entry, g1, g2⟩

/-- C20 (amended): in `traverseCollection` the next schema node of every array element is
the wildcard child `n.param`, and the literal children `n.nodes` are not read: the result is
the same for every map of literal children; a primitive element under a node with a
wildcard child makes the traversal fail; and when the traversal succeeds, the collection
stored under the returned id has one entry per element, which is `nil` for an object or
array and the element itself for a primitive if `n.param` is absent, and the reference
returned by the recursive traversal of the element at `n.param`, with the index written in
decimal as path part, if it is present. -/
theorem traverseCollection_next (lib : GoLib)
    (reqParams : GoString → GoString) (elems : List Value) (crs : Crs)
    (path : List GoString) (n : Node) (pathPart : GoString) :
    (∀ nodes, traverseCollection lib reqParams (Value.arr elems) crs path
        (n.withNodes nodes) pathPart =
      traverseCollection lib reqParams (Value.arr elems) crs path n pathPart) ∧
    (∀ kv next, kv ∈ elems → n.param = some next → kv.isComposite = false →
      ∃ e, (traverseCollection lib reqParams (Value.arr elems) crs path n pathPart).2 =
        Except.error e) ∧
    (∀ crs2 rid,
      traverseCollection lib reqParams (Value.arr elems) crs path n pathPart =
        (crs2, Except.ok rid) →
      ∃ collection, mapGet crs2 rid = some (CachedResource.collection collection) ∧
        collection.length = elems.length ∧
        ∀ j kv, elems[j]? = some kv → ∃ entry, collection[j]? = some entry ∧
          (n.param = none → kv.isComposite = true → entry = Entry.null) ∧
          (n.param = none → kv.isComposite = false → entry = Entry.value kv) ∧
          (∀ next, n.param = some next →
            kv.isComposite = true ∧
            ∃ (crsIn crsOut : Crs) (r : GoString),
              ((∃ fs, kv = Value.obj fs ∧
                  traverseModel lib reqParams kv crsIn
                    (if n.ptyp ≠ PathType.root then path ++ [pathPart] else path) next
                    (itoa j) = (crsOut, Except.ok r)) ∨
                (∃ es, kv = Value.arr es ∧
                  traverseCollection lib reqParams kv crsIn
                    (if n.ptyp ≠ PathType.root then path ++ [pathPart] else path) next
                    (itoa j) = (crsOut, Except.ok r))) ∧
              entry = Entry.ref r)) := by
  refine ⟨?_, ?_, ?_⟩
  · intro nodes
    exact traverseCollection_withNodes lib reqParams _ crs path n pathPart nodes
  · intro kv next hm hnext hprim
    exact traverseCollection_primitive_error lib reqParams elems crs path n pathPart kv next
      hm hnext hprim
  · intro crs2 rid h
    obtain ⟨collection, _, h2, h3, h4⟩ :=
      traverseCollection_stored lib reqParams elems crs path n pathPart crs2 rid h
    refine ⟨collection, h2, h3, ?_⟩
    intro j kv hj
    obtain ⟨entry, g1, hs⟩ := h4 j kv hj
    refine ⟨entry, g1, ?_, ?_, ?_⟩
    · intro hnone hcomp
      unfold ElemStored at hs
      rw [hnone] at hs
      simpa [hcomp] using hs
    · intro hnone hprim
      unfold ElemStored at hs
      rw [hnone] at hs
      simpa [hprim] using hs
    · intro next hnext
      unfold ElemStored at hs
      rw [hnext] at hs
      obtain ⟨crsIn, crsOut, r, hr, hget⟩ := hs
      refine ⟨?_, crsIn, crsOut, r, hr, hget⟩
      rcases hr with ⟨fs, e, _⟩ | ⟨es, e, _⟩ <;> subst e <;> rfl

/-- The array `[{"id":"a","v":1},{"id":"b","v":2}]` at the root collection
`svc.items`, whose wildcard child is the model `svc.items.$id`: both elements
are traversed at the wildcard child, and the collection stored under
`svc.items` holds the two references that these traversals return. -/
theorem traverseCollection_next_witness :
    propTrie.param = some propChild ∧
    traverseCollection unquoteLib (fun _ => []) (Value.arr propElems) [] [] propTrie [] =
      ([("svc.items".toList, CachedResource.collection
          [Entry.ref "svc.items.a".toList, Entry.ref "svc.items.b".toList]),
        ("svc.items.b".toList, CachedResource.model
          [("v".toList, Entry.value (Value.num "2".toList)),
            ("id".toList, Entry.value (Value.str (quoted "b".toList)))]),
        ("svc.items.a".toList, CachedResource.model
          [("v".toList, Entry.value (Value.num "1".toList)),
            ("id".toList, Entry.value (Value.str (quoted "a".toList)))])],
        Except.ok "svc.items".toList) ∧
    (∃ collection,
      mapGet [("svc.items".toList, CachedResource.collection
          [Entry.ref "svc.items.a".toList, Entry.ref "svc.items.b".toList]),
        ("svc.items.b".toList, CachedResource.model
          [("v".toList, Entry.value (Value.num "2".toList)),
            ("id".toList, Entry.value (Value.str (quoted "b".toList)))]),
        ("svc.items.a".toList, CachedResource.model
          [("v".toList, Entry.value (Value.num "1".toList)),
            ("id".toList, Entry.value (Value.str (quoted "a".toList)))])]
        "svc.items".toList = some (CachedResource.collection collection) ∧
      collection.length = propElems.length ∧
      ∀ j kv, propElems[j]? = some kv → ∃ entry, collection[j]? = some entry ∧
        (propTrie.param = none → kv.isComposite = true → entry = Entry.null) ∧
        (propTrie.param = none → kv.isComposite = false → entry = Entry.value kv) ∧
        (∀ next, propTrie.param = some next →
          kv.isComposite = true ∧
          ∃ (crsIn crsOut : Crs) (r : GoString),
            ((∃ fs, kv = Value.obj fs ∧
                traverseModel unquoteLib (fun _ => []) kv crsIn
                  (if propTrie.ptyp ≠ PathType.root then [] ++ [[]] else []) next
                  (itoa j) = (crsOut, Except.ok r)) ∨
              (∃ es, kv = Value.arr es ∧
                traverseCollection unquoteLib (fun _ => []) kv crsIn
                  (if propTrie.ptyp ≠ PathType.root then [] ++ [[]] else []) next
                  (itoa j) = (crsOut, Except.ok r))) ∧
            entry = Entry.ref r)) ∧
    (∃ e, (traverseCollection unquoteLib (fun _ => [])
        (Value.arr [Value.num "5".toList]) [] [] propTrie []).2 = Except.error e) :=
  ⟨rfl, rfl,
    (traverseCollection_next unquoteLib (fun _ => []) propElems [] [] propTrie []).2.2
      _ _ rfl,
    (traverseCollection_next unquoteLib (fun _ => []) [Value.num "5".toList] [] []
      propTrie []).2.1 (Value.num "5".toList) propChild (List.mem_cons_self _ _) rfl rfl⟩

/-- C20 (counterexample): the trie has the root collection `svc.list` and the model
`svc.list.first` registered at the literal path `0`, and no wildcard child. For the array
with the single element, an empty object, at index 0 the literal child of the key `0` is
present, yet the traversal does not enter it: no model is inserted, and the collection
stored under `svc.list` holds `nil` at index 0. -/
theorem traverseCollection_next_counterexample :
    listTrie.typ = ResourceType.collection ∧
    mapGet listTrie.nodes (itoa 0) = some firstNode ∧
    nextNode listTrie (itoa 0) = some firstNode ∧
    listTrie.param = none ∧
    traverseCollection plainLib (fun _ => []) (Value.arr [Value.obj []]) [] [] listTrie [] =
      ([("svc.list".toList, CachedResource.collection [Entry.null])],
        Except.ok "svc.list".toList) ∧
    traverseModel plainLib (fun _ => []) (Value.obj []) [] [] firstNode (itoa 0) =
      ([("svc.list.first".toList, CachedResource.model [])],
        Except.ok "svc.list.first".toList) :=
  ⟨rfl, rfl, rfl, rfl, rfl, rfl⟩

/-- Writing an entry keeps the map that was there. -/
theorem suffix_mapSet (crs : Crs) (rid : GoString) (x : CachedResource) :
    crs <:+ mapSet crs rid x :=
  List.suffix_cons _ _

theorem traverseModel_grows_other (lib : GoLib)
    (rq : GoString → GoString) (v : Value) (crs : Crs) (path : List GoString)
    (n : Node) (pathPart : GoString) (hv : ∀ fields, v = Value.obj fields → False) :
    crs <:+ (traverseModel lib rq v crs path n pathPart).1 := by
  rw [traverseModel.eq_2 _ _ _ _ _ _ _ hv]
  split
  · exact List.suffix_refl _
  · split
    · exact List.suffix_refl _
    · split
      · exact List.suffix_refl _
      · exact suffix_mapSet _ _ _

theorem traverseCollection_grows_other (lib : GoLib)
    (rq : GoString → GoString) (v : Value) (crs : Crs) (path : List GoString)
    (n : Node) (pathPart : GoString) (hv : ∀ elems, v = Value.arr elems → False) :
    crs <:+ (traverseCollection lib rq v crs path n pathPart).1 := by
  rw [traverseCollection.eq_2 _ _ _ _ _ _ _ hv]
  split
  · exact List.suffix_refl _
  · split
    · exact List.suffix_refl _
    · exact suffix_mapSet _ _ _

theorem traverseFields_grows_prim (lib : GoLib) (rq : GoString → GoString)
    (k : GoString) (prim : Value) (rest : List (GoString × Value)) (crs : Crs)
    (path : List GoString) (n : Node) (model : List (GoString × Entry))
    (h1 : ∀ fs, prim = Value.obj fs → False) (h2 : ∀ es, prim = Value.arr es → False)
    (ih : ∀ model2, crs <:+ (traverseFields lib rq rest crs path n model2).1) :
    crs <:+ (traverseFields lib rq ((k, prim) :: rest) crs path n model).1 := by
  rw [traverseFields.eq_4 _ _ _ _ _ _ _ _ _ h1 h2]
  split
  · exact List.suffix_refl _
  · exact ih _

theorem traverseElems_grows_prim (lib : GoLib) (rq : GoString → GoString)
    (prim : Value) (rest : List Value) (crs : Crs)
    (path : List GoString) (n : Node) (j : Nat)
    (h1 : ∀ fs, prim = Value.obj fs → False) (h2 : ∀ es, prim = Value.arr es → False)
    (ih : crs <:+ (traverseElems lib rq rest crs path n (j + 1)).1) :
    crs <:+ (traverseElems lib rq (prim :: rest) crs path n j).1 := by
  rw [traverseElems.eq_4 _ _ _ _ _ _ _ _ h1 h2]
  split
  · exact List.suffix_refl _
  · split
    · rename_i crs2 e heq
      rw [heq] at ih
      exact ih
    · rename_i crs2 tail heq
      rw [heq] at ih
      exact ih

mutual
/-- The decomposer only adds entries to the map: what was written stays,
below the entries written later. -/
theorem traverseModel_grows (lib : GoLib) (rq : GoString → GoString) :
    ∀ (v : Value) (crs : Crs) (path : List GoString) (n : Node) (pathPart : GoString),
      crs <:+ (traverseModel lib rq v crs path n pathPart).1
  | Value.obj fields, crs, path, n, pathPart => by
    rw [traverseModel.eq_1]
    split
    · exact List.suffix_refl _
    · split
      · exact List.suffix_refl _
      · rename_i path2 hmp
        have ih := traverseFields_grows lib rq fields crs path2 n []
        split
        · rename_i crs2 e heq
          rw [heq] at ih
          exact ih
        · rename_i crs2 model heq
          rw [heq] at ih
          split
          · exact ih
          · exact ih.trans (suffix_mapSet _ _ _)
  | Value.arr es, crs, path, n, pathPart =>
    traverseModel_grows_other lib rq _ crs path n pathPart (fun f hf => by cases hf)
  | Value.str s, crs, path, n, pathPart =>
    traverseModel_grows_other lib rq _ crs path n pathPart (fun f hf => by cases hf)
  | Value.num s, crs, path, n, pathPart =>
    traverseModel_grows_other lib rq _ crs path n pathPart (fun f hf => by cases hf)
  | Value.vtrue, crs, path, n, pathPart =>
    traverseModel_grows_other lib rq _ crs path n pathPart (fun f hf => by cases hf)
  | Value.vfalse, crs, path, n, pathPart =>
    traverseModel_grows_other lib rq _ crs path n pathPart (fun f hf => by cases hf)
  | Value.vnull, crs, path, n, pathPart =>
    traverseModel_grows_other lib rq _ crs path n pathPart (fun f hf => by cases hf)
theorem traverseCollection_grows (lib : GoLib) (rq : GoString → GoString) :
    ∀ (v : Value) (crs : Crs) (path : List GoString) (n : Node) (pathPart : GoString),
      crs <:+ (traverseCollection lib rq v crs path n pathPart).1
  | Value.arr elems, crs, path, n, pathPart => by
    rw [traverseCollection.eq_1]
    split
    · exact List.suffix_refl _
    · have ih := traverseElems_grows lib rq elems crs
        (if n.ptyp ≠ PathType.root then path ++ [pathPart] else path) n 0
      split
      · rename_i crs2 e heq
        rw [heq] at ih
        exact ih
      · rename_i crs2 coll heq
        rw [heq] at ih
        split
        · exact ih
        · exact ih.trans (suffix_mapSet _ _ _)
  | Value.obj fs, crs, path, n, pathPart =>
    traverseCollection_grows_other lib rq _ crs path n pathPart (fun f hf => by cases hf)
  | Value.str s, crs, path, n, pathPart =>
    traverseCollection_grows_other lib rq _ crs path n pathPart (fun f hf => by cases hf)
  | Value.num s, crs, path, n, pathPart =>
    traverseCollection_grows_other lib rq _ crs path n pathPart (fun f hf => by cases hf)
  | Value.vtrue, crs, path, n, pathPart =>
    traverseCollection_grows_other lib rq _ crs path n pathPart (fun f hf => by cases hf)
  | Value.vfalse, crs, path, n, pathPart =>
    traverseCollection_grows_other lib rq _ crs path n pathPart (fun f hf => by cases hf)
  | Value.vnull, crs, path, n, pathPart =>
    traverseCollection_grows_other lib rq _ crs path n pathPart (fun f hf => by cases hf)
theorem traverseFields_grows (lib : GoLib) (rq : GoString → GoString) :
    ∀ (fields : List (GoString × Value)) (crs : Crs) (path : List GoString) (n : Node)
      (model : List (GoString × Entry)),
      crs <:+ (traverseFields lib rq fields crs path n model).1
  | [], crs, path, n, model => by
    rw [traverseFields.eq_1]
  | (k, Value.obj fs) :: rest, crs, path, n, model => by
    rw [traverseFields.eq_2]
    split
    · exact traverseFields_grows lib rq rest crs path n model
    · rename_i next hnext
      have ih := traverseModel_grows lib rq (Value.obj fs) crs path next k
      split
      · rename_i crs2 e heq
        rw [heq] at ih
        exact ih
      · rename_i crs2 ref heq
        rw [heq] at ih
        exact ih.trans (traverseFields_grows lib rq rest crs2 path n _)
  | (k, Value.arr es) :: rest, crs, path, n, model => by
    rw [traverseFields.eq_3]
    split
    · exact traverseFields_grows lib rq rest crs path n model
    · rename_i next hnext
      have ih := traverseCollection_grows lib rq (Value.arr es) crs path next k
      split
      · rename_i crs2 e heq
        rw [heq] at ih
        exact ih
      · rename_i crs2 ref heq
        rw [heq] at ih
        exact ih.trans (traverseFields_grows lib rq rest crs2 path n _)
  | (k, Value.str s) :: rest, crs, path, n, model =>
    traverseFields_grows_prim lib rq k _ rest crs path n model
      (fun f hf => by cases hf) (fun f hf => by cases hf)
      (fun m2 => traverseFields_grows lib rq rest crs path n m2)
  | (k, Value.num s) :: rest, crs, path, n, model =>
    traverseFields_grows_prim lib rq k _ rest crs path n model
      (fun f hf => by cases hf) (fun f hf => by cases hf)
      (fun m2 => traverseFields_grows lib rq rest crs path n m2)
  | (k, Value.vtrue) :: rest, crs, path, n, model =>
    traverseFields_grows_prim lib rq k _ rest crs path n model
      (fun f hf => by cases hf) (fun f hf => by cases hf)
      (fun m2 => traverseFields_grows lib rq rest crs path n m2)
  | (k, Value.vfalse) :: rest, crs, path, n, model =>
    traverseFields_grows_prim lib rq k _ rest crs path n model
      (fun f hf => by cases hf) (fun f hf => by cases hf)
      (fun m2 => traverseFields_grows lib rq rest crs path n m2)
  | (k, Value.vnull) :: rest, crs, path, n, model =>
    traverseFields_grows_prim lib rq k _ rest crs path n model
      (fun f hf => by cases hf) (fun f hf => by cases hf)
      (fun m2 => traverseFields_grows lib rq rest crs path n m2)
theorem traverseElems_grows (lib : GoLib) (rq : GoString → GoString) :
    ∀ (elems : List Value) (crs : Crs) (path : List GoString) (n : Node) (j : Nat),
      crs <:+ (traverseElems lib rq elems crs path n j).1
  | [], crs, path, n, j => by
    rw [traverseElems.eq_1]
  | Value.obj fs :: rest, crs, path, n, j => by
    rw [traverseElems.eq_2]
    split
    · have ih := traverseElems_grows lib rq rest crs path n (j + 1)
      split
      · rename_i crs2 e heq
        rw [heq] at ih
        exact ih
      · rename_i crs2 tail heq
        rw [heq] at ih
        exact ih
    · rename_i next hnext
      have ih := traverseModel_grows lib rq (Value.obj fs) crs path next (itoa j)
      split
      · rename_i crs2 e heq
        rw [heq] at ih
        exact ih
      · rename_i crs2 ref heq
        rw [heq] at ih
        have ih2 := traverseElems_grows lib rq rest crs2 path n (j + 1)
        split
        · rename_i crs3 e heq2
          rw [heq2] at ih2
          exact ih.trans ih2
        · rename_i crs3 tail heq2
          rw [heq2] at ih2
          exact ih.trans ih2
  | Value.arr es :: rest, crs, path, n, j => by
    rw [traverseElems.eq_3]
    split
    · have ih := traverseElems_grows lib rq rest crs path n (j + 1)
      split
      · rename_i crs2 e heq
        rw [heq] at ih
        exact ih
      · rename_i crs2 tail heq
        rw [heq] at ih
        exact ih
    · rename_i next hnext
      have ih := traverseCollection_grows lib rq (Value.arr es) crs path next (itoa j)
      split
      · rename_i crs2 e heq
        rw [heq] at ih
        exact ih
      · rename_i crs2 ref heq
        rw [heq] at ih
        have ih2 := traverseElems_grows lib rq rest crs2 path n (j + 1)
        split
        · rename_i crs3 e heq2
          rw [heq2] at ih2
          exact ih.trans ih2
        · rename_i crs3 tail heq2
          rw [heq2] at ih2
          exact ih.trans ih2
  | Value.str s :: rest, crs, path, n, j =>
    traverseElems_grows_prim lib rq _ rest crs path n j
      (fun f hf => by cases hf) (fun f hf => by cases hf)
      (traverseElems_grows lib rq rest crs path n (j + 1))
  | Value.num s :: rest, crs, path, n, j =>
    traverseElems_grows_prim lib rq _ rest crs path n j
      (fun f hf => by cases hf) (fun f hf => by cases hf)
      (traverseElems_grows lib rq rest crs path n (j + 1))
  | Value.vtrue :: rest, crs, path, n, j =>
    traverseElems_grows_prim lib rq _ rest crs path n j
      (fun f hf => by cases hf) (fun f hf => by cases hf)
      (traverseElems_grows lib rq rest crs path n (j + 1))
  | Value.vfalse :: rest, crs, path, n, j =>
    traverseElems_grows_prim lib rq _ rest crs path n j
      (fun f hf => by cases hf) (fun f hf => by cases hf)
      (traverseElems_grows lib rq rest crs path n (j + 1))
  | Value.vnull :: rest, crs, path, n, j =>
    traverseElems_grows_prim lib rq _ rest crs path n j
      (fun f hf => by cases hf) (fun f hf => by cases hf)
      (traverseElems_grows lib rq rest crs path n (j + 1))
end

theorem traverseModel_result_other (lib : GoLib)
    (rq : GoString → GoString) (v : Value) (crs crs' : Crs) (path : List GoString)
    (n : Node) (pathPart : GoString) (hv : ∀ fields, v = Value.obj fields → False) :
    (traverseModel lib rq v crs path n pathPart).2 =
      (traverseModel lib rq v crs' path n pathPart).2 := by
  rw [traverseModel.eq_2 _ _ _ _ _ _ _ hv, traverseModel.eq_2 _ _ _ _ _ _ _ hv]
  by_cases ht : n.typ ≠ ResourceType.model
  · simp only [if_pos ht]
  · simp only [if_neg ht]
    cases modelPath lib [] path n pathPart with
    | error e => rfl
    | ok path2 =>
      simp only
      cases createRid lib rq path2 n <;> rfl

theorem traverseCollection_result_other (lib : GoLib)
    (rq : GoString → GoString) (v : Value) (crs crs' : Crs) (path : List GoString)
    (n : Node) (pathPart : GoString) (hv : ∀ elems, v = Value.arr elems → False) :
    (traverseCollection lib rq v crs path n pathPart).2 =
      (traverseCollection lib rq v crs' path n pathPart).2 := by
  rw [traverseCollection.eq_2 _ _ _ _ _ _ _ hv, traverseCollection.eq_2 _ _ _ _ _ _ _ hv]
  by_cases ht : n.typ ≠ ResourceType.collection
  · simp only [if_pos ht]
  · simp only [if_neg ht]
    cases createRid lib rq (if n.ptyp ≠ PathType.root then path ++ [pathPart] else path) n <;>
      rfl

theorem traverseFields_result_prim (lib : GoLib) (rq : GoString → GoString)
    (k : GoString) (prim : Value) (rest : List (GoString × Value)) (crs crs' : Crs)
    (path : List GoString) (n : Node) (model : List (GoString × Entry))
    (h1 : ∀ fs, prim = Value.obj fs → False) (h2 : ∀ es, prim = Value.arr es → False)
    (ih : ∀ model2, (traverseFields lib rq rest crs path n model2).2 =
      (traverseFields lib rq rest crs' path n model2).2) :
    (traverseFields lib rq ((k, prim) :: rest) crs path n model).2 =
      (traverseFields lib rq ((k, prim) :: rest) crs' path n model).2 := by
  rw [traverseFields.eq_4 _ _ _ _ _ _ _ _ _ h1 h2, traverseFields.eq_4 _ _ _ _ _ _ _ _ _ h1 h2]
  cases nextNode n k with
  | some next => rfl
  | none => exact ih _

theorem traverseElems_result_prim (lib : GoLib) (rq : GoString → GoString)
    (prim : Value) (rest : List Value) (crs crs' : Crs)
    (path : List GoString) (n : Node) (j : Nat)
    (h1 : ∀ fs, prim = Value.obj fs → False) (h2 : ∀ es, prim = Value.arr es → False)
    (ih : (traverseElems lib rq rest crs path n (j + 1)).2 =
      (traverseElems lib rq rest crs' path n (j + 1)).2) :
    (traverseElems lib rq (prim :: rest) crs path n j).2 =
      (traverseElems lib rq (prim :: rest) crs' path n j).2 := by
  rw [traverseElems.eq_4 _ _ _ _ _ _ _ _ h1 h2, traverseElems.eq_4 _ _ _ _ _ _ _ _ h1 h2]
  cases n.param with
  | some next => rfl
  | none =>
    simp only
    revert ih
    generalize traverseElems lib rq rest crs path n (j + 1) = a
    generalize traverseElems lib rq rest crs' path n (j + 1) = b
    intro ih
    obtain ⟨c1, r1⟩ := a
    obtain ⟨c2, r2⟩ := b
    simp only at ih
    subst ih
    cases r1 <;> rfl

mutual
/-- The reference or error that the decomposer returns does not depend on the
map it writes to. -/
theorem traverseModel_result (lib : GoLib) (rq : GoString → GoString) :
    ∀ (v : Value) (crs crs' : Crs) (path : List GoString) (n : Node) (pathPart : GoString),
      (traverseModel lib rq v crs path n pathPart).2 =
        (traverseModel lib rq v crs' path n pathPart).2
  | Value.obj fields, crs, crs', path, n, pathPart => by
    rw [traverseModel.eq_1, traverseModel.eq_1]
    by_cases ht : n.typ ≠ ResourceType.model
    · simp only [if_pos ht]
    · simp only [if_neg ht]
      cases hmp : modelPath lib fields path n pathPart with
      | error e => rfl
      | ok path2 =>
        have ih := traverseFields_result lib rq fields crs crs' path2 n []
        simp only
        revert ih
        generalize traverseFields lib rq fields crs path2 n [] = a
        generalize traverseFields lib rq fields crs' path2 n [] = b
        intro ih
        obtain ⟨c1, r1⟩ := a
        obtain ⟨c2, r2⟩ := b
        simp only at ih
        subst ih
        cases r1 with
        | error e => rfl
        | ok m =>
          simp only
          cases createRid lib rq path2 n <;> rfl
  | Value.arr es, crs, crs', path, n, pathPart =>
    traverseModel_result_other lib rq _ crs crs' path n pathPart (fun f hf => by cases hf)
  | Value.str s, crs, crs', path, n, pathPart =>
    traverseModel_result_other lib rq _ crs crs' path n pathPart (fun f hf => by cases hf)
  | Value.num s, crs, crs', path, n, pathPart =>
    traverseModel_result_other lib rq _ crs crs' path n pathPart (fun f hf => by cases hf)
  | Value.vtrue, crs, crs', path, n, pathPart =>
    traverseModel_result_other lib rq _ crs crs' path n pathPart (fun f hf => by cases hf)
  | Value.vfalse, crs, crs', path, n, pathPart =>
    traverseModel_result_other lib rq _ crs crs' path n pathPart (fun f hf => by cases hf)
  | Value.vnull, crs, crs', path, n, pathPart =>
    traverseModel_result_other lib rq _ crs crs' path n pathPart (fun f hf => by cases hf)
theorem traverseCollection_result (lib : GoLib) (rq : GoString → GoString) :
    ∀ (v : Value) (crs crs' : Crs) (path : List GoString) (n : Node) (pathPart : GoString),
      (traverseCollection lib rq v crs path n pathPart).2 =
        (traverseCollection lib rq v crs' path n pathPart).2
  | Value.arr elems, crs, crs', path, n, pathPart => by
    rw [traverseCollection.eq_1, traverseCollection.eq_1]
    by_cases ht : n.typ ≠ ResourceType.collection
    · simp only [if_pos ht]
    · simp only [if_neg ht]
      have ih := traverseElems_result lib rq elems crs crs'
        (if n.ptyp ≠ PathType.root then path ++ [pathPart] else path) n 0
      revert ih
      generalize traverseElems lib rq elems crs (if n.ptyp ≠ PathType.root then path ++ [pathPart] else path) n 0 = a
      generalize traverseElems lib rq elems crs' (if n.ptyp ≠ PathType.root then path ++ [pathPart] else path) n 0 = b
      intro ih
      obtain ⟨c1, r1⟩ := a
      obtain ⟨c2, r2⟩ := b
      simp only at ih
      subst ih
      cases r1 with
      | error e => rfl
      | ok m =>
        simp only
        cases createRid lib rq (if n.ptyp ≠ PathType.root then path ++ [pathPart] else path)
          n <;> rfl
  | Value.obj fs, crs, crs', path, n, pathPart =>
    traverseCollection_result_other lib rq _ crs crs' path n pathPart (fun f hf => by cases hf)
  | Value.str s, crs, crs', path, n, pathPart =>
    traverseCollection_result_other lib rq _ crs crs' path n pathPart (fun f hf => by cases hf)
  | Value.num s, crs, crs', path, n, pathPart =>
    traverseCollection_result_other lib rq _ crs crs' path n pathPart (fun f hf => by cases hf)
  | Value.vtrue, crs, crs', path, n, pathPart =>
    traverseCollection_result_other lib rq _ crs crs' path n pathPart (fun f hf => by cases hf)
  | Value.vfalse, crs, crs', path, n, pathPart =>
    traverseCollection_result_other lib rq _ crs crs' path n pathPart (fun f hf => by cases hf)
  | Value.vnull, crs, crs', path, n, pathPart =>
    traverseCollection_result_other lib rq _ crs crs' path n pathPart (fun f hf => by cases hf)
theorem traverseFields_result (lib : GoLib) (rq : GoString → GoString) :
    ∀ (fields : List (GoString × Value)) (crs crs' : Crs) (path : List GoString) (n : Node)
      (model : List (GoString × Entry)),
      (traverseFields lib rq fields crs path n model).2 =
        (traverseFields lib rq fields crs' path n model).2
  | [], crs, crs', path, n, model => by
    rw [traverseFields.eq_1, traverseFields.eq_1]
  | (k, Value.obj fs) :: rest, crs, crs', path, n, model => by
    rw [traverseFields.eq_2, traverseFields.eq_2]
    cases hp : nextNode n k with
    | none => exact traverseFields_result lib rq rest crs crs' path n model
    | some next =>
      have ih := traverseModel_result lib rq (Value.obj fs) crs crs' path next k
      simp only
      revert ih
      generalize traverseModel lib rq (Value.obj fs) crs path next k = a
      generalize traverseModel lib rq (Value.obj fs) crs' path next k = b
      intro ih
      obtain ⟨c1, r1⟩ := a
      obtain ⟨c2, r2⟩ := b
      simp only at ih
      subst ih
      cases r1 with
      | error e => rfl
      | ok ref => exact traverseFields_result lib rq rest c1 c2 path n _
  | (k, Value.arr es) :: rest, crs, crs', path, n, model => by
    rw [traverseFields.eq_3, traverseFields.eq_3]
    cases hp : nextNode n k with
    | none => exact traverseFields_result lib rq rest crs crs' path n model
    | some next =>
      have ih := traverseCollection_result lib rq (Value.arr es) crs crs' path next k
      simp only
      revert ih
      generalize traverseCollection lib rq (Value.arr es) crs path next k = a
      generalize traverseCollection lib rq (Value.arr es) crs' path next k = b
      intro ih
      obtain ⟨c1, r1⟩ := a
      obtain ⟨c2, r2⟩ := b
      simp only at ih
      subst ih
      cases r1 with
      | error e => rfl
      | ok ref => exact traverseFields_result lib rq rest c1 c2 path n _
  | (k, Value.str s) :: rest, crs, crs', path, n, model =>
    traverseFields_result_prim lib rq k _ rest crs crs' path n model
      (fun f hf => by cases hf) (fun f hf => by cases hf)
      (fun m2 => traverseFields_result lib rq rest crs crs' path n m2)
  | (k, Value.num s) :: rest, crs, crs', path, n, model =>
    traverseFields_result_prim lib rq k _ rest crs crs' path n model
      (fun f hf => by cases hf) (fun f hf => by cases hf)
      (fun m2 => traverseFields_result lib rq rest crs crs' path n m2)
  | (k, Value.vtrue) :: rest, crs, crs', path, n, model =>
    traverseFields_result_prim lib rq k _ rest crs crs' path n model
      (fun f hf => by cases hf) (fun f hf => by cases hf)
      (fun m2 => traverseFields_result lib rq rest crs crs' path n m2)
  | (k, Value.vfalse) :: rest, crs, crs', path, n, model =>
    traverseFields_result_prim lib rq k _ rest crs crs' path n model
      (fun f hf => by cases hf) (fun f hf => by cases hf)
      (fun m2 => traverseFields_result lib rq rest crs crs' path n m2)
  | (k, Value.vnull) :: rest, crs, crs', path, n, model =>
    traverseFields_result_prim lib rq k _ rest crs crs' path n model
      (fun f hf => by cases hf) (fun f hf => by cases hf)
      (fun m2 => traverseFields_result lib rq rest crs crs' path n m2)
theorem traverseElems_result (lib : GoLib) (rq : GoString → GoString) :
    ∀ (elems : List Value) (crs crs' : Crs) (path : List GoString) (n : Node) (j : Nat),
      (traverseElems lib rq elems crs path n j).2 =
        (traverseElems lib rq elems crs' path n j).2
  | [], crs, crs', path, n, j => by
    rw [traverseElems.eq_1, traverseElems.eq_1]
  | Value.obj fs :: rest, crs, crs', path, n, j => by
    rw [traverseElems.eq_2, traverseElems.eq_2]
    cases hp : n.param with
    | none =>
      have ih := traverseElems_result lib rq rest crs crs' path n (j + 1)
      simp only
      revert ih
      generalize traverseElems lib rq rest crs path n (j + 1) = a
      generalize traverseElems lib rq rest crs' path n (j + 1) = b
      intro ih
      obtain ⟨c1, r1⟩ := a
      obtain ⟨c2, r2⟩ := b
      simp only at ih
      subst ih
      cases r1 <;> rfl
    | some next =>
      have ih := traverseModel_result lib rq (Value.obj fs) crs crs' path next (itoa j)
      simp only
      revert ih
      generalize traverseModel lib rq (Value.obj fs) crs path next (itoa j) = a
      generalize traverseModel lib rq (Value.obj fs) crs' path next (itoa j) = b
      intro ih
      obtain ⟨c1, r1⟩ := a
      obtain ⟨c2, r2⟩ := b
      simp only at ih
      subst ih
      cases r1 with
      | error e => rfl
      | ok ref =>
        have ih := traverseElems_result lib rq rest c1 c2 path n (j + 1)
        simp only
        revert ih
        generalize traverseElems lib rq rest c1 path n (j + 1) = a
        generalize traverseElems lib rq rest c2 path n (j + 1) = b
        intro ih
        obtain ⟨c1, r1⟩ := a
        obtain ⟨c2, r2⟩ := b
        simp only at ih
        subst ih
        cases r1 <;> rfl
  | Value.arr es :: rest, crs, crs', path, n, j => by
    rw [traverseElems.eq_3, traverseElems.eq_3]
    cases hp : n.param with
    | none =>
      have ih := traverseElems_result lib rq rest crs crs' path n (j + 1)
      simp only
      revert ih
      generalize traverseElems lib rq rest crs path n (j + 1) = a
      generalize traverseElems lib rq rest crs' path n (j + 1) = b
      intro ih
      obtain ⟨c1, r1⟩ := a
      obtain ⟨c2, r2⟩ := b
      simp only at ih
      subst ih
      cases r1 <;> rfl
    | some next =>
      have ih := traverseCollection_result lib rq (Value.arr es) crs crs' path next (itoa j)
      simp only
      revert ih
      generalize traverseCollection lib rq (Value.arr es) crs path next (itoa j) = a
      generalize traverseCollection lib rq (Value.arr es) crs' path next (itoa j) = b
      intro ih
      obtain ⟨c1, r1⟩ := a
      obtain ⟨c2, r2⟩ := b
      simp only at ih
      subst ih
      cases r1 with
      | error e => rfl
      | ok ref =>
        have ih := traverseElems_result lib rq rest c1 c2 path n (j + 1)
        simp only
        revert ih
        generalize traverseElems lib rq rest c1 path n (j + 1) = a
        generalize traverseElems lib rq rest c2 path n (j + 1) = b
        intro ih
        obtain ⟨c1, r1⟩ := a
        obtain ⟨c2, r2⟩ := b
        simp only at ih
        subst ih
        cases r1 <;> rfl
  | Value.str s :: rest, crs, crs', path, n, j =>
    traverseElems_result_prim lib rq _ rest crs crs' path n j
      (fun f hf => by cases hf) (fun f hf => by cases hf)
      (traverseElems_result lib rq rest crs crs' path n (j + 1))
  | Value.num s :: rest, crs, crs', path, n, j =>
    traverseElems_result_prim lib rq _ rest crs crs' path n j
      (fun f hf => by cases hf) (fun f hf => by cases hf)
      (traverseElems_result lib rq rest crs crs' path n (j + 1))
  | Value.vtrue :: rest, crs, crs', path, n, j =>
    traverseElems_result_prim lib rq _ rest crs crs' path n j
      (fun f hf => by cases hf) (fun f hf => by cases hf)
      (traverseElems_result lib rq rest crs crs' path n (j + 1))
  | Value.vfalse :: rest, crs, crs', path, n, j =>
    traverseElems_result_prim lib rq _ rest crs crs' path n j
      (fun f hf => by cases hf) (fun f hf => by cases hf)
      (traverseElems_result lib rq rest crs crs' path n (j + 1))
  | Value.vnull :: rest, crs, crs', path, n, j =>
    traverseElems_result_prim lib rq _ rest crs crs' path n j
      (fun f hf => by cases hf) (fun f hf => by cases hf)
      (traverseElems_result lib rq rest crs crs' path n (j + 1))
end




theorem nextNode_leaf (n : Node) (h1 : n.nodes = []) (h2 : n.param = none) (k : GoString) :
    nextNode n k = none := by
  unfold nextNode
  rw [h1, h2]
  rfl

/-- The property loop at a node without children. -/
theorem traverseFields_leaf (lib : GoLib) (rq : GoString → GoString)
    (path : List GoString) (n : Node) (hleaf : ∀ k, nextNode n k = none) :
    ∀ (fields : List (GoString × Value)) (crs : Crs) (model : List (GoString × Entry)),
      traverseFields lib rq fields crs path n model =
        (crs, Except.ok (leafModel fields model)) := by
  intro fields
  induction fields with
  | nil =>
    intro crs model
    rw [traverseFields.eq_1]
    rfl
  | cons f rest ih =>
    intro crs model
    obtain ⟨k, kv⟩ := f
    cases hc : kv.isComposite with
    | false =>
      rw [traverseFields_primitive lib rq k kv rest crs path n model hc, hleaf k]
      simp only [leafModel, hc]
      exact ih _ _
    | true =>
      rcases isComposite_cases kv hc with ⟨fs, e⟩ | ⟨es, e⟩
      · subst e
        rw [traverseFields.eq_2, hleaf k]
        simp only [leafModel, hc]
        exact ih _ _
      · subst e
        rw [traverseFields.eq_3, hleaf k]
        simp only [leafModel, hc]
        exact ih _ _

theorem modelPath_property (lib : GoLib)
    (fields : List (GoString × Value)) (path : List GoString) (n : Node) (pathPart : GoString)
    (h : n.ptyp = PathType.property) :
    (∀ s, elemIdValue lib n.idProp fields = some s →
      modelPath lib fields path n pathPart = Except.ok (path ++ [s])) ∧
    (elemIdValue lib n.idProp fields = none →
      ∃ e, modelPath lib fields path n pathPart = Except.error e) := by
  unfold modelPath elemIdValue
  rw [h]
  simp only
  constructor
  · intro s hs
    split at hs
    · rename_i raw heq
      rw [heq]
      simp only [hs]
    · rename_i raw heq
      rw [heq]
      simp only [Option.some.injEq] at hs
      rw [hs]
    · cases hs
  · intro hs
    split at hs
    · rename_i raw heq
      rw [heq]
      simp only [hs]
      exact ⟨_, rfl⟩
    · cases hs
    · rename_i h1 h2
      split
      · exact ⟨_, rfl⟩
      · rename_i raw heq
        exact absurd heq (h1 raw)
      · rename_i raw heq
        exact absurd heq (h2 raw)
      · exact ⟨_, rfl⟩


/-- The decomposition of an object at a property-id model: the resources of
the properties are written first, the model of the object last. -/
theorem traverseModel_property_run (lib : GoLib)
    (rq : GoString → GoString) (fields : List (GoString × Value)) (crs : Crs)
    (path : List GoString) (child : Node) (pathPart s rid : GoString)
    (m : List (GoString × Entry))
    (htyp : child.typ = ResourceType.model) (hptyp : child.ptyp = PathType.property)
    (hid : elemIdValue lib child.idProp fields = some s)
    (hm : (traverseFields lib rq fields [] (path ++ [s]) child []).2 = Except.ok m)
    (hrid : createRid lib rq (path ++ [s]) child = Except.ok rid) :
    ∃ written : Crs,
      traverseFields lib rq fields crs (path ++ [s]) child [] =
        (written ++ crs, Except.ok m) ∧
      traverseModel lib rq (Value.obj fields) crs path child pathPart =
        ((rid, CachedResource.model m) :: (written ++ crs), Except.ok rid) := by
  obtain ⟨written, hw⟩ := traverseFields_grows lib rq fields crs (path ++ [s]) child []
  have hres := traverseFields_result lib rq fields crs [] (path ++ [s]) child []
  rw [hm] at hres
  have hf : traverseFields lib rq fields crs (path ++ [s]) child [] =
      (written ++ crs, Except.ok m) := Prod.ext hw.symm hres
  refine ⟨written, hf, ?_⟩
  rw [traverseModel.eq_1, htyp]
  simp only [ne_eq, not_true_eq_false, if_false]
  rw [(modelPath_property lib fields path child pathPart hptyp).1 s hid]
  simp only
  rw [hf]
  simp only [hrid]
  rfl

/-- At a model without children the property loop writes nothing and returns
the model of the primitive properties. -/
theorem elemModel_leaf (lib : GoLib) (rq : GoString → GoString)
    (cpath : List GoString) (child : Node) (p : GoString)
    (hnodes : child.nodes = []) (hparam : child.param = none)
    (fields : List (GoString × Value)) (s : GoString)
    (hid : elemIdValue lib p fields = some s) :
    ElemModel lib rq cpath child p (Value.obj fields) (leafModel fields []) :=
  ⟨fields, s, rfl, hid, by
    rw [traverseFields_leaf lib rq _ child (nextNode_leaf child hnodes hparam)]⟩

theorem traverseModel_property_ok (lib : GoLib)
    (rq : GoString → GoString) (fields : List (GoString × Value)) (crs : Crs)
    (path : List GoString) (child : Node) (pathPart s rid : GoString)
    (htyp : child.typ = ResourceType.model) (hptyp : child.ptyp = PathType.property)
    (hnodes : child.nodes = []) (hparam : child.param = none)
    (hid : elemIdValue lib child.idProp fields = some s)
    (hrid : createRid lib rq (path ++ [s]) child = Except.ok rid) :
    traverseModel lib rq (Value.obj fields) crs path child pathPart =
      (mapSet crs rid (CachedResource.model (leafModel fields [])), Except.ok rid) := by
  rw [traverseModel.eq_1, htyp]
  simp only [ne_eq, not_true_eq_false, if_false]
  rw [(modelPath_property lib fields path child pathPart hptyp).1 s hid]
  simp only
  rw [traverseFields_leaf lib rq _ child (nextNode_leaf child hnodes hparam)]
  simp only [hrid]

theorem traverseModel_property_error (lib : GoLib)
    (rq : GoString → GoString) (fields : List (GoString × Value)) (crs : Crs)
    (path : List GoString) (child : Node) (pathPart : GoString)
    (hptyp : child.ptyp = PathType.property)
    (hid : elemIdValue lib child.idProp fields = none) :
    ∃ e, (traverseModel lib rq (Value.obj fields) crs path child pathPart).2 =
      Except.error e := by
  rw [traverseModel.eq_1]
  split
  · exact ⟨_, rfl⟩
  · obtain ⟨e, he⟩ := (modelPath_property lib fields path child pathPart hptyp).2 hid
    rw [he]
    exact ⟨_, rfl⟩

/-- A primitive property at a key that has a schema node makes the
decomposition of the object fail. -/
theorem traverseModel_primitive_child_error (lib : GoLib)
    (rq : GoString → GoString) (fields : List (GoString × Value)) (crs : Crs)
    (path : List GoString) (child : Node) (pathPart : GoString)
    (k : GoString) (kv : Value) (next : Node)
    (hmem : (k, kv) ∈ fields) (hnext : nextNode child k = some next)
    (hprim : kv.isComposite = false) :
    ∃ e, (traverseModel lib rq (Value.obj fields) crs path child pathPart).2 =
      Except.error e := by
  rw [traverseModel.eq_1]
  split
  · exact ⟨_, rfl⟩
  · split
    · exact ⟨_, rfl⟩
    · rename_i path2 hmp
      obtain ⟨e, he⟩ := traverseFields_primitive_error lib rq path2 child fields crs []
        k kv next hmem hnext hprim
      split
      · exact ⟨_, rfl⟩
      · rename_i heq
        rw [heq] at he
        cases he

theorem elemEntries_cons (rid : GoString) (rids : List GoString)
    (m : List (GoString × Entry)) (models : List (List (GoString × Entry))) :
    elemEntries (rid :: rids) (m :: models) =
      elemEntries rids models ++ [(rid, CachedResource.model m)] := by
  unfold elemEntries
  simp only [List.zip_cons_cons, List.map_cons, List.reverse_cons]

/-- The element loop of a collection over objects that all give an id and are
decomposed without error: what it writes, in which order, and what it
returns. -/
theorem traverseElems_property_run (lib : GoLib)
    (rq : GoString → GoString) (n child : Node) (cpath : List GoString)
    (hparam : n.param = some child)
    (htyp : child.typ = ResourceType.model) (hptyp : child.ptyp = PathType.property) :
    ∀ (elems : List Value) (rids : List GoString)
      (models : List (List (GoString × Entry))) (crs : Crs) (j : Nat),
      List.Forall₂ (ElemRid lib rq cpath child child.idProp) elems rids →
      List.Forall₂ (ElemModel lib rq cpath child child.idProp) elems models →
      ∃ entries : Crs,
        traverseElems lib rq elems crs cpath n j =
          (entries ++ crs, Except.ok (rids.map Entry.ref)) ∧
        List.Sublist (elemEntries rids models) entries ∧
        ∀ k rid m, rids[k]? = some rid → models[k]? = some m →
          ∃ later earlier : Crs,
            entries ++ crs = later ++ (rid, CachedResource.model m) :: earlier ∧
            traverseElems lib rq (elems.drop (k + 1))
                ((rid, CachedResource.model m) :: earlier) cpath n (j + k + 1) =
              (later ++ (rid, CachedResource.model m) :: earlier,
                Except.ok ((rids.drop (k + 1)).map Entry.ref)) := by
  intro elems
  induction elems with
  | nil =>
    intro rids models crs j hf hm
    cases hf
    cases hm
    refine ⟨[], ?_, List.Sublist.slnil, ?_⟩
    · rw [traverseElems.eq_1]
      rfl
    · intro k rid m hk
      simp at hk
  | cons e rest ih =>
    intro rids models crs j hf hm
    cases hf with
    | cons hhead htail =>
      rename_i rid0 rids2
      cases hm with
      | cons hmhead hmtail =>
        rename_i m0 models2
        obtain ⟨fields, s, e1, e2, e3⟩ := hhead
        obtain ⟨fields2, s2, d1, d2, d3⟩ := hmhead
        subst e1
        simp only [Value.obj.injEq] at d1
        subst d1
        rw [e2] at d2
        simp only [Option.some.injEq] at d2
        subst d2
        obtain ⟨written, hw, hmod⟩ := traverseModel_property_run lib rq fields crs cpath child
          (itoa j) s rid0 m0 htyp hptyp e2 d3 e3
        obtain ⟨entries2, h1, h2, h3⟩ := ih rids2 models2
          ((rid0, CachedResource.model m0) :: (written ++ crs)) (j + 1) htail hmtail
        refine ⟨entries2 ++ (rid0, CachedResource.model m0) :: written, ?_, ?_, ?_⟩
        · rw [traverseElems.eq_2, hparam]
          simp only
          rw [hmod]
          simp only
          rw [h1]
          simp only [List.map_cons, List.append_assoc, List.cons_append]
        · rw [elemEntries_cons]
          exact List.Sublist.append h2
            (List.Sublist.cons₂ _ (List.nil_sublist written))
        · intro k rid m hk hmk
          cases k with
          | zero =>
            simp only [List.getElem?_cons_zero, Option.some.injEq] at hk hmk
            subst hk hmk
            refine ⟨entries2, written ++ crs, ?_, ?_⟩
            · simp only [List.append_assoc, List.cons_append]
            · simpa using h1
          | succ k =>
            simp only [List.getElem?_cons_succ] at hk hmk
            obtain ⟨later, earlier, g1, g2⟩ := h3 k rid m hk hmk
            refine ⟨later, earlier, ?_, ?_⟩
            · rw [← g1]
              simp only [List.append_assoc, List.cons_append]
            · have hidx : j + (k + 1) + 1 = j + 1 + k + 1 := by omega
              rw [hidx]
              simpa using g2

/-- The element loop of a collection over objects that all give an id, below
a model without children. -/
theorem traverseElems_property_ok (lib : GoLib)
    (rq : GoString → GoString) (n child : Node) (cpath : List GoString)
    (hparam : n.param = some child)
    (htyp : child.typ = ResourceType.model) (hptyp : child.ptyp = PathType.property)
    (hnodes : child.nodes = []) (hcparam : child.param = none) :
    ∀ (elems : List Value) (rids : List GoString) (crs : Crs) (j : Nat),
      List.Forall₂ (ElemRid lib rq cpath child child.idProp) elems rids →
      traverseElems lib rq elems crs cpath n j =
        (propertyCrs elems rids crs, Except.ok (rids.map Entry.ref)) := by
  intro elems
  induction elems with
  | nil =>
    intro rids crs j hf
    cases hf
    rw [traverseElems.eq_1]
    rfl
  | cons e rest ih =>
    intro rids crs j hf
    cases hf with
    | cons hhead htail =>
      rename_i rid rids2
      obtain ⟨fields, s, e1, e2, e3⟩ := hhead
      subst e1
      rw [traverseElems.eq_2, hparam]
      simp only
      rw [traverseModel_property_ok lib rq fields crs cpath child (itoa j) s rid htyp hptyp
        hnodes hcparam e2 e3]
      simp only
      rw [ih rids2 _ (j + 1) htail]
      rfl

/-- An object whose decomposition at the wildcard child fails makes the
element loop fail. -/
theorem traverseElems_elem_error (lib : GoLib)
    (rq : GoString → GoString) (n child : Node) (path : List GoString)
    (hparam : n.param = some child) (fields : List (GoString × Value))
    (herr : ∀ crs pathPart,
      ∃ e, (traverseModel lib rq (Value.obj fields) crs path child pathPart).2 =
        Except.error e) :
    ∀ (elems : List Value) (crs : Crs) (j : Nat), Value.obj fields ∈ elems →
      ∃ e, (traverseElems lib rq elems crs path n j).2 = Except.error e := by
  intro elems
  induction elems with
  | nil => intro crs j hm; cases hm
  | cons kv rest ih =>
    intro crs j hm
    cases hc : kv.isComposite with
    | false =>
      rw [traverseElems_primitive lib rq kv rest crs path n j hc, hparam]
      exact ⟨_, rfl⟩
    | true =>
      rcases isComposite_cases kv hc with ⟨fs, e⟩ | ⟨es, e⟩
      · subst e
        rw [traverseElems.eq_2, hparam]
        simp only
        split
        · exact ⟨_, rfl⟩
        · rename_i crs1 ref heq
          rcases List.mem_cons.1 hm with e | e
          · simp only [Value.obj.injEq] at e
            subst e
            obtain ⟨err, herr2⟩ := herr crs (itoa j)
            rw [heq] at herr2
            cases herr2
          · obtain ⟨err, herr2⟩ := ih crs1 (j + 1) e
            split
            · exact ⟨_, rfl⟩
            · rename_i heq2
              rw [heq2] at herr2
              cases herr2
      · subst e
        have hne : Value.obj fields ∈ rest := by
          rcases List.mem_cons.1 hm with e | e
          · cases e
          · exact e
        rw [traverseElems.eq_3, hparam]
        simp only
        split
        · exact ⟨_, rfl⟩
        · rename_i crs1 ref heq
          obtain ⟨err, herr2⟩ := ih crs1 (j + 1) hne
          split
          · exact ⟨_, rfl⟩
          · rename_i heq2
            rw [heq2] at herr2
            cases herr2

/-- A failure of the element loop is a failure of the collection. -/
theorem traverseCollection_elems_error (lib : GoLib)
    (rq : GoString → GoString) (elems : List Value) (crs : Crs) (path : List GoString)
    (n : Node) (pathPart : GoString)
    (h : ∃ e, (traverseElems lib rq elems crs
      (if n.ptyp ≠ PathType.root then path ++ [pathPart] else path) n 0).2 = Except.error e) :
    ∃ e, (traverseCollection lib rq (Value.arr elems) crs path n pathPart).2 =
      Except.error e := by
  obtain ⟨e, he⟩ := h
  rw [traverseCollection.eq_1]
  split
  · exact ⟨_, rfl⟩
  · split
    · exact ⟨_, rfl⟩
    · rename_i heq
      rw [heq] at he
      cases he

/-- A failure of the root collection is a failure of `traverse`. -/
theorem traverse_collection_error (lib : GoLib)
    (rq : GoString → GoString) (root : Node) (elems : List Value)
    (h : ∃ e, (traverseCollection lib rq (Value.arr elems) [] [] root []).2 =
      Except.error e) :
    ∃ e, (traverse lib rq root (Value.arr elems)).2 = Except.error e := by
  obtain ⟨e, he⟩ := h
  unfold traverse
  simp only
  split
  · exact ⟨_, rfl⟩
  · rename_i heq
    rw [heq] at he
    cases he

/-- The decomposition of an array at a collection with a property-id child,
over objects that all give an id and are decomposed without error. -/
theorem traverseCollection_property_run (lib : GoLib)
    (rq : GoString → GoString) (n child : Node) (p : GoString) (elems : List Value)
    (rids : List GoString) (models : List (List (GoString × Entry))) (crs : Crs)
    (path : List GoString) (pathPart ridC : GoString)
    (hs : PropertySchema n child p)
    (hridC : createRid lib rq (if n.ptyp ≠ PathType.root then path ++ [pathPart] else path) n =
      Except.ok ridC)
    (hf : List.Forall₂ (ElemRid lib rq
      (if n.ptyp ≠ PathType.root then path ++ [pathPart] else path) child p) elems rids)
    (hm : List.Forall₂ (ElemModel lib rq
      (if n.ptyp ≠ PathType.root then path ++ [pathPart] else path) child p) elems models) :
    ∃ entries : Crs,
      traverseCollection lib rq (Value.arr elems) crs path n pathPart =
        ((ridC, CachedResource.collection (rids.map Entry.ref)) :: (entries ++ crs),
          Except.ok ridC) ∧
      traverseElems lib rq elems crs
          (if n.ptyp ≠ PathType.root then path ++ [pathPart] else path) n 0 =
        (entries ++ crs, Except.ok (rids.map Entry.ref)) ∧
      List.Sublist (elemEntries rids models) entries ∧
      ∀ k rid m, rids[k]? = some rid → models[k]? = some m →
        ∃ later earlier : Crs,
          entries ++ crs = later ++ (rid, CachedResource.model m) :: earlier ∧
          traverseElems lib rq (elems.drop (k + 1))
              ((rid, CachedResource.model m) :: earlier)
              (if n.ptyp ≠ PathType.root then path ++ [pathPart] else path) n (k + 1) =
            (later ++ (rid, CachedResource.model m) :: earlier,
              Except.ok ((rids.drop (k + 1)).map Entry.ref)) := by
  obtain ⟨h1, h2, h3, h4, h5⟩ := hs
  subst h5
  obtain ⟨entries, g1, g2, g3⟩ := traverseElems_property_run lib rq n child _ h2 h3 h4
    elems rids models crs 0 hf hm
  refine ⟨entries, ?_, g1, g2, ?_⟩
  · rw [traverseCollection.eq_1, h1]
    simp only [ne_eq, not_true_eq_false, if_false]
    simp only [ne_eq] at g1 hridC
    rw [g1]
    simp only [hridC]
    rfl
  · intro k rid m hk hmk
    obtain ⟨later, earlier, e1, e2⟩ := g3 k rid m hk hmk
    refine ⟨later, earlier, e1, ?_⟩
    simpa using e2

theorem propertyCrs_spec (lib : GoLib) (rq : GoString → GoString)
    (cpath : List GoString) (child : Node) (p : GoString) :
    ∀ (elems : List Value) (rids : List GoString) (crs : Crs),
      List.Forall₂ (ElemRid lib rq cpath child p) elems rids →
      ∃ entries : Crs, propertyCrs elems rids crs = entries ++ crs ∧
        entries.map Prod.fst = rids.reverse ∧
        ∀ e ∈ entries, ∃ m, e.2 = CachedResource.model m := by
  intro elems
  induction elems with
  | nil =>
    intro rids crs hf
    cases hf
    exact ⟨[], rfl, rfl, fun e he => by cases he⟩
  | cons e rest ih =>
    intro rids crs hf
    cases hf with
    | cons hhead htail =>
      rename_i rid rids2
      obtain ⟨fields, s, e1, _, _⟩ := hhead
      subst e1
      obtain ⟨entries, g1, g2, g3⟩ := ih rids2
        (mapSet crs rid (CachedResource.model (leafModel fields []))) htail
      refine ⟨entries ++ [(rid, CachedResource.model (leafModel fields []))], ?_, ?_, ?_⟩
      · rw [propertyCrs, g1]
        simp [mapSet]
      · simp [g2]
      · intro x hx
        rcases List.mem_append.1 hx with h | h
        · exact g3 x h
        · simp only [List.mem_singleton] at h
          subst h
          exact ⟨_, rfl⟩

theorem traverse_property_ok (lib : GoLib)
    (rq : GoString → GoString) (root child : Node) (p : GoString) (elems : List Value)
    (rids : List GoString) (rootRid : GoString)
    (hs : PropertySchema root child p) (hptyp : root.ptyp = PathType.root)
    (hnodes : child.nodes = []) (hcparam : child.param = none)
    (hroot : createRid lib rq [] root = Except.ok rootRid)
    (hf : List.Forall₂ (ElemRid lib rq [] child p) elems rids) :
    traverse lib rq root (Value.arr elems) =
      (mapSet (propertyCrs elems rids []) rootRid
        (CachedResource.collection (rids.map Entry.ref)), Except.ok ()) := by
  obtain ⟨h1, h2, h3, h4, h5⟩ := hs
  subst h5
  have h := traverseElems_property_ok lib rq root child [] h2 h3 h4 hnodes hcparam
    elems rids [] 0 hf
  unfold traverse
  simp only
  rw [traverseCollection.eq_1, h1, hptyp]
  simp only [ne_eq, not_true_eq_false, if_false]
  rw [h]
  simp only [hroot]

theorem traverse_property_run (lib : GoLib)
    (rq : GoString → GoString) (root child : Node) (p : GoString) (elems : List Value)
    (rids : List GoString) (models : List (List (GoString × Entry))) (rootRid : GoString)
    (hs : PropertySchema root child p) (hptyp : root.ptyp = PathType.root)
    (hroot : createRid lib rq [] root = Except.ok rootRid)
    (hf : List.Forall₂ (ElemRid lib rq [] child p) elems rids)
    (hm : List.Forall₂ (ElemModel lib rq [] child p) elems models) :
    ∃ entries : Crs,
      traverse lib rq root (Value.arr elems) =
        ((rootRid, CachedResource.collection (rids.map Entry.ref)) :: entries,
          Except.ok ()) ∧
      List.Sublist (elemEntries rids models) entries := by
  have hc : (if root.ptyp ≠ PathType.root then ([] : List GoString) ++ [[]] else []) = [] := by
    rw [hptyp]
    simp
  obtain ⟨entries, g1, _, g2, _⟩ := traverseCollection_property_run lib rq root child p elems
    rids models [] [] [] rootRid hs (by rw [hc]; exact hroot) (by rw [hc]; exact hf)
    (by rw [hc]; exact hm)
  refine ⟨entries, ?_, g2⟩
  unfold traverse
  simp only
  rw [g1]
  simp

theorem traverse_property_error (lib : GoLib)
    (rq : GoString → GoString) (root child : Node) (p : GoString) (elems : List Value)
    (hs : PropertySchema root child p) (fields : List (GoString × Value))
    (hm : Value.obj fields ∈ elems) (hid : elemIdValue lib p fields = none) :
    ∃ e, (traverse lib rq root (Value.arr elems)).2 = Except.error e := by
  obtain ⟨h1, h2, h3, h4, h5⟩ := hs
  subst h5
  exact traverse_collection_error lib rq root elems
    (traverseCollection_elems_error lib rq elems [] [] root []
      (traverseElems_elem_error lib rq root child _ h2 fields
        (fun crs pathPart => traverseModel_property_error lib rq fields crs _ child pathPart
          h4 hid) elems [] 0 hm))

theorem traverse_property_primitive_error (lib : GoLib)
    (rq : GoString → GoString) (root child : Node) (p : GoString) (elems : List Value)
    (hs : PropertySchema root child p) (fields : List (GoString × Value))
    (hm : Value.obj fields ∈ elems) (k : GoString) (kv : Value) (next : Node)
    (hmem : (k, kv) ∈ fields) (hnext : nextNode child k = some next)
    (hprim : kv.isComposite = false) :
    ∃ e, (traverse lib rq root (Value.arr elems)).2 = Except.error e := by
  obtain ⟨h1, h2, h3, h4, h5⟩ := hs
  exact traverse_collection_error lib rq root elems
    (traverseCollection_elems_error lib rq elems [] [] root []
      (traverseElems_elem_error lib rq root child _ h2 fields
        (fun crs pathPart => traverseModel_primitive_child_error lib rq fields crs _ child
          pathPart k kv next hmem hnext hprim) elems [] 0 hm))

theorem elemIdValue_none (lib : GoLib) (p : GoString)
    (fields : List (GoString × Value))
    (h1 : ∀ raw, mapGet fields p ≠ some (Value.str raw))
    (h2 : ∀ raw, mapGet fields p ≠ some (Value.num raw)) :
    elemIdValue lib p fields = none := by
  unfold elemIdValue
  split
  · rename_i raw heq
    exact absurd heq (h1 raw)
  · rename_i raw heq
    exact absurd heq (h2 raw)
  · rfl



/-- An object that a property-id model decomposes without error gives an id,
a model and a resource id. -/
theorem traverseModel_property_inv (lib : GoLib)
    (rq : GoString → GoString) (fields : List (GoString × Value)) (crs crs1 : Crs)
    (path : List GoString) (child : Node) (pathPart r : GoString)
    (hptyp : child.ptyp = PathType.property)
    (h : traverseModel lib rq (Value.obj fields) crs path child pathPart =
      (crs1, Except.ok r)) :
    ∃ s m, elemIdValue lib child.idProp fields = some s ∧
      (traverseFields lib rq fields [] (path ++ [s]) child []).2 = Except.ok m ∧
      createRid lib rq (path ++ [s]) child = Except.ok r := by
  cases hid : elemIdValue lib child.idProp fields with
  | none =>
    obtain ⟨e, he⟩ := traverseModel_property_error lib rq fields crs path child pathPart
      hptyp hid
    rw [h] at he
    cases he
  | some s =>
    refine ⟨s, ?_⟩
    rw [traverseModel.eq_1] at h
    split at h
    · simp only [Prod.mk.injEq] at h
      cases h.2
    · rw [(modelPath_property lib fields path child pathPart hptyp).1 s hid] at h
      simp only at h
      split at h
      · simp only [Prod.mk.injEq] at h
        cases h.2
      · rename_i crs2 m heq
        split at h
        · simp only [Prod.mk.injEq] at h
          cases h.2
        · rename_i rid hrid
          simp only [Prod.mk.injEq, Except.ok.injEq] at h
          refine ⟨m, rfl, ?_, ?_⟩
          · rw [traverseFields_result lib rq fields [] crs (path ++ [s]) child [], heq]
          · rw [hrid, h.2]

/-- An array that a collection with a property-id child decomposes without
error holds only objects that give an id and are decomposed without error. -/
theorem traverseElems_property_inv (lib : GoLib)
    (rq : GoString → GoString) (n child : Node) (cpath : List GoString)
    (hparam : n.param = some child)
    (htyp : child.typ = ResourceType.model) (hptyp : child.ptyp = PathType.property) :
    ∀ (elems : List Value) (crs crs2 : Crs) (j : Nat) (coll : List Entry),
      traverseElems lib rq elems crs cpath n j = (crs2, Except.ok coll) →
      ∃ rids models,
        List.Forall₂ (ElemRid lib rq cpath child child.idProp) elems rids ∧
        List.Forall₂ (ElemModel lib rq cpath child child.idProp) elems models := by
  intro elems
  induction elems with
  | nil =>
    intro crs crs2 j coll h
    exact ⟨[], [], List.Forall₂.nil, List.Forall₂.nil⟩
  | cons kv rest ih =>
    intro crs crs2 j coll h
    cases hc : kv.isComposite with
    | false =>
      rw [traverseElems_primitive lib rq kv rest crs cpath n j hc, hparam] at h
      simp only [Prod.mk.injEq] at h
      cases h.2
    | true =>
      rcases isComposite_cases kv hc with ⟨fs, e⟩ | ⟨es, e⟩
      · subst e
        rw [traverseElems.eq_2, hparam] at h
        simp only at h
        split at h
        · simp only [Prod.mk.injEq] at h
          cases h.2
        · rename_i crs1 ref heq
          split at h
          · simp only [Prod.mk.injEq] at h
            cases h.2
          · rename_i crs3 tail heq2
            obtain ⟨rids, models, g1, g2⟩ := ih crs1 crs3 (j + 1) tail heq2
            obtain ⟨s, m, k1, k2, k3⟩ := traverseModel_property_inv lib rq fs crs crs1 cpath
              child (itoa j) ref hptyp heq
            exact ⟨ref :: rids, m :: models,
              List.Forall₂.cons ⟨fs, s, rfl, k1, k3⟩ g1,
              List.Forall₂.cons ⟨fs, s, rfl, k1, k2⟩ g2⟩
      · subst e
        rw [traverseElems.eq_3, hparam] at h
        simp only at h
        rw [traverseCollection.eq_1, htyp] at h
        simp only [ne_eq, reduceCtorEq, not_false_eq_true, if_true, Prod.mk.injEq] at h
        cases h.2

/-- An array that `traverse` decomposes without error at a collection with a
property-id child holds only objects that give an id and are decomposed
without error. -/
theorem traverse_property_inv (lib : GoLib)
    (rq : GoString → GoString) (root child : Node) (p : GoString) (elems : List Value)
    (crs : Crs)
    (hs : PropertySchema root child p) (hptyp : root.ptyp = PathType.root)
    (h : traverse lib rq root (Value.arr elems) = (crs, Except.ok ())) :
    ∃ rids models,
      List.Forall₂ (ElemRid lib rq [] child p) elems rids ∧
      List.Forall₂ (ElemModel lib rq [] child p) elems models := by
  obtain ⟨h1, h2, h3, h4, h5⟩ := hs
  subst h5
  unfold traverse at h
  simp only at h
  split at h
  · simp only [Prod.mk.injEq] at h
    cases h.2
  · rename_i crs1 ref heq
    rw [traverseCollection.eq_1, h1, hptyp] at heq
    simp only [ne_eq, not_true_eq_false, if_false] at heq
    split at heq
    · simp only [Prod.mk.injEq] at heq
      cases heq.2
    · rename_i crs2 coll heq2
      exact traverseElems_property_inv lib rq root child [] h2 h3 h4 elems [] crs2 0 coll heq2


/-- C14 (amended): for a root collection whose wildcard child is a model
registered with `idProp = p`, decomposing an array of objects whose property
`p` is a string or a number, and whose properties the child decomposes without
error, inserts, for each element in array order, a model under the id made
from the pattern of the child for the path holding that element's `p` value
(the decoded string, or the raw text of the number), and then the root
collection, which stores in array order the references to exactly those ids;
when the child has no child nodes, every array of such objects is decomposed,
and the models of the elements are all that is inserted before the
collection.  An array that `traverse` decomposes without error holds only
such objects; an array with an object whose `p` is missing or of another type
makes `traverse` fail, and so does an array with an object that has a
primitive property at a key for which the child has a child node. -/
theorem traverse_property_ids (lib : GoLib)
    (reqParams : GoString → GoString) (root child : Node) (p : GoString)
    (elems : List Value) (rootRid : GoString)
    (hs : PropertySchema root child p) (hptyp : root.ptyp = PathType.root)
    (hroot : createRid lib reqParams [] root = Except.ok rootRid) :
    (∀ rids models, List.Forall₂ (ElemRid lib reqParams [] child p) elems rids →
      List.Forall₂ (ElemModel lib reqParams [] child p) elems models →
      ∃ entries : Crs,
        traverse lib reqParams root (Value.arr elems) =
          ((rootRid, CachedResource.collection (rids.map Entry.ref)) :: entries,
            Except.ok ()) ∧
        List.Sublist (elemEntries rids models) entries) ∧
    (child.nodes = [] → child.param = none →
      ∀ rids, List.Forall₂ (ElemRid lib reqParams [] child p) elems rids →
      ∃ entries : Crs,
        traverse lib reqParams root (Value.arr elems) =
          ((rootRid, CachedResource.collection (rids.map Entry.ref)) :: entries,
            Except.ok ()) ∧
        entries.map Prod.fst = rids.reverse ∧
        ∀ e ∈ entries, ∃ m, e.2 = CachedResource.model m) ∧
    (∀ crs, traverse lib reqParams root (Value.arr elems) = (crs, Except.ok ()) →
      ∃ rids models, List.Forall₂ (ElemRid lib reqParams [] child p) elems rids ∧
        List.Forall₂ (ElemModel lib reqParams [] child p) elems models) ∧
    (∀ fields, Value.obj fields ∈ elems →
      (∀ raw, mapGet fields p ≠ some (Value.str raw)) →
      (∀ raw, mapGet fields p ≠ some (Value.num raw)) →
      ∃ e, (traverse lib reqParams root (Value.arr elems)).2 = Except.error e) ∧
    (∀ fields k kv next, Value.obj fields ∈ elems → (k, kv) ∈ fields →
      kv.isComposite = false → nextNode child k = some next →
      ∃ e, (traverse lib reqParams root (Value.arr elems)).2 = Except.error e) := by
  refine ⟨?_, ?_, ?_, ?_, ?_⟩
  · intro rids models hf hm
    exact traverse_property_run lib reqParams root child p elems rids models rootRid hs hptyp
      hroot hf hm
  · intro hnodes hcparam rids hf
    obtain ⟨entries, g1, g2, g3⟩ := propertyCrs_spec lib reqParams [] child p elems rids [] hf
    refine ⟨entries, ?_, g2, g3⟩
    rw [traverse_property_ok lib reqParams root child p elems rids rootRid hs hptyp hnodes
      hcparam hroot hf, g1]
    simp [mapSet]
  · intro crs h
    exact traverse_property_inv lib reqParams root child p elems crs hs hptyp h
  · intro fields hm h1 h2
    exact traverse_property_error lib reqParams root child p elems hs fields hm
      (elemIdValue_none lib p fields h1 h2)
  · intro fields k kv next hm hmem hprim hnext
    exact traverse_property_primitive_error lib reqParams root child p elems hs fields hm
      k kv next hmem hnext hprim

/-- The array `[{"id":"a","sub":{"x":1}},{"id":"b","v":2}]` below the schema
with the models `svc.items.$id` and `svc.items.$id.sub`: the models
`svc.items.a` and `svc.items.b` are inserted in this order, the model
`svc.items.a.sub` before them, and the collection `svc.items` last; and the
array `[{"id":"a","v":1},{"id":"b","v":2}]` below the schema with the model
`svc.items.$id` alone. -/
theorem traverse_property_ids_witness :
    (∀ rids models,
      List.Forall₂ (ElemRid unquoteLib (fun _ => []) [] propSubChild "id".toList) propSubElems
        rids →
      List.Forall₂ (ElemModel unquoteLib (fun _ => []) [] propSubChild "id".toList)
        propSubElems models →
      ∃ entries : Crs,
        traverse unquoteLib (fun _ => []) propSubTrie (Value.arr propSubElems) =
          (("svc.items".toList, CachedResource.collection (rids.map Entry.ref)) :: entries,
            Except.ok ()) ∧
        List.Sublist (elemEntries rids models) entries) ∧
    List.Forall₂ (ElemRid unquoteLib (fun _ => []) [] propSubChild "id".toList) propSubElems
      ["svc.items.a".toList, "svc.items.b".toList] ∧
    List.Forall₂ (ElemModel unquoteLib (fun _ => []) [] propSubChild "id".toList) propSubElems
      [[("sub".toList, Entry.ref "svc.items.a.sub".toList),
          ("id".toList, Entry.value (Value.str (quoted "a".toList)))],
        [("v".toList, Entry.value (Value.num "2".toList)),
          ("id".toList, Entry.value (Value.str (quoted "b".toList)))]] ∧
    traverse unquoteLib (fun _ => []) propSubTrie (Value.arr propSubElems) =
      ([("svc.items".toList, CachedResource.collection
          [Entry.ref "svc.items.a".toList, Entry.ref "svc.items.b".toList]),
        ("svc.items.b".toList, CachedResource.model
          [("v".toList, Entry.value (Value.num "2".toList)),
            ("id".toList, Entry.value (Value.str (quoted "b".toList)))]),
        ("svc.items.a".toList, CachedResource.model
          [("sub".toList, Entry.ref "svc.items.a.sub".toList),
            ("id".toList, Entry.value (Value.str (quoted "a".toList)))]),
        ("svc.items.a.sub".toList, CachedResource.model
          [("x".toList, Entry.value (Value.num "1".toList))])],
        Except.ok ()) ∧
    traverse unquoteLib (fun _ => []) propTrie (Value.arr propElems) =
      ([("svc.items".toList, CachedResource.collection
          [Entry.ref "svc.items.a".toList, Entry.ref "svc.items.b".toList]),
        ("svc.items.b".toList, CachedResource.model
          [("v".toList, Entry.value (Value.num "2".toList)),
            ("id".toList, Entry.value (Value.str (quoted "b".toList)))]),
        ("svc.items.a".toList, CachedResource.model
          [("v".toList, Entry.value (Value.num "1".toList)),
            ("id".toList, Entry.value (Value.str (quoted "a".toList)))])],
        Except.ok ()) :=
  ⟨(traverse_property_ids unquoteLib (fun _ => []) propSubTrie propSubChild "id".toList
      propSubElems "svc.items".toList ⟨rfl, rfl, rfl, rfl, rfl⟩ rfl rfl).1,
    List.Forall₂.cons ⟨_, "a".toList, rfl, rfl, rfl⟩
      (List.Forall₂.cons ⟨_, "b".toList, rfl, rfl, rfl⟩ List.Forall₂.nil),
    List.Forall₂.cons ⟨_, "a".toList, rfl, rfl, rfl⟩
      (List.Forall₂.cons ⟨_, "b".toList, rfl, rfl, rfl⟩ List.Forall₂.nil),
    rfl, rfl⟩

/-- C14 (counterexample): below the schema with the models `svc.items.$id`
and `svc.items.$id.sub`, the array `[{"id":"a","sub":5}]` holds one object
whose property `id` is a string, and the id `svc.items.a` is made for it, but
`traverse` fails and inserts nothing: the primitive `5` stands at the key
`sub`, for which the model has a child node. -/
theorem traverse_property_ids_counterexample :
    PropertySchema propSubTrie propSubChild "id".toList ∧
    propSubTrie.ptyp = PathType.root ∧
    List.Forall₂ (ElemRid unquoteLib (fun _ => []) [] propSubChild "id".toList) propBadElems
      ["svc.items.a".toList] ∧
    traverse unquoteLib (fun _ => []) propSubTrie (Value.arr propBadElems) =
      ([], Except.error TraverseError.unexpectedPrimitive) :=
  ⟨⟨rfl, rfl, rfl, rfl, rfl⟩, rfl,
    List.Forall₂.cons ⟨_, "a".toList, rfl, rfl, rfl⟩ List.Forall₂.nil, rfl⟩


/-- On the calls that succeed `addPathLoopTrie` leaves the trie that
`addPathLoop` returns, and it reports the same error on the others. -/
theorem addPathLoop_eq_trie (typ : ResourceType) (pp idProp : GoString) (last : Int)
    (ts : List GoString) :
    ∀ (i : Nat) (l : Node) (params : List PatternParam) (ptyp : PathType),
      addPathLoop typ pp idProp last ts i l params ptyp =
        match (addPathLoopTrie typ pp idProp last ts i l params ptyp).2 with
        | none => Except.ok (addPathLoopTrie typ pp idProp last ts i l params ptyp).1
        | some e => Except.error e := by
  induction ts with
  | nil =>
    intro i l params ptyp
    simp only [addPathLoop, addPathLoopTrie]
    split
    · rfl
    · split <;> rfl
  | cons t ts ih =>
    intro i l params ptyp
    cases t with
    | nil => rfl
    | cons c name =>
      simp only [addPathLoop, addPathLoopTrie]
      split
      · split
        · rfl
        · split
          · rfl
          · split
            · rfl
            · split
              · rfl
              · rename_i ptyp2 _
                simp only
                rw [ih]
                generalize addPathLoopTrie typ pp idProp last ts (i + 1) _ _ _ = r
                obtain ⟨n, e⟩ := r
                cases e <;> rfl
      · simp only
        rw [ih]
        generalize addPathLoopTrie typ pp idProp last ts (i + 1) _ _ _ = r
        obtain ⟨n, e⟩ := r
        cases e <;> rfl

theorem addPath_eq_trie (rn : Node) (path pattern : GoString) (ups : List GoString)
    (typStr idProp : GoString) :
    addPath rn path pattern ups typStr idProp =
      match (addPathTrie rn path pattern ups typStr idProp).2 with
      | none => Except.ok (addPathTrie rn path pattern ups typStr idProp).1
      | some e => Except.error e := by
  unfold addPath addPathTrie
  split
  · rfl
  · split
    · rfl
    · split
      · rfl
      · exact addPathLoop_eq_trie _ _ _ _ _ _ _ _ _


theorem depthOK_empty (d : Nat) : DepthOK d Node.empty :=
  DepthOK.mk d Node.empty (fun h => absurd rfl h) (fun c h => by cases h)
    (fun k c h => by cases h)

theorem depthOK_inv (d : Nat) (n : Node) (h : DepthOK d n) :
    (n.typ ≠ ResourceType.unset →
      (∀ p ∈ n.params, p.typ = ParamType.path → p.idx < d) ∧
      (d ≠ 0 → n.ptyp ≠ PathType.root)) ∧
    (∀ c, n.param = some c → DepthOK (d + 1) c) ∧
    (∀ k c, mapGet n.nodes k = some c → DepthOK (d + 1) c) := by
  cases h with
  | mk _ _ h1 h2 h3 => exact ⟨h1, h2, h3⟩

theorem depthOK_getD_param (d : Nat) (l : Node) (h : DepthOK d l) :
    DepthOK (d + 1) (l.param.getD Node.empty) := by
  cases hp : l.param with
  | none => exact depthOK_empty _
  | some c => exact (depthOK_inv d l h).2.1 c hp

theorem depthOK_getD_child (d : Nat) (l : Node) (t : GoString) (h : DepthOK d l) :
    DepthOK (d + 1) ((mapGet l.nodes t).getD Node.empty) := by
  cases hp : mapGet l.nodes t with
  | none => exact depthOK_empty _
  | some c => exact (depthOK_inv d l h).2.2 t c hp

theorem depthOK_setParam (d : Nat) (l c : Node) (h : DepthOK d l) (hc : DepthOK (d + 1) c) :
    DepthOK d (l.setParam c) := by
  obtain ⟨h1, h2, h3⟩ := depthOK_inv d l h
  obtain ⟨f1, f2, f3, f4, f5⟩ := setParam_fields l c
  have f6 : (l.setParam c).ptyp = l.ptyp := by cases l; rfl
  refine DepthOK.mk d _ ?_ ?_ ?_
  · rw [f1, f3, f6]; exact h1
  · intro x hx
    rw [f4] at hx
    simp only [Option.some.injEq] at hx
    subst hx
    exact hc
  · rw [f5]; exact h3

theorem depthOK_setChild (d : Nat) (l c : Node) (t : GoString) (h : DepthOK d l)
    (hc : DepthOK (d + 1) c) : DepthOK d (l.setChild t c) := by
  obtain ⟨h1, h2, h3⟩ := depthOK_inv d l h
  obtain ⟨f1, f2, f3, f4, f5⟩ := setChild_fields l c t
  have f6 : (l.setChild t c).ptyp = l.ptyp := by cases l; rfl
  refine DepthOK.mk d _ ?_ ?_ ?_
  · rw [f1, f3, f6]; exact h1
  · rw [f4]; exact h2
  · intro k x hx
    rw [f5, mapGet_mapSet_node] at hx
    split at hx
    · simp only [Option.some.injEq] at hx
      subst hx
      exact hc
    · exact h3 k x hx

theorem depthOK_register (d : Nat) (l : Node) (typ : ResourceType) (pp : GoString)
    (params : List PatternParam) (ptyp : PathType) (idProp : GoString) (h : DepthOK d l)
    (hparams : ∀ p ∈ params, p.typ = ParamType.path → p.idx < d)
    (hptyp : d ≠ 0 → ptyp ≠ PathType.root) :
    DepthOK d (l.register typ pp params ptyp idProp) := by
  obtain ⟨h1, h2, h3⟩ := depthOK_inv d l h
  obtain ⟨f1, f2, f3, f4, f5⟩ := register_fields l typ pp params ptyp idProp
  obtain ⟨g1, g2⟩ := register_children l typ pp params ptyp idProp
  refine DepthOK.mk d _ ?_ ?_ ?_
  · intro _
    rw [f5, f4]
    exact ⟨hparams, hptyp⟩
  · rw [g1]; exact h2
  · rw [g2]; exact h3

theorem lastWildcard_ne_root (parent typ : ResourceType) (idProp : GoString) (ptyp : PathType)
    (h : lastWildcard parent typ idProp PathType.default = Except.ok ptyp) :
    ptyp ≠ PathType.root := by
  unfold lastWildcard at h
  split at h
  · simp only [Except.ok.injEq] at h
    rw [← h]; decide
  · split at h
    · split at h
      · cases h
      · simp only [Except.ok.injEq] at h
        rw [← h]; decide
    · simp only [Except.ok.injEq] at h
      rw [← h]; decide
  · cases h

/-- The walk of `addPath` keeps the depth invariant, also when it fails. -/
theorem addPathLoopTrie_depthOK (typ : ResourceType) (pp idProp : GoString) (last : Int)
    (ts : List GoString) :
    ∀ (i : Nat) (l : Node) (params : List PatternParam) (ptyp : PathType),
      DepthOK i l → (∀ p ∈ params, p.typ = ParamType.path → p.idx < i) →
      (i ≠ 0 → ptyp ≠ PathType.root) →
      DepthOK i (addPathLoopTrie typ pp idProp last ts i l params ptyp).1 := by
  induction ts with
  | nil =>
    intro i l params ptyp hl hparams hptyp
    simp only [addPathLoopTrie]
    split
    · exact hl
    · split
      · exact hl
      · exact depthOK_register i l typ pp params ptyp idProp hl hparams hptyp
  | cons t ts ih =>
    intro i l params ptyp hl hparams hptyp
    cases t with
    | nil => exact hl
    | cons c name =>
      simp only [addPathLoopTrie]
      split
      · split
        · exact hl
        · split
          · exact hl
          · rename_i j hj
            split
            · exact hl
            · split
              · exact hl
              · rename_i ptyp2 hpt
                apply depthOK_setParam i l _ hl
                apply ih (i + 1) _ _ _ (depthOK_getD_param i l hl)
                · intro p hp ht
                  obtain ⟨k, hk⟩ := List.getElem?_of_mem hp
                  obtain ⟨pj, hpj, _⟩ := patternParamsContain_some params name j hj
                  rcases getElem?_modify_cases _ params j k pj p hpj hk with ⟨_, e⟩ | ⟨_, e⟩
                  · subst e
                    exact Nat.lt_succ_self i
                  · exact Nat.lt_succ_of_lt (hparams p (List.getElem?_mem e) ht)
                · intro _
                  split at hpt
                  · exact lastWildcard_ne_root _ _ _ _ hpt
                  · simp only [Except.ok.injEq] at hpt
                    rw [← hpt]; decide
      · apply depthOK_setChild i l _ _ hl
        apply ih (i + 1) _ _ _ (depthOK_getD_child i l _ hl)
        · intro p hp ht
          exact Nat.lt_succ_of_lt (hparams p hp ht)
        · intro _
          decide

theorem addPathTrie_depthOK (rn : Node) (path pattern : GoString) (ups : List GoString)
    (typStr idProp : GoString) (h : DepthOK 0 rn) :
    DepthOK 0 (addPathTrie rn path pattern ups typStr idProp).1 := by
  unfold addPathTrie
  split
  · exact h
  · split
    · exact h
    · rename_i pp params0 hparse
      split
      · exact h
      · rename_i params1 hmark
        apply addPathLoopTrie_depthOK _ _ _ _ _ 0 rn params1 PathType.root h
        · intro p hp ht
          unfold parsePattern at hparse
          split at hparse
          · cases hparse
          · rename_i toks params3 hloop
            simp only [Except.ok.injEq, Prod.mk.injEq] at hparse
            obtain ⟨_, e2⟩ := hparse
            subst e2
            obtain ⟨_, _, w3⟩ := parsePatternLoop_eq _ _ _ hloop
            subst w3
            exfalso
            refine markURLParams_no_path ups _ params1 ?_ hmark p hp ht
            intro q hq
            obtain ⟨w, _, e⟩ := List.mem_map.1 hq
            rw [← e]
            intro hc
            cases hc
        · intro h0
          exact absurd rfl h0

/-- Every trie built by `addPath` calls satisfies the depth invariant at the root. -/
theorem built_depthOK (root : Node) (h : Built root) : DepthOK 0 root := by
  induction h with
  | empty => exact depthOK_empty 0
  | step rn path pattern ups typStr idProp _ ih =>
    exact addPathTrie_depthOK rn path pattern ups typStr idProp ih


theorem ridArgs_isSome (rq : GoString → GoString) (path : List GoString) :
    ∀ (params : List PatternParam),
      (∀ p ∈ params, p.typ = ParamType.path → p.idx < path.length) →
      ridArgs rq path params ≠ none := by
  intro params
  induction params with
  | nil => intro _ h; cases h
  | cons p rest ih =>
    intro hp
    have hrest := ih (fun q hq => hp q (List.mem_cons_of_mem _ hq))
    cases hr : ridArgs rq path rest with
    | none => exact absurd hr hrest
    | some args =>
      rw [ridArgs]
      cases ht : p.typ with
      | url => simp only [hr]; intro h; cases h
      | unset => simp only [hr]; intro h; cases h
      | path =>
        have hlt := hp p (List.mem_cons_self _ _) ht
        simp only [hr]
        rw [List.getElem?_eq_getElem hlt]
        intro h
        cases h

theorem createRid_noPanic (lib : GoLib) (rq : GoString → GoString) (path : List GoString) (n : Node)
    (h : ∀ p ∈ n.params, p.typ = ParamType.path → p.idx < path.length) :
    createRid lib rq path n ≠ Except.error TraverseError.indexOutOfRange := by
  unfold createRid
  cases hr : ridArgs rq path n.params with
  | none => exact absurd hr (ridArgs_isSome rq path n.params h)
  | some args =>
    simp only
    intro hc
    cases hc

theorem modelPath_noPanic (lib : GoLib)
    (fields : List (GoString × Value)) (path : List GoString) (n : Node) (pathPart : GoString) :
    (∀ e, modelPath lib fields path n pathPart = Except.error e →
      e ≠ TraverseError.indexOutOfRange) ∧
    (∀ path2, modelPath lib fields path n pathPart = Except.ok path2 →
      path.length ≤ path2.length ∧ (n.ptyp ≠ PathType.root → path2.length = path.length + 1)) := by
  unfold modelPath
  cases hp : n.ptyp with
  | root =>
    simp only
    refine ⟨fun e h => (by cases h), fun path2 h => ?_⟩
    simp only [Except.ok.injEq] at h
    subst h
    exact ⟨le_refl _, fun hc => absurd rfl hc⟩
  | default =>
    simp only
    refine ⟨fun e h => (by cases h), fun path2 h => ?_⟩
    simp only [Except.ok.injEq] at h
    subst h
    simp
  | property =>
    simp only
    constructor
    · intro e h
      split at h
      · simp only [Except.error.injEq] at h
        rw [← h]; decide
      · split at h
        · simp only [Except.error.injEq] at h
          rw [← h]; decide
        · cases h
      · cases h
      · simp only [Except.error.injEq] at h
        rw [← h]; decide
    · intro path2 h
      split at h
      · cases h
      · split at h
        · cases h
        · simp only [Except.ok.injEq] at h
          subst h
          simp
      · simp only [Except.ok.injEq] at h
        subst h
        simp
      · cases h

theorem registered_depth (d : Nat) (n : Node) (path2 : List GoString) (h : DepthOK d n)
    (htyp : n.typ ≠ ResourceType.unset) (hlen : d ≤ path2.length) :
    ∀ p ∈ n.params, p.typ = ParamType.path → p.idx < path2.length := by
  intro p hp ht
  exact Nat.lt_of_lt_of_le (((depthOK_inv d n h).1 htyp).1 p hp ht) hlen


theorem noPanic_error {α : Type} (crs : Crs) (e : TraverseError)
    (h : e ≠ TraverseError.indexOutOfRange) :
    NoPanic ((crs, Except.error e) : Crs × Except TraverseError α) := by
  intro hc
  simp only [Except.error.injEq] at hc
  exact h hc

theorem noPanic_ok {α : Type} (crs : Crs) (a : α) :
    NoPanic ((crs, Except.ok a) : Crs × Except TraverseError α) := by
  intro hc
  cases hc

theorem noPanic_of_error {α β : Type} (crs crs2 : Crs) (e : TraverseError)
    (r : Crs × Except TraverseError α) (h : NoPanic r) (heq : r = (crs2, Except.error e)) :
    NoPanic ((crs, Except.error e) : Crs × Except TraverseError β) := by
  apply noPanic_error
  intro hc
  subst hc
  rw [heq] at h
  exact h rfl

theorem createRid_error_ne (lib : GoLib) (rq : GoString → GoString) (path : List GoString) (n : Node)
    (d : Nat) (hd : DepthOK d n) (htyp : n.typ ≠ ResourceType.unset) (hlen : d ≤ path.length)
    (e : TraverseError) (h : createRid lib rq path n = Except.error e) :
    e ≠ TraverseError.indexOutOfRange := by
  intro hc
  subst hc
  exact createRid_noPanic lib rq path n (registered_depth d n path hd htyp hlen) h

theorem depth_le_modelPath (lib : GoLib)
    (fields : List (GoString × Value)) (path path2 : List GoString) (n : Node)
    (pathPart : GoString) (d : Nat) (hd : DepthOK d n) (htyp : n.typ ≠ ResourceType.unset)
    (hlen : d ≤ path.length + 1)
    (h : modelPath lib fields path n pathPart = Except.ok path2) : d ≤ path2.length := by
  obtain ⟨h1, h2⟩ := (modelPath_noPanic lib fields path n pathPart).2 path2 h
  by_cases h0 : d = 0
  · omega
  · have := h2 (((depthOK_inv d n hd).1 htyp).2 h0)
    omega

theorem depth_le_collectionPath (path : List GoString) (n : Node) (pathPart : GoString)
    (d : Nat) (hd : DepthOK d n) (htyp : n.typ ≠ ResourceType.unset)
    (hlen : d ≤ path.length + 1) :
    d ≤ (if n.ptyp ≠ PathType.root then path ++ [pathPart] else path).length := by
  split
  · simp only [List.length_append, List.length_singleton]
    exact hlen
  · rename_i hp
    by_cases h0 : d = 0
    · omega
    · exact absurd (((depthOK_inv d n hd).1 htyp).2 h0) hp

theorem traverseModel_noPanic_other (lib : GoLib)
    (rq : GoString → GoString) (v : Value) (crs : Crs) (path : List GoString)
    (n : Node) (pathPart : GoString) (hv : ∀ fields, v = Value.obj fields → False)
    (d : Nat) (hd : DepthOK d n) (hlen : d ≤ path.length + 1) :
    NoPanic (traverseModel lib rq v crs path n pathPart) := by
  rw [traverseModel.eq_2 _ _ _ _ _ _ _ hv]
  split
  · exact noPanic_error _ _ (by decide)
  · rename_i htyp
    have hreg : n.typ ≠ ResourceType.unset := by
      intro e
      rw [e] at htyp
      exact htyp (by decide)
    split
    · rename_i e hmp
      exact noPanic_error _ _ ((modelPath_noPanic lib [] path n pathPart).1 e hmp)
    · rename_i path2 hmp
      have hl2 := depth_le_modelPath lib [] path path2 n pathPart d hd hreg hlen hmp
      split
      · rename_i e hrid
        exact noPanic_error _ _ (createRid_error_ne lib rq path2 n d hd hreg hl2 e hrid)
      · exact noPanic_ok _ _

theorem traverseCollection_noPanic_other (lib : GoLib)
    (rq : GoString → GoString) (v : Value) (crs : Crs) (path : List GoString)
    (n : Node) (pathPart : GoString) (hv : ∀ elems, v = Value.arr elems → False)
    (d : Nat) (hd : DepthOK d n) (hlen : d ≤ path.length + 1) :
    NoPanic (traverseCollection lib rq v crs path n pathPart) := by
  rw [traverseCollection.eq_2 _ _ _ _ _ _ _ hv]
  split
  · exact noPanic_error _ _ (by decide)
  · rename_i htyp
    have hreg : n.typ ≠ ResourceType.unset := by
      intro e
      rw [e] at htyp
      exact htyp (by decide)
    have hl2 := depth_le_collectionPath path n pathPart d hd hreg hlen
    split
    · rename_i e hrid
      exact noPanic_error _ _ (createRid_error_ne lib rq _ n d hd hreg hl2 e hrid)
    · exact noPanic_ok _ _

theorem traverseFields_noPanic_prim (lib : GoLib)
    (rq : GoString → GoString) (k : GoString) (prim : Value)
    (rest : List (GoString × Value)) (crs : Crs) (path : List GoString) (n : Node)
    (model : List (GoString × Entry)) (hprim : prim.isComposite = false)
    (ih : ∀ model2, NoPanic (traverseFields lib rq rest crs path n model2)) :
    NoPanic (traverseFields lib rq ((k, prim) :: rest) crs path n model) := by
  rw [traverseFields_primitive lib rq k prim rest crs path n model hprim]
  split
  · exact noPanic_error _ _ (by decide)
  · exact ih _

theorem traverseElems_noPanic_tail (lib : GoLib)
    (rq : GoString → GoString) (rest : List Value) (crs : Crs) (path : List GoString)
    (n : Node) (j : Nat) (e0 : Entry)
    (ih : NoPanic (traverseElems lib rq rest crs path n (j + 1))) :
    NoPanic (match traverseElems lib rq rest crs path n (j + 1) with
      | (crs2, Except.error e) => (crs2, Except.error e)
      | (crs2, Except.ok tail) => (crs2, Except.ok (e0 :: tail))) := by
  split
  · rename_i crs2 e heq
    rw [heq] at ih
    exact noPanic_error _ _ (fun hc => ih (by rw [hc]))
  · exact noPanic_ok _ _

theorem traverseElems_noPanic_prim (lib : GoLib)
    (rq : GoString → GoString) (prim : Value) (rest : List Value) (crs : Crs)
    (path : List GoString) (n : Node) (j : Nat) (hprim : prim.isComposite = false)
    (ih : NoPanic (traverseElems lib rq rest crs path n (j + 1))) :
    NoPanic (traverseElems lib rq (prim :: rest) crs path n j) := by
  rw [traverseElems_primitive lib rq prim rest crs path n j hprim]
  split
  · exact noPanic_error _ _ (by decide)
  · exact traverseElems_noPanic_tail lib rq rest crs path n j _ ih


theorem depthOK_nextNode (d : Nat) (n next : Node) (k : GoString) (hd : DepthOK d n)
    (h : nextNode n k = some next) : DepthOK (d + 1) next := by
  unfold nextNode at h
  split at h
  · rename_i c hc
    simp only [Option.some.injEq] at h
    subst h
    exact (depthOK_inv d n hd).2.2 k c hc
  · exact (depthOK_inv d n hd).2.1 next h

mutual
theorem traverseModel_noPanic (lib : GoLib)
    (rq : GoString → GoString) :
    ∀ (v : Value) (crs : Crs) (path : List GoString) (n : Node) (pathPart : GoString)
      (d : Nat), DepthOK d n → d ≤ path.length + 1 →
      NoPanic (traverseModel lib rq v crs path n pathPart)
  | Value.obj fields, crs, path, n, pathPart, d, hd, hlen => by
    rw [traverseModel.eq_1]
    split
    · exact noPanic_error _ _ (by decide)
    · rename_i htyp
      have hreg : n.typ ≠ ResourceType.unset := by
        intro e
        rw [e] at htyp
        exact htyp (by decide)
      split
      · rename_i e hmp
        exact noPanic_error _ _ ((modelPath_noPanic lib fields path n pathPart).1 e hmp)
      · rename_i path2 hmp
        have hl2 := depth_le_modelPath lib fields path path2 n pathPart d hd hreg hlen hmp
        have ih := traverseFields_noPanic lib rq fields crs path2 n [] d hd hl2
        split
        · rename_i crs2 e heq
          rw [heq] at ih
          exact noPanic_error _ _ (fun hc => ih (by rw [hc]))
        · split
          · rename_i e hrid
            exact noPanic_error _ _ (createRid_error_ne lib rq path2 n d hd hreg hl2 e hrid)
          · exact noPanic_ok _ _
  | Value.arr es, crs, path, n, pathPart, d, hd, hlen =>
    traverseModel_noPanic_other lib rq _ crs path n pathPart (fun f hf => by cases hf)
      d hd hlen
  | Value.str s, crs, path, n, pathPart, d, hd, hlen =>
    traverseModel_noPanic_other lib rq _ crs path n pathPart (fun f hf => by cases hf)
      d hd hlen
  | Value.num s, crs, path, n, pathPart, d, hd, hlen =>
    traverseModel_noPanic_other lib rq _ crs path n pathPart (fun f hf => by cases hf)
      d hd hlen
  | Value.vtrue, crs, path, n, pathPart, d, hd, hlen =>
    traverseModel_noPanic_other lib rq _ crs path n pathPart (fun f hf => by cases hf)
      d hd hlen
  | Value.vfalse, crs, path, n, pathPart, d, hd, hlen =>
    traverseModel_noPanic_other lib rq _ crs path n pathPart (fun f hf => by cases hf)
      d hd hlen
  | Value.vnull, crs, path, n, pathPart, d, hd, hlen =>
    traverseModel_noPanic_other lib rq _ crs path n pathPart (fun f hf => by cases hf)
      d hd hlen
theorem traverseCollection_noPanic (lib : GoLib)
    (rq : GoString → GoString) :
    ∀ (v : Value) (crs : Crs) (path : List GoString) (n : Node) (pathPart : GoString)
      (d : Nat), DepthOK d n → d ≤ path.length + 1 →
      NoPanic (traverseCollection lib rq v crs path n pathPart)
  | Value.arr elems, crs, path, n, pathPart, d, hd, hlen => by
    rw [traverseCollection.eq_1]
    split
    · exact noPanic_error _ _ (by decide)
    · rename_i htyp
      have hreg : n.typ ≠ ResourceType.unset := by
        intro e
        rw [e] at htyp
        exact htyp (by decide)
      have hl2 := depth_le_collectionPath path n pathPart d hd hreg hlen
      have ih := traverseElems_noPanic lib rq elems crs
        (if n.ptyp ≠ PathType.root then path ++ [pathPart] else path) n 0 d hd hl2
      split
      · rename_i crs2 e heq
        rw [heq] at ih
        exact noPanic_error _ _ (fun hc => ih (by rw [hc]))
      · split
        · rename_i e hrid
          exact noPanic_error _ _ (createRid_error_ne lib rq _ n d hd hreg hl2 e hrid)
        · exact noPanic_ok _ _
  | Value.obj fs, crs, path, n, pathPart, d, hd, hlen =>
    traverseCollection_noPanic_other lib rq _ crs path n pathPart (fun f hf => by cases hf)
      d hd hlen
  | Value.str s, crs, path, n, pathPart, d, hd, hlen =>
    traverseCollection_noPanic_other lib rq _ crs path n pathPart (fun f hf => by cases hf)
      d hd hlen
  | Value.num s, crs, path, n, pathPart, d, hd, hlen =>
    traverseCollection_noPanic_other lib rq _ crs path n pathPart (fun f hf => by cases hf)
      d hd hlen
  | Value.vtrue, crs, path, n, pathPart, d, hd, hlen =>
    traverseCollection_noPanic_other lib rq _ crs path n pathPart (fun f hf => by cases hf)
      d hd hlen
  | Value.vfalse, crs, path, n, pathPart, d, hd, hlen =>
    traverseCollection_noPanic_other lib rq _ crs path n pathPart (fun f hf => by cases hf)
      d hd hlen
  | Value.vnull, crs, path, n, pathPart, d, hd, hlen =>
    traverseCollection_noPanic_other lib rq _ crs path n pathPart (fun f hf => by cases hf)
      d hd hlen
theorem traverseFields_noPanic (lib : GoLib)
    (rq : GoString → GoString) :
    ∀ (fields : List (GoString × Value)) (crs : Crs) (path : List GoString) (n : Node)
      (model : List (GoString × Entry)) (d : Nat), DepthOK d n → d ≤ path.length →
      NoPanic (traverseFields lib rq fields crs path n model)
  | [], crs, path, n, model, d, hd, hlen => by
    rw [traverseFields.eq_1]
    exact noPanic_ok _ _
  | (k, Value.obj fs) :: rest, crs, path, n, model, d, hd, hlen => by
    rw [traverseFields.eq_2]
    split
    · exact traverseFields_noPanic lib rq rest crs path n model d hd hlen
    · rename_i next hnext
      have ih := traverseModel_noPanic lib rq (Value.obj fs) crs path next k (d + 1)
        (depthOK_nextNode d n next k hd hnext) (by omega)
      split
      · rename_i crs2 e heq
        rw [heq] at ih
        exact noPanic_error _ _ (fun hc => ih (by rw [hc]))
      · exact traverseFields_noPanic lib rq rest _ path n _ d hd hlen
  | (k, Value.arr es) :: rest, crs, path, n, model, d, hd, hlen => by
    rw [traverseFields.eq_3]
    split
    · exact traverseFields_noPanic lib rq rest crs path n model d hd hlen
    · rename_i next hnext
      have ih := traverseCollection_noPanic lib rq (Value.arr es) crs path next k (d + 1)
        (depthOK_nextNode d n next k hd hnext) (by omega)
      split
      · rename_i crs2 e heq
        rw [heq] at ih
        exact noPanic_error _ _ (fun hc => ih (by rw [hc]))
      · exact traverseFields_noPanic lib rq rest _ path n _ d hd hlen
  | (k, Value.str s) :: rest, crs, path, n, model, d, hd, hlen =>
    traverseFields_noPanic_prim lib rq k _ rest crs path n model rfl
      (fun m2 => traverseFields_noPanic lib rq rest crs path n m2 d hd hlen)
  | (k, Value.num s) :: rest, crs, path, n, model, d, hd, hlen =>
    traverseFields_noPanic_prim lib rq k _ rest crs path n model rfl
      (fun m2 => traverseFields_noPanic lib rq rest crs path n m2 d hd hlen)
  | (k, Value.vtrue) :: rest, crs, path, n, model, d, hd, hlen =>
    traverseFields_noPanic_prim lib rq k _ rest crs path n model rfl
      (fun m2 => traverseFields_noPanic lib rq rest crs path n m2 d hd hlen)
  | (k, Value.vfalse) :: rest, crs, path, n, model, d, hd, hlen =>
    traverseFields_noPanic_prim lib rq k _ rest crs path n model rfl
      (fun m2 => traverseFields_noPanic lib rq rest crs path n m2 d hd hlen)
  | (k, Value.vnull) :: rest, crs, path, n, model, d, hd, hlen =>
    traverseFields_noPanic_prim lib rq k _ rest crs path n model rfl
      (fun m2 => traverseFields_noPanic lib rq rest crs path n m2 d hd hlen)
theorem traverseElems_noPanic (lib : GoLib)
    (rq : GoString → GoString) :
    ∀ (elems : List Value) (crs : Crs) (path : List GoString) (n : Node) (j : Nat)
      (d : Nat), DepthOK d n → d ≤ path.length →
      NoPanic (traverseElems lib rq elems crs path n j)
  | [], crs, path, n, j, d, hd, hlen => by
    rw [traverseElems.eq_1]
    exact noPanic_ok _ _
  | Value.obj fs :: rest, crs, path, n, j, d, hd, hlen => by
    rw [traverseElems.eq_2]
    split
    · exact traverseElems_noPanic_tail lib rq rest crs path n j _
        (traverseElems_noPanic lib rq rest crs path n (j + 1) d hd hlen)
    · rename_i next hnext
      have ih := traverseModel_noPanic lib rq (Value.obj fs) crs path next (itoa j) (d + 1)
        ((depthOK_inv d n hd).2.1 next hnext) (by omega)
      split
      · rename_i crs2 e heq
        rw [heq] at ih
        exact noPanic_error _ _ (fun hc => ih (by rw [hc]))
      · exact traverseElems_noPanic_tail lib rq rest _ path n j _
          (traverseElems_noPanic lib rq rest _ path n (j + 1) d hd hlen)
  | Value.arr es :: rest, crs, path, n, j, d, hd, hlen => by
    rw [traverseElems.eq_3]
    split
    · exact traverseElems_noPanic_tail lib rq rest crs path n j _
        (traverseElems_noPanic lib rq rest crs path n (j + 1) d hd hlen)
    · rename_i next hnext
      have ih := traverseCollection_noPanic lib rq (Value.arr es) crs path next (itoa j)
        (d + 1) ((depthOK_inv d n hd).2.1 next hnext) (by omega)
      split
      · rename_i crs2 e heq
        rw [heq] at ih
        exact noPanic_error _ _ (fun hc => ih (by rw [hc]))
      · exact traverseElems_noPanic_tail lib rq rest _ path n j _
          (traverseElems_noPanic lib rq rest _ path n (j + 1) d hd hlen)
  | Value.str s :: rest, crs, path, n, j, d, hd, hlen =>
    traverseElems_noPanic_prim lib rq _ rest crs path n j rfl
      (traverseElems_noPanic lib rq rest crs path n (j + 1) d hd hlen)
  | Value.num s :: rest, crs, path, n, j, d, hd, hlen =>
    traverseElems_noPanic_prim lib rq _ rest crs path n j rfl
      (traverseElems_noPanic lib rq rest crs path n (j + 1) d hd hlen)
  | Value.vtrue :: rest, crs, path, n, j, d, hd, hlen =>
    traverseElems_noPanic_prim lib rq _ rest crs path n j rfl
      (traverseElems_noPanic lib rq rest crs path n (j + 1) d hd hlen)
  | Value.vfalse :: rest, crs, path, n, j, d, hd, hlen =>
    traverseElems_noPanic_prim lib rq _ rest crs path n j rfl
      (traverseElems_noPanic lib rq rest crs path n (j + 1) d hd hlen)
  | Value.vnull :: rest, crs, path, n, j, d, hd, hlen =>
    traverseElems_noPanic_prim lib rq _ rest crs path n j rfl
      (traverseElems_noPanic lib rq rest crs path n (j + 1) d hd hlen)
end


theorem ridArgs_none_of_range (rq : GoString → GoString) (path : List GoString) :
    ∀ (params : List PatternParam),
      (∃ p ∈ params, p.typ = ParamType.path ∧ path.length ≤ p.idx) →
      ridArgs rq path params = none := by
  intro params
  induction params with
  | nil => intro ⟨p, hp, _⟩; cases hp
  | cons q rest ih =>
    intro ⟨p, hp, ht, hlen⟩
    rw [ridArgs]
    rcases List.mem_cons.1 hp with e | e
    · subst e
      rw [ht]
      simp only
      rw [List.getElem?_eq_none hlen]
    · have hr := ih ⟨p, e, ht, hlen⟩
      cases hq : q.typ with
      | url => simp only [hr]
      | unset => simp only [hr]
      | path =>
        simp only [hr]
        split <;> rfl

/-- The error `indexOutOfRange` of `createRid` is the read of `path[pp.idx]`
out of range for a path-sourced parameter. -/
theorem createRid_panic_iff (lib : GoLib) (rq : GoString → GoString) (path : List GoString) (n : Node) :
    createRid lib rq path n = Except.error TraverseError.indexOutOfRange ↔
      ∃ p ∈ n.params, p.typ = ParamType.path ∧ path.length ≤ p.idx := by
  constructor
  · intro h
    by_contra hc
    apply createRid_noPanic lib rq path n _ h
    intro p hp ht
    by_contra hlt
    exact hc ⟨p, hp, ht, by omega⟩
  · intro h
    unfold createRid
    rw [ridArgs_none_of_range rq path n.params h]

theorem traverse_noPanic (lib : GoLib) (rq : GoString → GoString)
    (root : Node) (v : Value) (h : Built root) :
    (traverse lib rq root v).2 ≠ Except.error TraverseError.indexOutOfRange := by
  have hd := built_depthOK root h
  unfold traverse
  split
  · rename_i fields
    have ih := traverseModel_noPanic lib rq (Value.obj fields) [] [] root [] 0 hd
      (Nat.zero_le _)
    split
    · rename_i crs e heq
      rw [heq] at ih
      intro hc
      simp only [Except.error.injEq] at hc
      subst hc
      exact ih rfl
    · intro hc; cases hc
  · rename_i elems
    have ih := traverseCollection_noPanic lib rq (Value.arr elems) [] [] root [] 0 hd
      (Nat.zero_le _)
    split
    · rename_i crs e heq
      rw [heq] at ih
      intro hc
      simp only [Except.error.injEq] at hc
      subst hc
      exact ih rfl
    · intro hc; cases hc
  · intro hc; cases hc

/-- C18: for every schema trie built from the empty node by a sequence of `addPath` calls,
successful or failed, every JSON value and every request binding, `traverse` does not end in
the panic of reading the traversal path out of range; that panic is what the id synthesis
reports exactly when a path-sourced parameter of the node has an index that is not below
the length of the accumulated path. -/
theorem traverse_index_in_range (lib : GoLib)
    (reqParams : GoString → GoString) (root : Node) (v : Value) (h : Built root) :
    (traverse lib reqParams root v).2 ≠ Except.error TraverseError.indexOutOfRange ∧
    (∀ path n, createRid lib reqParams path n = Except.error TraverseError.indexOutOfRange ↔
      ∃ p ∈ n.params, p.typ = ParamType.path ∧ path.length ≤ p.idx) :=
  ⟨traverse_noPanic lib reqParams root v h,
    fun path n => createRid_panic_iff lib reqParams path n⟩

theorem traverse_index_in_range_witness :
    ((traverse unquoteLib (fun _ => []) builtTrie (Value.arr propElems)).2 ≠
        Except.error TraverseError.indexOutOfRange ∧
      (∀ path n, createRid unquoteLib (fun _ => []) path n =
          Except.error TraverseError.indexOutOfRange ↔
        ∃ p ∈ n.params, p.typ = ParamType.path ∧ path.length ≤ p.idx)) ∧
    (addPathTrie Node.empty "a.$x".toList "svc.a.$x".toList [] "model".toList []).2 =
      some AddPathError.noParentResource ∧
    (traverse unquoteLib (fun _ => []) builtTrie (Value.arr propElems)).2 = Except.ok () :=
  ⟨traverse_index_in_range unquoteLib (fun _ => []) builtTrie (Value.arr propElems)
      (Built.step _ _ _ _ _ _ (Built.step _ _ _ _ _ _ (Built.step _ _ _ _ _ _ Built.empty))),
    rfl, rfl⟩


theorem wrapInt_eq (x : Int) (h1 : -(2 ^ 63) ≤ x) (h2 : x < 2 ^ 63) : wrapInt x = x := by
  unfold wrapInt
  rw [Int.emod_eq_of_lt (by omega) (by omega)]
  omega

theorem wrapInt_max : wrapInt (2 ^ 63 - 1 + 1) = -(2 ^ 63) := by
  unfold wrapInt
  norm_num

theorem mapGet_mapDelete_self {V : Type} (m : List (GoString × V)) (k : GoString) :
    mapGet (mapDelete m k) k = none := by
  induction m with
  | nil => rfl
  | cons kv rest ih =>
    obtain ⟨k2, v⟩ := kv
    unfold mapDelete at ih ⊢
    by_cases hk : k2 = k
    · simp only [List.filter, hk, ne_eq, not_true_eq_false, decide_False]
      exact ih
    · simp only [List.filter, hk, ne_eq, not_false_eq_true, decide_True, mapGet, if_false]
      exact ih

/-- A refresh cycle whose guard holds evicts the entry and resets. -/
theorem handleRefresh_evict (lib : GoLib) (ep : Endpoint)
    (url : GoString) (resp : FetchResult) (cresp : CachedResponse)
    (h : mapGet ep.cachedURLs url = some cresp)
    (hc : cresp.rerr ≠ none ∨ wrapInt (cresp.reloads + 1) > ep.refreshCount) :
    handleRefresh lib ep url resp =
      ⟨ep.setCache (mapDelete ep.cachedURLs url),
        some (ep.resetPatterns.map (fun rp => expandURL rp ep.urlParams cresp.reqParams)),
        false, []⟩ := by
  unfold handleRefresh
  rw [h]
  simp only
  rw [if_pos hc]

/-- A refresh cycle whose guard fails keeps the entry, with `reloads`
incremented and `rerr` unchanged, and re-arms the timer. -/
theorem handleRefresh_keep (lib : GoLib) (ep : Endpoint)
    (url : GoString) (resp : FetchResult) (cresp : CachedResponse)
    (h : mapGet ep.cachedURLs url = some cresp)
    (hc : ¬ (cresp.rerr ≠ none ∨ wrapInt (cresp.reloads + 1) > ep.refreshCount)) :
    ∃ c2, mapGet (handleRefresh lib ep url resp).ep.cachedURLs url = some c2 ∧
      c2.reloads = wrapInt (cresp.reloads + 1) ∧ c2.rerr = cresp.rerr ∧
      c2.reqParams = cresp.reqParams ∧
      (handleRefresh lib ep url resp).reset = none ∧
      (handleRefresh lib ep url resp).rearmed = true ∧
      (handleRefresh lib ep url resp).ep.refreshCount = ep.refreshCount ∧
      (handleRefresh lib ep url resp).ep.resetPatterns = ep.resetPatterns ∧
      (handleRefresh lib ep url resp).ep.urlParams = ep.urlParams := by
  unfold handleRefresh
  rw [h]
  simp only
  rw [if_neg hc]
  split
  · exact ⟨_, mapGet_mapSet_self _ _ _, rfl, rfl, rfl, rfl, rfl, rfl, rfl, rfl⟩
  · exact ⟨_, mapGet_mapSet_self _ _ _, rfl, rfl, rfl, rfl, rfl, rfl, rfl, rfl⟩

/-- An entry without error whose `reloads` stays within the refresh count
survives the cycles, one increment per cycle. -/
theorem refreshCycles_survive (lib : GoLib) (url : GoString) :
    ∀ (resps : List FetchResult) (ep : Endpoint) (cresp : CachedResponse),
      mapGet ep.cachedURLs url = some cresp → cresp.rerr = none → 0 ≤ cresp.reloads →
      cresp.reloads + (resps.length : Int) ≤ ep.refreshCount → ep.refreshCount < 2 ^ 63 →
      ∃ c2, mapGet (refreshCycles lib url ep resps).cachedURLs url = some c2 ∧
        c2.reloads = cresp.reloads + (resps.length : Int) ∧ c2.rerr = none ∧
        c2.reqParams = cresp.reqParams ∧
        (refreshCycles lib url ep resps).refreshCount = ep.refreshCount ∧
        (refreshCycles lib url ep resps).resetPatterns = ep.resetPatterns ∧
        (refreshCycles lib url ep resps).urlParams = ep.urlParams := by
  intro resps
  induction resps with
  | nil =>
    intro ep cresp h hr h0 hle hmax
    exact ⟨cresp, h, by simp, hr, rfl, rfl, rfl, rfl⟩
  | cons resp rest ih =>
    intro ep cresp h hr h0 hle hmax
    simp only [List.length_cons, Nat.cast_add, Nat.cast_one] at hle
    have hw : wrapInt (cresp.reloads + 1) = cresp.reloads + 1 :=
      wrapInt_eq _ (by omega) (by omega)
    have hc : ¬ (cresp.rerr ≠ none ∨ wrapInt (cresp.reloads + 1) > ep.refreshCount) := by
      rw [hw]
      intro hc
      rcases hc with e | e
      · exact e hr
      · omega
    obtain ⟨c1, g1, g2, g3, g4, _, _, g7, g8, g9⟩ :=
      handleRefresh_keep lib ep url resp cresp h hc
    rw [refreshCycles]
    obtain ⟨c2, k1, k2, k3, k4, k5, k6, k7⟩ := ih (handleRefresh lib ep url resp).ep c1 g1
      (by rw [g3]; exact hr) (by rw [g2, hw]; omega) (by rw [g2, hw, g7]; omega)
      (by rw [g7]; exact hmax)
    refine ⟨c2, k1, ?_, k3, by rw [k4, g4], by rw [k5, g7], by rw [k6, g8], by rw [k7, g9]⟩
    rw [k2, g2, hw]
    simp only [List.length_cons, Nat.cast_add, Nat.cast_one]
    omega


theorem refreshCycles_append (lib : GoLib) (url : GoString) :
    ∀ (resps : List FetchResult) (ep : Endpoint) (resp : FetchResult),
      refreshCycles lib url ep (resps ++ [resp]) =
        (handleRefresh lib (refreshCycles lib url ep resps) url resp).ep := by
  intro resps
  induction resps with
  | nil => intro ep resp; rfl
  | cons r rest ih =>
    intro ep resp
    simp only [List.cons_append, refreshCycles]
    exact ih _ _

theorem handleRefresh_guard_iff (lib : GoLib) (ep : Endpoint)
    (url : GoString) (resp : FetchResult) (cresp : CachedResponse)
    (h : mapGet ep.cachedURLs url = some cresp) :
    (mapGet (handleRefresh lib ep url resp).ep.cachedURLs url = none ↔
      (cresp.rerr ≠ none ∨ wrapInt (cresp.reloads + 1) > ep.refreshCount)) ∧
    ((handleRefresh lib ep url resp).reset ≠ none ↔
      (cresp.rerr ≠ none ∨ wrapInt (cresp.reloads + 1) > ep.refreshCount)) := by
  by_cases hc : cresp.rerr ≠ none ∨ wrapInt (cresp.reloads + 1) > ep.refreshCount
  · rw [handleRefresh_evict lib ep url resp cresp h hc]
    refine ⟨⟨fun _ => hc, fun _ => mapGet_mapDelete_self _ _⟩, ⟨fun _ => hc, fun _ => ?_⟩⟩
    intro e
    cases e
  · obtain ⟨c2, g1, _, _, _, g5, _⟩ := handleRefresh_keep lib ep url resp cresp h hc
    refine ⟨⟨fun e => ?_, fun e => absurd e hc⟩, ⟨fun e => ?_, fun e => absurd e hc⟩⟩
    · rw [g1] at e
      cases e
    · exact absurd g5 e

theorem refreshCycles_evicted (lib : GoLib) (url : GoString)
    (ep : Endpoint) (cresp : CachedResponse) (N : Nat) (resps : List FetchResult)
    (resp : FetchResult)
    (h : mapGet ep.cachedURLs url = some cresp) (h0 : cresp.reloads = 0)
    (hr : cresp.rerr = none) (hN : ep.refreshCount = (N : Int)) (hmax : (N : Int) + 1 < 2 ^ 63)
    (hlen : resps.length = N) :
    (∀ k, k ≤ N → ∃ c, mapGet (refreshCycles lib url ep (resps.take k)).cachedURLs url =
        some c ∧ c.reloads = (k : Int) ∧ c.rerr = none) ∧
    mapGet (refreshCycles lib url ep (resps ++ [resp])).cachedURLs url = none ∧
    ∃ resets, (handleRefresh lib (refreshCycles lib url ep resps) url resp).reset =
        some resets ∧ resets.length = ep.resetPatterns.length := by
  refine ⟨?_, ?_⟩
  · intro k hk
    obtain ⟨c, g1, g2, g3, _⟩ := refreshCycles_survive lib url (resps.take k) ep cresp h hr
      (by rw [h0]) (by
        rw [h0, hN, List.length_take]
        have : min k resps.length = k := by omega
        rw [this]
        omega) (by rw [hN]; omega)
    refine ⟨c, g1, ?_, g3⟩
    rw [g2, h0, List.length_take]
    have : min k resps.length = k := by omega
    rw [this]
    omega
  · obtain ⟨c, g1, g2, g3, g4, g5, g6, g7⟩ := refreshCycles_survive lib url resps ep cresp
      h hr (by rw [h0]) (by rw [h0, hN, hlen]; omega) (by rw [hN]; omega)
    have hw : wrapInt (c.reloads + 1) = c.reloads + 1 := by
      apply wrapInt_eq
      · rw [g2, h0, hlen]; omega
      · rw [g2, h0, hlen]; omega
    have hc : c.rerr ≠ none ∨
        wrapInt (c.reloads + 1) > (refreshCycles lib url ep resps).refreshCount := by
      right
      rw [hw, g5, hN, g2, h0, hlen]
      omega
    have he := handleRefresh_evict lib _ url resp c g1 hc
    refine ⟨?_, ?_⟩
    · rw [refreshCycles_append, he]
      exact mapGet_mapDelete_self _ _
    · rw [he]
      exact ⟨_, rfl, by rw [List.length_map, g6]⟩

/-- C13: for a cached URL, a refresh cycle removes the entry from the cache, and emits a
reset, exactly when the entry's `rerr` is non-nil or `reloads`, incremented by one, exceeds
`refreshCount`. Consequently, for a refresh count `N`, an entry created without error and
with `reloads = 0` is present, with `reloads = k`, after each of the first `k ≤ N` cycles,
whatever the fetches return, and cycle `N + 1` removes it and emits a reset list with one
entry per reset pattern. The counter is a Go `int`: the cycle `N + 1` is one that a run can
reach, `N + 1 < 2^63`. -/
theorem handleRefresh_eviction (lib : GoLib) (ep : Endpoint)
    (url : GoString) (cresp : CachedResponse)
    (h : mapGet ep.cachedURLs url = some cresp) :
    (∀ resp,
      (mapGet (handleRefresh lib ep url resp).ep.cachedURLs url = none ↔
        (cresp.rerr ≠ none ∨ wrapInt (cresp.reloads + 1) > ep.refreshCount)) ∧
      ((handleRefresh lib ep url resp).reset ≠ none ↔
        (cresp.rerr ≠ none ∨ wrapInt (cresp.reloads + 1) > ep.refreshCount))) ∧
    (∀ (N : Nat) (resps : List FetchResult) (resp : FetchResult),
      cresp.reloads = 0 → cresp.rerr = none → ep.refreshCount = (N : Int) →
      (N : Int) + 1 < 2 ^ 63 → resps.length = N →
      (∀ k, k ≤ N →
        ∃ c, mapGet (refreshCycles lib url ep (resps.take k)).cachedURLs url = some c ∧
          c.reloads = (k : Int) ∧ c.rerr = none) ∧
      mapGet (refreshCycles lib url ep (resps ++ [resp])).cachedURLs url = none ∧
      ∃ resets,
        (handleRefresh lib (refreshCycles lib url ep resps) url resp).reset =
          some resets ∧
        resets.length = ep.resetPatterns.length) :=
  ⟨fun resp => handleRefresh_guard_iff lib ep url resp cresp h,
    fun N resps resp h0 hr hN hmax hlen =>
      refreshCycles_evicted lib url ep cresp N resps resp h h0 hr hN hmax hlen⟩

theorem handleRefresh_eviction_witness :
    ((∀ k, k ≤ 2 →
        ∃ c, mapGet (refreshCycles plainLib "http://x/7".toList (freshEndpoint 2)
            ([FetchResult.body (Value.obj []), FetchResult.failed ResError.internal].take
              k)).cachedURLs "http://x/7".toList = some c ∧
          c.reloads = (k : Int) ∧ c.rerr = none) ∧
      mapGet (refreshCycles plainLib "http://x/7".toList (freshEndpoint 2)
        ([FetchResult.body (Value.obj []), FetchResult.failed ResError.internal] ++
          [FetchResult.body (Value.obj [])])).cachedURLs "http://x/7".toList = none ∧
      ∃ resets,
        (handleRefresh plainLib (refreshCycles plainLib "http://x/7".toList (freshEndpoint 2)
            [FetchResult.body (Value.obj []), FetchResult.failed ResError.internal])
          "http://x/7".toList (FetchResult.body (Value.obj []))).reset = some resets ∧
        resets.length = (freshEndpoint 2).resetPatterns.length) ∧
    (handleRefresh plainLib
      (refreshCycles plainLib "http://x/7".toList (freshEndpoint 2)
        [FetchResult.body (Value.obj []), FetchResult.failed ResError.internal])
      "http://x/7".toList (FetchResult.body (Value.obj []))).reset =
        some ["svc.item.7".toList] :=
  ⟨(handleRefresh_eviction plainLib (freshEndpoint 2) "http://x/7".toList
      ⟨0, fun _ => "7".toList, [], none⟩ rfl).2 2
      [FetchResult.body (Value.obj []), FetchResult.failed ResError.internal]
      (FetchResult.body (Value.obj [])) rfl rfl rfl (by norm_num) rfl,
    by decide⟩


/-- The result of a refresh cycle that keeps the entry and whose fetch ends in an
error: the entry is stored again with `reloads` incremented and nothing else
changed, no event is sent, nothing is reset and the timer is re-armed. -/
theorem handleRefresh_error_result (lib : GoLib) (ep : Endpoint)
    (url : GoString) (resp : FetchResult) (cresp : CachedResponse)
    (h : mapGet ep.cachedURLs url = some cresp)
    (hc : ¬ (cresp.rerr ≠ none ∨ wrapInt (cresp.reloads + 1) > ep.refreshCount))
    (herr : (getURL lib ep cresp.reqParams resp).rerr ≠ none) :
    handleRefresh lib ep url resp =
      ⟨ep.setCache (mapSet ep.cachedURLs url
          ⟨wrapInt (cresp.reloads + 1), cresp.reqParams, cresp.crs, cresp.rerr⟩),
        none, true, []⟩ := by
  unfold handleRefresh
  rw [h]
  simp only
  rw [if_neg hc, if_pos herr]

/-- A failed HTTP request makes `getURL` return an error. -/
theorem getURL_failed (lib : GoLib) (ep : Endpoint)
    (reqParams : GoString → GoString) (err : ResError) :
    (getURL lib ep reqParams (FetchResult.failed err)).rerr = some err := rfl

/-- C21 (handleRefresh, fetch error): in a refresh cycle that does not evict the
entry of `url`, if the new fetch returns an error then no event is sent and the
entry of `url` has the same resource map `crs`, the same `rerr` and the same
request parameters as before; only its `reloads` has been incremented. The
entries of the other URLs, the reset patterns, the URL parameters and the
refresh count are unchanged, and nothing is reset. -/
theorem handleRefresh_fetch_error (lib : GoLib) (ep : Endpoint)
    (url : GoString) (resp : FetchResult) (cresp : CachedResponse)
    (h : mapGet ep.cachedURLs url = some cresp)
    (hc : ¬ (cresp.rerr ≠ none ∨ wrapInt (cresp.reloads + 1) > ep.refreshCount))
    (herr : (getURL lib ep cresp.reqParams resp).rerr ≠ none) :
    (handleRefresh lib ep url resp).events = [] ∧
    (handleRefresh lib ep url resp).reset = none ∧
    (∃ c2, mapGet (handleRefresh lib ep url resp).ep.cachedURLs url = some c2 ∧
      c2.crs = cresp.crs ∧ c2.rerr = cresp.rerr ∧ c2.reqParams = cresp.reqParams ∧
      c2.reloads = wrapInt (cresp.reloads + 1)) ∧
    (∀ u, u ≠ url →
      mapGet (handleRefresh lib ep url resp).ep.cachedURLs u = mapGet ep.cachedURLs u) ∧
    (handleRefresh lib ep url resp).ep.resetPatterns = ep.resetPatterns ∧
    (handleRefresh lib ep url resp).ep.urlParams = ep.urlParams ∧
    (handleRefresh lib ep url resp).ep.refreshCount = ep.refreshCount ∧
    (handleRefresh lib ep url resp).ep.node = ep.node := by
  rw [handleRefresh_error_result lib ep url resp cresp h hc herr]
  refine ⟨rfl, rfl, ⟨_, mapGet_mapSet_self _ _ _, rfl, rfl, rfl, rfl⟩, ?_, rfl, rfl, rfl, rfl⟩
  intro u hu
  exact mapGet_mapSet_ne _ _ _ _ hu

/-- The entry of the fresh endpoint with refresh count 3, refreshed with a
failed request: `reloads` becomes 1 and nothing else changes. -/
theorem handleRefresh_fetch_error_witness :
    (handleRefresh plainLib (freshEndpoint 3) "http://x/7".toList
        (FetchResult.failed ResError.internal)).events = [] ∧
    (∃ c2, mapGet (handleRefresh plainLib (freshEndpoint 3) "http://x/7".toList
        (FetchResult.failed ResError.internal)).ep.cachedURLs "http://x/7".toList = some c2 ∧
      c2.crs = [] ∧ c2.rerr = none ∧ c2.reloads = 1) := by
  have h := handleRefresh_fetch_error plainLib (freshEndpoint 3) "http://x/7".toList
    (FetchResult.failed ResError.internal) ⟨0, fun _ => "7".toList, [], none⟩ rfl
    (by decide) (by intro hc; cases hc)
  obtain ⟨h1, _, ⟨c2, h2, h3, h4, _, h5⟩, _⟩ := h
  exact ⟨h1, c2, h2, h3, h4, by rw [h5]; decide⟩


section CollectionOrder

variable {α : Type} [DecidableEq α]

/-- The backtrack loop sends removes with strictly decreasing indexes, each the
position `idx - i + k` of an element `aa[k]` with `k < i`, and records adds with
strictly decreasing source indexes `n < j`; the index that the final loop
computes for a recorded add is `idx - i + n`. -/
theorem backtrack_order (aa bb : List α) (c : List Nat) (w : Nat) :
    ∀ (fuel : Nat) (idx : Int) (i j : Nat) (rm : Int) (adds : List (Nat × Int × Int))
      (evs : List (Event α)), i + j < fuel → i ≤ aa.length → j ≤ bb.length →
      ∃ (rm2 : Int) (adds2 : List (Nat × Int × Int)) (rs : List Int),
        backtrack aa bb c w fuel idx i j rm adds evs =
          some ⟨rm2, adds ++ adds2, evs ++ rs.map Event.remove⟩ ∧
        rm2 = rm + (rs.length : Int) ∧
        (adds2.length : Int) - (rs.length : Int) = (j : Int) - (i : Int) ∧
        rs.Pairwise (fun x y => x > y) ∧
        (∀ r ∈ rs, idx - (i : Int) ≤ r ∧ r < idx) ∧
        (adds2.map (fun x => x.1)).Pairwise (fun x y => x > y) ∧
        (∀ x ∈ adds2, x.1 < j) ∧
        ∀ (k : Nat) (x : Nat × Int × Int), adds2[k]? = some x →
          x.2.1 - rm2 + x.2.2 + ((adds2.length : Int) - 1 - (k : Int)) =
            idx - (i : Int) + (x.1 : Int) := by
  intro fuel
  induction fuel with
  | zero => intro idx i j rm adds evs h; omega
  | succ k ih =>
    intro idx i j rm adds evs hf hi hj
    unfold backtrack
    simp only []
    split
    · rename_i hc
      obtain ⟨c1, c2, c3⟩ := hc
      obtain ⟨rm2, adds2, rs, h1, h2, h3, h4, h5, h6, h7, h8⟩ :=
        ih (idx - 1) (i - 1) (j - 1) rm adds evs (by omega) (by omega) (by omega)
      refine ⟨rm2, adds2, rs, h1, h2, by omega, h4, ?_, h6, ?_, ?_⟩
      · intro r hr
        have := h5 r hr
        omega
      · intro x hx
        have := h7 x hx
        omega
      · intro q x hq
        have := h8 q x hq
        omega
    · split
      · rename_i hc1 hc
        obtain ⟨c1, c2⟩ := hc
        obtain ⟨rm2, adds2, rs, h1, h2, h3, h4, h5, h6, h7, h8⟩ :=
          ih idx i (j - 1) rm (adds ++ [(j - 1, idx, rm)]) evs (by omega) (by omega) (by omega)
        refine ⟨rm2, (j - 1, idx, rm) :: adds2, rs, ?_, h2, ?_, h4, h5, ?_, ?_, ?_⟩
        · rw [h1]; simp
        · simp only [List.length_cons]; push_cast; omega
        · simp only [List.map_cons, List.pairwise_cons]
          refine ⟨?_, h6⟩
          intro y hy
          obtain ⟨x, hx, rfl⟩ := List.mem_map.1 hy
          have := h7 x hx
          omega
        · intro x hx
          rcases List.mem_cons.1 hx with rfl | hx
          · simp only []; omega
          · have := h7 x hx
            omega
        · intro q x hq
          cases q with
          | zero =>
            simp only [List.getElem?_cons_zero, Option.some.injEq] at hq
            subst hq
            simp only [List.length_cons]
            push_cast
            omega
          | succ q =>
            simp only [List.getElem?_cons_succ] at hq
            have := h8 q x hq
            simp only [List.length_cons]
            push_cast
            omega
      · split
        · rename_i hc1 hc2 hc
          obtain ⟨c1, c2⟩ := hc
          obtain ⟨rm2, adds2, rs, h1, h2, h3, h4, h5, h6, h7, h8⟩ :=
            ih (idx - 1) (i - 1) j (rm + 1) adds (evs ++ [Event.remove (idx - 1)])
              (by omega) (by omega) (by omega)
          refine ⟨rm2, adds2, (idx - 1) :: rs, ?_, ?_, ?_, ?_, ?_, h6, h7, ?_⟩
          · rw [h1]; simp
          · simp only [List.length_cons]; push_cast; omega
          · simp only [List.length_cons]; push_cast; omega
          · simp only [List.pairwise_cons]
            refine ⟨?_, h4⟩
            intro r hr
            have := h5 r hr
            omega
          · intro r hr
            rcases List.mem_cons.1 hr with rfl | hr
            · omega
            · have := h5 r hr
              omega
          · intro q x hq
            have := h8 q x hq
            omega
        · rename_i hc1 hc2 hc3
          have hi0 : i = 0 := by
            by_contra h
            apply hc3
            refine ⟨by omega, ?_⟩
            by_contra h2
            push_neg at h2
            apply hc2
            exact ⟨by omega, Or.inr (by omega)⟩
          have hj0 : j = 0 := by
            by_contra h
            apply hc2
            exact ⟨by omega, Or.inl hi0⟩
          subst hi0 hj0
          refine ⟨rm, [], [], by simp, by simp, by simp, List.Pairwise.nil, ?_,
            by simp, ?_, ?_⟩
          · intro r hr; cases hr
          · intro x hx; cases hx
          · intro q x hq; simp at hq

/-- The final loop over the recorded adds: when the index computed for every
recorded add is `s + n`, the events are the adds of the elements `bb[n]` at the
indexes `s + n`, the last recorded add first. -/
theorem emitAdds_order (bb : List α) (adds : List (Nat × Int × Int)) (rm s : Int)
    (hlt : ∀ x ∈ adds, x.1 < bb.length)
    (hidx : ∀ (k : Nat) (x : Nat × Int × Int), adds[k]? = some x →
      x.2.1 - rm + x.2.2 + ((adds.length : Int) - 1 - (k : Int)) = s + (x.1 : Int)) :
    ∀ k : Nat, k ≤ adds.length →
      ∃ ps : List (α × Int),
        emitAdds bb adds rm ((adds.length : Int) - 1) k =
          some (ps.map (fun p => Event.add p.1 p.2)) ∧
        ps.map Prod.snd = ((adds.take k).reverse).map (fun x => s + (x.1 : Int)) ∧
        ∀ p ∈ ps, ∃ n : Nat, p.2 = s + (n : Int) ∧ bb[n]? = some p.1 := by
  intro k
  induction k with
  | zero =>
    intro _
    refine ⟨[], by simp [emitAdds], by simp, ?_⟩
    intro p hp; cases hp
  | succ k ih =>
    intro hk
    have hklt : k < adds.length := by omega
    obtain ⟨ps, h1, h2, h3⟩ := ih (by omega)
    obtain ⟨y, hget⟩ : ∃ y, adds[k]? = some y := ⟨adds[k], List.getElem?_eq_getElem hklt⟩
    have hmem : y ∈ adds := by
      rw [List.getElem?_eq_getElem hklt, Option.some.injEq] at hget
      rw [← hget]
      exact List.getElem_mem _
    have hy := hlt y hmem
    obtain ⟨v, hv⟩ : ∃ v, bb[y.1]? = some v := ⟨bb[y.1], List.getElem?_eq_getElem hy⟩
    refine ⟨(v, s + (y.1 : Int)) :: ps, ?_, ?_, ?_⟩
    · unfold emitAdds
      rw [hget]
      simp only [hv, h1]
      have := hidx k y hget
      simp only [List.map_cons, Option.some.injEq, List.cons.injEq, Event.add.injEq, true_and,
        and_true]
      omega
    · rw [take_succ_of_getElem? hget]
      simp [h2]
    · intro p hp
      rcases List.mem_cons.1 hp with rfl | hp
      · exact ⟨y.1, rfl, hv⟩
      · exact h3 p hp

end CollectionOrder


section CollectionOrder2

variable {α : Type} [DecidableEq α]

/-- Removes with strictly decreasing indexes above `r` leave the elements up to
position `r` where they are. -/
theorem replay_removes_prefix (r : Nat) :
    ∀ (rs : List Int) (l : List α), rs.Pairwise (fun x y => x > y) →
      (∀ q ∈ rs, (r : Int) < q ∧ q < (l.length : Int)) →
      ∃ l2, replay (rs.map Event.remove) l = some l2 ∧ l2.take (r + 1) = l.take (r + 1) := by
  intro rs
  induction rs with
  | nil => intro l _ _; exact ⟨l, rfl, rfl⟩
  | cons q rs ih =>
    intro l hp hq
    obtain ⟨hq1, hq2⟩ := hq q (List.mem_cons_self _ _)
    rw [List.pairwise_cons] at hp
    have h0 : 0 ≤ q := by omega
    have hlen : (l.take q.toNat ++ l.drop (q.toNat + 1)).length = l.length - 1 := by
      simp only [List.length_append, List.length_take, List.length_drop]
      omega
    obtain ⟨l2, h1, h2⟩ := ih (l.take q.toNat ++ l.drop (q.toNat + 1)) hp.2 (by
      intro q2 hq2m
      have := hp.1 q2 hq2m
      have := (hq q2 (List.mem_cons_of_mem _ hq2m)).1
      rw [hlen]
      omega)
    refine ⟨l2, ?_, ?_⟩
    · simp only [List.map_cons, replay, applyEvent]
      rw [if_pos ⟨h0, hq2⟩]
      exact h1
    · rw [h2, List.take_append_of_le_length (by simp only [List.length_take]; omega),
        List.take_take, min_eq_left (by omega)]

/-- The events of `updateCollection`: removes with strictly decreasing indexes
inside `a`, then adds with strictly increasing indexes, each of an element of `b`
at its index in `b`. -/
theorem updateCollection_order (a b : List α) :
    ∃ (rems : List Int) (adds : List (α × Int)),
      updateCollection a b =
        some (rems.map Event.remove ++ adds.map (fun p => Event.add p.1 p.2)) ∧
      rems.Pairwise (fun x y => x > y) ∧
      (∀ r ∈ rems, 0 ≤ r ∧ r < (a.length : Int)) ∧
      (adds.map Prod.snd).Pairwise (fun x y => x < y) ∧
      (∀ p ∈ adds, 0 ≤ p.2 ∧ b[p.2.toNat]? = some p.1) := by
  rcases updateCollection_window a b with ⟨hab, h⟩ | ⟨P, S, aa, bb, ha, hb, h⟩
  · refine ⟨[], [], h, List.Pairwise.nil, ?_, List.Pairwise.nil, ?_⟩
    · intro r hr; cases hr
    · intro p hp; cases hp
  · obtain ⟨rm2, adds2, rs, h1, h2, h3, h4, h5, h6, h7, h8⟩ :=
      backtrack_order aa bb (lcsTable aa bb aa.length bb.length) (aa.length + 1)
        (aa.length + bb.length + 1) ((aa.length : Int) + (P.length : Int))
        aa.length bb.length 0 [] [] (by omega) (le_refl _) (le_refl _)
    simp only [List.nil_append] at h1
    obtain ⟨ps, g1, g2, g3⟩ := emitAdds_order bb adds2 rm2 (P.length : Int) h7
      (by
        intro k x hk
        have := h8 k x hk
        omega) adds2.length (le_refl _)
    refine ⟨rs, ps, ?_, h4, ?_, ?_, ?_⟩
    · rw [h, h1]
      simp only []
      rw [g1]
    · intro r hr
      have := h5 r hr
      rw [ha]
      simp only [List.length_append]
      push_cast
      omega
    · rw [g2, List.take_length, List.pairwise_map, List.pairwise_reverse]
      rw [List.pairwise_map] at h6
      exact h6.imp (fun hxy => by omega)
    · intro p hp
      obtain ⟨n, hn1, hn2⟩ := g3 p hp
      refine ⟨by omega, ?_⟩
      have hnlt := lt_length_of_getElem? hn2
      have e : p.2.toNat = P.length + n := by omega
      rw [e, hb, List.append_assoc, List.getElem?_append_right (by omega)]
      have e2 : P.length + n - P.length = n := by omega
      rw [e2, List.getElem?_append_left hnlt]
      exact hn2

end CollectionOrder2


section CollectionOrder3

variable {α : Type} [DecidableEq α]

/-- With strictly decreasing remove indexes inside `a`, the element that each
remove deletes from the live collection is the element of the original `a` at
this index. -/
theorem removes_original_position (a : List α) (rems : List Int)
    (hp : rems.Pairwise (fun x y => x > y))
    (hr : ∀ r ∈ rems, 0 ≤ r ∧ r < (a.length : Int)) :
    ∀ (k : Nat) (r : Int), rems[k]? = some r →
      ∃ (live : List α) (x : α), replay ((rems.take k).map Event.remove) a = some live ∧
        live[r.toNat]? = some x ∧ a[r.toNat]? = some x := by
  intro k r hk
  have hsplit : rems = rems.take k ++ r :: rems.drop (k + 1) := by
    conv_lhs => rw [← List.take_append_drop k rems]
    rw [drop_of_getElem? hk]
  have hmem : r ∈ rems := by
    rw [hsplit]; simp
  obtain ⟨hr0, hr1⟩ := hr r hmem
  rw [hsplit, List.pairwise_append] at hp
  obtain ⟨hp1, _, hp3⟩ := hp
  obtain ⟨l2, h1, h2⟩ := replay_removes_prefix r.toNat (rems.take k) a hp1 (by
    intro q hq
    have h3 := hp3 q hq r (List.mem_cons_self _ _)
    have h4 := (hr q (List.mem_of_mem_take hq)).2
    omega)
  have hlt : r.toNat < a.length := by omega
  refine ⟨l2, a[r.toNat], h1, ?_, List.getElem?_eq_getElem hlt⟩
  have e1 : ∀ l : List α, l[r.toNat]? = (l.take (r.toNat + 1))[r.toNat]? := by
    intro l
    rw [List.getElem?_take, if_pos (Nat.lt_succ_self _)]
  rw [e1 l2, h2, ← e1 a, List.getElem?_eq_getElem hlt]

end CollectionOrder3

section CollectionOrderClaim

variable {α : Type} [DecidableEq α]

/-- C24 (updateCollection, order of the events): for all sequences `a` and `b`,
`updateCollection a b` returns and sends all remove events before all add
events. The remove indexes are strictly decreasing and inside `a`, and the
element each remove deletes from the live collection is the element of the
original `a` at this index. The add indexes are strictly increasing, and every
`add(v, i)` has `v = b[i]`. -/
theorem updateCollection_removes_then_adds (a b : List α) :
    ∃ (rems : List Int) (adds : List (α × Int)),
      updateCollection a b =
        some (rems.map Event.remove ++ adds.map (fun p => Event.add p.1 p.2)) ∧
      rems.Pairwise (fun x y => x > y) ∧
      (∀ r ∈ rems, 0 ≤ r ∧ r < (a.length : Int)) ∧
      (∀ (k : Nat) (r : Int), rems[k]? = some r →
        ∃ (live : List α) (x : α), replay ((rems.take k).map Event.remove) a = some live ∧
          live[r.toNat]? = some x ∧ a[r.toNat]? = some x) ∧
      (adds.map Prod.snd).Pairwise (fun x y => x < y) ∧
      (∀ p ∈ adds, 0 ≤ p.2 ∧ b[p.2.toNat]? = some p.1) := by
  obtain ⟨rems, adds, h1, h2, h3, h4, h5⟩ := updateCollection_order a b
  exact ⟨rems, adds, h1, h2, h3, removes_original_position a rems h2 h3, h4, h5⟩

end CollectionOrderClaim


section CollectionCheckedProofs

variable {α : Type} [DecidableEq α]

theorem indexAt_ok {β : Type} (l : List β) (k : Int) (n : Nat) (x : β) (hk : k = (n : Int))
    (hx : l[n]? = some x) : indexAt l k = Except.ok x := by
  subst hk
  unfold indexAt
  rw [if_pos (Int.natCast_nonneg n)]
  simp only [Int.toNat_ofNat, hx]

theorem indexAt_getD (c : List Nat) (k : Int) (n : Nat) (hk : k = (n : Int))
    (hn : n < c.length) : indexAt c k = Except.ok (c.getD n 0) := by
  apply indexAt_ok c k n _ hk
  rw [List.getD_eq_getElem?_getD, List.getElem?_eq_getElem hn]
  rfl

theorem assignAt_ok {β : Type} (l : List β) (k : Int) (n : Nat) (v : β) (hk : k = (n : Int))
    (hn : n < l.length) : assignAt l k v = Except.ok (l.set n v) := by
  subst hk
  unfold assignAt
  rw [if_pos ⟨Int.natCast_nonneg n, by omega⟩]
  simp only [Int.toNat_ofNat]

theorem deepEqualChecked_ok (a : List α) (i : Int) (b : List α) (j : Int) (n1 n2 : Nat)
    (hi : i = (n1 : Int)) (hj : j = (n2 : Int)) (h1 : n1 < a.length) (h2 : n2 < b.length) :
    deepEqualChecked a i b j = Except.ok (deepEqualAt a n1 b n2) := by
  unfold deepEqualChecked deepEqualAt
  rw [indexAt_ok a i n1 a[n1] hi (List.getElem?_eq_getElem h1),
    indexAt_ok b j n2 b[n2] hj (List.getElem?_eq_getElem h2)]
  simp only [List.getElem?_eq_getElem h1, List.getElem?_eq_getElem h2]

/-- The checked first trimming loop ends within `m - s + 1` iterations with the
value of the unchecked one and without a failed check. -/
theorem trimStartChecked_eq (a b : List α) (m n : Nat) (hm : m ≤ a.length) (hn : n ≤ b.length) :
    ∀ (fuel s : Nat), m - s ≤ fuel →
      trimStartChecked a b m n (fuel + 1) s = Except.ok (trimStart a b m n fuel s) := by
  intro fuel
  induction fuel with
  | zero =>
    intro s hs
    unfold trimStartChecked trimStart
    rw [if_neg (by omega)]
  | succ k ih =>
    intro s hs
    unfold trimStartChecked
    by_cases hg : s < m ∧ s < n
    · rw [if_pos hg, deepEqualChecked_ok a s b s s s rfl rfl (by omega) (by omega)]
      unfold trimStart
      cases hd : deepEqualAt a s b s with
      | true =>
        simp only []
        rw [if_pos ⟨hg.1, hg.2, trivial⟩]
        exact ih (s + 1) (by omega)
      | false =>
        simp only []
        rw [if_neg (by simp)]
    · rw [if_neg hg]
      unfold trimStart
      rw [if_neg (fun h => hg ⟨h.1, h.2.1⟩)]

/-- The checked second trimming loop ends within `m - s + 1` iterations with the
value of the unchecked one and without a failed check. -/
theorem trimEndChecked_eq (a b : List α) (s : Nat) :
    ∀ (fuel m n : Nat), m ≤ a.length → n ≤ b.length → m - s ≤ fuel →
      trimEndChecked a b s (fuel + 1) m n = Except.ok (trimEnd a b s fuel m n) := by
  intro fuel
  induction fuel with
  | zero =>
    intro m n hm hn hs
    unfold trimEndChecked trimEnd
    rw [if_neg (by omega)]
  | succ k ih =>
    intro m n hm hn hs
    unfold trimEndChecked
    by_cases hg : s < m ∧ s < n
    · rw [if_pos hg, deepEqualChecked_ok a _ b _ (m - 1) (n - 1) (by omega) (by omega)
        (by omega) (by omega)]
      unfold trimEnd
      cases hd : deepEqualAt a (m - 1) b (n - 1) with
      | true =>
        simp only []
        rw [if_pos ⟨hg.1, hg.2, trivial⟩]
        exact ih (m - 1) (n - 1) (by omega) (by omega) (by omega)
      | false =>
        simp only []
        rw [if_neg (by simp)]
    · rw [if_neg hg]
      unfold trimEnd
      rw [if_neg (fun h => hg ⟨h.1, h.2.1⟩)]

/-- Inside the matrix every read and write of a cell update is in range. -/
theorem lcsCellChecked_eq (aa bb : List α) (i j : Nat) (c : List Nat)
    (hi : i < aa.length) (hj : j < bb.length)
    (hc : c.length = (aa.length + 1) * (bb.length + 1)) :
    lcsCellChecked aa bb (aa.length + 1) i j c = Except.ok (lcsCell aa bb (aa.length + 1) i j c) := by
  have k1 : i + (aa.length + 1) * j < c.length := by
    rw [hc]; exact flat_index_lt (by omega) (by omega)
  have k2 : (i + 1) + (aa.length + 1) * j < c.length := by
    rw [hc]; exact flat_index_lt (by omega) (by omega)
  have k3 : i + (aa.length + 1) * (j + 1) < c.length := by
    rw [hc]; exact flat_index_lt (by omega) (by omega)
  have k4 : (i + 1) + (aa.length + 1) * (j + 1) < c.length := by
    rw [hc]; exact flat_index_lt (by omega) (by omega)
  unfold lcsCellChecked lcsCell
  rw [deepEqualChecked_ok aa i bb j i j rfl rfl hi hj]
  cases hd : deepEqualAt aa i bb j with
  | true =>
    simp only [if_true]
    rw [indexAt_getD c _ (i + (aa.length + 1) * j) (by push_cast; ring) k1]
    simp only []
    exact assignAt_ok c _ _ _ (by push_cast; ring) k4
  | false =>
    simp only [Bool.false_eq_true, if_false]
    rw [indexAt_getD c _ ((i + 1) + (aa.length + 1) * j) (by push_cast; ring) k2]
    simp only []
    rw [indexAt_getD c _ (i + (aa.length + 1) * (j + 1)) (by push_cast; ring) k3]
    simp only []
    split
    · exact assignAt_ok c _ _ _ (by push_cast; ring) k4
    · exact assignAt_ok c _ _ _ (by push_cast; ring) k4

/-- A checked loop whose body never fails under an invariant is the fold of the
unchecked body. -/
theorem forEachChecked_ok {σ β : Type} (f : σ → β → Except Fault σ) (g : σ → β → σ)
    (Inv : σ → Prop) :
    ∀ (l : List β) (st : σ), Inv st →
      (∀ st2 x, x ∈ l → Inv st2 → f st2 x = Except.ok (g st2 x) ∧ Inv (g st2 x)) →
      forEachChecked f l st = Except.ok (l.foldl g st) ∧ Inv (l.foldl g st) := by
  intro l
  induction l with
  | nil => intro st h _; exact ⟨rfl, h⟩
  | cons x rest ih =>
    intro st h hf
    obtain ⟨h1, h2⟩ := hf st x (List.mem_cons_self _ _) h
    unfold forEachChecked
    rw [h1]
    simp only [List.foldl_cons]
    exact ih (g st x) h2 (fun st2 y hy hi => hf st2 y (List.mem_cons_of_mem _ hy) hi)

/-- Filling the matrix never fails a check, and the matrix keeps its length. -/
theorem lcsTableChecked_eq (aa bb : List α) :
    lcsTableChecked aa bb aa.length bb.length =
        Except.ok (lcsTable aa bb aa.length bb.length) ∧
      (lcsTable aa bb aa.length bb.length).length = (aa.length + 1) * (bb.length + 1) := by
  unfold lcsTableChecked lcsTable
  refine forEachChecked_ok
    (fun c i => forEachChecked (fun c j => lcsCellChecked aa bb (aa.length + 1) i j c)
      (List.range bb.length) c)
    (fun c i => List.foldl (fun c j => lcsCell aa bb (aa.length + 1) i j c) c
      (List.range bb.length))
    (fun c => c.length = (aa.length + 1) * (bb.length + 1)) _ _ (by simp) ?_
  intro c i hi hc
  refine forEachChecked_ok (fun c j => lcsCellChecked aa bb (aa.length + 1) i j c)
    (fun c j => lcsCell aa bb (aa.length + 1) i j c)
    (fun c => c.length = (aa.length + 1) * (bb.length + 1)) _ _ hc ?_
  intro c2 j hj hc2
  refine ⟨lcsCellChecked_eq aa bb i j c2 (List.mem_range.1 hi) (List.mem_range.1 hj) hc2, ?_⟩
  show (lcsCell aa bb (aa.length + 1) i j c2).length = (aa.length + 1) * (bb.length + 1)
  rw [lcsCell_length]
  exact hc2

end CollectionCheckedProofs


section CollectionCheckedBacktrack

variable {α : Type} [DecidableEq α]

theorem indexAt_natCast {β : Type} (l : List β) (n : Nat) :
    indexAt l (n : Int) =
      match l[n]? with
      | some x => Except.ok x
      | none => Except.error Fault.indexOutOfRange := by
  unfold indexAt
  rw [if_pos (Int.natCast_nonneg n)]
  simp only [Int.toNat_ofNat]

/-- The first guard of the `switch` reads `aa[m]` and `bb[n]` in range. -/
theorem guardMatch_eq (aa bb : List α) (i j : Nat) (hi : i ≤ aa.length) (hj : j ≤ bb.length) :
    guardMatch aa bb i j =
      Except.ok (decide (i > 0 ∧ j > 0 ∧ deepEqualAt aa (i - 1) bb (j - 1) = true)) := by
  unfold guardMatch
  by_cases h : i > 0 ∧ j > 0
  · rw [if_pos h, deepEqualChecked_ok aa _ bb _ (i - 1) (j - 1) (by omega) (by omega)
      (by omega) (by omega)]
    cases hd : deepEqualAt aa (i - 1) bb (j - 1) <;> simp [h.1, h.2]
  · rw [if_neg h]
    have : ¬ (i > 0 ∧ j > 0 ∧ deepEqualAt aa (i - 1) bb (j - 1) = true) :=
      fun hc => h ⟨hc.1, hc.2.1⟩
    simp only [this, decide_False]

theorem backtrack_index_lt (aa bb : List α) (c : List Nat) (i j : Nat)
    (hi : i ≤ aa.length) (hj : j ≤ bb.length) (hi0 : i ≠ 0) (hj0 : j ≠ 0)
    (hc : c.length = (aa.length + 1) * (bb.length + 1)) :
    i + (aa.length + 1) * (j - 1) < c.length ∧ (i - 1) + (aa.length + 1) * j < c.length := by
  rw [hc]
  exact ⟨flat_index_lt (by omega) (by omega), flat_index_lt (by omega) (by omega)⟩

/-- The second guard of the `switch` reads the matrix in range. -/
theorem guardAdd_eq (aa bb : List α) (c : List Nat) (i j : Nat)
    (hi : i ≤ aa.length) (hj : j ≤ bb.length)
    (hc : c.length = (aa.length + 1) * (bb.length + 1)) :
    guardAdd c (aa.length + 1) i j =
      Except.ok (decide (j > 0 ∧ (i = 0 ∨
        c.getD (i + (aa.length + 1) * (j - 1)) 0 ≥ c.getD ((i - 1) + (aa.length + 1) * j) 0))) := by
  unfold guardAdd
  by_cases h : j > 0
  · rw [if_pos h]
    by_cases h0 : i = 0
    · rw [if_pos h0]
      simp [h, h0]
    · rw [if_neg h0]
      obtain ⟨k1, k2⟩ := backtrack_index_lt aa bb c i j hi hj h0 (by omega) hc
      rw [indexAt_getD c _ (i + (aa.length + 1) * (j - 1))
        (by push_cast [Nat.cast_sub (show 1 ≤ j by omega)]; ring) k1]
      simp only []
      rw [indexAt_getD c _ ((i - 1) + (aa.length + 1) * j)
        (by push_cast [Nat.cast_sub (show 1 ≤ i by omega)]; ring) k2]
      simp only [h, h0, true_and, false_or]
  · rw [if_neg h]
    have : ¬ (j > 0 ∧ (i = 0 ∨
        c.getD (i + (aa.length + 1) * (j - 1)) 0 ≥ c.getD ((i - 1) + (aa.length + 1) * j) 0)) :=
      fun hc => h hc.1
    simp only [this, decide_False]

/-- The third guard of the `switch` reads the matrix in range. -/
theorem guardRemove_eq (aa bb : List α) (c : List Nat) (i j : Nat)
    (hi : i ≤ aa.length) (hj : j ≤ bb.length)
    (hc : c.length = (aa.length + 1) * (bb.length + 1)) :
    guardRemove c (aa.length + 1) i j =
      Except.ok (decide (i > 0 ∧ (j = 0 ∨
        c.getD (i + (aa.length + 1) * (j - 1)) 0 < c.getD ((i - 1) + (aa.length + 1) * j) 0))) := by
  unfold guardRemove
  by_cases h : i > 0
  · rw [if_pos h]
    by_cases h0 : j = 0
    · rw [if_pos h0]
      simp [h, h0]
    · rw [if_neg h0]
      obtain ⟨k1, k2⟩ := backtrack_index_lt aa bb c i j hi hj (by omega) h0 hc
      rw [indexAt_getD c _ (i + (aa.length + 1) * (j - 1))
        (by push_cast [Nat.cast_sub (show 1 ≤ j by omega)]; ring) k1]
      simp only []
      rw [indexAt_getD c _ ((i - 1) + (aa.length + 1) * j)
        (by push_cast [Nat.cast_sub (show 1 ≤ i by omega)]; ring) k2]
      simp only [h, h0, true_and, false_or]
  · rw [if_neg h]
    have : ¬ (i > 0 ∧ (j = 0 ∨
        c.getD (i + (aa.length + 1) * (j - 1)) 0 < c.getD ((i - 1) + (aa.length + 1) * j) 0)) :=
      fun hc => h hc.1
    simp only [this, decide_False]

/-- The checked backtrack loop follows the unchecked one step by step: no check
fails, and it ends exactly when the unchecked loop does. -/
theorem backtrackChecked_eq (aa bb : List α) (c : List Nat)
    (hc : c.length = (aa.length + 1) * (bb.length + 1)) :
    ∀ (fuel : Nat) (idx : Int) (i j : Nat) (rm : Int) (adds : List (Nat × Int × Int))
      (evs : List (Event α)), i ≤ aa.length → j ≤ bb.length →
      backtrackChecked aa bb c (aa.length + 1) fuel idx i j rm
          (adds.map (fun x => ((x.1 : Int), x.2.1, x.2.2))) evs =
        match backtrack aa bb c (aa.length + 1) fuel idx i j rm adds evs with
        | some st =>
          Except.ok ⟨st.rm, st.adds.map (fun x => ((x.1 : Int), x.2.1, x.2.2)), st.events⟩
        | none => Except.error Fault.outOfFuel := by
  intro fuel
  induction fuel with
  | zero =>
    intro idx i j rm adds evs hi hj
    unfold backtrackChecked backtrack
    rfl
  | succ k ih =>
    intro idx i j rm adds evs hi hj
    unfold backtrackChecked backtrack
    rw [guardMatch_eq aa bb i j hi hj, guardAdd_eq aa bb c i j hi hj hc,
      guardRemove_eq aa bb c i j hi hj hc]
    simp only []
    by_cases h1 : i > 0 ∧ j > 0 ∧ deepEqualAt aa (i - 1) bb (j - 1) = true
    · rw [if_pos h1]
      simp only [h1, decide_True]
      exact ih (idx - 1) (i - 1) (j - 1) rm adds evs (by omega) (by omega)
    · rw [if_neg h1]
      simp only [h1, decide_False]
      by_cases h2 : j > 0 ∧ (i = 0 ∨
          c.getD (i + (aa.length + 1) * (j - 1)) 0 ≥ c.getD ((i - 1) + (aa.length + 1) * j) 0)
      · rw [if_pos h2]
        simp only [h2, decide_True]
        have e : ((j : Int) - 1) = ((j - 1 : Nat) : Int) := by omega
        have := ih idx i (j - 1) rm (adds ++ [(j - 1, idx, rm)]) evs hi (by omega)
        rw [List.map_append, List.map_cons, List.map_nil] at this
        rw [e]
        exact this
      · rw [if_neg h2]
        simp only [h2, decide_False]
        by_cases h3 : i > 0 ∧ (j = 0 ∨
            c.getD (i + (aa.length + 1) * (j - 1)) 0 < c.getD ((i - 1) + (aa.length + 1) * j) 0)
        · rw [if_pos h3]
          simp only [h3, decide_True]
          exact ih (idx - 1) (i - 1) j (rm + 1) adds _ (by omega) hj
        · rw [if_neg h3]
          simp only [h3, decide_False]

/-- The checked final loop fails exactly when the unchecked one meets an index
out of range. -/
theorem emitAddsChecked_eq (bb : List α) (adds : List (Nat × Int × Int)) (rm l : Int) :
    ∀ k : Nat,
      emitAddsChecked bb (adds.map (fun x => ((x.1 : Int), x.2.1, x.2.2))) rm l k =
        match emitAdds bb adds rm l k with
        | some es => Except.ok es
        | none => Except.error Fault.indexOutOfRange := by
  intro k
  induction k with
  | zero => unfold emitAddsChecked emitAdds; rfl
  | succ k ih =>
    unfold emitAddsChecked emitAdds
    rw [indexAt_natCast, List.getElem?_map]
    cases h1 : adds[k]? with
    | none => rfl
    | some x =>
      simp only [Option.map_some']
      rw [indexAt_natCast]
      cases h2 : bb[x.1]? with
      | none => rfl
      | some v =>
        simp only []
        rw [ih]
        cases h3 : emitAdds bb adds rm l k with
        | none => rfl
        | some rest => rfl

end CollectionCheckedBacktrack


section CollectionCheckedFinal

variable {α : Type} [DecidableEq α]

theorem sliceChecked_ok (a : List α) (s m : Nat) (hs : s ≤ m) (hm : m ≤ a.length) :
    sliceChecked a (s : Int) (m : Int) = Except.ok (slice a s m) := by
  unfold sliceChecked
  rw [if_pos ⟨Int.natCast_nonneg s, by omega, by omega⟩]
  simp only [Int.toNat_ofNat]

/-- The checked run of `updateCollection` passes every check and every loop
ends within its bound: it returns the events of the unchecked embedding. -/
theorem updateCollectionChecked_eq (a b : List α) :
    ∃ evs, updateCollectionChecked a b = Except.ok evs ∧ updateCollection a b = some evs := by
  obtain ⟨_, h2, h3, h4⟩ := trimStart_spec a b a.length b.length a.length 0
    (Nat.zero_le _) (Nat.zero_le _) (by simp)
  have t1 := trimStartChecked_eq a b a.length b.length (le_refl _) (le_refl _) a.length 0
    (by omega)
  unfold updateCollectionChecked updateCollection
  rw [t1]
  simp only []
  generalize hs : trimStart a b a.length b.length a.length 0 = s at h2 h3 h4
  by_cases hc : s = a.length ∧ s = b.length
  · rw [if_pos hc, if_pos hc]
    exact ⟨[], rfl, rfl⟩
  · rw [if_neg hc, if_neg hc]
    obtain ⟨g1, g2, g3, g4, g5⟩ := trimEnd_spec a b s a.length a.length b.length h2 h3
      (le_refl _) (le_refl _) (by simp)
    have t2 := trimEndChecked_eq a b s a.length a.length b.length (le_refl _) (le_refl _)
      (by omega)
    rw [t2]
    generalize hmn : trimEnd a b s a.length a.length b.length = mn at g1 g2 g3 g4 g5
    obtain ⟨m0, n0⟩ := mn
    simp only [] at g1 g2 g3 g4 g5 ⊢
    obtain ⟨w1, l1⟩ := slice_window a s m0 g1 g3
    obtain ⟨w2, l2⟩ := slice_window b s n0 g2 g4
    have eaa : (if s > 0 ∨ m0 < a.length then slice a s m0 else a) = slice a s m0 := by
      split
      · rfl
      · rename_i h
        push_neg at h
        have e1 : s = 0 := by omega
        have e2 : m0 = a.length := by omega
        rw [e1, e2]
        simp [slice]
    have ebb : (if s > 0 ∨ n0 < b.length then slice b s n0 else b) = slice b s n0 := by
      split
      · rfl
      · rename_i h
        push_neg at h
        have e1 : s = 0 := by omega
        have e2 : n0 = b.length := by omega
        rw [e1, e2]
        simp [slice]
    have caa : (if s > 0 ∨ m0 < a.length then sliceChecked a (s : Int) (m0 : Int)
        else Except.ok a) = Except.ok (slice a s m0) := by
      rw [← eaa]
      split
      · exact sliceChecked_ok a s m0 g1 g3
      · rfl
    have cbb : (if s > 0 ∨ n0 < b.length then sliceChecked b (s : Int) (n0 : Int)
        else Except.ok b) = Except.ok (slice b s n0) := by
      rw [← ebb]
      split
      · exact sliceChecked_ok b s n0 g2 g4
      · rfl
    have em : (if s > 0 ∨ m0 < a.length then m0 - s else m0) = (slice a s m0).length := by
      rw [l1]; split <;> omega
    have en : (if s > 0 ∨ n0 < b.length then n0 - s else n0) = (slice b s n0).length := by
      rw [l2]; split <;> omega
    rw [caa, cbb, eaa, ebb, em, en]
    simp only []
    obtain ⟨c1, c2⟩ := lcsTableChecked_eq (slice a s m0) (slice b s n0)
    rw [c1]
    simp only []
    have hlast : ((((slice a s m0).length + 1 : Nat) : Int) * (((slice b s n0).length : Int) + 1) - 1)
        = ((((slice a s m0).length + 1) * ((slice b s n0).length + 1) - 1 : Nat) : Int) := by
      have : 1 ≤ ((slice a s m0).length + 1) * ((slice b s n0).length + 1) :=
        Nat.mul_pos (by omega) (by omega)
      push_cast [Nat.cast_sub this]
      ring
    rw [indexAt_getD _ _ _ hlast (by rw [c2]; exact Nat.sub_lt (Nat.mul_pos (by omega) (by omega)) (by omega))]
    simp only []
    have bt := backtrackChecked_eq (slice a s m0) (slice b s n0)
      (lcsTable (slice a s m0) (slice b s n0) (slice a s m0).length (slice b s n0).length) c2
      ((slice a s m0).length + (slice b s n0).length + 1)
      (((slice a s m0).length : Int) + (s : Int)) (slice a s m0).length (slice b s n0).length
      0 [] [] (le_refl _) (le_refl _)
    rw [List.map_nil] at bt
    rw [bt]
    obtain ⟨st, es, k1, k2, _⟩ := backtrack_core (slice a s m0) (slice b s n0) (a.take s) []
      (lcsTable (slice a s m0) (slice b s n0) (slice a s m0).length (slice b s n0).length)
      ((slice a s m0).length + 1)
    have e : (((slice a s m0).length : Nat) : Int) + ((s : Nat) : Int)
        = ((slice a s m0).length : Int) + ((List.take s a).length : Int) := by
      simp; omega
    rw [e, k1]
    simp only []
    have ea := emitAddsChecked_eq (slice b s n0) st.adds st.rm ((st.adds.length : Int) - 1)
      st.adds.length
    rw [k2] at ea
    simp only [List.length_map]
    rw [ea, k2]
    exact ⟨_, rfl, rfl⟩

end CollectionCheckedFinal

section CollectionCheckedClaim

variable {α : Type} [DecidableEq α]

/-- C25 (updateCollection, termination and index safety): for all sequences `a`
and `b`, the run of `updateCollection` in which every index expression on `a`,
`b`, `aa`, `bb`, `c` and `adds` and every slice expression is checked ends with
a result: no check fails, neither while the matrix is filled nor in the
backtrack loop, and no loop reaches its iteration bound. The result is the
list of events of `updateCollection a b`. -/
theorem updateCollection_in_range (a b : List α) :
    ∃ evs, updateCollectionChecked a b = Except.ok evs ∧ updateCollection a b = some evs ∧
      updateCollectionChecked a b ≠ Except.error Fault.indexOutOfRange ∧
      updateCollectionChecked a b ≠ Except.error Fault.outOfFuel := by
  obtain ⟨evs, h1, h2⟩ := updateCollectionChecked_eq a b
  refine ⟨evs, h1, h2, ?_, ?_⟩
  · rw [h1]; intro hc; cases hc
  · rw [h1]; intro hc; cases hc

end CollectionCheckedClaim


theorem sameRegistration_refl (n : Node) : SameRegistration n n :=
  ⟨rfl, rfl, rfl, rfl, rfl⟩

theorem sameRegistration_setParam (l c : Node) : SameRegistration l (l.setParam c) := by
  cases l
  exact ⟨rfl, rfl, rfl, rfl, rfl⟩

theorem sameRegistration_setChild (l c : Node) (t : GoString) :
    SameRegistration l (l.setChild t c) := by
  cases l
  exact ⟨rfl, rfl, rfl, rfl, rfl⟩

theorem descend_setParam (l c : Node) (steps : List (Option GoString)) :
    descend (l.setParam c) (none :: steps) = descend c steps := by
  cases l
  rfl

theorem descend_setParam_child (l c : Node) (t : GoString) (steps : List (Option GoString)) :
    descend (l.setParam c) (some t :: steps) = descend l (some t :: steps) := by
  cases l
  rfl

theorem descend_setChild_param (l c : Node) (t : GoString) (steps : List (Option GoString)) :
    descend (l.setChild t c) (none :: steps) = descend l (none :: steps) := by
  cases l
  rfl

theorem descend_setChild (l c : Node) (t k : GoString) (steps : List (Option GoString)) :
    descend (l.setChild t c) (some k :: steps) =
      if k = t then descend c steps else descend l (some k :: steps) := by
  cases l
  simp only [Node.setChild, descend, Node.nodes, mapGet_mapSet_node]
  by_cases hk : k = t
  · rw [if_pos hk, if_pos hk.symm]
  · rw [if_neg hk, if_neg (fun e => hk e.symm)]

/-- A walk of `addPath` that ends in an error leaves every node of the trie in
place with the registration it had. -/
theorem addPathLoopTrie_frame (typ : ResourceType) (pp idProp : GoString) (last : Int)
    (ts : List GoString) :
    ∀ (i : Nat) (l : Node) (params : List PatternParam) (ptyp : PathType),
      (addPathLoopTrie typ pp idProp last ts i l params ptyp).2 ≠ none →
      ∀ (steps : List (Option GoString)) (n : Node), descend l steps = some n →
        ∃ m, descend (addPathLoopTrie typ pp idProp last ts i l params ptyp).1 steps = some m ∧
          SameRegistration n m := by
  induction ts with
  | nil =>
    intro i l params ptyp he steps n hn
    simp only [addPathLoopTrie] at he ⊢
    split
    · exact ⟨n, hn, sameRegistration_refl n⟩
    · rename_i h1
      rw [if_neg h1] at he
      split
      · exact ⟨n, hn, sameRegistration_refl n⟩
      · rename_i h2
        rw [h2] at he
        exact absurd rfl he
  | cons t ts ih =>
    intro i l params ptyp he steps n hn
    cases t with
    | nil => exact ⟨n, hn, sameRegistration_refl n⟩
    | cons c name =>
      simp only [addPathLoopTrie] at he ⊢
      split
      · rename_i hc
        rw [if_pos hc] at he
        split
        · exact ⟨n, hn, sameRegistration_refl n⟩
        · rename_i hname
          rw [if_neg hname] at he
          split
          · exact ⟨n, hn, sameRegistration_refl n⟩
          · rename_i j hj
            rw [hj] at he
            simp only at he
            split
            · exact ⟨n, hn, sameRegistration_refl n⟩
            · rename_i hcov
              rw [if_neg hcov] at he
              split
              · exact ⟨n, hn, sameRegistration_refl n⟩
              · rename_i ptyp2 hlw
                rw [hlw] at he
                simp only at he ⊢
                cases steps with
                | nil =>
                  simp only [descend, Option.some.injEq] at hn ⊢
                  subst hn
                  exact ⟨_, rfl, sameRegistration_setParam _ _⟩
                | cons st rest =>
                  cases st with
                  | none =>
                    rw [descend_setParam]
                    rw [descend] at hn
                    cases hp : l.param with
                    | none => rw [hp] at hn; cases hn
                    | some ch =>
                      simp only [hp, Option.getD_some] at he hn ⊢
                      exact ih (i + 1) ch _ ptyp2 he rest n hn
                  | some k =>
                    rw [descend_setParam_child]
                    exact ⟨n, hn, sameRegistration_refl n⟩
      · rename_i hc
        rw [if_neg hc] at he
        cases steps with
        | nil =>
          simp only [descend, Option.some.injEq] at hn ⊢
          subst hn
          exact ⟨_, rfl, sameRegistration_setChild _ _ _⟩
        | cons st rest =>
          cases st with
          | none =>
            rw [descend_setChild_param]
            exact ⟨n, hn, sameRegistration_refl n⟩
          | some k =>
            rw [descend_setChild]
            by_cases hk : k = c :: name
            · rw [if_pos hk]
              subst hk
              rw [descend] at hn
              cases hp : mapGet l.nodes (c :: name) with
              | none => rw [hp] at hn; cases hn
              | some ch =>
                simp only [hp, Option.getD_some] at he hn ⊢
                exact ih (i + 1) ch _ PathType.default he rest n hn
            · rw [if_neg hk]
              exact ⟨n, hn, sameRegistration_refl n⟩

/-- A call of `addPath` that returns an error leaves every node of the trie in
place with the registration it had. -/
theorem addPathTrie_frame (rn : Node) (path pattern : GoString) (ups : List GoString)
    (typStr idProp : GoString)
    (he : (addPathTrie rn path pattern ups typStr idProp).2 ≠ none)
    (steps : List (Option GoString)) (n : Node) (hn : descend rn steps = some n) :
    ∃ m, descend (addPathTrie rn path pattern ups typStr idProp).1 steps = some m ∧
      SameRegistration n m := by
  unfold addPathTrie at he ⊢
  split
  · exact ⟨n, hn, sameRegistration_refl n⟩
  · rename_i typ htyp
    rw [htyp] at he
    simp only at he
    split
    · exact ⟨n, hn, sameRegistration_refl n⟩
    · rename_i ppat params hpp
      rw [hpp] at he
      simp only at he
      split
      · exact ⟨n, hn, sameRegistration_refl n⟩
      · rename_i params2 hmk
        rw [hmk] at he
        simp only at he
        exact addPathLoopTrie_frame _ _ _ _ _ _ _ _ _ he steps n hn


/-- The node of a path is the node at the position of its tokens. -/
theorem nodeAt_eq_descend (ts : List GoString) :
    ∀ l : Node, nodeAt l ts = descend l (ts.map stepOf) := by
  induction ts with
  | nil => intro l; rfl
  | cons t ts ih =>
    intro l
    cases t with
    | nil =>
      simp only [nodeAt, List.map_cons, stepOf, descend]
      cases mapGet l.nodes [] with
      | none => rfl
      | some c => exact ih c
    | cons c name =>
      by_cases hc : c = '$'
      · subst hc
        simp only [nodeAt, List.map_cons, stepOf, descend]
        cases l.param with
        | none => rfl
        | some ch => exact ih ch
      · rw [nodeAt_literal l c name ts hc]
        have e : stepOf (c :: name) = some (c :: name) := by
          unfold stepOf
          split
          · rename_i heq
            simp only [List.cons.injEq] at heq
            exact absurd heq.1 hc
          · rfl
        simp only [List.map_cons, e, descend]
        cases mapGet l.nodes (c :: name) with
        | none => rfl
        | some ch => exact ih ch

/-- A walk of `addPath` along a path whose node carries a resource type ends
in an error: `registration already done`, unless a check on the way fails. -/
theorem addPathLoopTrie_registered (typ : ResourceType) (pp idProp : GoString) (last : Int)
    (ts : List GoString) :
    ∀ (i : Nat) (l : Node) (params : List PatternParam) (ptyp : PathType) (n : Node),
      nodeAt l ts = some n → n.typ ≠ ResourceType.unset →
      ∃ e, (addPathLoopTrie typ pp idProp last ts i l params ptyp).2 = some e ∧
        (e = AddPathError.alreadyRegistered ∨ e.beforeRegistered = true) := by
  induction ts with
  | nil =>
    intro i l params ptyp n hn hreg
    simp only [nodeAt, Option.some.injEq] at hn
    subst hn
    simp only [addPathLoopTrie]
    rw [if_pos hreg]
    exact ⟨_, rfl, Or.inl rfl⟩
  | cons t ts ih =>
    intro i l params ptyp n hn hreg
    cases t with
    | nil => exact ⟨_, rfl, Or.inr rfl⟩
    | cons c name =>
      simp only [addPathLoopTrie]
      split
      · rename_i hc
        subst hc
        split
        · exact ⟨_, rfl, Or.inr rfl⟩
        · split
          · exact ⟨_, rfl, Or.inr rfl⟩
          · split
            · exact ⟨_, rfl, Or.inr rfl⟩
            · split
              · rename_i e hlw
                refine ⟨e, rfl, Or.inr ?_⟩
                split at hlw
                · unfold lastWildcard at hlw
                  split at hlw
                  · cases hlw
                  · split at hlw
                    · split at hlw
                      · simp only [Except.error.injEq] at hlw
                        rw [← hlw]; rfl
                      · cases hlw
                    · cases hlw
                  · simp only [Except.error.injEq] at hlw
                    rw [← hlw]; rfl
                · cases hlw
              · rename_i ptyp2 hlw
                simp only
                rw [nodeAt_wildcard] at hn
                cases hp : l.param with
                | none => rw [hp] at hn; cases hn
                | some ch =>
                  simp only [hp, Option.getD_some, Option.bind] at hn ⊢
                  exact ih (i + 1) ch _ ptyp2 n hn hreg
      · rename_i hc
        simp only
        rw [nodeAt_literal l c name ts hc] at hn
        cases hp : mapGet l.nodes (c :: name) with
        | none => rw [hp] at hn; cases hn
        | some ch =>
          simp only [hp, Option.getD_some, Option.bind] at hn ⊢
          exact ih (i + 1) ch _ PathType.default n hn hreg

/-- The only error of `parsePattern` is `invalid pattern`. -/
theorem parsePatternLoop_error (toks : List GoString) :
    ∀ e, parsePatternLoop toks = Except.error e → e = AddPathError.invalidPattern := by
  induction toks with
  | nil => intro e h; cases h
  | cons t ts ih =>
    intro e h
    cases t with
    | nil =>
      simp only [parsePatternLoop, Except.error.injEq] at h
      exact h.symm
    | cons c name =>
      simp only [parsePatternLoop] at h
      split at h
      · split at h
        · simp only [Except.error.injEq] at h
          exact h.symm
        · split at h
          · rename_i e2 h2
            simp only [Except.error.injEq] at h
            subst h
            exact ih _ h2
          · cases h
      · split at h
        · rename_i e2 h2
          simp only [Except.error.injEq] at h
          subst h
          exact ih _ h2
        · cases h

/-- The only error of the loop over the URL parameters is that of a parameter
missing from the pattern. -/
theorem markURLParams_error (us : List GoString) :
    ∀ (params : List PatternParam) (e : AddPathError),
      markURLParams params us = Except.error e → e.beforeRegistered = true := by
  induction us with
  | nil => intro params e h; cases h
  | cons u rest ih =>
    intro params e h
    simp only [markURLParams] at h
    split at h
    · simp only [Except.error.injEq] at h
      rw [← h]; rfl
    · exact ih _ e h

/-- A call of `addPath` for a path whose node carries a resource type returns
an error: `registration already done`, or the error of a check made before. -/
theorem addPathTrie_registered (rn : Node) (path pattern : GoString) (ups : List GoString)
    (typStr idProp : GoString) (n : Node)
    (hn : nodeAt rn (tokensOf path) = some n) (hreg : n.typ ≠ ResourceType.unset) :
    ∃ e, (addPathTrie rn path pattern ups typStr idProp).2 = some e ∧
      (e = AddPathError.alreadyRegistered ∨ e.beforeRegistered = true) := by
  unfold addPathTrie
  split
  · exact ⟨_, rfl, Or.inr rfl⟩
  · split
    · rename_i e hpp
      refine ⟨e, rfl, Or.inr ?_⟩
      unfold parsePattern at hpp
      split at hpp
      · rename_i e2 hloop
        simp only [Except.error.injEq] at hpp
        subst hpp
        rw [parsePatternLoop_error _ _ hloop]
        rfl
      · cases hpp
    · split
      · rename_i e hmk
        exact ⟨e, rfl, Or.inr (markURLParams_error _ _ _ hmk)⟩
      · exact addPathLoopTrie_registered _ _ _ _ _ _ _ _ _ n hn hreg


theorem parseResourceType_ne_unset (typStr : GoString) (typ : ResourceType)
    (h : parseResourceType typStr = some typ) : typ ≠ ResourceType.unset := by
  unfold parseResourceType at h
  split at h
  · simp only [Option.some.injEq] at h
    rw [← h]; decide
  · split at h
    · simp only [Option.some.injEq] at h
      rw [← h]; decide
    · cases h

/-- The walk of a registration that succeeded, made again on the trie it left,
passes the same checks on the way and ends in `registration already done`. -/
theorem addPathLoop_again (typ : ResourceType) (pp idProp : GoString) (last : Int)
    (htyp : typ ≠ ResourceType.unset) (ts : List GoString) :
    ∀ (i : Nat) (l : Node) (params : List PatternParam) (ptyp ptyp2 : PathType) (l2 : Node),
      addPathLoop typ pp idProp last ts i l params ptyp = Except.ok l2 →
      (addPathLoopTrie typ pp idProp last ts i l2 params ptyp2).2 =
        some AddPathError.alreadyRegistered := by
  induction ts with
  | nil =>
    intro i l params ptyp ptyp2 l2 h
    simp only [addPathLoop] at h
    split at h
    · cases h
    · split at h
      · cases h
      · simp only [Except.ok.injEq] at h
        subst h
        simp only [addPathLoopTrie]
        have e : (l.register typ pp params ptyp idProp).typ = typ := by cases l; rfl
        rw [if_pos (by rw [e]; exact htyp)]
  | cons t ts ih =>
    intro i l params ptyp ptyp2 l2 h
    cases t with
    | nil => cases h
    | cons c name =>
      simp only [addPathLoop] at h
      simp only [addPathLoopTrie]
      split at h
      · rename_i hc
        rw [if_pos hc]
        split at h
        · cases h
        · rename_i hname
          rw [if_neg hname]
          split at h
          · cases h
          · rename_i j hj
            split at h
            · cases h
            · rename_i hcov
              rw [if_neg hcov]
              split at h
              · cases h
              · rename_i pt hlw
                split at h
                · cases h
                · rename_i n hrec
                  simp only [Except.ok.injEq] at h
                  subst h
                  have e1 : (l.setParam n).typ = l.typ := (setParam_fields l n).1
                  have e2 : (l.setParam n).param = some n := (setParam_fields l n).2.2.2.1
                  rw [e1, hlw]
                  simp only [e2, Option.getD_some]
                  exact ih (i + 1) _ _ pt pt n hrec
      · rename_i hc
        rw [if_neg hc]
        split at h
        · cases h
        · rename_i n hrec
          simp only [Except.ok.injEq] at h
          subst h
          have e2 : (l.setChild (c :: name) n).nodes = mapSet l.nodes (c :: name) n :=
            (setChild_fields l n (c :: name)).2.2.2.2
          simp only [e2, mapGet_mapSet_self, Option.getD_some]
          exact ih (i + 1) _ _ PathType.default PathType.default n hrec

/-- A registration that succeeded, made again with the same arguments, returns
`registration already done`. -/
theorem addPathTrie_again (rn : Node) (path pattern : GoString) (ups : List GoString)
    (typStr idProp : GoString) (rn2 : Node)
    (h : addPath rn path pattern ups typStr idProp = Except.ok rn2) :
    (addPathTrie rn2 path pattern ups typStr idProp).2 =
      some AddPathError.alreadyRegistered := by
  unfold addPath at h
  unfold addPathTrie
  split at h
  · cases h
  · rename_i typ htyp
    split at h
    · cases h
    · rename_i ppat params hpp
      split at h
      · cases h
      · rename_i params2 hmk
        exact addPathLoop_again typ ppat idProp _ (parseResourceType_ne_unset _ _ htyp) _ _ _ _ _ _ _ h


/-- C22 (addPath, registration already done; amended): a call of `addPath` for
a path whose node already carries a resource type returns an error, which is
`registration already done` or the error of a check that `addPath` makes
before this one (resource type, pattern, URL parameters, path tokens); the
call leaves every node of the trie in place with the type, compiled pattern,
params, ptyp and idProp it had. More generally every call of `addPath` that
returns an error leaves these fields of every node unchanged, and a
registration that succeeded, made again with the same arguments, returns
`registration already done`. -/
theorem addPath_already_registered (rn : Node) (path pattern : GoString)
    (urlParams : List GoString) (typStr idProp : GoString) (n : Node)
    (hn : nodeAt rn (tokensOf path) = some n) (hreg : n.typ ≠ ResourceType.unset) :
    (∃ e, addPath rn path pattern urlParams typStr idProp = Except.error e ∧
      (addPathTrie rn path pattern urlParams typStr idProp).2 = some e ∧
      (e = AddPathError.alreadyRegistered ∨ e.beforeRegistered = true)) ∧
    (∀ (steps : List (Option GoString)) (m : Node), descend rn steps = some m →
      ∃ m2, descend (addPathTrie rn path pattern urlParams typStr idProp).1 steps = some m2 ∧
        SameRegistration m m2) ∧
    (∀ (rn0 : Node) (path0 pattern0 : GoString) (urlParams0 : List GoString)
      (typStr0 idProp0 : GoString),
      (addPathTrie rn0 path0 pattern0 urlParams0 typStr0 idProp0).2 ≠ none →
      ∀ (steps : List (Option GoString)) (m : Node), descend rn0 steps = some m →
        ∃ m2, descend (addPathTrie rn0 path0 pattern0 urlParams0 typStr0 idProp0).1 steps =
            some m2 ∧ SameRegistration m m2) ∧
    (∀ (rn0 rn1 : Node) (path0 pattern0 : GoString) (urlParams0 : List GoString)
      (typStr0 idProp0 : GoString),
      addPath rn0 path0 pattern0 urlParams0 typStr0 idProp0 = Except.ok rn1 →
      addPath rn1 path0 pattern0 urlParams0 typStr0 idProp0 =
        Except.error AddPathError.alreadyRegistered) := by
  obtain ⟨e, he, hcl⟩ := addPathTrie_registered rn path pattern urlParams typStr idProp n hn hreg
  refine ⟨⟨e, ?_, he, hcl⟩, ?_, ?_, ?_⟩
  · rw [addPath_eq_trie, he]
  · intro steps m hm
    exact addPathTrie_frame rn path pattern urlParams typStr idProp
      (by rw [he]; intro hc; cases hc) steps m hm
  · intro rn0 path0 pattern0 urlParams0 typStr0 idProp0 hf steps m hm
    exact addPathTrie_frame rn0 path0 pattern0 urlParams0 typStr0 idProp0 hf steps m hm
  · intro rn0 rn1 path0 pattern0 urlParams0 typStr0 idProp0 hok
    rw [addPath_eq_trie, addPathTrie_again rn0 path0 pattern0 urlParams0 typStr0 idProp0 rn1 hok]

/-- The path `$id` of the trie `itemsTrie` is registered; registering it again
returns `registration already done`, and the nodes keep their registration. -/
theorem addPath_already_registered_witness :
    nodeAt itemsTrie (tokensOf "$id".toList) =
      some (Node.mk ResourceType.model [] none "svc.items.%s".toList
        [⟨ParamType.path, "id".toList, 0⟩] PathType.default []) ∧
    addPath itemsTrie "$id".toList "svc.items.$id".toList [] "model".toList [] =
      Except.error AddPathError.alreadyRegistered ∧
    (∀ (steps : List (Option GoString)) (m : Node), descend itemsTrie steps = some m →
      ∃ m2, descend (addPathTrie itemsTrie "$id".toList "svc.items.$id".toList []
          "model".toList []).1 steps = some m2 ∧ SameRegistration m m2) :=
  ⟨rfl, rfl,
    (addPath_already_registered itemsTrie "$id".toList "svc.items.$id".toList []
      "model".toList []
      (Node.mk ResourceType.model [] none "svc.items.%s".toList
        [⟨ParamType.path, "id".toList, 0⟩] PathType.default [])
      rfl (by decide)).2.1⟩

/-- C22 (counterexample): on the trie `itemsTrie`, where the empty path and the
path `$id` are registered, a call for the empty path with the type `list`
returns `invalid resource type`, and a call for the path `$id` with the
pattern `svc.items.$key` returns the error of a path parameter that is not in
the pattern: neither returns `registration already done`. -/
theorem addPath_already_registered_counterexample :
    nodeAt itemsTrie (tokensOf []) = some itemsTrie ∧
    itemsTrie.typ = ResourceType.collection ∧
    addPath itemsTrie [] "svc.items".toList [] "list".toList [] =
      Except.error AddPathError.invalidResourceType ∧
    (∃ n, nodeAt itemsTrie (tokensOf "$id".toList) = some n ∧ n.typ = ResourceType.model) ∧
    addPath itemsTrie "$id".toList "svc.items.$key".toList [] "model".toList [] =
      Except.error (AddPathError.pathParamNotInPattern "id".toList) :=
  ⟨rfl, rfl, rfl, ⟨_, rfl, rfl⟩, rfl⟩


/-- A read finds the first entry of the key: entries with other keys in front
of it are passed over. -/
theorem mapGet_append_not_mem {V : Type} (later earlier : List (GoString × V))
    (k : GoString) (v : V) (h : k ∉ later.map Prod.fst) :
    mapGet (later ++ (k, v) :: earlier) k = some v := by
  induction later with
  | nil => exact mapGet_mapSet_self earlier k v
  | cons e rest ih =>
    obtain ⟨k2, v2⟩ := e
    simp only [List.map_cons, List.mem_cons, not_or] at h
    simp only [List.cons_append, mapGet]
    rw [if_neg (fun hk => h.1 hk.symm)]
    exact ih h.2

/-- The result of decomposing an array in which two elements produce the same
id, at any collection with a property-id child: both positions of the
collection hold the reference to this id, and the map holds the model of the
later element below the entries written after it. -/
theorem traverseCollection_property_last (lib : GoLib)
    (rq : GoString → GoString) (n child : Node) (p : GoString) (elems : List Value)
    (rids : List GoString) (models : List (List (GoString × Entry))) (crs : Crs)
    (path : List GoString) (pathPart ridC : GoString)
    (hs : PropertySchema n child p)
    (hridC : createRid lib rq (if n.ptyp ≠ PathType.root then path ++ [pathPart] else path) n =
      Except.ok ridC)
    (hf : List.Forall₂ (ElemRid lib rq
      (if n.ptyp ≠ PathType.root then path ++ [pathPart] else path) child p) elems rids)
    (hm : List.Forall₂ (ElemModel lib rq
      (if n.ptyp ≠ PathType.root then path ++ [pathPart] else path) child p) elems models)
    (i j : Nat) (rid : GoString) (m : List (GoString × Entry))
    (hi : rids[i]? = some rid) (hj : rids[j]? = some rid) (hmj : models[j]? = some m) :
    ∃ (crs2 later earlier : Crs) (coll : List Entry),
      traverseCollection lib rq (Value.arr elems) crs path n pathPart =
        (crs2, Except.ok ridC) ∧
      crs2 = (ridC, CachedResource.collection coll) ::
        (later ++ (rid, CachedResource.model m) :: earlier) ∧
      coll[i]? = some (Entry.ref rid) ∧ coll[j]? = some (Entry.ref rid) ∧
      (traverseElems lib rq (elems.drop (j + 1)) ((rid, CachedResource.model m) :: earlier)
          (if n.ptyp ≠ PathType.root then path ++ [pathPart] else path) n (j + 1)).1 =
        later ++ (rid, CachedResource.model m) :: earlier ∧
      (rid ≠ ridC → rid ∉ later.map Prod.fst →
        mapGet crs2 rid = some (CachedResource.model m)) ∧
      (rid = ridC → mapGet crs2 rid = some (CachedResource.collection coll)) ∧
      (child.nodes = [] → child.param = none →
        later.map Prod.fst = (rids.drop (j + 1)).reverse) := by
  obtain ⟨entries, g1, _, _, g4⟩ := traverseCollection_property_run lib rq n child p elems rids
    models crs path pathPart ridC hs hridC hf hm
  obtain ⟨later, earlier, e1, e2⟩ := g4 j rid m hj hmj
  refine ⟨_, later, earlier, rids.map Entry.ref, g1, ?_, ?_, ?_, ?_, ?_, ?_, ?_⟩
  · rw [e1]
  · rw [List.getElem?_map, hi]; rfl
  · rw [List.getElem?_map, hj]; rfl
  · rw [e2]
  · intro hne hnot
    rw [e1]
    show mapGet (mapSet _ ridC _) rid = _
    rw [mapGet_mapSet_ne _ _ _ _ hne]
    exact mapGet_append_not_mem later earlier rid _ hnot
  · intro he
    rw [he]
    exact mapGet_mapSet_self _ _ _
  · intro hnodes hcparam
    obtain ⟨h1, h2, h3, h4, h5⟩ := hs
    subst h5
    have hd := List.forall₂_drop (j + 1) hf
    have hok := traverseElems_property_ok lib rq n child _ h2 h3 h4 hnodes hcparam
      (elems.drop (j + 1)) (rids.drop (j + 1)) ((rid, CachedResource.model m) :: earlier)
      (j + 1) hd
    obtain ⟨ent, k1, k2, _⟩ := propertyCrs_spec lib rq _ child child.idProp
      (elems.drop (j + 1)) (rids.drop (j + 1)) ((rid, CachedResource.model m) :: earlier) hd
    rw [hok, k1] at e2
    simp only [Prod.mk.injEq, true_and] at e2
    have := List.append_cancel_right e2.1
    rw [← this]
    exact k2


/-- C23 (duplicate ids under a property-id node; amended): at a collection
node, anywhere in the schema, whose wildcard child is a model registered with
`idProp = p`, for an array of objects that all give an id and are decomposed
by the child without error: when the elements at the positions `i < j` produce
the same resource id, the decomposition succeeds, both positions of the
collection stored under the id of the collection hold the reference to this
id, and the model built from the element at `j` is written to the map; of the
entries written after it, those of the elements after `j` come first (the
resources of their properties and their models; only their models, one per
element, when the child has no child nodes) and the collection last.  So the
map holds under the id the model built from the element at `j` when no entry
of the elements after `j` has the id and the id is not the id of the
collection; when it is the id of the collection, the map holds the collection
under it.  The map is the one that `traverseCollection` returns for the
array, which is the map that `traverse` returns when the collection is the
root of the schema. -/
theorem traverse_property_duplicates (lib : GoLib)
    (reqParams : GoString → GoString) (n child : Node) (p : GoString) (elems : List Value)
    (rids : List GoString) (models : List (List (GoString × Entry))) (crs : Crs)
    (path : List GoString) (pathPart ridC : GoString)
    (hs : PropertySchema n child p)
    (hridC : createRid lib reqParams
      (if n.ptyp ≠ PathType.root then path ++ [pathPart] else path) n = Except.ok ridC)
    (hf : List.Forall₂ (ElemRid lib reqParams
      (if n.ptyp ≠ PathType.root then path ++ [pathPart] else path) child p) elems rids)
    (hm : List.Forall₂ (ElemModel lib reqParams
      (if n.ptyp ≠ PathType.root then path ++ [pathPart] else path) child p) elems models)
    (i j : Nat) (rid : GoString) (m : List (GoString × Entry)) (hij : i < j)
    (hi : rids[i]? = some rid) (hj : rids[j]? = some rid) (hmj : models[j]? = some m) :
    ∃ (crs2 later earlier : Crs) (coll : List Entry),
      traverseCollection lib reqParams (Value.arr elems) crs path n pathPart =
        (crs2, Except.ok ridC) ∧
      (crs = [] → path = [] → pathPart = [] →
        traverse lib reqParams n (Value.arr elems) = (crs2, Except.ok ())) ∧
      crs2 = (ridC, CachedResource.collection coll) ::
        (later ++ (rid, CachedResource.model m) :: earlier) ∧
      coll[i]? = some (Entry.ref rid) ∧ coll[j]? = some (Entry.ref rid) ∧
      (traverseElems lib reqParams (elems.drop (j + 1))
          ((rid, CachedResource.model m) :: earlier)
          (if n.ptyp ≠ PathType.root then path ++ [pathPart] else path) n (j + 1)).1 =
        later ++ (rid, CachedResource.model m) :: earlier ∧
      (rid ≠ ridC → rid ∉ later.map Prod.fst →
        mapGet crs2 rid = some (CachedResource.model m)) ∧
      (rid = ridC → mapGet crs2 rid = some (CachedResource.collection coll)) ∧
      (child.nodes = [] → child.param = none →
        later.map Prod.fst = (rids.drop (j + 1)).reverse) := by
  obtain ⟨crs2, later, earlier, coll, g1, g2, g3, g4, g5, g6, g7, g8⟩ :=
    traverseCollection_property_last lib reqParams n child p elems rids models crs path
      pathPart ridC hs hridC hf hm i j rid m hi hj hmj
  refine ⟨crs2, later, earlier, coll, g1, ?_, g2, g3, g4, g5, g6, g7, g8⟩
  intro h1 h2 h3
  subst h1 h2 h3
  unfold traverse
  simp only
  rw [g1]

/-- The schema of `TestAddPath` with two transfers that have the id `a`,
decomposed at the collection `station.transfers.transfer`: the collection
holds the reference to the id of the transfer `a` twice, and the map holds
under this id the model of the second object. -/
theorem traverse_property_duplicates_witness :
    (∃ (crs2 later earlier : Crs) (coll : List Entry),
      traverseCollection unquoteLib testBinding (Value.arr dupElems) []
          ["station".toList, "transfers".toList] transferList "transfer".toList =
        (crs2, Except.ok transferListRid) ∧
      (([] : Crs) = [] → ["station".toList, "transfers".toList] = [] →
        "transfer".toList = [] →
        traverse unquoteLib testBinding transferList (Value.arr dupElems) =
          (crs2, Except.ok ())) ∧
      crs2 = (transferListRid, CachedResource.collection coll) ::
        (later ++ (transferRid, CachedResource.model
          [("v".toList, Entry.value (Value.num "2".toList)),
            ("id".toList, Entry.value (Value.str (quoted "a".toList)))]) :: earlier) ∧
      coll[0]? = some (Entry.ref transferRid) ∧
      coll[1]? = some (Entry.ref transferRid) ∧
      (traverseElems unquoteLib testBinding (dupElems.drop (1 + 1))
          ((transferRid, CachedResource.model
            [("v".toList, Entry.value (Value.num "2".toList)),
            ("id".toList, Entry.value (Value.str (quoted "a".toList)))]) :: earlier)
          (if transferList.ptyp ≠ PathType.root then
            ["station".toList, "transfers".toList] ++ ["transfer".toList]
          else ["station".toList, "transfers".toList]) transferList (1 + 1)).1 =
        later ++ (transferRid, CachedResource.model
          [("v".toList, Entry.value (Value.num "2".toList)),
            ("id".toList, Entry.value (Value.str (quoted "a".toList)))]) :: earlier ∧
      (transferRid ≠ transferListRid →
        transferRid ∉ later.map Prod.fst →
        mapGet crs2 transferRid = some (CachedResource.model
          [("v".toList, Entry.value (Value.num "2".toList)),
            ("id".toList, Entry.value (Value.str (quoted "a".toList)))])) ∧
      (transferRid = transferListRid →
        mapGet crs2 transferRid =
          some (CachedResource.collection coll)) ∧
      (transferChild.nodes = [] → transferChild.param = none →
        later.map Prod.fst = ([transferRid,
          transferRid].drop (1 + 1)).reverse)) ∧
    traverse unquoteLib testBinding (okNode testTrie5) transferValue =
      ([("v1.stations.s7".toList, CachedResource.model
          [("station".toList, Entry.ref "v1.stations.s7.station".toList)]),
        ("v1.stations.s7.station".toList, CachedResource.model
          [("transfers".toList, Entry.ref "v1.stations.s7.station.transfers".toList)]),
        ("v1.stations.s7.station.transfers".toList, CachedResource.model
          [("transfer".toList, Entry.ref transferListRid)]),
        (transferListRid, CachedResource.collection
          [Entry.ref transferRid, Entry.ref transferRid]),
        (transferRid, CachedResource.model
          [("v".toList, Entry.value (Value.num "2".toList)),
            ("id".toList, Entry.value (Value.str (quoted "a".toList)))]),
        (transferRid, CachedResource.model
          [("v".toList, Entry.value (Value.num "1".toList)),
            ("id".toList, Entry.value (Value.str (quoted "a".toList)))])],
        Except.ok ()) ∧
    mapGet (traverse unquoteLib testBinding (okNode testTrie5) transferValue).1
        transferRid =
      some (CachedResource.model
        [("v".toList, Entry.value (Value.num "2".toList)),
            ("id".toList, Entry.value (Value.str (quoted "a".toList)))]) :=
  ⟨traverse_property_duplicates unquoteLib testBinding transferList transferChild "id".toList
      dupElems [transferRid, transferRid]
      [[("v".toList, Entry.value (Value.num "1".toList)),
            ("id".toList, Entry.value (Value.str (quoted "a".toList)))],
        [("v".toList, Entry.value (Value.num "2".toList)),
            ("id".toList, Entry.value (Value.str (quoted "a".toList)))]]
      [] ["station".toList, "transfers".toList] "transfer".toList transferListRid
      ⟨rfl, rfl, rfl, rfl, rfl⟩ rfl
      (List.Forall₂.cons ⟨_, "a".toList, rfl, rfl, rfl⟩
        (List.Forall₂.cons ⟨_, "a".toList, rfl, rfl, rfl⟩ List.Forall₂.nil))
      (List.Forall₂.cons ⟨_, "a".toList, rfl, rfl, rfl⟩
        (List.Forall₂.cons ⟨_, "a".toList, rfl, rfl, rfl⟩ List.Forall₂.nil))
      0 1 transferRid
      [("v".toList, Entry.value (Value.num "2".toList)),
            ("id".toList, Entry.value (Value.str (quoted "a".toList)))]
      (by decide) rfl rfl rfl,
    rfl, rfl⟩

/-- C23 (counterexample): with the child pattern `svc.$id` two objects with
the id `items` produce the id `svc.items` of the collection itself, and the
map holds under it the collection, not a model; of three objects with the id
`a` below `svc.items` the first two produce the same id, while the map holds
under it the model of the third, not that of the second; and with the model
`svc.items.$id.sub` in the schema, after two objects with the id `b.sub` a
third object with the id `b` and an object at `sub` writes the model of `sub`
under the id `svc.items.b.sub` of the first two. -/
theorem traverse_property_duplicates_counterexample :
    (PropertySchema flatTrie flatChild "id".toList ∧
      List.Forall₂ (ElemRid unquoteLib (fun _ => []) [] flatChild "id".toList) flatElems
        ["svc.items".toList, "svc.items".toList] ∧
      mapGet (traverse unquoteLib (fun _ => []) flatTrie (Value.arr flatElems)).1
          "svc.items".toList =
        some (CachedResource.collection
          [Entry.ref "svc.items".toList, Entry.ref "svc.items".toList])) ∧
    (PropertySchema propTrie propChild "id".toList ∧
      List.Forall₂ (ElemRid unquoteLib (fun _ => []) [] propChild "id".toList) tripleElems
        ["svc.items.a".toList, "svc.items.a".toList, "svc.items.a".toList] ∧
      mapGet (traverse unquoteLib (fun _ => []) propTrie (Value.arr tripleElems)).1
          "svc.items.a".toList =
        some (CachedResource.model
          [("v".toList, Entry.value (Value.num "3".toList)),
            ("id".toList, Entry.value (Value.str (quoted "a".toList)))]) ∧
      leafModel [("id".toList, Value.str (quoted "a".toList)),
          ("v".toList, Value.num "2".toList)] [] =
        [("v".toList, Entry.value (Value.num "2".toList)),
          ("id".toList, Entry.value (Value.str (quoted "a".toList)))]) ∧
    (PropertySchema propSubTrie propSubChild "id".toList ∧
      List.Forall₂ (ElemRid unquoteLib (fun _ => []) [] propSubChild "id".toList) shadowElems
        ["svc.items.b.sub".toList, "svc.items.b.sub".toList, "svc.items.b".toList] ∧
      List.Forall₂ (ElemModel unquoteLib (fun _ => []) [] propSubChild "id".toList)
        shadowElems
        [[("v".toList, Entry.value (Value.num "1".toList)),
            ("id".toList, Entry.value (Value.str (quoted "b.sub".toList)))],
          [("v".toList, Entry.value (Value.num "2".toList)),
            ("id".toList, Entry.value (Value.str (quoted "b.sub".toList)))],
          [("sub".toList, Entry.ref "svc.items.b.sub".toList),
            ("id".toList, Entry.value (Value.str (quoted "b".toList)))]] ∧
      (traverse unquoteLib (fun _ => []) propSubTrie (Value.arr shadowElems)).2 =
        Except.ok () ∧
      mapGet (traverse unquoteLib (fun _ => []) propSubTrie (Value.arr shadowElems)).1
          "svc.items.b.sub".toList =
        some (CachedResource.model [("x".toList, Entry.value (Value.num "3".toList))])) :=
  ⟨⟨⟨rfl, rfl, rfl, rfl, rfl⟩,
      List.Forall₂.cons ⟨_, "items".toList, rfl, rfl, rfl⟩
        (List.Forall₂.cons ⟨_, "items".toList, rfl, rfl, rfl⟩ List.Forall₂.nil),
      rfl⟩,
    ⟨⟨rfl, rfl, rfl, rfl, rfl⟩,
      List.Forall₂.cons ⟨_, "a".toList, rfl, rfl, rfl⟩
        (List.Forall₂.cons ⟨_, "a".toList, rfl, rfl, rfl⟩
          (List.Forall₂.cons ⟨_, "a".toList, rfl, rfl, rfl⟩ List.Forall₂.nil)),
      rfl, rfl⟩,
    ⟨⟨rfl, rfl, rfl, rfl, rfl⟩,
      List.Forall₂.cons ⟨_, "b.sub".toList, rfl, rfl, rfl⟩
        (List.Forall₂.cons ⟨_, "b.sub".toList, rfl, rfl, rfl⟩
          (List.Forall₂.cons ⟨_, "b".toList, rfl, rfl, rfl⟩ List.Forall₂.nil)),
      List.Forall₂.cons ⟨_, "b.sub".toList, rfl, rfl, rfl⟩
        (List.Forall₂.cons ⟨_, "b.sub".toList, rfl, rfl, rfl⟩
          (List.Forall₂.cons ⟨_, "b".toList, rfl, rfl, rfl⟩ List.Forall₂.nil)),
      rfl, rfl⟩⟩

end Rest2Res
